import Mathlib

/-!
# Particle-Box: broad-phase / narrow-phase collision pipeline

A shallow embedding of the C++ sources `physics.cpp`, `quadtree.cpp`,
`spatial_hash.cpp`, `engine_quadtree.cpp` and `engine_hash.cpp`.

Modelling conventions.

* `float` values are elements of an arbitrary linearly ordered field `F`
  (exact arithmetic).  Every definition is generic in `F`, so it can be
  evaluated over `ℚ` and reasoned about over `ℝ`.
* The Boolean tests whose outcome can depend on the rounding of `float`
  operations (`circle_overlap`, and `contains`, `intersects` and the overlap
  test of the tree, with the insertion and query functions built on them) are
  embedded a second time in the namespace `Rounded`, with a rounding operation
  `fl` applied to the result of every operation of the source.  `round32` is
  rounding to the nearest binary32 value, ties to even, on `ℚ`; with `fl = id`
  the definitions of `Rounded` are the exact ones.
* `std::sqrt` is a parameter `sqrt : F → F` of the functions that call it.
  Over `ℝ` it is instantiated with `Real.sqrt`; over `ℚ` with `qsqrt`, used
  on inputs whose square roots are rational.
* `std::vector` is `List`; a mutated reference argument becomes a returned
  value.
* `int` is `Int`; the conversion of an `int` to `size_t` / `uint64_t` is
  reduction modulo `2 ^ 64`.  `static_cast<int>(std::floor(x))` is the integer
  floor `⌊x⌋`.
* A loop whose termination is not structural takes a bound on the number of
  iterations and returns `none` when the bound is reached.
-/

set_option autoImplicit false

namespace ParticleBox

/-! ## Data model (`particle.hpp`, `body_ref.hpp`) -/

/-- A simulated body: `struct Particle`. -/
structure Particle (F : Type) where
  x : F
  y : F
  vx : F
  vy : F
  r : F
  id : Int
  collided : Bool
deriving DecidableEq

/-- An index entry: `struct BodyRef`. -/
structure BodyRef (F : Type) where
  id : Int
  x : F
  y : F
  r : F
deriving DecidableEq

/-- Newton's iteration `g ↦ (g + n / g) / 2` for the integer square root of
`n`, run while it decreases, for at most the given number of steps. -/
def isqrtLoop (n : Nat) : Nat → Nat → Nat
  | 0, g => g
  | steps + 1, g =>
    let next := (g + n / g) / 2
    if next < g then isqrtLoop n steps next else g

/-- The integer square root, by Newton's iteration started at `n`. -/
def isqrt (n : Nat) : Nat := isqrtLoop n n n

/-- A square root on `ℚ`, the quotient of the integer square roots of
numerator and denominator; it stands in for `std::sqrt` when the definitions
are evaluated on concrete inputs whose square roots are rational. -/
def qsqrt (q : ℚ) : ℚ := (isqrt q.num.toNat : ℚ) / (isqrt q.den : ℚ)

/-! ## Physics integrator (`physics.cpp`) -/

namespace physics

variable {F : Type} [LinearOrderedField F]

/-- `physics::integrate`: explicit Euler step on every body. -/
def integrate (particles : List (Particle F)) (dt : F) : List (Particle F) :=
  particles.map fun p =>
    let p1 := { p with x := p.x + p.vx * dt }
    { p1 with y := p1.y + p1.vy * dt }

/-- The body of the loop of `physics::handle_walls`: the four edge tests in
source order (left, right, bottom, top), each acting on the result of the
previous one. -/
def wallStep (box_w box_h r : F) (p : Particle F) : Particle F :=
  let p1 := if p.x - r < 0 then { p with x := r, vx := -p.vx, collided := true } else p
  let p2 := if p1.x + r > box_w then
    { p1 with x := box_w - r, vx := -p1.vx, collided := true } else p1
  let p3 := if p2.y - r < 0 then { p2 with y := r, vy := -p2.vy, collided := true } else p2
  let p4 := if p3.y + r > box_h then
    { p3 with y := box_h - r, vy := -p3.vy, collided := true } else p3
  p4

/-- `physics::handle_walls`. -/
def handle_walls (particles : List (Particle F)) (box_w box_h r : F) : List (Particle F) :=
  particles.map (wallStep box_w box_h r)

/-- `physics::circle_overlap` in exact arithmetic; `Rounded.circle_overlap`
is the same test with every operation rounded. -/
def circle_overlap (a b : Particle F) : Bool :=
  let dx := a.x - b.x
  let dy := a.y - b.y
  let dist_sq := dx * dx + dy * dy
  let r_sum := a.r + b.r
  decide (dist_sq < r_sum * r_sum)

/-- The threshold `1e-10f` of `resolve_collision` and `positional_correction`. -/
def tiny : F := 1 / 10000000000

/-- The first half of `physics::resolve_collision`: the components `(nx, ny)`
of the normal from `a` to `b`, with the fallback `(1, 0)` taken when the
squared centre distance is below `1e-10`. -/
def collision_normal (sqrt : F → F) (a b : Particle F) : F × F :=
  let dx := b.x - a.x
  let dy := b.y - a.y
  let dist_sq := dx * dx + dy * dy
  let dx1 := if dist_sq < tiny then 1 else dx
  let dy1 := if dist_sq < tiny then 0 else dy
  let dist_sq1 := if dist_sq < tiny then 1 else dist_sq
  let dist := sqrt dist_sq1
  (dx1 / dist, dy1 / dist)

/-- `physics::resolve_collision`: returns the updated pair `(a, b)`. -/
def resolve_collision (sqrt : F → F) (a b : Particle F) : Particle F × Particle F :=
  let n := collision_normal sqrt a b
  let nx := n.1
  let ny := n.2
  let dvx := b.vx - a.vx
  let dvy := b.vy - a.vy
  let dvn := dvx * nx + dvy * ny
  let impulse := dvn
  ({ a with vx := a.vx + impulse * nx, vy := a.vy + impulse * ny, collided := true },
   { b with vx := b.vx - impulse * nx, vy := b.vy - impulse * ny, collided := true })

/-- `physics::positional_correction`: returns the updated pair `(a, b)`. -/
def positional_correction (sqrt : F → F) (a b : Particle F) (epsilon : F) :
    Particle F × Particle F :=
  let dx := b.x - a.x
  let dy := b.y - a.y
  let dist_sq := dx * dx + dy * dy
  let r_sum := a.r + b.r
  if dist_sq < r_sum * r_sum ∧ dist_sq > tiny then
    let dist := sqrt dist_sq
    let overlap := r_sum - dist
    if overlap > epsilon then
      let nx := dx / dist
      let ny := dy / dist
      let correction := overlap * (1 / 2) * epsilon
      ({ a with x := a.x - correction * nx, y := a.y - correction * ny },
       { b with x := b.x + correction * nx, y := b.y + correction * ny })
    else (a, b)
  else (a, b)

/-- The default argument `epsilon = 0.01f` of `positional_correction`. -/
def defaultEpsilon : F := 1 / 100

/-- One summand of `physics::total_energy`. -/
def kinetic (p : Particle F) : F := (1 / 2) * (p.vx * p.vx + p.vy * p.vy)

/-- `physics::total_energy`. -/
def total_energy (particles : List (Particle F)) : F :=
  particles.foldl (fun energy p => energy + kinetic p) 0

end physics

/-! ## Tree index (`quadtree.hpp`, `quadtree.cpp`) -/

/-- The rectangle `x, y, w, h` of a `Quadtree::Node`. -/
structure Rect (F : Type) where
  x : F
  y : F
  w : F
  h : F
deriving DecidableEq

/-- A node of the tree, `Quadtree::Node`.  A node with `isLeaf == true` has no
children; a node with `isLeaf == false` was produced by `subdivide` and owns
exactly four children (NW, NE, SW, SE) next to its own `bodies` list. -/
inductive Node (F : Type) where
  | leaf (rect : Rect F) (bodies : List (BodyRef F))
  | inner (rect : Rect F) (bodies : List (BodyRef F)) (c0 c1 c2 c3 : Node F)
deriving DecidableEq

namespace Node

variable {F : Type}

/-- The rectangle of a node. -/
def rect : Node F → Rect F
  | leaf r _ => r
  | inner r _ _ _ _ _ => r

/-- The field `bodies` of a node: the entries held directly by it. -/
def bodies : Node F → List (BodyRef F)
  | leaf _ bs => bs
  | inner _ bs _ _ _ _ => bs

/-- The field `isLeaf` of a node. -/
def isLeaf : Node F → Bool
  | leaf _ _ => true
  | inner _ _ _ _ _ _ => false

/-- Every entry stored anywhere in the subtree: the node's own list followed
by the entries of its children. -/
def allBodies : Node F → List (BodyRef F)
  | leaf _ bs => bs
  | inner _ bs c0 c1 c2 c3 => bs ++ (c0.allBodies ++ (c1.allBodies ++ (c2.allBodies ++ c3.allBodies)))

/-- The entries stored in the leaves of the subtree (the lists of subdivided
nodes left out). -/
def leafBodies : Node F → List (BodyRef F)
  | leaf _ bs => bs
  | inner _ _ c0 c1 c2 c3 =>
    c0.leafBodies ++ (c1.leafBodies ++ (c2.leafBodies ++ c3.leafBodies))

end Node

/-- The class `Quadtree`: the root node with `capacity_` and `maxDepth_`. -/
structure Quadtree (F : Type) where
  root : Node F
  capacity : Int
  maxDepth : Int
deriving DecidableEq

namespace Quadtree

variable {F : Type} [LinearOrderedField F]

/-- The constructor `Quadtree::Quadtree(x, y, w, h, cap, maxDepth)`. -/
def new (x y w h : F) (cap maxDepth : Int) : Quadtree F :=
  { root := .leaf ⟨x, y, w, h⟩ [], capacity := cap, maxDepth := maxDepth }

/-- `Quadtree::clear`: a fresh empty root with the same bounds. -/
def clear (t : Quadtree F) : Quadtree F :=
  { t with root := .leaf ⟨t.root.rect.x, t.root.rect.y, t.root.rect.w, t.root.rect.h⟩ [] }

/-- `Quadtree::contains` in exact arithmetic: the full circle of `b` lies
within the rectangle.  `Rounded.contains` is the same test with every
operation rounded. -/
def contains (node : Rect F) (b : BodyRef F) : Bool :=
  decide (b.x - b.r ≥ node.x ∧ b.x + b.r ≤ node.x + node.w ∧
    b.y - b.r ≥ node.y ∧ b.y + b.r ≤ node.y + node.h)

/-- `Quadtree::intersects` in exact arithmetic: the closest point of the
rectangle to the query centre is strictly closer than `qr`.
`Rounded.intersects` is the same test with every operation rounded. -/
def intersects (node : Rect F) (qx qy qr : F) : Bool :=
  let closestX := max node.x (min qx (node.x + node.w))
  let closestY := max node.y (min qy (node.y + node.h))
  let dx := qx - closestX
  let dy := qy - closestY
  decide (dx * dx + dy * dy < qr * qr)

/-- The rectangle of `children[0]` (NW) made by `subdivide`. -/
def childNW (r : Rect F) : Rect F := ⟨r.x, r.y, r.w * (1 / 2), r.h * (1 / 2)⟩

/-- The rectangle of `children[1]` (NE) made by `subdivide`. -/
def childNE (r : Rect F) : Rect F := ⟨r.x + r.w * (1 / 2), r.y, r.w * (1 / 2), r.h * (1 / 2)⟩

/-- The rectangle of `children[2]` (SW) made by `subdivide`. -/
def childSW (r : Rect F) : Rect F := ⟨r.x, r.y + r.h * (1 / 2), r.w * (1 / 2), r.h * (1 / 2)⟩

/-- The rectangle of `children[3]` (SE) made by `subdivide`. -/
def childSE (r : Rect F) : Rect F :=
  ⟨r.x + r.w * (1 / 2), r.y + r.h * (1 / 2), r.w * (1 / 2), r.h * (1 / 2)⟩

/-- The five lists filled by the redistribution loop of `subdivide`: the
node's own list and the lists of its four new children. -/
structure Quads (F : Type) where
  overflow : List (BodyRef F)
  q0 : List (BodyRef F)
  q1 : List (BodyRef F)
  q2 : List (BodyRef F)
  q3 : List (BodyRef F)
deriving DecidableEq

/-- One iteration of the redistribution loop of `subdivide`: the body goes to
the first child that contains it, else it stays on the node. -/
def redistributeStep (r : Rect F) (s : Quads F) (body : BodyRef F) : Quads F :=
  if contains (childNW r) body then { s with q0 := s.q0 ++ [body] }
  else if contains (childNE r) body then { s with q1 := s.q1 ++ [body] }
  else if contains (childSW r) body then { s with q2 := s.q2 ++ [body] }
  else if contains (childSE r) body then { s with q3 := s.q3 ++ [body] }
  else { s with overflow := s.overflow ++ [body] }

/-- The redistribution loop of `subdivide` over `oldBodies`. -/
def redistribute (r : Rect F) (oldBodies : List (BodyRef F)) : Quads F :=
  oldBodies.foldl (redistributeStep r) ⟨[], [], [], [], []⟩

/-- `Quadtree::subdivide`: four fresh leaf children, the node's entries
redistributed, `isLeaf` set to false. -/
def subdivide (node : Node F) : Node F :=
  let s := redistribute node.rect node.bodies
  .inner node.rect s.overflow (.leaf (childNW node.rect) s.q0) (.leaf (childNE node.rect) s.q1)
    (.leaf (childSW node.rect) s.q2) (.leaf (childSE node.rect) s.q3)

/-- The tail of `insertRecursive` on a node with children: the loop
`for i in 0..3: if insertRecursive(children[i], b, depth + 1) return true`
followed by the fallback `node->bodies.push_back(b)`.  `ri` is the result of
the recursive call on child `ci` (child 0 is always tried); a call that is not
reached leaves its child as it was. -/
def tryChildren (r : Rect F) (bodies : List (BodyRef F)) (c1 c2 c3 : Node F)
    (r0 r1 r2 r3 : Bool × Node F) (b : BodyRef F) : Bool × Node F :=
  if r0.1 then (true, .inner r bodies r0.2 c1 c2 c3)
  else if r1.1 then (true, .inner r bodies r0.2 r1.2 c2 c3)
  else if r2.1 then (true, .inner r bodies r0.2 r1.2 r2.2 c3)
  else if r3.1 then (true, .inner r bodies r0.2 r1.2 r2.2 r3.2)
  else (true, .inner r (bodies ++ [b]) r0.2 r1.2 r2.2 r3.2)

/-- `Quadtree::insertRecursive` on a leaf with rectangle `r` and entries
`bodies`, where `k = maxDepth_ - depth` (`0` when `depth >= maxDepth_`) counts
the levels that may still be created below the node.  The children that
`subdivide` creates are leaves, so the recursive calls of the source stay
within this function. `cap` is `capacity_`; the source compares
`bodies.size()` (a `size_t`) with it, which converts it modulo `2 ^ 64`. -/
def insertLeaf (cap : Int) : Nat → Rect F → List (BodyRef F) → BodyRef F → Bool × Node F
  | 0, r, bodies, b =>
    if ¬ contains r b then (false, .leaf r bodies)
    else (true, .leaf r (bodies ++ [b]))
  | k + 1, r, bodies, b =>
    if ¬ contains r b then (false, .leaf r bodies)
    else if (bodies.length : Int) < cap % 2 ^ 64 then (true, .leaf r (bodies ++ [b]))
    else
      let s := redistribute r bodies
      tryChildren r s.overflow (.leaf (childNE r) s.q1)
        (.leaf (childSW r) s.q2) (.leaf (childSE r) s.q3)
        (insertLeaf cap k (childNW r) s.q0 b) (insertLeaf cap k (childNE r) s.q1 b)
        (insertLeaf cap k (childSW r) s.q2 b) (insertLeaf cap k (childSE r) s.q3 b) b

/-- `Quadtree::insertRecursive(node, b, depth)`: returns the result flag and
the updated node. -/
def insertRecursive (cap maxDepth : Int) : Node F → BodyRef F → Int → Bool × Node F
  | .leaf r bodies, b, depth => insertLeaf cap (maxDepth - depth).toNat r bodies b
  | .inner r bodies c0 c1 c2 c3, b, depth =>
    if ¬ contains r b then (false, .inner r bodies c0 c1 c2 c3)
    else
      tryChildren r bodies c1 c2 c3
        (insertRecursive cap maxDepth c0 b (depth + 1))
        (insertRecursive cap maxDepth c1 b (depth + 1))
        (insertRecursive cap maxDepth c2 b (depth + 1))
        (insertRecursive cap maxDepth c3 b (depth + 1)) b

/-- `Quadtree::insert`: returns the result flag and the updated tree. -/
def insert (t : Quadtree F) (b : BodyRef F) : Bool × Quadtree F :=
  let res := insertRecursive t.capacity t.maxDepth t.root b 0
  (res.1, { t with root := res.2 })

/-- The test applied to every entry of a visited list by `queryRecursive`
(and by `SpatialHash::query`): true circle-circle overlap with the query. -/
def hitsQuery (qx qy qr : F) (body : BodyRef F) : Bool :=
  let dx := body.x - qx
  let dy := body.y - qy
  let dist_sq := dx * dx + dy * dy
  let r_sum := body.r + qr
  decide (dist_sq < r_sum * r_sum)

/-- `Quadtree::queryRecursive`: `outIds` is threaded through.  A subdivided
node only recurses into its children. -/
def queryRecursive : Node F → F → F → F → List Int → List Int
  | .leaf r bodies, qx, qy, qr, outIds =>
    if ¬ intersects r qx qy qr then outIds
    else bodies.foldl
      (fun out body => if hitsQuery qx qy qr body then out ++ [body.id] else out) outIds
  | .inner r _ c0 c1 c2 c3, qx, qy, qr, outIds =>
    if ¬ intersects r qx qy qr then outIds
    else
      queryRecursive c3 qx qy qr (queryRecursive c2 qx qy qr
        (queryRecursive c1 qx qy qr (queryRecursive c0 qx qy qr outIds)))

/-- `Quadtree::query`: the ids written to `outIds`. -/
def query (t : Quadtree F) (qx qy qr : F) : List Int :=
  queryRecursive t.root qx qy qr []

/-- Inserting a sequence of entries one after the other, results ignored, as
`buildBroadPhase` does. -/
def insertAll (t : Quadtree F) (bs : List (BodyRef F)) : Quadtree F :=
  bs.foldl (fun acc b => (insert acc b).2) t

end Quadtree

/-! ## Grid index (`spatial_hash.hpp`, `spatial_hash.cpp`) -/

/-- `SpatialHash::HashKey`: a discrete cell coordinate. -/
structure HashKey where
  i : Int
  j : Int
deriving DecidableEq

/-- `SpatialHash::Cell`: one slot of the open-addressed table. -/
structure Cell (F : Type) where
  bodies : List (BodyRef F)
  occupied : Bool
  key : HashKey
deriving DecidableEq

/-- The default constructor `Cell()`. -/
def Cell.empty {F : Type} : Cell F := { bodies := [], occupied := false, key := ⟨0, 0⟩ }

/-- The state of a `SpatialHash`.  `tableSize` and `itemCount` are `int`s of
the source that only take non-negative values. -/
structure SpatialHash (F : Type) where
  table : List (Cell F)
  cellSize : F
  tableSize : Nat
  itemCount : Nat
deriving DecidableEq

namespace SpatialHash

/-- `SpatialHash::splitmix64` on `uint64_t`. -/
def splitmix64 (x0 : Nat) : Nat :=
  let x1 := x0 ^^^ (x0 >>> 30)
  let x2 := (x1 * 0xbf58476d1ce4e5b9) % 2 ^ 64
  let x3 := x2 ^^^ (x2 >>> 27)
  let x4 := (x3 * 0x94d049bb133111eb) % 2 ^ 64
  let x5 := x4 ^^^ (x4 >>> 31)
  x5

/-- The four "spread bits" lines of `hashKey`, applied to one coordinate. -/
def spreadBits (x0 : Nat) : Nat :=
  let x1 := (x0 ||| ((x0 <<< 32) % 2 ^ 64)) &&& 0x1F00000000FFFF
  let x2 := (x1 ||| ((x1 <<< 16) % 2 ^ 64)) &&& 0x1F0000FF0000FF
  let x3 := (x2 ||| ((x2 <<< 8) % 2 ^ 64)) &&& 0x100F00F00F00F00F
  let x4 := (x3 ||| ((x3 <<< 4) % 2 ^ 64)) &&& 0x10C10C10C10C10C1
  x4

/-- `SpatialHash::hashKey`: `static_cast<uint64_t>` of the two coordinates,
bit spreading, interleaving and the `splitmix64` finaliser. -/
def hashKey (key : HashKey) : Nat :=
  let x := spreadBits (key.i % 2 ^ 64).toNat
  let y := spreadBits (key.j % 2 ^ 64).toNat
  let combined := ((x <<< 1) % 2 ^ 64) ||| y
  splitmix64 combined

variable {F : Type} [LinearOrderedField F]

/-- The constructor `SpatialHash::SpatialHash(cellSize)`. -/
def new (cellSize : F) : SpatialHash F :=
  { table := List.replicate 256 Cell.empty, cellSize := max cellSize 1, tableSize := 256,
    itemCount := 0 }

/-- `SpatialHash::clear`: every slot emptied and marked unoccupied, the table
keeps its size. -/
def clear (h : SpatialHash F) : SpatialHash F :=
  { h with
    table := h.table.map fun cell => { cell with bodies := [], occupied := false }
    itemCount := 0 }

/-- The slot `table_[slot]`. -/
def cellAt (h : SpatialHash F) (slot : Nat) : Cell F := h.table.getD slot Cell.empty

/-- The `while` loop of `SpatialHash::findSlot`, started at `slot`.  The first
argument bounds the number of iterations; `none` means that the bound was
reached, `some (-1)` is the source's `return -1`. -/
def findSlotLoop (h : SpatialHash F) (key : HashKey) (startSlot : Nat) :
    Nat → Nat → Option Int
  | 0, _ => none
  | fuel + 1, slot =>
    if (h.cellAt slot).occupied then
      if (h.cellAt slot).key = key then some (slot : Int)
      else
        let slot1 := (slot + 1) % h.tableSize
        if slot1 = startSlot then some (-1)
        else findSlotLoop h key startSlot fuel slot1
    else some (slot : Int)

/-- `SpatialHash::findSlot`: linear probing from `hash % tableSize_`; the loop
is run for at most `tableSize_` iterations. -/
def findSlot (h : SpatialHash F) (hash : Nat) (key : HashKey) : Option Int :=
  let slot := hash % h.tableSize
  findSlotLoop h key slot h.tableSize slot

/-- The end of `SpatialHash::insert`: the slot is claimed for `key` when it is
not occupied, and the entry is appended to its list. -/
def place (h : SpatialHash F) (slot : Nat) (key : HashKey) (b : BodyRef F) : SpatialHash F :=
  let cell := h.cellAt slot
  let cell1 := if ¬ cell.occupied then { cell with key := key, occupied := true } else cell
  let count1 := if ¬ cell.occupied then h.itemCount + 1 else h.itemCount
  { h with
    table := h.table.set slot { cell1 with bodies := cell1.bodies ++ [b] }
    itemCount := count1 }

/-- `SpatialHash::resize`, with the `insert` it calls for every stored entry
passed as `ins`: the table is doubled and emptied, then every entry of every
occupied old slot is inserted again. -/
def resizeWith (ins : SpatialHash F → BodyRef F → Option (SpatialHash F)) (h : SpatialHash F) :
    Option (SpatialHash F) :=
  let oldTable := h.table
  let h1 : SpatialHash F :=
    { h with
      tableSize := h.tableSize * 2
      table := List.replicate (h.tableSize * 2) Cell.empty
      itemCount := 0 }
  oldTable.foldlM
    (fun acc cell => if cell.occupied then cell.bodies.foldlM ins acc else some acc) h1

/-- The load test `itemCount_ >= tableSize_ * LOAD_FACTOR` of `insert`, with
`LOAD_FACTOR = 0.75f`. -/
def overLoad (h : SpatialHash F) : Bool :=
  decide ((h.tableSize : F) * (3 / 4) ≤ (h.itemCount : F))

variable [FloorRing F]

/-- The cell key of an entry: `(floor(x / cellSize_), floor(y / cellSize_))`. -/
def cellKey (cellSize : F) (x y : F) : HashKey := ⟨⌊x / cellSize⌋, ⌊y / cellSize⌋⟩

/-- `SpatialHash::insert` after the load test, on the table `h1` that the test
left: cell key, hash, `findSlot`, the forced `resize` with a second `findSlot`
when the first one returned `-1`, and the final write.  `resize` is the
`resize()` that `insert` calls; `none` also stands for the access `table_[-1]`
that the source performs when the second `findSlot` fails. -/
def insertTail (resize : SpatialHash F → Option (SpatialHash F)) (h1 : SpatialHash F)
    (b : BodyRef F) : Option (SpatialHash F) :=
  let key := cellKey h1.cellSize b.x b.y
  let hash := hashKey key
  (findSlot h1 hash key).bind fun slot =>
    if slot < 0 then
      (resize h1).bind fun h2 =>
        (findSlot h2 (hashKey key) key).bind fun slot2 =>
          if slot2 < 0 then none else some (place h2 slot2.toNat key b)
    else some (place h1 slot.toNat key b)

/-- `SpatialHash::insert`.  `insert` and `resize` call each other in the
source; the first argument bounds the nesting depth of these calls, and
`none` means that the bound was reached. -/
def insertFuel : Nat → SpatialHash F → BodyRef F → Option (SpatialHash F)
  | 0, _, _ => none
  | fuel + 1, h, b =>
    (if overLoad h then resizeWith (insertFuel fuel) h else some h).bind fun h1 =>
      insertTail (resizeWith (insertFuel fuel)) h1 b

/-- `SpatialHash::resize` with nesting bound `fuel`. -/
def resizeFuel (fuel : Nat) (h : SpatialHash F) : Option (SpatialHash F) :=
  resizeWith (insertFuel fuel) h

/-- Inserting a sequence of entries one after the other, as `buildBroadPhase`
does. -/
def insertAll (fuel : Nat) (h : SpatialHash F) (bs : List (BodyRef F)) :
    Option (SpatialHash F) :=
  bs.foldlM (insertFuel fuel) h

/-- Insertion into a `std::set<int>`, kept as a strictly increasing list. -/
def setInsert (v : Int) : List Int → List Int
  | [] => [v]
  | a :: rest =>
    if v < a then v :: a :: rest
    else if v = a then a :: rest
    else a :: setInsert v rest

/-- The end of `SpatialHash::query`: the ids pass through a `std::set<int>`
and are written back in increasing order. -/
def uniqueIds (outIds : List Int) : List Int :=
  outIds.foldl (fun s v => setInsert v s) []

/-- The probe loop of `SpatialHash::query` for one cell key, started at
`slot`; `hits` collects the ids.  The first argument bounds the number of
iterations; `none` means that the bound was reached. -/
def queryLoop (h : SpatialHash F) (key : HashKey) (qx qy qr : F) (startSlot : Nat) :
    Nat → Nat → List Int → Option (List Int)
  | 0, _, _ => none
  | fuel + 1, slot, outIds =>
    if (h.cellAt slot).occupied then
      if (h.cellAt slot).key = key then
        some ((h.cellAt slot).bodies.foldl
          (fun out body => if Quadtree.hitsQuery qx qy qr body then out ++ [body.id] else out)
          outIds)
      else
        let slot1 := (slot + 1) % h.tableSize
        if slot1 = startSlot then some outIds
        else queryLoop h key qx qy qr startSlot fuel slot1 outIds
    else some outIds

/-- The body of the double loop of `SpatialHash::query` for the cell `(i, j)`. -/
def queryCell (h : SpatialHash F) (qx qy qr : F) (i j : Int) (outIds : List Int) :
    Option (List Int) :=
  let key : HashKey := ⟨i, j⟩
  let slot := hashKey key % h.tableSize
  queryLoop h key qx qy qr slot h.tableSize slot outIds

/-- `SpatialHash::query`: the 3x3 block of cells around the query point, then
the pass through the set. -/
def query (h : SpatialHash F) (qx qy qr : F) : Option (List Int) :=
  let centerI : Int := ⌊qx / h.cellSize⌋
  let centerJ : Int := ⌊qy / h.cellSize⌋
  ([-1, 0, 1].foldlM
    (fun out1 di => [-1, 0, 1].foldlM
      (fun out2 dj => queryCell h qx qy qr (centerI + di) (centerJ + dj) out2) out1)
    []).map uniqueIds

end SpatialHash

/-! ## Narrow phase and orchestration (`engine_quadtree.cpp`, `engine_hash.cpp`) -/

/-- The default constructor `Particle()`; it is what an out-of-range vector
access reads in the model (undefined behaviour in the source). -/
def Particle.default {F : Type} [LinearOrderedField F] : Particle F :=
  { x := 0, y := 0, vx := 0, vy := 0, r := 0, id := -1, collided := false }

/-- The variables that `narrowPhase` updates: the body vector, the local
`processedPairs`, and the two counters of the engine. -/
structure NarrowState (F : Type) where
  particles : List (Particle F)
  processedPairs : List (Int × Int)
  candidatePairsChecked : Nat
  collisionsThisStep : Nat
deriving DecidableEq

namespace Engine

variable {F : Type} [LinearOrderedField F]

/-- The loop `idToIndex[particles[i].id] = i` of `narrowPhase`.  A write
outside the vector (undefined behaviour in the source) is dropped. -/
def buildIdToIndex (particles : List (Particle F)) : List Nat :=
  (List.range particles.length).foldl
    (fun tbl i =>
      let id := (particles.getD i Particle.default).id
      if 0 ≤ id then tbl.set id.toNat i else tbl)
    (List.replicate particles.length 0)

/-- The test `alreadyProcessed` of `narrowPhase`. -/
def alreadyProcessed (processedPairs : List (Int × Int)) (pid j_id : Int) : Bool :=
  processedPairs.any fun pair =>
    decide ((pair.1 = pid ∧ pair.2 = j_id) ∨ (pair.1 = j_id ∧ pair.2 = pid))

/-- The body of the loop `for (int j_id : candidates)` of `narrowPhase`, for
the body at index `i`.  `p` and `other` are references into the vector; the
model writes both back, which agrees with the source whenever
`j_idx` and `i` differ. -/
def processCandidate (sqrt : F → F) (idToIndex : List Nat) (i : Nat) (st : NarrowState F)
    (j_id : Int) : NarrowState F :=
  let p := st.particles.getD i Particle.default
  if j_id ≤ p.id then st
  else if alreadyProcessed st.processedPairs p.id j_id then st
  else if j_id < 0 ∨ j_id ≥ (st.particles.length : Int) then st
  else
    let j_idx := idToIndex.getD j_id.toNat 0
    let other := st.particles.getD j_idx Particle.default
    if physics.circle_overlap p other then
      let res := physics.resolve_collision sqrt p other
      let cor := physics.positional_correction sqrt res.1 res.2 physics.defaultEpsilon
      { st with
        particles := (st.particles.set i cor.1).set j_idx cor.2
        processedPairs := st.processedPairs ++ [(p.id, other.id)]
        collisionsThisStep := st.collisionsThisStep + 1 }
    else st

/-- The body of the outer loop of `narrowPhase` once the candidates of body
`i` are known: the tally of candidates, then the loop over them. -/
def processBody (sqrt : F → F) (idToIndex : List Nat) (i : Nat) (candidates : List Int)
    (st : NarrowState F) : NarrowState F :=
  candidates.foldl (processCandidate sqrt idToIndex i)
    { st with candidatePairsChecked := st.candidatePairsChecked + candidates.length }

/-- The loop `for (auto& p : particles) p.collided = false` of `step`. -/
def resetFlags (particles : List (Particle F)) : List (Particle F) :=
  particles.map fun p => { p with collided := false }

/-- The `BodyRef`s that `buildBroadPhase` inserts. -/
def bodyRefs (particles : List (Particle F)) : List (BodyRef F) :=
  particles.map fun p => { id := p.id, x := p.x, y := p.y, r := p.r }

end Engine

/-- The class `EngineQuadtree`. -/
structure EngineQuadtree (F : Type) where
  quadtree : Quadtree F
  box_w : F
  box_h : F
  r : F
  candidatePairsChecked : Nat
  collisionsThisStep : Nat
deriving DecidableEq

namespace EngineQuadtree

variable {F : Type} [LinearOrderedField F]

/-- The constructor `EngineQuadtree::EngineQuadtree(box_w, box_h, r)`. -/
def new (box_w box_h r : F) : EngineQuadtree F :=
  { quadtree := Quadtree.new 0 0 box_w box_h 8 12, box_w := box_w, box_h := box_h, r := r,
    candidatePairsChecked := 0, collisionsThisStep := 0 }

/-- `EngineQuadtree::buildBroadPhase`. -/
def buildBroadPhase (e : EngineQuadtree F) (particles : List (Particle F)) : EngineQuadtree F :=
  { e with quadtree := e.quadtree.clear.insertAll (Engine.bodyRefs particles) }

/-- `EngineQuadtree::narrowPhase`: the final state of its variables. -/
def narrowPhase (sqrt : F → F) (e : EngineQuadtree F) (particles : List (Particle F)) :
    NarrowState F :=
  let idToIndex := Engine.buildIdToIndex particles
  (List.range particles.length).foldl
    (fun st i =>
      let p := st.particles.getD i Particle.default
      Engine.processBody sqrt idToIndex i (e.quadtree.query p.x p.y (2 * e.r)) st)
    { particles := particles, processedPairs := [],
      candidatePairsChecked := e.candidatePairsChecked,
      collisionsThisStep := e.collisionsThisStep }

/-- `EngineQuadtree::step` up to the end of `narrowPhase`, keeping the local
`processedPairs` visible. -/
def stepState (sqrt : F → F) (e : EngineQuadtree F) (particles : List (Particle F)) (dt : F) :
    EngineQuadtree F × NarrowState F :=
  let e1 := { e with candidatePairsChecked := 0, collisionsThisStep := 0 }
  let ps1 := Engine.resetFlags particles
  let ps2 := physics.integrate ps1 dt
  let ps3 := physics.handle_walls ps2 e1.box_w e1.box_h e1.r
  let e2 := buildBroadPhase e1 ps3
  (e2, narrowPhase sqrt e2 ps3)

/-- `EngineQuadtree::step`: the engine and the body vector after the call. -/
def step (sqrt : F → F) (e : EngineQuadtree F) (particles : List (Particle F)) (dt : F) :
    EngineQuadtree F × List (Particle F) :=
  let res := stepState sqrt e particles dt
  ({ res.1 with
      candidatePairsChecked := res.2.candidatePairsChecked
      collisionsThisStep := res.2.collisionsThisStep },
    res.2.particles)

end EngineQuadtree

/-- The class `EngineHash`. -/
structure EngineHash (F : Type) where
  spatialHash : SpatialHash F
  box_w : F
  box_h : F
  r : F
  candidatePairsChecked : Nat
  collisionsThisStep : Nat
deriving DecidableEq

namespace EngineHash

variable {F : Type} [LinearOrderedField F] [FloorRing F]

/-- The constructor `EngineHash::EngineHash(box_w, box_h, r)`. -/
def new (box_w box_h r : F) : EngineHash F :=
  { spatialHash := SpatialHash.new (max (2 * r) 1), box_w := box_w, box_h := box_h, r := r,
    candidatePairsChecked := 0, collisionsThisStep := 0 }

/-- `EngineHash::buildBroadPhase`; `fuel` bounds the nesting of
`insert`/`resize`. -/
def buildBroadPhase (fuel : Nat) (e : EngineHash F) (particles : List (Particle F)) :
    Option (EngineHash F) :=
  (e.spatialHash.clear.insertAll fuel (Engine.bodyRefs particles)).map fun g =>
    { e with spatialHash := g }

/-- `EngineHash::narrowPhase`: the final state of its variables. -/
def narrowPhase (sqrt : F → F) (e : EngineHash F) (particles : List (Particle F)) :
    Option (NarrowState F) :=
  let idToIndex := Engine.buildIdToIndex particles
  (List.range particles.length).foldlM
    (fun st i =>
      let p := st.particles.getD i Particle.default
      (e.spatialHash.query p.x p.y (2 * e.r)).map fun candidates =>
        Engine.processBody sqrt idToIndex i candidates st)
    { particles := particles, processedPairs := [],
      candidatePairsChecked := e.candidatePairsChecked,
      collisionsThisStep := e.collisionsThisStep }

/-- `EngineHash::step` up to the end of `narrowPhase`, keeping the local
`processedPairs` visible. -/
def stepState (fuel : Nat) (sqrt : F → F) (e : EngineHash F) (particles : List (Particle F))
    (dt : F) : Option (EngineHash F × NarrowState F) :=
  let e1 := { e with candidatePairsChecked := 0, collisionsThisStep := 0 }
  let ps1 := Engine.resetFlags particles
  let ps2 := physics.integrate ps1 dt
  let ps3 := physics.handle_walls ps2 e1.box_w e1.box_h e1.r
  (buildBroadPhase fuel e1 ps3).bind fun e2 =>
    (narrowPhase sqrt e2 ps3).map fun st => (e2, st)

/-- `EngineHash::step`: the engine and the body vector after the call. -/
def step (fuel : Nat) (sqrt : F → F) (e : EngineHash F) (particles : List (Particle F))
    (dt : F) : Option (EngineHash F × List (Particle F)) :=
  (stepState fuel sqrt e particles dt).map fun res =>
    ({ res.1 with
        candidatePairsChecked := res.2.candidatePairsChecked
        collisionsThisStep := res.2.collisionsThisStep },
      res.2.particles)

end EngineHash

/-! ## Vocabulary of the statements -/

section Vocabulary

variable {F : Type} [LinearOrderedField F]

/-- The normal relative velocity `(v_b - v_a) · n` of a pair along `n`. -/
def normalRelVel (n : F × F) (a b : Particle F) : F :=
  (b.vx - a.vx) * n.1 + (b.vy - a.vy) * n.2

/-- A body lies inside the box with margin `r` on every side. -/
def insideBox (box_w box_h r : F) (p : Particle F) : Prop :=
  r ≤ p.x ∧ p.x ≤ box_w - r ∧ r ≤ p.y ∧ p.y ≤ box_h - r

end Vocabulary

namespace SpatialHash

variable {F : Type} [LinearOrderedField F]

/-- The slot visited by linear probing for `key` after `d` steps. -/
def probeSlot (h : SpatialHash F) (key : HashKey) (d : Nat) : Nat :=
  (hashKey key % h.tableSize + d) % h.tableSize

/-- The occupied slot `s` is reached by the probe sequence of its own key
through occupied slots that hold other keys. -/
def ProbeOK (h : SpatialHash F) (s : Nat) : Prop :=
  ∃ d, d < h.tableSize ∧ probeSlot h (h.cellAt s).key d = s ∧
    ∀ t, t < d → (h.cellAt (probeSlot h (h.cellAt s).key t)).occupied = true ∧
      (h.cellAt (probeSlot h (h.cellAt s).key t)).key ≠ (h.cellAt s).key

/-- The entry `b` is held by an occupied slot of the table. -/
def Stored (h : SpatialHash F) (b : BodyRef F) : Prop :=
  ∃ s, s < h.tableSize ∧ (h.cellAt s).occupied = true ∧ b ∈ (h.cellAt s).bodies

/-- Some occupied slot of the table holds `key`. -/
def HasKey (h : SpatialHash F) (key : HashKey) : Prop :=
  ∃ s, s < h.tableSize ∧ (h.cellAt s).occupied = true ∧ (h.cellAt s).key = key

/-- The representation invariant of the grid: the table has `tableSize > 0`
slots, `itemCount` counts the occupied ones, a slot that is not occupied
holds no entry, every entry of an occupied slot has the slot's key as its
cell key, and every occupied slot is reachable by probing for its key. -/
structure WF [FloorRing F] (h : SpatialHash F) : Prop where
  size_pos : 0 < h.tableSize
  length_eq : h.table.length = h.tableSize
  count_eq : h.itemCount = h.table.countP (fun c => c.occupied)
  vacant : ∀ s, s < h.tableSize → (h.cellAt s).occupied = false → (h.cellAt s).bodies = []
  keyed : ∀ s, s < h.tableSize → (h.cellAt s).occupied = true →
    ∀ b ∈ (h.cellAt s).bodies, cellKey h.cellSize b.x b.y = (h.cellAt s).key
  probe : ∀ s, s < h.tableSize → (h.cellAt s).occupied = true → ProbeOK h s

/-- What a successful `insert` of `b` into `h` that keeps the table size
guarantees about the resulting table `h1`. -/
structure InsertedInPlace [FloorRing F] (h : SpatialHash F) (b : BodyRef F)
    (h1 : SpatialHash F) : Prop where
  wf : WF h1
  tableSize_eq : h1.tableSize = h.tableSize
  cellSize_eq : h1.cellSize = h.cellSize
  stored_mono : ∀ b', Stored h b' → Stored h1 b'
  stored_self : Stored h1 b
  hasKey_mono : ∀ k, HasKey h k → HasKey h1 k
  hasKey_self : HasKey h1 (cellKey h.cellSize b.x b.y)
  count_le : h1.itemCount ≤ h.itemCount + 1
  count_eq : HasKey h (cellKey h.cellSize b.x b.y) → h1.itemCount = h.itemCount

end SpatialHash

/-- Two entries for a tree over `[0, 100] x [0, 100]` with leaf capacity 1:
entry 0 fits the NW quadrant, entry 1 sits on the centre and fits no quadrant. -/
def straddlingEntries : List (BodyRef ℚ) := [⟨0, 25, 25, 1⟩, ⟨1, 50, 50, 5⟩]

/-- The tree obtained by inserting `straddlingEntries` into an empty tree
with leaf capacity 1 and maximum depth 12. -/
def straddlingTree : Quadtree ℚ :=
  (Quadtree.new 0 0 100 100 1 12).clear.insertAll straddlingEntries

/-- Nine bodies of radius 5 at rest in the 800 x 600 box, ids equal to
indices.  Bodies 0 and 1 overlap (centre distance 6); body 1 sits on the
vertical midline `x = 400` of the box, so it fits no quadrant of the root. -/
def midlineBodies : List (Particle ℚ) :=
  [⟨394, 100, 0, 0, 5, 0, false⟩, ⟨400, 100, 0, 0, 5, 1, false⟩, ⟨50, 50, 0, 0, 5, 2, false⟩,
   ⟨150, 50, 0, 0, 5, 3, false⟩, ⟨250, 50, 0, 0, 5, 4, false⟩, ⟨50, 500, 0, 0, 5, 5, false⟩,
   ⟨150, 500, 0, 0, 5, 6, false⟩, ⟨600, 50, 0, 0, 5, 7, false⟩, ⟨600, 500, 0, 0, 5, 8, false⟩]

/-- Three bodies of radius 5 on one horizontal line, ids equal to indices.
Bodies 0 and 2 almost coincide; body 1 lies a little more than a diameter to
the left of body 2, two grid cells away from it. -/
def nudgedBodies : List (Particle ℚ) :=
  [⟨20001 / 1000, 100, 0, 0, 5, 0, false⟩, ⟨999 / 100, 100, 0, 0, 5, 1, false⟩,
   ⟨20, 100, 0, 0, 5, 2, false⟩]

/-! ## Vocabulary of the statements, continued -/

namespace physics

variable {F : Type} [LinearOrderedField F]

/-- The squared centre distance `dist_sq` that `resolve_collision` and
`positional_correction` compute first. -/
def centre_dist_sq (a b : Particle F) : F :=
  (b.x - a.x) * (b.x - a.x) + (b.y - a.y) * (b.y - a.y)

/-- The value `dist` that `resolve_collision` divides by: the square root of
`dist_sq`, with `dist_sq` replaced by 1 when it is below `1e-10`. -/
def collision_dist (sqrt : F → F) (a b : Particle F) : F :=
  sqrt (if centre_dist_sq a b < tiny then 1 else centre_dist_sq a b)

end physics

/-- The node is subdivided and each of its four children is a leaf: exactly
one subdivision has taken place below it. -/
def Node.subdividedOnce {F : Type} : Node F → Bool
  | .leaf _ _ => false
  | .inner _ _ c0 c1 c2 c3 => c0.isLeaf && c1.isLeaf && c2.isLeaf && c3.isLeaf

namespace SpatialHash

variable {F : Type} [LinearOrderedField F]

/-- Every occupied slot of the table holds at least one entry. -/
def Populated (h : SpatialHash F) : Prop :=
  ∀ s, s < h.tableSize → (h.cellAt s).occupied = true → (h.cellAt s).bodies ≠ []

/-- The keys stored in the occupied slots, in table order. -/
def occKeys (h : SpatialHash F) : List HashKey :=
  (h.table.filter fun c => c.occupied).map fun c => c.key

/-- The number of occupied slots of the table. -/
def occupiedSlots (h : SpatialHash F) : Nat := h.table.countP fun c => c.occupied

/-- The grid states that the public interface produces: the constructor,
`clear()`, and every `insert` that returns. -/
inductive Reachable [FloorRing F] : SpatialHash F → Prop where
  | init (cellSize : F) : Reachable (SpatialHash.new cellSize)
  | clear {h : SpatialHash F} : Reachable h → Reachable (SpatialHash.clear h)
  | insert {h h1 : SpatialHash F} (fuel : Nat) (b : BodyRef F) :
      Reachable h → insertFuel fuel h b = some h1 → Reachable h1

/-- What a successful `insert` of `b` into `h` that keeps the table size
guarantees beyond `InsertedInPlace`: nothing but `b` and its key is new, the
occupied-slot counter grows exactly when the key is new, and every occupied
slot still holds an entry. -/
structure InsertedExactly [FloorRing F] (h : SpatialHash F) (b : BodyRef F)
    (h1 : SpatialHash F) : Prop where
  inPlace : InsertedInPlace h b h1
  stored_only : ∀ b', Stored h1 b' → Stored h b' ∨ b' = b
  hasKey_only : ∀ k, HasKey h1 k → HasKey h k ∨ k = cellKey h.cellSize b.x b.y
  count_new : ¬ HasKey h (cellKey h.cellSize b.x b.y) → h1.itemCount = h.itemCount + 1
  populated : Populated h → Populated h1

end SpatialHash

/-- The grid of `EngineHash(800, 600, 5)` (cell size 10) after three calls of
`insert`; the initial grid if one of them did not return. -/
def threeEntryGrid : SpatialHash ℚ :=
  (SpatialHash.insertAll 2 (SpatialHash.new (10 : ℚ))
    [⟨0, 394, 100, 5⟩, ⟨1, 400, 100, 5⟩, ⟨2, 50, 50, 5⟩]).getD (SpatialHash.new 10)

/-- A row of 193 entries of radius 5, one in each of the cells `(0, 0)`, ...,
`(192, 0)` of a grid of cell size 10. -/
def rowEntries : List (BodyRef ℚ) :=
  (List.range 193).map fun (i : Nat) => ⟨(i : Int), 10 * (i : ℚ) + 5, 5, 5⟩

namespace physics

variable {F : Type} [LinearOrderedField F]

/-- Whether one of the four edge tests of `handle_walls` fires for `p`.  The
tests are made in source order: the right-edge test reads the `x` that the
left-edge test left, the top-edge test the `y` that the bottom-edge test
left. -/
def wallHit (box_w box_h r : F) (p : Particle F) : Bool :=
  let x1 := if p.x - r < 0 then r else p.x
  let y1 := if p.y - r < 0 then r else p.y
  decide (p.x - r < 0) || decide (x1 + r > box_w) || decide (p.y - r < 0) ||
    decide (y1 + r > box_h)

end physics

namespace Engine

variable {F : Type} [LinearOrderedField F]

/-- The identity-as-index invariant: the body at index `k` carries id `k`. -/
def IdsOk (particles : List (Particle F)) : Prop :=
  ∀ k, k < particles.length → (particles.getD k Particle.default).id = (k : Int)

/-- The body vector that `step` hands to `buildBroadPhase` and `narrowPhase`:
flags reset, positions integrated, walls handled. -/
def afterWalls (box_w box_h r : F) (particles : List (Particle F)) (dt : F) :
    List (Particle F) :=
  physics.handle_walls (physics.integrate (resetFlags particles) dt) box_w box_h r

/-- The outer loop of `narrowPhase` run for the bodies `0, ..., k - 1` only.
The index query is passed as `cand`; `cpc` and `cts` are the values of the two
counters when the loop starts. -/
def narrowAt (sqrt : F → F) (cand : Particle F → List Int) (particles : List (Particle F))
    (cpc cts : Nat) (k : Nat) : NarrowState F :=
  (List.range k).foldl
    (fun st i =>
      processBody sqrt (buildIdToIndex particles) i
        (cand (st.particles.getD i Particle.default)) st)
    { particles := particles, processedPairs := [], candidatePairsChecked := cpc,
      collisionsThisStep := cts }

/-- The candidate list that the index query of `narrowPhase` returns for the
body at index `k`, that is, in the state reached after the bodies before it
have been processed. -/
def queryAt (sqrt : F → F) (cand : Particle F → List Int) (particles : List (Particle F))
    (cpc cts : Nat) (k : Nat) : List Int :=
  cand ((narrowAt sqrt cand particles cpc cts k).particles.getD k Particle.default)

/-- Every logged pair is written lower id first, with both ids in range. -/
def LowerFirst (n : Nat) (pairs : List (Int × Int)) : Prop :=
  ∀ pr ∈ pairs, 0 ≤ pr.1 ∧ pr.1 < pr.2 ∧ pr.2 < (n : Int)

/-- No unordered pair is logged more than once, in either orientation. -/
def OncePerPair (pairs : List (Int × Int)) : Prop :=
  ∀ a b : Int, pairs.count (a, b) + pairs.count (b, a) ≤ 1

/-- The pairs logged while body `k` is processed all have `k` as their first,
lower id. -/
def ResolvedAtOwner (sqrt : F → F) (cand : Particle F → List Int)
    (particles : List (Particle F)) : Prop :=
  ∀ k, k < particles.length →
    ∃ added, (narrowAt sqrt cand particles 0 0 (k + 1)).processedPairs
        = (narrowAt sqrt cand particles 0 0 k).processedPairs ++ added ∧
      ∀ pr ∈ added, pr.1 = (k : Int) ∧ (k : Int) < pr.2

/-- The body at index `k` is a member of a logged pair. -/
def InPair (k : Nat) (pairs : List (Int × Int)) : Prop :=
  ∃ pr ∈ pairs, pr.1 = (k : Int) ∨ pr.2 = (k : Int)

/-- The invariant of the loops of `narrowPhase` on a vector of `n` bodies
with the identity-as-index invariant: `c0` is the value of
`collisionsThisStep_` and `f0 k` the flag of body `k` when the loops start. -/
structure NarrowInv (n c0 : Nat) (f0 : Nat → Bool) (st : NarrowState F) : Prop where
  len : st.particles.length = n
  ids : IdsOk st.particles
  lower : LowerFirst n st.processedPairs
  nodup : st.processedPairs.Nodup
  count : st.collisionsThisStep = c0 + st.processedPairs.length
  flags : ∀ k, k < n →
    ((st.particles.getD k Particle.default).collided = true ↔
      f0 k = true ∨ InPair k st.processedPairs)

end Engine

namespace EngineQuadtree

variable {F : Type} [LinearOrderedField F]

/-- The index query of `EngineQuadtree::narrowPhase` for the body `p`. -/
def candidates (e : EngineQuadtree F) (p : Particle F) : List Int :=
  e.quadtree.query p.x p.y (2 * e.r)

end EngineQuadtree

namespace EngineHash

variable {F : Type} [LinearOrderedField F] [FloorRing F]

/-- The index query of `EngineHash::narrowPhase` for the body `p`; the empty
list stands for a query whose probe ran into its iteration bound. -/
def candidates (e : EngineHash F) (p : Particle F) : List Int :=
  (e.spatialHash.query p.x p.y (2 * e.r)).getD []

end EngineHash

namespace Node

variable {F : Type} [LinearOrderedField F]

/-- Every entry held directly by a subdivided node of the subtree is contained
in none of the rectangles of that node's four children. -/
def overflowOK : Node F → Bool
  | .leaf _ _ => true
  | .inner _ bodies c0 c1 c2 c3 =>
    bodies.all (fun b =>
        !Quadtree.contains c0.rect b && !Quadtree.contains c1.rect b &&
          !Quadtree.contains c2.rect b && !Quadtree.contains c3.rect b) &&
      c0.overflowOK && c1.overflowOK && c2.overflowOK && c3.overflowOK

/-- For a subtree whose root lies at depth `d`: no node lies deeper than `D`,
and every subdivided node lies at a depth strictly below `D`. -/
def depthBounded (D : Int) : Node F → Int → Bool
  | .leaf _ _, d => decide (d ≤ D)
  | .inner _ _ c0 c1 c2 c3, d =>
    decide (d < D) && c0.depthBounded D (d + 1) && c1.depthBounded D (d + 1) &&
      c2.depthBounded D (d + 1) && c3.depthBounded D (d + 1)

/-- For a subtree whose root lies at depth `d`: every leaf at a depth below
`D` holds at most `c` entries. -/
def leafLoadOK (c D : Int) : Node F → Int → Bool
  | .leaf _ bodies, d => decide (d < D → (bodies.length : Int) ≤ c)
  | .inner _ _ c0 c1 c2 c3, d =>
    c0.leafLoadOK c D (d + 1) && c1.leafLoadOK c D (d + 1) &&
      c2.leafLoadOK c D (d + 1) && c3.leafLoadOK c D (d + 1)

end Node

namespace Quadtree

variable {F : Type} [LinearOrderedField F]

/-- The tree states that the public interface produces: the constructor,
`clear()` and `insert`. -/
inductive TreeReachable : Quadtree F → Prop where
  | init (x y w h : F) (cap maxDepth : Int) : TreeReachable (Quadtree.new x y w h cap maxDepth)
  | clear {t : Quadtree F} : TreeReachable t → TreeReachable (Quadtree.clear t)
  | insert {t : Quadtree F} (b : BodyRef F) : TreeReachable t → TreeReachable (t.insert b).2

end Quadtree

namespace SpatialHash

variable {F : Type} [LinearOrderedField F] [FloorRing F]

/-- The grid states that the public interface produces, each with the
sequence of the entries inserted since the last `clear()` (or since the
constructor). -/
inductive ReachableLog : SpatialHash F → List (BodyRef F) → Prop where
  | init (cellSize : F) : ReachableLog (SpatialHash.new cellSize) []
  | clear {h : SpatialHash F} {log : List (BodyRef F)} :
      ReachableLog h log → ReachableLog (SpatialHash.clear h) []
  | insert {h h1 : SpatialHash F} {log : List (BodyRef F)} (fuel : Nat) (b : BodyRef F) :
      ReachableLog h log → insertFuel fuel h b = some h1 → ReachableLog h1 (log ++ [b])

end SpatialHash

namespace EngineQuadtree

variable {F : Type} [LinearOrderedField F]

/-- The states of a tree engine built as `EngineQuadtree(box_w, box_h, r)`
after any number of calls of `step`. -/
inductive TreeRun (box_w box_h r : F) : EngineQuadtree F → Prop where
  | init : TreeRun box_w box_h r (EngineQuadtree.new box_w box_h r)
  | step {e : EngineQuadtree F} (sqrt : F → F) (particles : List (Particle F)) (dt : F) :
      TreeRun box_w box_h r e → TreeRun box_w box_h r (EngineQuadtree.step sqrt e particles dt).1

end EngineQuadtree

namespace EngineHash

variable {F : Type} [LinearOrderedField F] [FloorRing F]

/-- The states of a grid engine built as `EngineHash(box_w, box_h, r)` after
any number of calls of `step` that returned. -/
inductive GridRun (box_w box_h r : F) : EngineHash F → Prop where
  | init : GridRun box_w box_h r (EngineHash.new box_w box_h r)
  | step {e e1 : EngineHash F} {ps1 : List (Particle F)} (fuel : Nat) (sqrt : F → F)
      (particles : List (Particle F)) (dt : F) :
      GridRun box_w box_h r e → EngineHash.step fuel sqrt e particles dt = some (e1, ps1) →
      GridRun box_w box_h r e1

end EngineHash

/-- A row of 193 bodies of radius 5 at rest in a 2000 x 600 box, ids equal to
indices, one in each of the cells `(0, 0)`, ..., `(192, 0)` of the grid of
cell size 10: the bodies whose `BodyRef`s are `rowEntries`. -/
def rowBodies : List (Particle ℚ) :=
  (List.range 193).map fun (i : Nat) => ⟨10 * (i : ℚ) + 5, 5, 0, 0, 5, (i : Int), false⟩

/-- The grid engine `EngineHash(2000, 600, 5)` after one `step` on
`rowBodies` (the fresh engine if that step did not return). -/
def grownGridEngine : EngineHash ℚ :=
  (((EngineHash.new (2000 : ℚ) 600 5).step 2 qsqrt rowBodies 0).map Prod.fst).getD
    (EngineHash.new 2000 600 5)

namespace Node

variable {F : Type} [LinearOrderedField F]

/-- Every entry stored at a node of the subtree, in a leaf's list or in the
own list of a subdivided node, is contained in that node's rectangle. -/
def ownInside : Node F → Bool
  | .leaf r bodies => bodies.all (Quadtree.contains r)
  | .inner r bodies c0 c1 c2 c3 =>
    bodies.all (Quadtree.contains r) && c0.ownInside && c1.ownInside && c2.ownInside &&
      c3.ownInside

/-- Every entry stored anywhere below a node of the subtree is contained in
that node's rectangle. -/
def subtreeInside : Node F → Bool
  | .leaf r bodies => bodies.all (Quadtree.contains r)
  | .inner r bodies c0 c1 c2 c3 =>
    (bodies ++ (c0.allBodies ++ (c1.allBodies ++ (c2.allBodies ++ c3.allBodies)))).all
        (Quadtree.contains r) &&
      c0.subtreeInside && c1.subtreeInside && c2.subtreeInside && c3.subtreeInside

end Node

namespace Quadtree

variable {F : Type} [LinearOrderedField F]

/-- The query result as the specification describes it: the overlap test
applied to every entry stored in a leaf of the subtree, children in the order
0 to 3, with no subtree pruned. -/
def queryNoPruning : Node F → F → F → F → List Int → List Int
  | .leaf _ bodies, qx, qy, qr, outIds =>
    bodies.foldl
      (fun out body => if hitsQuery qx qy qr body then out ++ [body.id] else out) outIds
  | .inner _ _ c0 c1 c2 c3, qx, qy, qr, outIds =>
    queryNoPruning c3 qx qy qr (queryNoPruning c2 qx qy qr
      (queryNoPruning c1 qx qy qr (queryNoPruning c0 qx qy qr outIds)))

end Quadtree

namespace SpatialHash

variable {F : Type} [LinearOrderedField F]

/-- The slots read by the probe loop of `SpatialHash::findSlot`, in order,
for at most the given number of iterations; the probe loop of
`SpatialHash::query` has the same control flow and reads the same slots. -/
def probeTrace (h : SpatialHash F) (key : HashKey) (startSlot : Nat) : Nat → Nat → List Nat
  | 0, _ => []
  | fuel + 1, slot =>
    slot ::
      (if (h.cellAt slot).occupied then
        if (h.cellAt slot).key = key then []
        else
          let slot1 := (slot + 1) % h.tableSize
          if slot1 = startSlot then [] else probeTrace h key startSlot fuel slot1
      else [])

variable [FloorRing F]

/-- `SpatialHash::insert` after the load test, with the branch
`if (slot < 0) { resize(); ... }` replaced by a failure: `none` when `findSlot`
returns `-1`. -/
def insertTailNoRetry (h1 : SpatialHash F) (b : BodyRef F) : Option (SpatialHash F) :=
  let key := cellKey h1.cellSize b.x b.y
  let hash := hashKey key
  (findSlot h1 hash key).bind fun slot =>
    if slot < 0 then none else some (place h1 slot.toNat key b)

/-- `SpatialHash::insert` with the forced resize-and-retry branch replaced by
a failure, also in the insertions that `resize` makes. -/
def insertNoRetry : Nat → SpatialHash F → BodyRef F → Option (SpatialHash F)
  | 0, _, _ => none
  | fuel + 1, h, b =>
    (if overLoad h then resizeWith (insertNoRetry fuel) h else some h).bind fun h1 =>
      insertTailNoRetry h1 b

end SpatialHash

namespace Engine

variable {F : Type} [LinearOrderedField F]

/-- A checked vector read `v[i]` with an `int` index: `none` when `i` is not
in `[0, v.size())`. -/
def readAt {α : Type} (v : List α) (i : Int) : Option α :=
  if 0 ≤ i ∧ i < (v.length : Int) then v[i.toNat]? else none

/-- A checked vector write `v[i] = a` with an `int` index: `none` when `i` is
not in `[0, v.size())`. -/
def writeAt {α : Type} (v : List α) (i : Int) (a : α) : Option (List α) :=
  if 0 ≤ i ∧ i < (v.length : Int) then some (v.set i.toNat a) else none

/-- The loop `idToIndex[particles[i].id] = i` of `narrowPhase` with every
vector access checked. -/
def buildIdToIndexChecked (particles : List (Particle F)) : Option (List Nat) :=
  (List.range particles.length).foldlM
    (fun tbl (i : Nat) => (readAt particles (i : Int)).bind fun p => writeAt tbl p.id i)
    (List.replicate particles.length 0)

/-- The body of the loop `for (int j_id : candidates)` of `narrowPhase` with
every vector access checked: the read of `particles[i]`, the read of
`idToIndex[j_id]`, the read of `particles[j_idx]`, and the writes through the
two references. -/
def processCandidateChecked (sqrt : F → F) (idToIndex : List Nat) (i : Nat)
    (st : NarrowState F) (j_id : Int) : Option (NarrowState F) :=
  (readAt st.particles (i : Int)).bind fun p =>
    if j_id ≤ p.id then some st
    else if alreadyProcessed st.processedPairs p.id j_id then some st
    else if j_id < 0 ∨ j_id ≥ (st.particles.length : Int) then some st
    else
      (readAt idToIndex j_id).bind fun j_idx =>
        (readAt st.particles (j_idx : Int)).bind fun other =>
          if physics.circle_overlap p other then
            let res := physics.resolve_collision sqrt p other
            let cor := physics.positional_correction sqrt res.1 res.2 physics.defaultEpsilon
            (writeAt st.particles (i : Int) cor.1).bind fun ps1 =>
              (writeAt ps1 (j_idx : Int) cor.2).map fun ps2 =>
                { st with
                  particles := ps2
                  processedPairs := st.processedPairs ++ [(p.id, other.id)]
                  collisionsThisStep := st.collisionsThisStep + 1 }
          else some st

/-- The candidate loop of `narrowPhase` for body `i`, with checked accesses. -/
def processBodyChecked (sqrt : F → F) (idToIndex : List Nat) (i : Nat) (candidates : List Int)
    (st : NarrowState F) : Option (NarrowState F) :=
  candidates.foldlM (processCandidateChecked sqrt idToIndex i)
    { st with candidatePairsChecked := st.candidatePairsChecked + candidates.length }

/-- The loops of `narrowPhase` for the bodies `0, ..., k - 1`, with every
vector access checked; `none` when some access is out of bounds. -/
def narrowAtChecked (sqrt : F → F) (cand : Particle F → List Int)
    (particles : List (Particle F)) (cpc cts : Nat) (k : Nat) : Option (NarrowState F) :=
  (buildIdToIndexChecked particles).bind fun idToIndex =>
    (List.range k).foldlM
      (fun st (i : Nat) =>
        (readAt st.particles (i : Int)).bind fun p =>
          processBodyChecked sqrt idToIndex i (cand p) st)
      { particles := particles, processedPairs := [], candidatePairsChecked := cpc,
        collisionsThisStep := cts }

end Engine

/-! ## Binary32 evaluation of the tests whose outcome depends on rounding

The C++ source computes in `float`.  For the Boolean tests of
`physics.cpp` and `quadtree.cpp` the result can depend on the rounding of the
intermediate values, so these functions are embedded a second time, in the
namespace `Rounded`, with a rounding operation `fl` applied to the result
of every floating-point operation of the source (each operation is rounded on
its own, as with `FLT_EVAL_METHOD == 0` and no fused multiply-add).  With
`fl = id` the definitions of `Rounded` are the exact ones above; with
`fl = round32` they compute what the source computes on finite binary32
values. -/

/-- Rounding of a non-negative rational to the nearest integer, ties to the
even one. -/
def roundHalfEven (q : ℚ) : Int :=
  let f : Int := ⌊q⌋
  if q - f < 1 / 2 then f
  else if 1 / 2 < q - f then f + 1
  else if f % 2 = 0 then f else f + 1

/-- The search for the unit in the last place of a non-negative value `a`:
the first `u` in the sequence `u, u / 2, u / 4, ...` with `2 ^ 23 * u <= a`,
or the last one tried. -/
def unitLoop : Nat → ℚ → ℚ → ℚ
  | 0, u, _ => u
  | n + 1, u, a => if 8388608 * u ≤ a then u else unitLoop n (u / 2) a

/-- The unit in the last place of the binary32 format at a non-negative value
`a`: `2 ^ e` with `2 ^ 23 <= a / 2 ^ e < 2 ^ 24`, kept within
`2 ^ -149 <= 2 ^ e <= 2 ^ 104`, the spacing of the subnormal numbers and of the
largest binade. -/
def unit32 (a : ℚ) : ℚ := unitLoop 253 (2 ^ 104) a

/-- Rounding to the nearest binary32 value, ties to even: the value that a
`float` operation of the source returns for the exact result `q`.  Overflow
to infinity is not modelled: above the largest finite value the spacing
`2 ^ 104` is kept. -/
def round32 (q : ℚ) : ℚ :=
  if q < 0 then -((roundHalfEven (-q / unit32 (-q)) : ℚ) * unit32 (-q))
  else (roundHalfEven (q / unit32 q) : ℚ) * unit32 q

namespace Rounded

variable {F : Type} [LinearOrderedField F]

/-- `physics::circle_overlap`, every operation rounded by `fl`. -/
def circle_overlap (fl : F → F) (a b : Particle F) : Bool :=
  let dx := fl (a.x - b.x)
  let dy := fl (a.y - b.y)
  let dist_sq := fl (fl (dx * dx) + fl (dy * dy))
  let r_sum := fl (a.r + b.r)
  decide (dist_sq < fl (r_sum * r_sum))

/-- `Quadtree::contains`, every operation rounded by `fl`. -/
def contains (fl : F → F) (node : Rect F) (b : BodyRef F) : Bool :=
  decide (fl (b.x - b.r) ≥ node.x ∧ fl (b.x + b.r) ≤ fl (node.x + node.w) ∧
    fl (b.y - b.r) ≥ node.y ∧ fl (b.y + b.r) ≤ fl (node.y + node.h))

/-- `Quadtree::intersects`, every operation rounded by `fl` (`std::min` and
`std::max` return one of their arguments). -/
def intersects (fl : F → F) (node : Rect F) (qx qy qr : F) : Bool :=
  let closestX := max node.x (min qx (fl (node.x + node.w)))
  let closestY := max node.y (min qy (fl (node.y + node.h)))
  let dx := fl (qx - closestX)
  let dy := fl (qy - closestY)
  decide (fl (fl (dx * dx) + fl (dy * dy)) < fl (qr * qr))

/-- The rectangle of `children[0]` (NW) made by `subdivide`: `halfW`, `halfH`
rounded. -/
def childNW (fl : F → F) (r : Rect F) : Rect F :=
  ⟨r.x, r.y, fl (r.w * (1 / 2)), fl (r.h * (1 / 2))⟩

/-- The rectangle of `children[1]` (NE) made by `subdivide`: `halfW`, `halfH`
and `midX` rounded. -/
def childNE (fl : F → F) (r : Rect F) : Rect F :=
  ⟨fl (r.x + fl (r.w * (1 / 2))), r.y, fl (r.w * (1 / 2)), fl (r.h * (1 / 2))⟩

/-- The rectangle of `children[2]` (SW) made by `subdivide`: `halfW`, `halfH`
and `midY` rounded. -/
def childSW (fl : F → F) (r : Rect F) : Rect F :=
  ⟨r.x, fl (r.y + fl (r.h * (1 / 2))), fl (r.w * (1 / 2)), fl (r.h * (1 / 2))⟩

/-- The rectangle of `children[3]` (SE) made by `subdivide`: `halfW`, `halfH`,
`midX` and `midY` rounded. -/
def childSE (fl : F → F) (r : Rect F) : Rect F :=
  ⟨fl (r.x + fl (r.w * (1 / 2))), fl (r.y + fl (r.h * (1 / 2))), fl (r.w * (1 / 2)),
    fl (r.h * (1 / 2))⟩

/-- One iteration of the redistribution loop of `subdivide`, with the rounded
`contains`. -/
def redistributeStep (fl : F → F) (r : Rect F) (s : Quadtree.Quads F) (body : BodyRef F) :
    Quadtree.Quads F :=
  if contains fl (childNW fl r) body then { s with q0 := s.q0 ++ [body] }
  else if contains fl (childNE fl r) body then { s with q1 := s.q1 ++ [body] }
  else if contains fl (childSW fl r) body then { s with q2 := s.q2 ++ [body] }
  else if contains fl (childSE fl r) body then { s with q3 := s.q3 ++ [body] }
  else { s with overflow := s.overflow ++ [body] }

/-- The redistribution loop of `subdivide` over `oldBodies`, with the rounded
`contains`. -/
def redistribute (fl : F → F) (r : Rect F) (oldBodies : List (BodyRef F)) : Quadtree.Quads F :=
  oldBodies.foldl (redistributeStep fl r) ⟨[], [], [], [], []⟩

/-- `Quadtree::insertRecursive` on a leaf, with the rounded `contains` and the
rounded child rectangles; `k` counts the levels that may still be created
below the node, as in `Quadtree.insertLeaf`. -/
def insertLeaf (fl : F → F) (cap : Int) :
    Nat → Rect F → List (BodyRef F) → BodyRef F → Bool × Node F
  | 0, r, bodies, b =>
    if ¬ contains fl r b then (false, .leaf r bodies)
    else (true, .leaf r (bodies ++ [b]))
  | k + 1, r, bodies, b =>
    if ¬ contains fl r b then (false, .leaf r bodies)
    else if (bodies.length : Int) < cap % 2 ^ 64 then (true, .leaf r (bodies ++ [b]))
    else
      let s := redistribute fl r bodies
      Quadtree.tryChildren r s.overflow (.leaf (childNE fl r) s.q1)
        (.leaf (childSW fl r) s.q2) (.leaf (childSE fl r) s.q3)
        (insertLeaf fl cap k (childNW fl r) s.q0 b) (insertLeaf fl cap k (childNE fl r) s.q1 b)
        (insertLeaf fl cap k (childSW fl r) s.q2 b) (insertLeaf fl cap k (childSE fl r) s.q3 b) b

/-- `Quadtree::insertRecursive(node, b, depth)` with the rounded `contains`. -/
def insertRecursive (fl : F → F) (cap maxDepth : Int) :
    Node F → BodyRef F → Int → Bool × Node F
  | .leaf r bodies, b, depth => insertLeaf fl cap (maxDepth - depth).toNat r bodies b
  | .inner r bodies c0 c1 c2 c3, b, depth =>
    if ¬ contains fl r b then (false, .inner r bodies c0 c1 c2 c3)
    else
      Quadtree.tryChildren r bodies c1 c2 c3
        (insertRecursive fl cap maxDepth c0 b (depth + 1))
        (insertRecursive fl cap maxDepth c1 b (depth + 1))
        (insertRecursive fl cap maxDepth c2 b (depth + 1))
        (insertRecursive fl cap maxDepth c3 b (depth + 1)) b

/-- `Quadtree::insert` with the rounded `contains`. -/
def insert (fl : F → F) (t : Quadtree F) (b : BodyRef F) : Bool × Quadtree F :=
  let res := insertRecursive fl t.capacity t.maxDepth t.root b 0
  (res.1, { t with root := res.2 })

/-- The overlap test of the leaf loop of `queryRecursive`, every operation
rounded by `fl`. -/
def hitsQuery (fl : F → F) (qx qy qr : F) (body : BodyRef F) : Bool :=
  let dx := fl (body.x - qx)
  let dy := fl (body.y - qy)
  let dist_sq := fl (fl (dx * dx) + fl (dy * dy))
  let r_sum := fl (body.r + qr)
  decide (dist_sq < fl (r_sum * r_sum))

/-- `Quadtree::queryRecursive` with the rounded `intersects` and the rounded
overlap test. -/
def queryRecursive (fl : F → F) : Node F → F → F → F → List Int → List Int
  | .leaf r bodies, qx, qy, qr, outIds =>
    if ¬ intersects fl r qx qy qr then outIds
    else bodies.foldl
      (fun out body => if hitsQuery fl qx qy qr body then out ++ [body.id] else out) outIds
  | .inner r _ c0 c1 c2 c3, qx, qy, qr, outIds =>
    if ¬ intersects fl r qx qy qr then outIds
    else
      queryRecursive fl c3 qx qy qr (queryRecursive fl c2 qx qy qr
        (queryRecursive fl c1 qx qy qr (queryRecursive fl c0 qx qy qr outIds)))

/-- `Quadtree::query` with the rounded tests. -/
def query (fl : F → F) (t : Quadtree F) (qx qy qr : F) : List Int :=
  queryRecursive fl t.root qx qy qr []

/-- The query result as the specification describes it, with the rounded
overlap test: every entry stored in a leaf is tested, no subtree is pruned. -/
def queryNoPruning (fl : F → F) : Node F → F → F → F → List Int → List Int
  | .leaf _ bodies, qx, qy, qr, outIds =>
    bodies.foldl
      (fun out body => if hitsQuery fl qx qy qr body then out ++ [body.id] else out) outIds
  | .inner _ _ c0 c1 c2 c3, qx, qy, qr, outIds =>
    queryNoPruning fl c3 qx qy qr (queryNoPruning fl c2 qx qy qr
      (queryNoPruning fl c1 qx qy qr (queryNoPruning fl c0 qx qy qr outIds)))

/-- Every entry held by a node of the subtree, in a leaf list or in the own
list of a subdivided node, passes the rounded `contains` for the rectangle of
that node. -/
def ownInside (fl : F → F) : Node F → Bool
  | .leaf r bodies => bodies.all (contains fl r)
  | .inner r bodies c0 c1 c2 c3 =>
    bodies.all (contains fl r) && ownInside fl c0 && ownInside fl c1 && ownInside fl c2 &&
      ownInside fl c3

/-- The tree states that the public interface produces when `contains` is
evaluated with rounding: the constructor, `clear()` and `insert`. -/
inductive TreeReachable (fl : F → F) : Quadtree F → Prop where
  | init (x y w h : F) (cap maxDepth : Int) : TreeReachable fl (Quadtree.new x y w h cap maxDepth)
  | clear {t : Quadtree F} : TreeReachable fl t → TreeReachable fl (Quadtree.clear t)
  | insert {t : Quadtree F} (b : BodyRef F) : TreeReachable fl t →
      TreeReachable fl (insert fl t b).2

end Rounded

/-- An entry with centre `(405, 100)` and the binary32 radius `5 + 2 ^ -20`:
its circle reaches `2 ^ -20` to the left of `x = 400`. -/
def edgeEntry : BodyRef ℚ := ⟨0, 405, 100, 5 + 1 / 1048576⟩

namespace Quadtree

variable {F : Type} [LinearOrderedField F]

end Quadtree

/-- Two bodies of radius `11635 / 2048` whose centres are exactly
`11635 / 1024` apart (`6981 ^ 2 + 9308 ^ 2 = 11635 ^ 2`): an exactly tangent
pair with binary32 coordinates. -/
def tangentPair : Particle ℚ × Particle ℚ :=
  (⟨0, 0, 0, 0, 11635 / 2048, 0, false⟩, ⟨6981 / 1024, 9308 / 1024, 0, 0, 11635 / 2048, 1, false⟩)

/-- Two entries of radius `3.3f = 13841203 / 4194304`: the first in the NW
quadrant of the 800 x 600 box, the second with centre
`x = 403.29998779296875`, whose circle reaches `51 / 4194304` to the left of
the midline `x = 400`. -/
def cornerEntries : BodyRef ℚ × BodyRef ℚ :=
  (⟨0, 100, 100, 13841203 / 4194304⟩, ⟨1, 6607667 / 16384, 100, 13841203 / 4194304⟩)

/-- The tree over the 800 x 600 box with capacity 1 and maximum depth 12 after
the insertion of the two `cornerEntries`, with binary32 rounding. -/
def cornerTree : Quadtree ℚ :=
  (Rounded.insert round32
    (Rounded.insert round32 (Quadtree.new 0 0 800 600 1 12) cornerEntries.1).2 cornerEntries.2).2

/-! # Theorems -/

/-! ## Physics integrator -/

section PhysicsReal

open physics

/-- Over the reals the normal used by `resolve_collision` has length one, in
the fallback case as well. -/
theorem collision_normal_unit (a b : Particle ℝ) :
    (collision_normal Real.sqrt a b).1 * (collision_normal Real.sqrt a b).1
      + (collision_normal Real.sqrt a b).2 * (collision_normal Real.sqrt a b).2 = 1 := by
  unfold collision_normal
  simp only
  by_cases h : (b.x - a.x) * (b.x - a.x) + (b.y - a.y) * (b.y - a.y) < (tiny : ℝ)
  · simp [h]
  · simp only [h, if_false]
    have hpos : 0 < (b.x - a.x) * (b.x - a.x) + (b.y - a.y) * (b.y - a.y) := by
      have : (0 : ℝ) < tiny := by unfold tiny; norm_num
      linarith [not_lt.mp h]
    have hne : Real.sqrt ((b.x - a.x) * (b.x - a.x) + (b.y - a.y) * (b.y - a.y)) ≠ 0 :=
      (Real.sqrt_pos.mpr hpos).ne'
    have hs := Real.mul_self_sqrt hpos.le
    field_simp

theorem total_energy_pair {F : Type} [LinearOrderedField F] (a b : Particle F) :
    total_energy [a, b] = kinetic a + kinetic b := by
  simp [total_energy]

theorem sqrt_sixty_four : Real.sqrt 64 = 8 := by
  rw [show (64 : ℝ) = 8 ^ 2 by norm_num]
  exact Real.sqrt_sq (by norm_num)

/-- C5.  For every pair of bodies over the reals (coincident centres
included), `total_energy` of the pair, the sum of `1/2 (vx^2 + vy^2)` over the
two bodies, is the same after `resolve_collision` as before it. -/
theorem resolve_collision_conserves_energy (a b : Particle ℝ) :
    total_energy [(resolve_collision Real.sqrt a b).1, (resolve_collision Real.sqrt a b).2]
      = total_energy [a, b] := by
  rw [total_energy_pair, total_energy_pair]
  have hn := collision_normal_unit a b
  simp only [resolve_collision, kinetic]
  generalize collision_normal Real.sqrt a b = n at hn
  obtain ⟨nx, ny⟩ := n
  simp only at hn ⊢
  linear_combination ((b.vx - a.vx) * nx + (b.vy - a.vy) * ny) ^ 2 * hn

/-- C7.  With `n` the normal used by `resolve_collision` and `dvn` the normal
relative velocity: `a` gains `dvn·n` and `b` loses `dvn·n`; the velocity
components along `n` are exchanged between the two bodies and the components
along the tangent `(-n.2, n.1)` are unchanged.  For two radius-5 bodies at
(100,100) and (108,100) with velocities (+50,0) and (-50,0) the velocities
become (-50,0) and (+50,0). -/
theorem resolve_collision_exchanges_normal_components (a b : Particle ℝ) :
    (let n := collision_normal Real.sqrt a b
     let dvn := normalRelVel n a b
     let a1 := (resolve_collision Real.sqrt a b).1
     let b1 := (resolve_collision Real.sqrt a b).2
     (a1.vx = a.vx + dvn * n.1 ∧ a1.vy = a.vy + dvn * n.2 ∧
      b1.vx = b.vx - dvn * n.1 ∧ b1.vy = b.vy - dvn * n.2) ∧
     (a1.vx * n.1 + a1.vy * n.2 = b.vx * n.1 + b.vy * n.2 ∧
      b1.vx * n.1 + b1.vy * n.2 = a.vx * n.1 + a.vy * n.2) ∧
     (a1.vx * (-n.2) + a1.vy * n.1 = a.vx * (-n.2) + a.vy * n.1 ∧
      b1.vx * (-n.2) + b1.vy * n.1 = b.vx * (-n.2) + b.vy * n.1)) ∧
    resolve_collision Real.sqrt (⟨100, 100, 50, 0, 5, 0, false⟩ : Particle ℝ)
        ⟨108, 100, -50, 0, 5, 1, false⟩
      = (⟨100, 100, -50, 0, 5, 0, true⟩, ⟨108, 100, 50, 0, 5, 1, true⟩) := by
  refine ⟨?_, ?_⟩
  · have hn := collision_normal_unit a b
    simp only [resolve_collision, normalRelVel]
    generalize collision_normal Real.sqrt a b = n at hn
    obtain ⟨nx, ny⟩ := n
    simp only at hn ⊢
    refine ⟨⟨trivial, trivial, trivial, trivial⟩, ⟨?_, ?_⟩, ⟨?_, ?_⟩⟩
    · linear_combination ((b.vx - a.vx) * nx + (b.vy - a.vy) * ny) * hn
    · linear_combination (-((b.vx - a.vx) * nx + (b.vy - a.vy) * ny)) * hn
    · ring
    · ring
  · have hnorm : collision_normal Real.sqrt (⟨100, 100, 50, 0, 5, 0, false⟩ : Particle ℝ)
        ⟨108, 100, -50, 0, 5, 1, false⟩ = (1, 0) := by
      have h1 : ¬ ((108 - 100) * (108 - 100) + (100 - 100) * (100 - 100) < (tiny : ℝ)) := by
        unfold tiny; norm_num
      simp only [collision_normal, h1, if_false]
      rw [show ((108 : ℝ) - 100) * (108 - 100) + (100 - 100) * (100 - 100) = 64 by norm_num,
        sqrt_sixty_four]
      norm_num
    simp only [resolve_collision, hnorm]
    norm_num

end PhysicsReal

section PhysicsField

open physics

variable {F : Type} [LinearOrderedField F]

theorem wallStep_left (box_w box_h r : F) (hw : 2 * r ≤ box_w) (p : Particle F)
    (hleft : p.x - r < 0) :
    (wallStep box_w box_h r p).x = r ∧ (wallStep box_w box_h r p).vx = -p.vx ∧
      (wallStep box_w box_h r p).collided = true := by
  have h2 : ¬ (r + r > box_w) := by linarith
  unfold wallStep
  simp only [hleft, if_true, h2, if_false]
  split_ifs <;> simp

/-- C9.  For every body (at any index `i` of the sequence) whose circle
extends past the left edge, `x - r < 0`, in a box with `box_w >= 2r`,
`handle_walls` sets `x` to `r`, negates `vx` and sets `collided`; for a
radius-5 body at (3,300) with velocity (-20,0) in an 800-wide box of any
height the result has `x = 5`, `vx = +20`, `collided = true`. -/
theorem handle_walls_left_edge (box_w box_h r : F) (hw : 2 * r ≤ box_w)
    (particles : List (Particle F))
    (i : Nat) (hi : i < particles.length) (hleft : (particles.get ⟨i, hi⟩).x - r < 0) :
    (∃ q, (handle_walls particles box_w box_h r)[i]? = some q ∧
      q.x = r ∧ q.vx = -(particles.get ⟨i, hi⟩).vx ∧ q.collided = true) ∧
    (∀ box_h0 : ℚ,
      (handle_walls [(⟨3, 300, -20, 0, 5, 0, false⟩ : Particle ℚ)] 800 box_h0 5).map
        (fun q => (q.x, q.vx, q.collided)) = [(5, 20, true)]) := by
  constructor
  · refine ⟨wallStep box_w box_h r (particles.get ⟨i, hi⟩), ?_, ?_⟩
    · simp [handle_walls, List.getElem?_map, List.getElem?_eq_getElem hi]
    · exact wallStep_left box_w box_h r hw _ hleft
  · intro box_h0
    have h := wallStep_left (800 : ℚ) box_h0 5 (by norm_num) ⟨3, 300, -20, 0, 5, 0, false⟩
      (by norm_num)
    simp only [handle_walls, List.map_cons, List.map_nil]
    rw [h.1, h.2.1, h.2.2]
    norm_num

/-- C9 at the body of the example, in the 800 x 600 box. -/
theorem handle_walls_left_edge_witness :
    ((2 : ℚ) * 5 ≤ 800 ∧ (3 : ℚ) - 5 < 0) ∧
    ((∃ q, (handle_walls [(⟨3, 300, -20, 0, 5, 0, false⟩ : Particle ℚ)] 800 600 5)[0]? = some q ∧
      q.x = 5 ∧ q.vx = -(-20 : ℚ) ∧ q.collided = true) ∧
    (∀ box_h0 : ℚ,
      (handle_walls [(⟨3, 300, -20, 0, 5, 0, false⟩ : Particle ℚ)] 800 box_h0 5).map
        (fun q => (q.x, q.vx, q.collided)) = [(5, 20, true)])) :=
  ⟨by norm_num, handle_walls_left_edge (800 : ℚ) 600 5 (by norm_num)
    [⟨3, 300, -20, 0, 5, 0, false⟩] 0 (by decide) (by norm_num)⟩

/-- In exact arithmetic `circle_overlap(a, b)` is true if and only if the
squared distance between the centres is strictly less than `(a.r + b.r)^2`,
and two bodies that are exactly tangent do not overlap.  The statement for
the rounded test is `circle_overlap_compares_rounded_squares`. -/
theorem circle_overlap_iff (a b : Particle F) :
    (circle_overlap a b = true ↔
      (a.x - b.x) ^ 2 + (a.y - b.y) ^ 2 < (a.r + b.r) ^ 2) ∧
    ((a.x - b.x) ^ 2 + (a.y - b.y) ^ 2 = (a.r + b.r) ^ 2 → circle_overlap a b = false) := by
  have key : circle_overlap a b = true ↔
      (a.x - b.x) ^ 2 + (a.y - b.y) ^ 2 < (a.r + b.r) ^ 2 := by
    simp only [circle_overlap, decide_eq_true_eq, pow_two]
  refine ⟨key, fun h => ?_⟩
  cases hc : circle_overlap a b
  · rfl
  · exact absurd (key.mp hc) (by rw [h]; exact lt_irrefl _)

end PhysicsField

section PhysicsSafety

open physics

/-- The divisor of `resolve_collision` is the one named `collision_dist`. -/
theorem collision_normal_eq_div {F : Type} [LinearOrderedField F] (sqrt : F → F)
    (a b : Particle F) :
    collision_normal sqrt a b
      = ((if centre_dist_sq a b < tiny then 1 else b.x - a.x) / collision_dist sqrt a b,
         (if centre_dist_sq a b < tiny then 0 else b.y - a.y) / collision_dist sqrt a b) := rfl

/-- C19.  `resolve_collision` never divides by zero: over the reals the
distance it divides by is strictly positive for every pair of bodies; when the
squared centre distance is below `1e-10` the distance is 1, the normal is
`(1, 0)`, and the two bodies exchange `vx` and keep `vy`. -/
theorem resolve_collision_divisor_positive (a b : Particle ℝ) :
    0 < collision_dist Real.sqrt a b ∧
    (centre_dist_sq a b < tiny →
      collision_dist Real.sqrt a b = 1 ∧
      collision_normal Real.sqrt a b = (1, 0) ∧
      (resolve_collision Real.sqrt a b).1.vx = b.vx ∧
      (resolve_collision Real.sqrt a b).2.vx = a.vx ∧
      (resolve_collision Real.sqrt a b).1.vy = a.vy ∧
      (resolve_collision Real.sqrt a b).2.vy = b.vy) := by
  constructor
  · unfold collision_dist
    by_cases h : centre_dist_sq a b < (tiny : ℝ)
    · simp [h]
    · simp only [h, if_false]
      have : (0 : ℝ) < tiny := by unfold tiny; norm_num
      exact Real.sqrt_pos.mpr (by linarith [not_lt.mp h])
  · intro h
    have hd : collision_dist Real.sqrt a b = 1 := by simp [collision_dist, h]
    have hn : collision_normal Real.sqrt a b = (1, 0) := by
      rw [collision_normal_eq_div, hd]
      simp [h]
    refine ⟨hd, hn, ?_, ?_, ?_, ?_⟩ <;> simp only [resolve_collision, hn] <;> ring

/-- C19 at two coincident bodies with velocities (3, 4) and (-1, 2). -/
theorem resolve_collision_divisor_positive_witness :
    centre_dist_sq (⟨1, 1, 3, 4, 5, 0, false⟩ : Particle ℝ) ⟨1, 1, -1, 2, 5, 1, false⟩ < tiny ∧
    (0 < collision_dist Real.sqrt (⟨1, 1, 3, 4, 5, 0, false⟩ : Particle ℝ)
        ⟨1, 1, -1, 2, 5, 1, false⟩ ∧
    (centre_dist_sq (⟨1, 1, 3, 4, 5, 0, false⟩ : Particle ℝ) ⟨1, 1, -1, 2, 5, 1, false⟩ < tiny →
      collision_dist Real.sqrt (⟨1, 1, 3, 4, 5, 0, false⟩ : Particle ℝ)
        ⟨1, 1, -1, 2, 5, 1, false⟩ = 1 ∧
      collision_normal Real.sqrt (⟨1, 1, 3, 4, 5, 0, false⟩ : Particle ℝ)
        ⟨1, 1, -1, 2, 5, 1, false⟩ = (1, 0) ∧
      (resolve_collision Real.sqrt (⟨1, 1, 3, 4, 5, 0, false⟩ : Particle ℝ)
        ⟨1, 1, -1, 2, 5, 1, false⟩).1.vx = -1 ∧
      (resolve_collision Real.sqrt (⟨1, 1, 3, 4, 5, 0, false⟩ : Particle ℝ)
        ⟨1, 1, -1, 2, 5, 1, false⟩).2.vx = 3 ∧
      (resolve_collision Real.sqrt (⟨1, 1, 3, 4, 5, 0, false⟩ : Particle ℝ)
        ⟨1, 1, -1, 2, 5, 1, false⟩).1.vy = 4 ∧
      (resolve_collision Real.sqrt (⟨1, 1, 3, 4, 5, 0, false⟩ : Particle ℝ)
        ⟨1, 1, -1, 2, 5, 1, false⟩).2.vy = 2)) :=
  ⟨by norm_num [centre_dist_sq, tiny],
    resolve_collision_divisor_positive ⟨1, 1, 3, 4, 5, 0, false⟩ ⟨1, 1, -1, 2, 5, 1, false⟩⟩

end PhysicsSafety

section PhysicsCorrection

open physics

theorem circle_overlap_iff_centre_dist {F : Type} [LinearOrderedField F] (a b : Particle F) :
    circle_overlap a b = true ↔ centre_dist_sq a b < (a.r + b.r) * (a.r + b.r) := by
  simp only [circle_overlap, centre_dist_sq, decide_eq_true_eq]
  have : (a.x - b.x) * (a.x - b.x) + (a.y - b.y) * (a.y - b.y)
      = (b.x - a.x) * (b.x - a.x) + (b.y - a.y) * (b.y - a.y) := by ring
  rw [this]

end PhysicsCorrection

/-! ## Tree index -/

section Tree

open Quadtree

variable {F : Type} [LinearOrderedField F]

omit [LinearOrderedField F] in
theorem tryChildren_fst (r : Rect F) (bodies : List (BodyRef F)) (c1 c2 c3 : Node F)
    (r0 r1 r2 r3 : Bool × Node F) (b : BodyRef F) :
    (tryChildren r bodies c1 c2 c3 r0 r1 r2 r3 b).1 = true := by
  unfold tryChildren
  split_ifs <;> rfl

omit [LinearOrderedField F] in
theorem tryChildren_mem (r : Rect F) (bodies : List (BodyRef F)) (c1 c2 c3 : Node F)
    (r0 r1 r2 r3 : Bool × Node F) (b : BodyRef F)
    (h0 : r0.1 = true → b ∈ r0.2.allBodies) (h1 : r1.1 = true → b ∈ r1.2.allBodies)
    (h2 : r2.1 = true → b ∈ r2.2.allBodies) (h3 : r3.1 = true → b ∈ r3.2.allBodies) :
    b ∈ (tryChildren r bodies c1 c2 c3 r0 r1 r2 r3 b).2.allBodies := by
  unfold tryChildren
  split_ifs with g0 g1 g2 g3
  · simp [Node.allBodies, h0 g0]
  · simp [Node.allBodies, h1 g1]
  · simp [Node.allBodies, h2 g2]
  · simp [Node.allBodies, h3 g3]
  · simp [Node.allBodies]

/-- `insertRecursive` on a leaf succeeds exactly when the rectangle contains
the entry. -/
theorem insertLeaf_fst (cap : Int) (k : Nat) (r : Rect F) (bodies : List (BodyRef F))
    (b : BodyRef F) : (insertLeaf cap k r bodies b).1 = contains r b := by
  cases k with
  | zero =>
    unfold insertLeaf
    split_ifs with h <;> simp_all
  | succ k =>
    unfold insertLeaf
    split_ifs with h h' <;> simp_all [tryChildren_fst]

theorem insertLeaf_mem (cap : Int) (k : Nat) (r : Rect F) (bodies : List (BodyRef F))
    (b : BodyRef F) (h : (insertLeaf cap k r bodies b).1 = true) :
    b ∈ (insertLeaf cap k r bodies b).2.allBodies := by
  induction k generalizing r bodies with
  | zero =>
    rw [insertLeaf_fst] at h
    simp [insertLeaf, h, Node.allBodies]
  | succ k ih =>
    rw [insertLeaf_fst] at h
    unfold insertLeaf
    simp only [h, not_true_eq_false, if_false]
    split_ifs with hs
    · simp [Node.allBodies]
    · exact tryChildren_mem _ _ _ _ _ _ _ _ _ _ (ih _ _) (ih _ _) (ih _ _) (ih _ _)

/-- `insertRecursive` succeeds exactly when the node's rectangle contains the
entry. -/
theorem insertRecursive_fst (cap maxDepth : Int) (node : Node F) (b : BodyRef F) (depth : Int) :
    (insertRecursive cap maxDepth node b depth).1 = contains node.rect b := by
  cases node with
  | leaf r bodies => simp [insertRecursive, insertLeaf_fst, Node.rect]
  | inner r bodies c0 c1 c2 c3 =>
    unfold insertRecursive
    split_ifs with h <;> simp_all [tryChildren_fst, Node.rect]

theorem insertRecursive_mem (cap maxDepth : Int) (node : Node F) (b : BodyRef F) (depth : Int)
    (h : (insertRecursive cap maxDepth node b depth).1 = true) :
    b ∈ (insertRecursive cap maxDepth node b depth).2.allBodies := by
  induction node generalizing depth with
  | leaf r bodies => exact insertLeaf_mem _ _ _ _ _ h
  | inner r bodies c0 c1 c2 c3 ih0 ih1 ih2 ih3 =>
    rw [insertRecursive_fst] at h
    simp only [Node.rect] at h
    unfold insertRecursive
    simp only [h, not_true_eq_false, if_false]
    exact tryChildren_mem _ _ _ _ _ _ _ _ _ _ (ih0 _) (ih1 _) (ih2 _) (ih3 _)

/-- An entry that the node's rectangle does not contain leaves the node as it
was. -/
theorem insertRecursive_rejects (cap maxDepth : Int) (node : Node F) (b : BodyRef F)
    (depth : Int) (h : contains node.rect b = false) :
    insertRecursive cap maxDepth node b depth = (false, node) := by
  cases node with
  | leaf r bodies =>
    simp only [Node.rect] at h
    cases k : (maxDepth - depth).toNat <;> simp [insertRecursive, insertLeaf, k, h]
  | inner r bodies c0 c1 c2 c3 =>
    simp only [Node.rect] at h
    simp [insertRecursive, h]

/-- C3 fails on the code.  After `clear()` and the insertion of
`straddlingEntries` (both fit the root; capacity 1, so the second insertion
subdivides), entry 1 is stored in the root's own list.  Its circle overlaps
the query circle `(50, 50, 1)`, yet `query(50, 50, 1)` returns no id, and the
query `(50, 50, 1000)` that covers the whole region returns entry 0 only:
`queryRecursive` never reads the list of a subdivided node. -/
theorem query_misses_overflow_entry :
    (straddlingEntries.all (fun e => contains (Quadtree.new (0 : ℚ) 0 100 100 1 12).root.rect e)
        = true ∧
      straddlingTree.root.bodies = [⟨1, 50, 50, 5⟩] ∧
      straddlingTree.root.allBodies.map (fun e => e.id) = [1, 0] ∧
      hitsQuery (50 : ℚ) 50 1 ⟨1, 50, 50, 5⟩ = true) ∧
    straddlingTree.query 50 50 1 = [] ∧
    straddlingTree.query 50 50 1000 = [0] := by
  decide!

/-- C4 as stated fails: an entry outside the root rectangle is rejected by
`insert` and is stored nowhere in the tree. -/
theorem insert_rejects_entry_outside_root :
    ((Quadtree.new (0 : ℚ) 0 10 10 8 12).insert ⟨0, 20, 20, 1⟩).1 = false ∧
    (⟨0, 20, 20, 1⟩ : BodyRef ℚ) ∉
      ((Quadtree.new (0 : ℚ) 0 10 10 8 12).insert ⟨0, 20, 20, 1⟩).2.root.allBodies := by
  decide!

/-- C4, amended.  For every tree state and every entry whose full circle lies
within the root rectangle, `insert(entry)` returns true and afterwards the
entry is stored in some node of the tree; when the root is subdivided and no
child contains the entry, it is appended to the root's own list (overflow). -/
theorem insert_stores_entry_inside_root (t : Quadtree F) (b : BodyRef F)
    (hfit : contains t.root.rect b = true) :
    (t.insert b).1 = true ∧ b ∈ (t.insert b).2.root.allBodies ∧
    (∀ r bodies c0 c1 c2 c3, t.root = .inner r bodies c0 c1 c2 c3 →
      contains c0.rect b = false → contains c1.rect b = false →
      contains c2.rect b = false → contains c3.rect b = false →
      (t.insert b).2.root = .inner r (bodies ++ [b]) c0 c1 c2 c3) := by
  have h1 : (t.insert b).1 = true := by
    simp [Quadtree.insert, insertRecursive_fst, hfit]
  refine ⟨h1, insertRecursive_mem _ _ _ _ _ h1, ?_⟩
  intro r bodies c0 c1 c2 c3 hroot h0 h1 h2 h3
  rw [hroot] at hfit
  simp only [Node.rect] at hfit
  simp [Quadtree.insert, hroot, insertRecursive, hfit, insertRecursive_rejects, h0, h1, h2, h3,
    tryChildren]

/-- C4, amended, at the subdivided `straddlingTree` and a third entry on its
centre. -/
theorem insert_stores_entry_inside_root_witness :
    contains straddlingTree.root.rect ⟨2, 50, 50, 2⟩ = true ∧
    ((straddlingTree.insert ⟨2, 50, 50, 2⟩).1 = true ∧
      (⟨2, 50, 50, 2⟩ : BodyRef ℚ) ∈ (straddlingTree.insert ⟨2, 50, 50, 2⟩).2.root.allBodies ∧
      (∀ r bodies c0 c1 c2 c3, straddlingTree.root = .inner r bodies c0 c1 c2 c3 →
        contains c0.rect ⟨2, 50, 50, 2⟩ = false → contains c1.rect ⟨2, 50, 50, 2⟩ = false →
        contains c2.rect ⟨2, 50, 50, 2⟩ = false → contains c3.rect ⟨2, 50, 50, 2⟩ = false →
        (straddlingTree.insert ⟨2, 50, 50, 2⟩).2.root
          = .inner r (bodies ++ [⟨2, 50, 50, 2⟩]) c0 c1 c2 c3)) :=
  ⟨by decide!, insert_stores_entry_inside_root _ _ (by decide!)⟩

end Tree

section TreeEquations

open Quadtree

variable {F : Type} [LinearOrderedField F]

/-- The recursion of the source, read off the model: on a leaf that contains
the entry, is at capacity and lies above the maximum depth, `insertRecursive`
is `insertRecursive` on the subdivided node (at the same depth), whose
children are then tried at `depth + 1`. -/
theorem insertRecursive_leaf_subdivides (cap maxDepth : Int) (r : Rect F)
    (bodies : List (BodyRef F)) (b : BodyRef F) (depth : Int)
    (hfit : contains r b = true)
    (hfull : ¬ ((bodies.length : Int) < cap % 2 ^ 64 ∨ depth ≥ maxDepth)) :
    insertRecursive cap maxDepth (.leaf r bodies) b depth
      = insertRecursive cap maxDepth (subdivide (.leaf r bodies)) b depth := by
  push_neg at hfull
  obtain ⟨hsize, hdepth⟩ := hfull
  obtain ⟨k, hk⟩ : ∃ k, (maxDepth - depth).toNat = k + 1 :=
    ⟨(maxDepth - depth).toNat - 1, by omega⟩
  have hk1 : (maxDepth - (depth + 1)).toNat = k := by omega
  simp only [subdivide, Node.rect, Node.bodies]
  simp only [insertRecursive, hk, hk1, insertLeaf, hfit, not_true_eq_false, if_false,
    not_lt.mpr hsize]

/-- On a leaf that contains the entry and is below capacity or at the maximum
depth, `insertRecursive` appends the entry. -/
theorem insertRecursive_leaf_appends (cap maxDepth : Int) (r : Rect F)
    (bodies : List (BodyRef F)) (b : BodyRef F) (depth : Int)
    (hfit : contains r b = true)
    (hroom : (bodies.length : Int) < cap % 2 ^ 64 ∨ depth ≥ maxDepth) :
    insertRecursive cap maxDepth (.leaf r bodies) b depth
      = (true, .leaf r (bodies ++ [b])) := by
  rcases Nat.eq_zero_or_pos (maxDepth - depth).toNat with h0 | hpos
  · simp [insertRecursive, h0, insertLeaf, hfit]
  · obtain ⟨k, hk⟩ : ∃ k, (maxDepth - depth).toNat = k + 1 :=
      ⟨(maxDepth - depth).toNat - 1, by omega⟩
    have hlt : (bodies.length : Int) < cap % 2 ^ 64 := by
      rcases hroom with h | h
      · exact h
      · omega
    simp only [insertRecursive, hk, insertLeaf, hfit, not_true_eq_false, if_false, hlt, if_true]

end TreeEquations

section TreeInsertResult

open Quadtree

variable {F : Type} [LinearOrderedField F]

/-- In exact arithmetic `Quadtree::insert` returns false exactly when the
entry's full circle does not lie within the root rectangle, that is when
`x-r >= root.x`, `x+r <= root.x+w`, `y-r >= root.y`, `y+r <= root.y+h` fails,
and in that case the tree is left unchanged; in every other case it returns
true.  The statement for the rounded test is
`insert_false_iff_rounded_contains_fails`. -/
theorem insert_false_iff_outside_root (t : Quadtree F) (b : BodyRef F) :
    ((t.insert b).1 = false ↔
      ¬ (b.x - b.r ≥ t.root.rect.x ∧ b.x + b.r ≤ t.root.rect.x + t.root.rect.w ∧
         b.y - b.r ≥ t.root.rect.y ∧ b.y + b.r ≤ t.root.rect.y + t.root.rect.h)) ∧
    ((t.insert b).1 = false → (t.insert b).2 = t) ∧
    ((t.insert b).1 = true ↔
      (b.x - b.r ≥ t.root.rect.x ∧ b.x + b.r ≤ t.root.rect.x + t.root.rect.w ∧
       b.y - b.r ≥ t.root.rect.y ∧ b.y + b.r ≤ t.root.rect.y + t.root.rect.h)) := by
  have hfst : (t.insert b).1 = contains t.root.rect b := by
    simp [Quadtree.insert, insertRecursive_fst]
  have hc : contains t.root.rect b = true ↔
      (b.x - b.r ≥ t.root.rect.x ∧ b.x + b.r ≤ t.root.rect.x + t.root.rect.w ∧
       b.y - b.r ≥ t.root.rect.y ∧ b.y + b.r ≤ t.root.rect.y + t.root.rect.h) := by
    simp only [contains, decide_eq_true_eq]
  refine ⟨?_, ?_, ?_⟩
  · rw [hfst, ← hc]; simp
  · intro hf
    rw [hfst] at hf
    simp only [Quadtree.insert, insertRecursive_rejects _ _ _ _ _ hf]
  · rw [hfst, hc]

end TreeInsertResult

section TreeSubdivision

open Quadtree

variable {F : Type} [LinearOrderedField F]

/-- The redistribution loop of `subdivide` sends every entry to the first
child that contains it. -/
theorem redistribute_foldl (r : Rect F) (bs : List (BodyRef F)) (s : Quads F) :
    bs.foldl (redistributeStep r) s =
      { overflow := s.overflow ++ bs.filter (fun e =>
          !contains (childNW r) e && !contains (childNE r) e && !contains (childSW r) e
            && !contains (childSE r) e)
        q0 := s.q0 ++ bs.filter (fun e => contains (childNW r) e)
        q1 := s.q1 ++ bs.filter (fun e => !contains (childNW r) e && contains (childNE r) e)
        q2 := s.q2 ++ bs.filter (fun e =>
          !contains (childNW r) e && !contains (childNE r) e && contains (childSW r) e)
        q3 := s.q3 ++ bs.filter (fun e =>
          !contains (childNW r) e && !contains (childNE r) e && !contains (childSW r) e
            && contains (childSE r) e) } := by
  induction bs generalizing s with
  | nil => simp
  | cons b rest ih =>
    rw [List.foldl_cons, ih]
    unfold redistributeStep
    by_cases h0 : contains (childNW r) b = true
    · simp [h0, List.filter_cons]
    · by_cases h1 : contains (childNE r) b = true
      · simp [h0, h1, List.filter_cons]
      · by_cases h2 : contains (childSW r) b = true
        · simp [h0, h1, h2, List.filter_cons]
        · by_cases h3 : contains (childSE r) b = true
          · simp [h0, h1, h2, h3, List.filter_cons]
          · simp [h0, h1, h2, h3, List.filter_cons]

theorem redistribute_eq (r : Rect F) (bs : List (BodyRef F)) :
    redistribute r bs =
      { overflow := bs.filter (fun e =>
          !contains (childNW r) e && !contains (childNE r) e && !contains (childSW r) e
            && !contains (childSE r) e)
        q0 := bs.filter (fun e => contains (childNW r) e)
        q1 := bs.filter (fun e => !contains (childNW r) e && contains (childNE r) e)
        q2 := bs.filter (fun e =>
          !contains (childNW r) e && !contains (childNE r) e && contains (childSW r) e)
        q3 := bs.filter (fun e =>
          !contains (childNW r) e && !contains (childNE r) e && !contains (childSW r) e
            && contains (childSE r) e) } := by
  unfold redistribute
  rw [redistribute_foldl]
  simp

/-- A child list that received as many entries as the node held received all
of them, so the child's rectangle contains every one. -/
theorem redistribute_full_child (r : Rect F) (bs : List (BodyRef F)) :
    (((redistribute r bs).q0.length = bs.length → ∀ e ∈ bs, contains (childNW r) e = true) ∧
     ((redistribute r bs).q1.length = bs.length → ∀ e ∈ bs, contains (childNE r) e = true)) ∧
    (((redistribute r bs).q2.length = bs.length → ∀ e ∈ bs, contains (childSW r) e = true) ∧
     ((redistribute r bs).q3.length = bs.length → ∀ e ∈ bs, contains (childSE r) e = true)) := by
  rw [redistribute_eq]
  simp only [List.filter_length_eq_length]
  refine ⟨⟨fun h e he => h e he, fun h e he => ?_⟩, ⟨fun h e he => ?_, fun h e he => ?_⟩⟩
  · have := h e he; simp only [Bool.and_eq_true] at this; exact this.2
  · have := h e he; simp only [Bool.and_eq_true] at this; exact this.2
  · have := h e he; simp only [Bool.and_eq_true] at this; exact this.2

theorem redistribute_length_le (r : Rect F) (bs : List (BodyRef F)) :
    (redistribute r bs).q0.length ≤ bs.length ∧ (redistribute r bs).q1.length ≤ bs.length ∧
    (redistribute r bs).q2.length ≤ bs.length ∧ (redistribute r bs).q3.length ≤ bs.length := by
  rw [redistribute_eq]
  exact ⟨List.length_filter_le _ _, List.length_filter_le _ _, List.length_filter_le _ _,
    List.length_filter_le _ _⟩

omit [LinearOrderedField F] in
theorem tryChildren_subdividedOnce (r : Rect F) (bodies : List (BodyRef F)) (c1 c2 c3 : Node F)
    (r0 r1 r2 r3 : Bool × Node F) (b : BodyRef F)
    (hc1 : c1.isLeaf = true) (hc2 : c2.isLeaf = true) (hc3 : c3.isLeaf = true)
    (h0 : r0.2.isLeaf = true) (h1 : r1.2.isLeaf = true) (h2 : r2.2.isLeaf = true)
    (h3 : r3.2.isLeaf = true) :
    (tryChildren r bodies c1 c2 c3 r0 r1 r2 r3 b).2.subdividedOnce = true := by
  unfold tryChildren
  split_ifs <;> simp [Node.subdividedOnce, *]

omit [LinearOrderedField F] in
theorem tryChildren_not_leaf (r : Rect F) (bodies : List (BodyRef F)) (c1 c2 c3 : Node F)
    (r0 r1 r2 r3 : Bool × Node F) (b : BodyRef F) :
    (tryChildren r bodies c1 c2 c3 r0 r1 r2 r3 b).2.isLeaf = false := by
  unfold tryChildren
  split_ifs <;> rfl

theorem insertAll_cons (t : Quadtree F) (b : BodyRef F) (rest : List (BodyRef F)) :
    t.insertAll (b :: rest) = (t.insert b).2.insertAll rest := rfl

end TreeSubdivision

/-! ## Grid index -/

section GridProbe

open SpatialHash

variable {F : Type}

theorem SpatialHash.probeSlot_lt (h : SpatialHash F) (key : HashKey) (d : Nat)
    (hn : 0 < h.tableSize) : probeSlot h key d < h.tableSize :=
  Nat.mod_lt _ hn

theorem SpatialHash.probeSlot_zero (h : SpatialHash F) (key : HashKey) :
    probeSlot h key 0 = hashKey key % h.tableSize := by
  simp [probeSlot]

theorem SpatialHash.probeSlot_succ (h : SpatialHash F) (key : HashKey) (d : Nat) :
    (probeSlot h key d + 1) % h.tableSize = probeSlot h key (d + 1) := by
  simp [probeSlot, Nat.add_assoc]

/-- Within one round the probe sequence does not come back to its start. -/
theorem SpatialHash.probeSlot_ne_start (h : SpatialHash F) (key : HashKey) (d : Nat)
    (hd0 : 0 < d) (hd : d < h.tableSize) :
    probeSlot h key d ≠ hashKey key % h.tableSize := by
  have hn : 0 < h.tableSize := lt_trans hd0 hd
  have ha : hashKey key % h.tableSize < h.tableSize := Nat.mod_lt _ hn
  unfold probeSlot
  generalize hashKey key % h.tableSize = a at ha
  intro heq
  by_cases hlt : a + d < h.tableSize
  · rw [Nat.mod_eq_of_lt hlt] at heq
    omega
  · have h2 : a + d - h.tableSize < h.tableSize := by omega
    rw [Nat.mod_eq_sub_mod (by omega), Nat.mod_eq_of_lt h2] at heq
    omega

/-- After a full round the probe sequence is back at its start. -/
theorem SpatialHash.probeSlot_full (h : SpatialHash F) (key : HashKey) :
    probeSlot h key h.tableSize = hashKey key % h.tableSize := by
  simp [probeSlot]

/-- Every slot is visited within one round. -/
theorem SpatialHash.probeSlot_surj (h : SpatialHash F) (key : HashKey) (s : Nat)
    (hs : s < h.tableSize) : ∃ d, d < h.tableSize ∧ probeSlot h key d = s := by
  have hn : 0 < h.tableSize := lt_of_le_of_lt (Nat.zero_le _) hs
  have ha : hashKey key % h.tableSize < h.tableSize := Nat.mod_lt _ hn
  unfold probeSlot
  generalize hashKey key % h.tableSize = a at ha
  by_cases hle : a ≤ s
  · exact ⟨s - a, by omega, by rw [show a + (s - a) = s by omega, Nat.mod_eq_of_lt hs]⟩
  · refine ⟨s + h.tableSize - a, by omega, ?_⟩
    rw [show a + (s + h.tableSize - a) = s + h.tableSize by omega, Nat.add_mod_right,
      Nat.mod_eq_of_lt hs]

/-- The loop of `findSlot`, started anywhere on the probe path before the
first slot `e` that is free or holds the key, returns that slot. -/
theorem SpatialHash.findSlotLoop_reach (h : SpatialHash F) (key : HashKey) (e : Nat)
    (he : e < h.tableSize)
    (hpre : ∀ t, t < e → (h.cellAt (probeSlot h key t)).occupied = true ∧
      (h.cellAt (probeSlot h key t)).key ≠ key)
    (hstop : (h.cellAt (probeSlot h key e)).occupied = false ∨
      (h.cellAt (probeSlot h key e)).key = key) :
    ∀ fuel d, d ≤ e → e - d < fuel →
      findSlotLoop h key (hashKey key % h.tableSize) fuel (probeSlot h key d)
        = some ((probeSlot h key e : Nat) : Int) := by
  intro fuel
  induction fuel with
  | zero => intro d _ hf; omega
  | succ fuel ih =>
    intro d hde hf
    rcases Nat.lt_or_ge d e with hlt | hge
    · obtain ⟨hocc, hkey⟩ := hpre d hlt
      have hne := probeSlot_ne_start h key (d + 1) (by omega) (by omega)
      unfold findSlotLoop
      simp only [hocc, if_true, hkey, if_false, probeSlot_succ, hne]
      exact ih (d + 1) (by omega) (by omega)
    · have hd : d = e := le_antisymm hde hge
      subst hd
      unfold findSlotLoop
      rcases hstop with hfree | hk
      · simp [hfree]
      · by_cases hocc : (h.cellAt (probeSlot h key d)).occupied = true
        · simp [hocc, hk]
        · simp [hocc]

theorem SpatialHash.findSlot_reach (h : SpatialHash F) (key : HashKey) (e : Nat)
    (he : e < h.tableSize)
    (hpre : ∀ t, t < e → (h.cellAt (probeSlot h key t)).occupied = true ∧
      (h.cellAt (probeSlot h key t)).key ≠ key)
    (hstop : (h.cellAt (probeSlot h key e)).occupied = false ∨
      (h.cellAt (probeSlot h key e)).key = key) :
    findSlot h (hashKey key) key = some ((probeSlot h key e : Nat) : Int) := by
  have := findSlotLoop_reach h key e he hpre hstop h.tableSize 0 (Nat.zero_le _) (by omega)
  rw [probeSlot_zero] at this
  exact this

theorem countP_set_gain {α : Type} (p : α → Bool) (l : List α) (i : Nat) (a d : α)
    (hi : i < l.length) (hold : p (l.getD i d) = false) (hnew : p a = true) :
    (l.set i a).countP p = l.countP p + 1 := by
  induction l generalizing i with
  | nil => simp at hi
  | cons x rest ih =>
    cases i with
    | zero =>
      simp only [List.getD_cons_zero] at hold
      simp [List.countP_cons, hold, hnew]
    | succ i =>
      simp only [List.getD_cons_succ] at hold
      simp only [List.set_cons_succ, List.countP_cons]
      rw [ih i (by simpa using hi) hold]
      omega

theorem countP_set_keep {α : Type} (p : α → Bool) (l : List α) (i : Nat) (a d : α)
    (hi : i < l.length) (hsame : p (l.getD i d) = p a) :
    (l.set i a).countP p = l.countP p := by
  induction l generalizing i with
  | nil => simp at hi
  | cons x rest ih =>
    cases i with
    | zero =>
      simp only [List.getD_cons_zero] at hsame
      simp [List.countP_cons, hsame]
    | succ i =>
      simp only [List.getD_cons_succ] at hsame
      simp only [List.set_cons_succ, List.countP_cons]
      rw [ih i (by simpa using hi) hsame]

/-- When the slot is free or already holds `key`, `place` writes the cell
`(old entries ++ [b], occupied, key)` and counts a slot that was free. -/
theorem SpatialHash.place_eq (h : SpatialHash F) (s : Nat) (key : HashKey) (b : BodyRef F)
    (hstop : (h.cellAt s).occupied = false ∨ (h.cellAt s).key = key) :
    place h s key b =
      { h with
        table := h.table.set s
          { bodies := (h.cellAt s).bodies ++ [b], occupied := true, key := key }
        itemCount := if (h.cellAt s).occupied = true then h.itemCount else h.itemCount + 1 } := by
  unfold place
  rcases hstop with hfree | hk
  · simp [hfree]
  · by_cases hocc : (h.cellAt s).occupied = true
    · simp only [hocc, not_true_eq_false, if_false, if_true]
      congr 2
      rw [← hk, ← hocc]
    · simp [hocc]

theorem SpatialHash.cellAt_place_same (h : SpatialHash F) (s : Nat) (key : HashKey)
    (b : BodyRef F) (hs : s < h.table.length)
    (hstop : (h.cellAt s).occupied = false ∨ (h.cellAt s).key = key) :
    (place h s key b).cellAt s
      = { bodies := (h.cellAt s).bodies ++ [b], occupied := true, key := key } := by
  rw [place_eq h s key b hstop]
  simp [cellAt, List.getD_eq_getElem?_getD, hs]

theorem SpatialHash.cellAt_place_other (h : SpatialHash F) (s s' : Nat) (key : HashKey)
    (b : BodyRef F) (hne : s' ≠ s) : (place h s key b).cellAt s' = h.cellAt s' := by
  simp [place, cellAt, List.getD_eq_getElem?_getD, List.getElem?_set_ne (Ne.symm hne)]

theorem SpatialHash.probeSlot_place (h : SpatialHash F) (s : Nat) (key k : HashKey)
    (b : BodyRef F) (d : Nat) : probeSlot (place h s key b) k d = probeSlot h k d := rfl

theorem SpatialHash.tableSize_place (h : SpatialHash F) (s : Nat) (key : HashKey)
    (b : BodyRef F) : (place h s key b).tableSize = h.tableSize := rfl

theorem SpatialHash.cellSize_place (h : SpatialHash F) (s : Nat) (key : HashKey)
    (b : BodyRef F) : (place h s key b).cellSize = h.cellSize := rfl

theorem SpatialHash.itemCount_place (h : SpatialHash F) (s : Nat) (key : HashKey)
    (b : BodyRef F) :
    (place h s key b).itemCount
      = if (h.cellAt s).occupied = true then h.itemCount else h.itemCount + 1 := by
  by_cases hocc : (h.cellAt s).occupied = true <;> simp [place, hocc]

theorem SpatialHash.Stored_place (h : SpatialHash F) (s : Nat) (key : HashKey)
    (b b' : BodyRef F) (hs : s < h.table.length)
    (hstop : (h.cellAt s).occupied = false ∨ (h.cellAt s).key = key)
    (hb' : Stored h b') : Stored (place h s key b) b' := by
  obtain ⟨s0, hs0, hocc, hmem⟩ := hb'
  refine ⟨s0, hs0, ?_, ?_⟩
  · by_cases hne : s0 = s
    · rw [hne, cellAt_place_same h s key b hs hstop]
    · rw [cellAt_place_other h s s0 key b hne]; exact hocc
  · by_cases hne : s0 = s
    · rw [hne, cellAt_place_same h s key b hs hstop]
      rw [hne] at hmem
      simp [hmem]
    · rw [cellAt_place_other h s s0 key b hne]; exact hmem

theorem SpatialHash.Stored_place_self (h : SpatialHash F) (s : Nat) (key : HashKey)
    (b : BodyRef F) (hs : s < h.table.length) (hn : h.table.length = h.tableSize)
    (hstop : (h.cellAt s).occupied = false ∨ (h.cellAt s).key = key) :
    Stored (place h s key b) b := by
  refine ⟨s, by rw [tableSize_place, ← hn]; exact hs, ?_, ?_⟩
  · rw [cellAt_place_same h s key b hs hstop]
  · rw [cellAt_place_same h s key b hs hstop]; simp

theorem SpatialHash.HasKey_place (h : SpatialHash F) (s : Nat) (key k : HashKey)
    (b : BodyRef F) (hs : s < h.table.length)
    (hstop : (h.cellAt s).occupied = false ∨ (h.cellAt s).key = key)
    (hk : HasKey h k) : HasKey (place h s key b) k := by
  obtain ⟨s0, hs0, hocc, hkey⟩ := hk
  by_cases hne : s0 = s
  · rw [hne] at hocc hkey
    refine ⟨s, by rw [← hne]; exact hs0, ?_, ?_⟩
    · rw [cellAt_place_same h s key b hs hstop]
    · rw [cellAt_place_same h s key b hs hstop]
      rcases hstop with hf | hk'
      · rw [hf] at hocc; exact Bool.noConfusion hocc
      · exact hk'.symm.trans hkey
  · exact ⟨s0, hs0, by rw [cellAt_place_other h s s0 key b hne]; exact hocc,
      by rw [cellAt_place_other h s s0 key b hne]; exact hkey⟩

theorem SpatialHash.HasKey_place_self (h : SpatialHash F) (s : Nat) (key : HashKey)
    (b : BodyRef F) (hs : s < h.table.length) (hn : h.table.length = h.tableSize)
    (hstop : (h.cellAt s).occupied = false ∨ (h.cellAt s).key = key) :
    HasKey (place h s key b) key :=
  ⟨s, by rw [tableSize_place, ← hn]; exact hs, by rw [cellAt_place_same h s key b hs hstop],
    by rw [cellAt_place_same h s key b hs hstop]⟩

end GridProbe

section GridInvariant

open SpatialHash

variable {F : Type} [LinearOrderedField F] [FloorRing F]

/-- Writing an entry into the first slot on its probe path that is free or
holds its key keeps the representation invariant. -/
theorem SpatialHash.WF_place (h : SpatialHash F) (hwf : WF h) (b : BodyRef F) (e : Nat)
    (he : e < h.tableSize)
    (hpre : ∀ t, t < e →
      (h.cellAt (probeSlot h (cellKey h.cellSize b.x b.y) t)).occupied = true ∧
      (h.cellAt (probeSlot h (cellKey h.cellSize b.x b.y) t)).key ≠ cellKey h.cellSize b.x b.y)
    (hstop : (h.cellAt (probeSlot h (cellKey h.cellSize b.x b.y) e)).occupied = false ∨
      (h.cellAt (probeSlot h (cellKey h.cellSize b.x b.y) e)).key = cellKey h.cellSize b.x b.y) :
    WF (place h (probeSlot h (cellKey h.cellSize b.x b.y) e) (cellKey h.cellSize b.x b.y) b) := by
  generalize hkeydef : cellKey h.cellSize b.x b.y = key at hpre hstop ⊢
  generalize hsdef : probeSlot h key e = s at hstop ⊢
  have hn := hwf.size_pos
  have hs : s < h.tableSize := by rw [← hsdef]; exact probeSlot_lt h key e hn
  have hsl : s < h.table.length := by rw [hwf.length_eq]; exact hs
  have hsame := cellAt_place_same h s key b hsl hstop
  have hother := fun s' (hne : s' ≠ s) => cellAt_place_other h s s' key b hne
  have hpath : ∀ t, t < e → probeSlot h key t ≠ s := by
    intro t ht heq
    obtain ⟨ho, hk⟩ := hpre t ht
    rw [heq] at ho hk
    rcases hstop with hf | hk'
    · rw [hf] at ho; exact Bool.noConfusion ho
    · exact hk hk'
  refine ⟨hn, ?_, ?_, ?_, ?_, ?_⟩
  · simp [place, hwf.length_eq]
  · -- itemCount
    rw [place_eq h s key b hstop]
    simp only
    by_cases hocc : (h.cellAt s).occupied = true
    · rw [if_pos hocc, hwf.count_eq]
      symm
      exact countP_set_keep _ _ _ _ Cell.empty hsl (by simpa [cellAt] using hocc)
    · have hocc' : (h.cellAt s).occupied = false := by simpa using hocc
      rw [if_neg hocc, hwf.count_eq]
      symm
      exact countP_set_gain _ _ _ _ Cell.empty hsl (by simpa [cellAt] using hocc') rfl
  · -- vacant
    intro s' hs' hfree
    by_cases hne : s' = s
    · rw [hne, hsame] at hfree
      exact Bool.noConfusion hfree
    · rw [hother s' hne] at hfree ⊢
      exact hwf.vacant s' hs' hfree
  · -- keyed
    intro s' hs' hocc b' hb'
    rw [cellSize_place]
    by_cases hne : s' = s
    · rw [hne, hsame] at hb' ⊢
      simp only [List.mem_append, List.mem_singleton] at hb'
      rcases hb' with hold | hnew
      · by_cases ho : (h.cellAt s).occupied = true
        · have hk := hwf.keyed s hs ho b' hold
          rcases hstop with hf | hk'
          · rw [hf] at ho; exact Bool.noConfusion ho
          · exact hk.trans hk'
        · have hv := hwf.vacant s hs (by simpa using ho)
          rw [hv] at hold
          exact absurd hold (List.not_mem_nil _)
      · rw [hnew]; exact hkeydef
    · rw [hother s' hne] at hocc hb' ⊢
      exact hwf.keyed s' hs' hocc b' hb'
  · -- probe
    intro s' hs' hocc
    by_cases hne : s' = s
    · rw [hne]
      refine ⟨e, he, ?_, ?_⟩
      · rw [hsame]; exact hsdef
      · intro t ht
        rw [hsame]
        simp only [probeSlot_place]
        rw [hother _ (hpath t ht)]
        exact hpre t ht
    · rw [hother s' hne] at hocc
      obtain ⟨d, hd, hds, hdpre⟩ := hwf.probe s' hs' hocc
      refine ⟨d, hd, ?_, ?_⟩
      · rw [hother s' hne]; exact hds
      · intro t ht
        rw [hother s' hne]
        simp only [probeSlot_place]
        obtain ⟨ho, hk⟩ := hdpre t ht
        by_cases hts : probeSlot h (h.cellAt s').key t = s
        · rw [hts, hsame]
          rw [hts] at ho hk
          refine ⟨rfl, ?_⟩
          rcases hstop with hf | hk'
          · rw [hf] at ho; exact Bool.noConfusion ho
          · rw [← hk']; exact hk
        · rw [hother _ hts]
          exact ⟨ho, hk⟩

end GridInvariant

section GridInsert

open SpatialHash

variable {F : Type} [LinearOrderedField F] [FloorRing F]

/-- A table with fewer occupied slots than slots has a free slot. -/
theorem SpatialHash.exists_free (h : SpatialHash F) (hwf : WF h)
    (hroom : h.itemCount < h.tableSize) :
    ∃ s, s < h.tableSize ∧ (h.cellAt s).occupied = false := by
  have hlt : h.table.countP (fun c => c.occupied) < h.table.length := by
    rw [← hwf.count_eq, hwf.length_eq]; exact hroom
  have hex : ∃ c ∈ h.table, c.occupied = false := by
    by_contra hcon
    push_neg at hcon
    have hall : ∀ c ∈ h.table, (fun c : Cell F => c.occupied) c = true := by
      intro c hc
      simpa using hcon c hc
    have := List.countP_eq_length.mpr hall
    omega
  obtain ⟨c, hc, hfree⟩ := hex
  obtain ⟨s, hs, hsc⟩ := List.getElem_of_mem hc
  refine ⟨s, by rw [← hwf.length_eq]; exact hs, ?_⟩
  simp [cellAt, List.getD_eq_getElem?_getD, hs, hsc, hfree]

omit [LinearOrderedField F] [FloorRing F] in
/-- On a table with a free slot, probing for `key` meets a first slot that is
free or holds `key`. -/
theorem SpatialHash.exists_stop (h : SpatialHash F) (key : HashKey)
    (hfree : ∃ s, s < h.tableSize ∧ (h.cellAt s).occupied = false) :
    ∃ e, e < h.tableSize ∧
      (∀ t, t < e → (h.cellAt (probeSlot h key t)).occupied = true ∧
        (h.cellAt (probeSlot h key t)).key ≠ key) ∧
      ((h.cellAt (probeSlot h key e)).occupied = false ∨
        (h.cellAt (probeSlot h key e)).key = key) := by
  classical
  obtain ⟨s, hs, hsf⟩ := hfree
  obtain ⟨d, hd, hds⟩ := probeSlot_surj h key s hs
  have hP : ∃ t, (h.cellAt (probeSlot h key t)).occupied = false ∨
      (h.cellAt (probeSlot h key t)).key = key := ⟨d, Or.inl (by rw [hds]; exact hsf)⟩
  refine ⟨Nat.find hP, lt_of_le_of_lt (Nat.find_min' hP (Or.inl (by rw [hds]; exact hsf))) hd,
    ?_, Nat.find_spec hP⟩
  intro t ht
  have := Nat.find_min hP ht
  push_neg at this
  exact ⟨by simpa using this.1, this.2⟩

/-- When the key is present, the first stopping slot of its probe path is the
occupied slot that holds it. -/
theorem SpatialHash.stop_occupied_of_hasKey (h : SpatialHash F) (hwf : WF h) (key : HashKey)
    (hk : HasKey h key) (e : Nat)
    (hpre : ∀ t, t < e → (h.cellAt (probeSlot h key t)).occupied = true ∧
        (h.cellAt (probeSlot h key t)).key ≠ key) :
    (h.cellAt (probeSlot h key e)).occupied = true := by
  obtain ⟨s0, hs0, hocc0, hkey0⟩ := hk
  obtain ⟨d0, _, hd0s, hd0pre⟩ := hwf.probe s0 hs0 hocc0
  rw [hkey0] at hd0s hd0pre
  rcases lt_trichotomy e d0 with hlt | heq | hgt
  · exact (hd0pre e hlt).1
  · rw [heq, hd0s]; exact hocc0
  · have := (hpre d0 hgt).2
    rw [hd0s] at this
    exact absurd hkey0 this

omit [FloorRing F] in
/-- The load test is an integer comparison. -/
theorem SpatialHash.overLoad_false_iff (h : SpatialHash F) :
    overLoad h = false ↔ 4 * h.itemCount < 3 * h.tableSize := by
  unfold overLoad
  rw [decide_eq_false_iff_not, not_le]
  constructor
  · intro hlt
    have h1 : (4 : F) * (h.itemCount : F) < 3 * (h.tableSize : F) := by linarith
    exact_mod_cast h1
  · intro hlt
    have h1 : (4 : F) * (h.itemCount : F) < 3 * (h.tableSize : F) := by exact_mod_cast hlt
    linarith

/-- The part of `insert` after the load test, on a table with a free slot:
no forced resize, the entry goes to the first slot of its probe path that is
free or holds its key. -/
theorem SpatialHash.insertTail_room (h : SpatialHash F) (hwf : WF h) (b : BodyRef F)
    (resize : SpatialHash F → Option (SpatialHash F)) (hlt : h.itemCount < h.tableSize) :
    ∃ e, e < h.tableSize ∧
      (∀ t, t < e →
        (h.cellAt (probeSlot h (cellKey h.cellSize b.x b.y) t)).occupied = true ∧
        (h.cellAt (probeSlot h (cellKey h.cellSize b.x b.y) t)).key
          ≠ cellKey h.cellSize b.x b.y) ∧
      ((h.cellAt (probeSlot h (cellKey h.cellSize b.x b.y) e)).occupied = false ∨
        (h.cellAt (probeSlot h (cellKey h.cellSize b.x b.y) e)).key
          = cellKey h.cellSize b.x b.y) ∧
      insertTail resize h b
        = some (place h (probeSlot h (cellKey h.cellSize b.x b.y) e)
            (cellKey h.cellSize b.x b.y) b) := by
  obtain ⟨e, he, hpre, hstop⟩ :=
    exists_stop h (cellKey h.cellSize b.x b.y) (exists_free h hwf hlt)
  refine ⟨e, he, hpre, hstop, ?_⟩
  have hfind := findSlot_reach h (cellKey h.cellSize b.x b.y) e he hpre hstop
  unfold insertTail
  simp only [hfind, Option.some_bind]
  have hnn : ¬ (((probeSlot h (cellKey h.cellSize b.x b.y) e : Nat) : Int) < 0) := by
    exact not_lt.mpr (Int.ofNat_nonneg _)
  simp only [hnn, if_false, Int.toNat_ofNat]

theorem SpatialHash.insertTail_spec (h : SpatialHash F) (hwf : WF h) (b : BodyRef F)
    (resize : SpatialHash F → Option (SpatialHash F)) (hlt : h.itemCount < h.tableSize) :
    ∃ h1, insertTail resize h b = some h1 ∧ InsertedInPlace h b h1 := by
  obtain ⟨e, he, hpre, hstop, heq⟩ := insertTail_room h hwf b resize hlt
  refine ⟨_, heq, ?_⟩
  have hsl : probeSlot h (cellKey h.cellSize b.x b.y) e < h.table.length := by
    rw [hwf.length_eq]; exact probeSlot_lt h _ e hwf.size_pos
  refine ⟨WF_place h hwf b e he hpre hstop, rfl, rfl, ?_, ?_, ?_, ?_, ?_, ?_⟩
  · exact fun b' hb' => Stored_place h _ _ b b' hsl hstop hb'
  · exact Stored_place_self h _ _ b hsl hwf.length_eq hstop
  · exact fun k hk => HasKey_place h _ _ k b hsl hstop hk
  · exact HasKey_place_self h _ _ b hsl hwf.length_eq hstop
  · rw [itemCount_place]; split_ifs <;> omega
  · intro hk
    rw [itemCount_place, if_pos (stop_occupied_of_hasKey h hwf _ hk e hpre)]

/-- `insert` on a table below the load threshold does not resize. -/
theorem SpatialHash.insertFuel_room (h : SpatialHash F) (hwf : WF h) (b : BodyRef F)
    (fuel : Nat) (hroom : overLoad h = false) :
    ∃ h1, insertFuel (fuel + 1) h b = some h1 ∧ InsertedInPlace h b h1 := by
  have hlt : h.itemCount < h.tableSize := by
    have := (overLoad_false_iff h).mp hroom
    omega
  obtain ⟨h1, heq, hins⟩ := insertTail_spec h hwf b (resizeWith (insertFuel fuel)) hlt
  refine ⟨h1, ?_, hins⟩
  unfold insertFuel
  simp only [hroom, Bool.false_eq_true, if_false, Option.some_bind, heq]

end GridInsert

section GridResize

open SpatialHash

variable {F : Type} [LinearOrderedField F] [FloorRing F]

omit [LinearOrderedField F] [FloorRing F] in
theorem SpatialHash.cellAt_replicate (m : Nat) (cs : F) (tsz cnt s : Nat) :
    ({ table := List.replicate m Cell.empty, cellSize := cs, tableSize := tsz,
       itemCount := cnt } : SpatialHash F).cellAt s = Cell.empty := by
  simp only [cellAt, List.getD_eq_getElem?_getD]
  by_cases hs : s < m
  · simp [List.getElem?_replicate, hs]
  · simp [List.getElem?_replicate, hs]

/-- The empty table that `resize` (and the constructor) starts from satisfies
the invariant. -/
theorem SpatialHash.WF_fresh (m : Nat) (hm : 0 < m) (cs : F) :
    WF ({ table := List.replicate m Cell.empty, cellSize := cs, tableSize := m,
          itemCount := 0 } : SpatialHash F) := by
  refine ⟨hm, by simp, ?_, ?_, ?_, ?_⟩
  · simp [List.countP_replicate, Cell.empty]
  · intro s _ _; rw [cellAt_replicate]; rfl
  · intro s _ hocc; rw [cellAt_replicate] at hocc; exact Bool.noConfusion hocc
  · intro s _ hocc; rw [cellAt_replicate] at hocc; exact Bool.noConfusion hocc

/-- The inner loop of `resize`: re-inserting the entries of one old slot, all
of which have cell key `k`, into a table with room claims at most one slot. -/
theorem SpatialHash.reinsert_cell (fuel : Nat) (k : HashKey) (c : Nat) (bs : List (BodyRef F)) :
    ∀ acc : SpatialHash F, WF acc → (∀ b ∈ bs, cellKey acc.cellSize b.x b.y = k) →
      (acc.itemCount ≤ c ∨ (acc.itemCount ≤ c + 1 ∧ HasKey acc k)) →
      4 * (c + 1) < 3 * acc.tableSize →
      ∃ acc1, bs.foldlM (insertFuel (fuel + 1)) acc = some acc1 ∧ WF acc1 ∧
        acc1.tableSize = acc.tableSize ∧ acc1.cellSize = acc.cellSize ∧
        (acc1.itemCount ≤ c ∨ (acc1.itemCount ≤ c + 1 ∧ HasKey acc1 k)) ∧
        (∀ b', Stored acc b' → Stored acc1 b') ∧ (∀ b ∈ bs, Stored acc1 b) := by
  induction bs with
  | nil =>
    intro acc hwf _ hcnt _
    exact ⟨acc, rfl, hwf, rfl, rfl, hcnt, fun _ hb => hb, fun _ hb => absurd hb (List.not_mem_nil _)⟩
  | cons b rest ih =>
    intro acc hwf hkeys hcnt hsize
    have hroom : overLoad acc = false := by
      rw [overLoad_false_iff]
      rcases hcnt with h1 | ⟨h1, _⟩ <;> omega
    obtain ⟨acc0, heq, hins⟩ := insertFuel_room acc hwf b fuel hroom
    have hkb : cellKey acc.cellSize b.x b.y = k := hkeys b (List.mem_cons_self _ _)
    have hcnt0 : acc0.itemCount ≤ c ∨ (acc0.itemCount ≤ c + 1 ∧ HasKey acc0 k) := by
      refine Or.inr ⟨?_, hkb ▸ hins.hasKey_self⟩
      rcases hcnt with h1 | ⟨h1, hk⟩
      · have := hins.count_le; omega
      · have := hins.count_eq (hkb ▸ hk); omega
    obtain ⟨acc1, heq1, hwf1, hts1, hcs1, hcnt1, hmono1, hall1⟩ :=
      ih acc0 hins.wf
        (fun b' hb' => by rw [hins.cellSize_eq]; exact hkeys b' (List.mem_cons_of_mem _ hb'))
        hcnt0 (by rw [hins.tableSize_eq]; exact hsize)
    refine ⟨acc1, ?_, hwf1, hts1.trans hins.tableSize_eq, hcs1.trans hins.cellSize_eq, hcnt1,
      fun b' hb' => hmono1 b' (hins.stored_mono b' hb'), ?_⟩
    · simp only [List.foldlM_cons, heq, Option.bind_eq_bind, Option.some_bind, heq1]
    · intro b' hb'
      rcases List.mem_cons.mp hb' with rfl | hr
      · exact hmono1 _ hins.stored_self
      · exact hall1 b' hr

/-- The outer loop of `resize` over the old slots. -/
theorem SpatialHash.reinsert_cells (fuel : Nat) (n : Nat) (cs : F) (cells : List (Cell F)) :
    ∀ (m : Nat) (acc : SpatialHash F), WF acc → acc.tableSize = 2 * n → acc.cellSize = cs →
      acc.itemCount ≤ m → m + cells.length ≤ n →
      (∀ cell ∈ cells, cell.occupied = true → ∀ b ∈ cell.bodies, cellKey cs b.x b.y = cell.key) →
      ∃ acc1, cells.foldlM
          (fun acc cell =>
            if cell.occupied then cell.bodies.foldlM (insertFuel (fuel + 1)) acc else some acc)
          acc = some acc1 ∧
        WF acc1 ∧ acc1.tableSize = 2 * n ∧ acc1.cellSize = cs ∧
        acc1.itemCount ≤ m + cells.length ∧
        (∀ b', Stored acc b' → Stored acc1 b') ∧
        (∀ cell ∈ cells, cell.occupied = true → ∀ b ∈ cell.bodies, Stored acc1 b) := by
  induction cells with
  | nil =>
    intro m acc hwf hts hcs hcnt _ _
    exact ⟨acc, rfl, hwf, hts, hcs, by simpa using hcnt, fun _ hb => hb,
      fun _ hc => absurd hc (List.not_mem_nil _)⟩
  | cons cell rest ih =>
    intro m acc hwf hts hcs hcnt hlen hkeys
    simp only [List.length_cons] at hlen
    by_cases hocc : cell.occupied = true
    · obtain ⟨acc0, heq0, hwf0, hts0, hcs0, hcnt0, hmono0, hall0⟩ :=
        reinsert_cell fuel cell.key m cell.bodies acc hwf
          (fun b hb => by rw [hcs]; exact hkeys cell (List.mem_cons_self _ _) hocc b hb)
          (Or.inl hcnt) (by rw [hts]; omega)
      have hcnt0' : acc0.itemCount ≤ m + 1 := by
        rcases hcnt0 with h1 | ⟨h1, _⟩ <;> omega
      obtain ⟨acc1, heq1, hwf1, hts1, hcs1, hcnt1, hmono1, hall1⟩ :=
        ih (m + 1) acc0 hwf0 (hts0.trans hts) (hcs0.trans hcs) hcnt0' (by omega)
          (fun c hc => hkeys c (List.mem_cons_of_mem _ hc))
      refine ⟨acc1, ?_, hwf1, hts1, hcs1, by simp only [List.length_cons]; omega,
        fun b' hb' => hmono1 b' (hmono0 b' hb'), ?_⟩
      · simp only [List.foldlM_cons, hocc, if_true, heq0, Option.bind_eq_bind, Option.some_bind,
          heq1]
      · intro c hc hco b hb
        rcases List.mem_cons.mp hc with rfl | hr
        · exact hmono1 b (hall0 b hb)
        · exact hall1 c hr hco b hb
    · obtain ⟨acc1, heq1, hwf1, hts1, hcs1, hcnt1, hmono1, hall1⟩ :=
        ih (m + 1) acc hwf hts hcs (by omega) (by omega)
          (fun c hc => hkeys c (List.mem_cons_of_mem _ hc))
      refine ⟨acc1, ?_, hwf1, hts1, hcs1, by simp only [List.length_cons]; omega, hmono1, ?_⟩
      · simp only [List.foldlM_cons, hocc, Bool.false_eq_true, if_false, Option.bind_eq_bind,
          Option.some_bind, heq1]
      · intro c hc hco b hb
        rcases List.mem_cons.mp hc with rfl | hr
        · exact absurd hco hocc
        · exact hall1 c hr hco b hb

/-- `resize` on a table that satisfies the invariant: it returns a table of
twice the size that satisfies the invariant, keeps every stored entry, and
has at most as many occupied slots as the old table had slots. -/
theorem SpatialHash.resize_spec (h : SpatialHash F) (hwf : WF h) (fuel : Nat) :
    ∃ h1, resizeWith (insertFuel (fuel + 1)) h = some h1 ∧ WF h1 ∧
      h1.tableSize = 2 * h.tableSize ∧ h1.cellSize = h.cellSize ∧
      h1.itemCount ≤ h.tableSize ∧ (∀ b, Stored h b → Stored h1 b) := by
  have hn := hwf.size_pos
  have hkeys : ∀ cell ∈ h.table, cell.occupied = true →
      ∀ b ∈ cell.bodies, cellKey h.cellSize b.x b.y = cell.key := by
    intro cell hc hocc b hb
    obtain ⟨s, hs, hsc⟩ := List.getElem_of_mem hc
    have hcell : h.cellAt s = cell := by
      simp [cellAt, List.getD_eq_getElem?_getD, hs, hsc]
    have := hwf.keyed s (by rw [← hwf.length_eq]; exact hs) (by rw [hcell]; exact hocc) b
      (by rw [hcell]; exact hb)
    rw [hcell] at this
    exact this
  obtain ⟨h1, heq, hwf1, hts1, hcs1, hcnt1, _, hall1⟩ :=
    reinsert_cells fuel h.tableSize h.cellSize h.table 0
      ({ h with tableSize := h.tableSize * 2,
                table := List.replicate (h.tableSize * 2) Cell.empty,
                itemCount := 0 } : SpatialHash F)
      (WF_fresh (h.tableSize * 2) (by omega) h.cellSize) (by simp; omega) rfl (Nat.le_refl 0)
      (by rw [hwf.length_eq]; omega) hkeys
  refine ⟨h1, heq, hwf1, hts1, hcs1, ?_, ?_⟩
  · rw [hwf.length_eq] at hcnt1; omega
  · intro b ⟨s, hs, hocc, hmem⟩
    have hsl : s < h.table.length := by rw [hwf.length_eq]; exact hs
    have hcell : h.cellAt s = h.table[s] := by
      simp [cellAt, List.getD_eq_getElem?_getD, hsl]
    rw [hcell] at hocc hmem
    exact hall1 _ (List.getElem_mem hsl) hocc b hmem

end GridResize

section GridQuery

open SpatialHash

variable {F : Type} [LinearOrderedField F] [FloorRing F]

/-- `insert` with nesting bound at least 2 on a table that satisfies the
invariant returns a table that satisfies it, with the same cell size, every
old entry and the new one. -/
theorem SpatialHash.insertFuel_spec (h : SpatialHash F) (hwf : WF h) (b : BodyRef F)
    (fuel : Nat) (hfuel : 2 ≤ fuel) :
    ∃ h1, insertFuel fuel h b = some h1 ∧ WF h1 ∧ h1.cellSize = h.cellSize ∧
      (∀ b', Stored h b' → Stored h1 b') ∧ Stored h1 b := by
  obtain ⟨f, rfl⟩ : ∃ f, fuel = f + 2 := ⟨fuel - 2, by omega⟩
  cases hload : overLoad h with
  | false =>
    obtain ⟨h1, heq, hins⟩ := insertFuel_room h hwf b (f + 1) hload
    exact ⟨h1, heq, hins.wf, hins.cellSize_eq, hins.stored_mono, hins.stored_self⟩
  | true =>
    obtain ⟨h0, heq0, hwf0, hts0, hcs0, hcnt0, hmono0⟩ := resize_spec h hwf f
    have hlt : h0.itemCount < h0.tableSize := by
      have := hwf.size_pos
      omega
    obtain ⟨h1, heq1, hins⟩ := insertTail_spec h0 hwf0 b (resizeWith (insertFuel (f + 1))) hlt
    refine ⟨h1, ?_, hins.wf, hins.cellSize_eq.trans hcs0,
      fun b' hb' => hins.stored_mono b' (hmono0 b' hb'), hins.stored_self⟩
    rw [insertFuel]
    simp only [hload, if_true, heq0, Option.some_bind, heq1]

theorem SpatialHash.insertAll_spec (fuel : Nat) (hfuel : 2 ≤ fuel) (bs : List (BodyRef F)) :
    ∀ h : SpatialHash F, WF h →
      ∃ h1, insertAll fuel h bs = some h1 ∧ WF h1 ∧ h1.cellSize = h.cellSize ∧
        (∀ b', Stored h b' → Stored h1 b') ∧ ∀ b ∈ bs, Stored h1 b := by
  induction bs with
  | nil =>
    intro h hwf
    exact ⟨h, rfl, hwf, rfl, fun _ hb => hb, fun _ hb => absurd hb (List.not_mem_nil _)⟩
  | cons b rest ih =>
    intro h hwf
    obtain ⟨h0, heq0, hwf0, hcs0, hmono0, hself0⟩ := insertFuel_spec h hwf b fuel hfuel
    obtain ⟨h1, heq1, hwf1, hcs1, hmono1, hall1⟩ := ih h0 hwf0
    refine ⟨h1, ?_, hwf1, hcs1.trans hcs0, fun b' hb' => hmono1 b' (hmono0 b' hb'), ?_⟩
    · unfold insertAll at heq1 ⊢
      simp only [List.foldlM_cons, heq0, Option.bind_eq_bind, Option.some_bind, heq1]
    · intro b' hb'
      rcases List.mem_cons.mp hb' with rfl | hr
      · exact hmono1 _ hself0
      · exact hall1 b' hr

omit [LinearOrderedField F] [FloorRing F] in
theorem SpatialHash.cellAt_clear (g : SpatialHash F) (s : Nat) :
    ((clear g).cellAt s).occupied = false ∧ ((clear g).cellAt s).bodies = [] := by
  simp only [cellAt, clear, List.getD_eq_getElem?_getD, List.getElem?_map]
  cases g.table[s]? <;> simp [Cell.empty]

/-- After `clear()` the invariant holds on every table with as many slots as
`tableSize`, a positive number. -/
theorem SpatialHash.WF_clear (g : SpatialHash F) (hlen : g.table.length = g.tableSize)
    (hpos : 0 < g.tableSize) : WF (clear g) := by
  refine ⟨hpos, by simp [clear, hlen], ?_, ?_, ?_, ?_⟩
  · show (0 : Nat) = List.countP (fun c => c.occupied) (clear g).table
    symm
    rw [List.countP_eq_zero]
    intro c hc
    simp only [clear, List.mem_map] at hc
    obtain ⟨c0, _, rfl⟩ := hc
    simp
  · intro s _ _; exact (cellAt_clear g s).2
  · intro s _ hocc; rw [(cellAt_clear g s).1] at hocc; exact Bool.noConfusion hocc
  · intro s _ hocc; rw [(cellAt_clear g s).1] at hocc; exact Bool.noConfusion hocc

theorem SpatialHash.mem_setInsert (x v : Int) (l : List Int) :
    x ∈ setInsert v l ↔ x = v ∨ x ∈ l := by
  induction l with
  | nil => simp [setInsert]
  | cons a rest ih =>
    unfold setInsert
    split_ifs with h1 h2
    · simp
    · subst h2; simp
    · simp only [List.mem_cons, ih]
      tauto

theorem SpatialHash.mem_uniqueIds (x : Int) (l : List Int) : x ∈ uniqueIds l ↔ x ∈ l := by
  have key : ∀ s : List Int,
      x ∈ l.foldl (fun s v => setInsert v s) s ↔ x ∈ s ∨ x ∈ l := by
    induction l with
    | nil => intro s; simp
    | cons a rest ih =>
      intro s
      simp only [List.foldl_cons, ih, mem_setInsert, List.mem_cons]
      tauto
  simpa [uniqueIds] using key []

/-- A loop in `Option` whose steps only append to the accumulator returns,
and its result extends the initial accumulator. -/
theorem foldlM_append_some {α : Type} (f : List Int → α → Option (List Int)) (l : List α)
    (hf : ∀ out x, x ∈ l → ∃ extra, f out x = some (out ++ extra)) :
    ∀ out, ∃ extra, l.foldlM f out = some (out ++ extra) := by
  induction l with
  | nil => intro out; exact ⟨[], by simp⟩
  | cons a rest ih =>
    intro out
    obtain ⟨e1, h1⟩ := hf out a (List.mem_cons_self _ _)
    obtain ⟨e2, h2⟩ := ih (fun o x hx => hf o x (List.mem_cons_of_mem _ hx)) (out ++ e1)
    exact ⟨e1 ++ e2, by
      simp only [List.foldlM_cons, h1, Option.bind_eq_bind, Option.some_bind, h2,
        List.append_assoc]⟩

/-- If moreover the step for one element `x0` of the list always appends `v`,
then `v` is among what the loop appended. -/
theorem foldlM_append_mem {α : Type} (f : List Int → α → Option (List Int)) (l : List α)
    (hf : ∀ out x, x ∈ l → ∃ extra, f out x = some (out ++ extra)) (v : Int) (x0 : α)
    (hx0 : x0 ∈ l) (hv : ∀ out, ∃ extra, f out x0 = some (out ++ extra) ∧ v ∈ extra) :
    ∀ out, ∃ extra, l.foldlM f out = some (out ++ extra) ∧ v ∈ extra := by
  induction l with
  | nil => exact absurd hx0 (List.not_mem_nil _)
  | cons a rest ih =>
    intro out
    rcases List.mem_cons.mp hx0 with rfl | hr
    · obtain ⟨e1, h1, hv1⟩ := hv out
      obtain ⟨e2, h2⟩ :=
        foldlM_append_some f rest (fun o x hx => hf o x (List.mem_cons_of_mem _ hx)) (out ++ e1)
      exact ⟨e1 ++ e2, by
        simp only [List.foldlM_cons, h1, Option.bind_eq_bind, Option.some_bind, h2,
          List.append_assoc], List.mem_append_left _ hv1⟩
    · obtain ⟨e1, h1⟩ := hf out a (List.mem_cons_self _ _)
      obtain ⟨e2, h2, hv2⟩ :=
        ih (fun o x hx => hf o x (List.mem_cons_of_mem _ hx)) hr (out ++ e1)
      exact ⟨e1 ++ e2, by
        simp only [List.foldlM_cons, h1, Option.bind_eq_bind, Option.some_bind, h2,
          List.append_assoc], List.mem_append_right _ hv2⟩

omit [FloorRing F] in
/-- The ids that the entries of one slot contribute to a query. -/
theorem SpatialHash.foldl_hits (qx qy qr : F) (bodies : List (BodyRef F)) (out : List Int) :
    bodies.foldl
      (fun out body => if Quadtree.hitsQuery qx qy qr body then out ++ [body.id] else out) out
      = out ++ (bodies.filter (Quadtree.hitsQuery qx qy qr)).map (fun b => b.id) := by
  induction bodies generalizing out with
  | nil => simp
  | cons b rest ih =>
    simp only [List.foldl_cons, ih, List.filter_cons]
    split_ifs <;> simp

omit [FloorRing F] in
/-- The probe loop of `query` always returns, and only appends to `outIds`. -/
theorem SpatialHash.queryLoop_some (h : SpatialHash F) (key : HashKey) (qx qy qr : F)
    (out : List Int) :
    ∀ fuel d, 0 < fuel → fuel + d = h.tableSize →
      ∃ extra, queryLoop h key qx qy qr (hashKey key % h.tableSize) fuel (probeSlot h key d) out
        = some (out ++ extra) := by
  intro fuel
  induction fuel with
  | zero => intro d hf; omega
  | succ fuel ih =>
    intro d _ hsum
    unfold queryLoop
    by_cases hocc : (h.cellAt (probeSlot h key d)).occupied = true
    · by_cases hk : (h.cellAt (probeSlot h key d)).key = key
      · simp only [hocc, if_true, hk, foldl_hits]
        exact ⟨_, rfl⟩
      · simp only [hocc, if_true, hk, if_false, probeSlot_succ]
        by_cases hst : probeSlot h key (d + 1) = hashKey key % h.tableSize
        · simp only [hst, if_true]
          exact ⟨[], by simp⟩
        · simp only [hst, if_false]
          have hfpos : 0 < fuel := by
            rcases Nat.eq_zero_or_pos fuel with h0 | h0
            · subst h0
              have : d + 1 = h.tableSize := by omega
              rw [this, probeSlot_full] at hst
              exact absurd rfl hst
            · exact h0
          exact ih (d + 1) hfpos (by omega)
    · simp only [hocc]
      exact ⟨[], by simp⟩

omit [FloorRing F] in
/-- The probe loop of `query`, started on the probe path before the slot `e`
that holds the key, appends the hits of that slot. -/
theorem SpatialHash.queryLoop_reach (h : SpatialHash F) (key : HashKey) (qx qy qr : F)
    (out : List Int) (e : Nat) (he : e < h.tableSize)
    (hpre : ∀ t, t < e → (h.cellAt (probeSlot h key t)).occupied = true ∧
      (h.cellAt (probeSlot h key t)).key ≠ key)
    (hocc : (h.cellAt (probeSlot h key e)).occupied = true)
    (hkey : (h.cellAt (probeSlot h key e)).key = key) :
    ∀ fuel d, d ≤ e → e - d < fuel →
      queryLoop h key qx qy qr (hashKey key % h.tableSize) fuel (probeSlot h key d) out
        = some (out ++ ((h.cellAt (probeSlot h key e)).bodies.filter
            (Quadtree.hitsQuery qx qy qr)).map (fun b => b.id)) := by
  intro fuel
  induction fuel with
  | zero => intro d _ hf; omega
  | succ fuel ih =>
    intro d hde hf
    rcases Nat.lt_or_ge d e with hlt | hge
    · obtain ⟨hocc1, hkey1⟩ := hpre d hlt
      have hne := probeSlot_ne_start h key (d + 1) (by omega) (by omega)
      unfold queryLoop
      simp only [hocc1, if_true, hkey1, if_false, probeSlot_succ, hne]
      exact ih (d + 1) (by omega) (by omega)
    · have hd : d = e := le_antisymm hde hge
      subst hd
      unfold queryLoop
      simp only [hocc, if_true, hkey, foldl_hits]

omit [FloorRing F] in
theorem SpatialHash.queryCell_some (h : SpatialHash F) (hn : 0 < h.tableSize) (qx qy qr : F)
    (i j : Int) (out : List Int) :
    ∃ extra, queryCell h qx qy qr i j out = some (out ++ extra) := by
  have := queryLoop_some h ⟨i, j⟩ qx qy qr out h.tableSize 0 hn (by omega)
  rw [probeSlot_zero] at this
  exact this

/-- The probe of `query` for the cell of a stored entry that passes the
overlap test appends the entry's id. -/
theorem SpatialHash.queryCell_finds (h : SpatialHash F) (hwf : WF h) (b : BodyRef F)
    (hst : Stored h b) (qx qy qr : F) (hhit : Quadtree.hitsQuery qx qy qr b = true)
    (out : List Int) :
    ∃ extra, queryCell h qx qy qr (cellKey h.cellSize b.x b.y).i (cellKey h.cellSize b.x b.y).j out
      = some (out ++ extra) ∧ b.id ∈ extra := by
  obtain ⟨s, hs, hocc, hmem⟩ := hst
  have hkey := hwf.keyed s hs hocc b hmem
  obtain ⟨d, hd, hds, hdpre⟩ := hwf.probe s hs hocc
  rw [← hkey] at hds hdpre
  have hreach := queryLoop_reach h (cellKey h.cellSize b.x b.y) qx qy qr out d hd hdpre
    (by rw [hds]; exact hocc) (by rw [hds]; exact hkey.symm) h.tableSize 0 (Nat.zero_le _)
    (by omega)
  rw [probeSlot_zero, hds] at hreach
  refine ⟨_, hreach, ?_⟩
  exact List.mem_map.mpr ⟨b, List.mem_filter.mpr ⟨hmem, hhit⟩, rfl⟩

/-- `query` returns the id of every stored entry that passes the overlap test
and whose cell lies in the 3x3 block around the cell of the query point. -/
theorem SpatialHash.query_finds (h : SpatialHash F) (hwf : WF h) (b : BodyRef F)
    (hst : Stored h b) (qx qy qr : F) (hhit : Quadtree.hitsQuery qx qy qr b = true)
    (hi : -1 ≤ ⌊b.x / h.cellSize⌋ - ⌊qx / h.cellSize⌋ ∧ ⌊b.x / h.cellSize⌋ - ⌊qx / h.cellSize⌋ ≤ 1)
    (hj : -1 ≤ ⌊b.y / h.cellSize⌋ - ⌊qy / h.cellSize⌋ ∧ ⌊b.y / h.cellSize⌋ - ⌊qy / h.cellSize⌋ ≤ 1) :
    ∃ ids, query h qx qy qr = some ids ∧ b.id ∈ ids := by
  have hn := hwf.size_pos
  have hmemI : ⌊b.x / h.cellSize⌋ - ⌊qx / h.cellSize⌋ ∈ ([-1, 0, 1] : List Int) := by
    simp only [List.mem_cons, List.mem_singleton, List.not_mem_nil, or_false]; omega
  have hmemJ : ⌊b.y / h.cellSize⌋ - ⌊qy / h.cellSize⌋ ∈ ([-1, 0, 1] : List Int) := by
    simp only [List.mem_cons, List.mem_singleton, List.not_mem_nil, or_false]; omega
  have hinner : ∀ di out, ∃ extra, ([-1, 0, 1] : List Int).foldlM
      (fun out2 dj => queryCell h qx qy qr (⌊qx / h.cellSize⌋ + di) (⌊qy / h.cellSize⌋ + dj) out2)
      out = some (out ++ extra) :=
    fun di out => foldlM_append_some _ _ (fun o dj _ => queryCell_some h hn qx qy qr _ _ o) out
  have hfound : ∀ out, ∃ extra, ([-1, 0, 1] : List Int).foldlM
      (fun out2 dj => queryCell h qx qy qr
        (⌊qx / h.cellSize⌋ + (⌊b.x / h.cellSize⌋ - ⌊qx / h.cellSize⌋))
        (⌊qy / h.cellSize⌋ + dj) out2)
      out = some (out ++ extra) ∧ b.id ∈ extra := by
    intro out
    refine foldlM_append_mem _ _ (fun o dj _ => queryCell_some h hn qx qy qr _ _ o) b.id
      (⌊b.y / h.cellSize⌋ - ⌊qy / h.cellSize⌋) hmemJ ?_ out
    intro o
    have := queryCell_finds h hwf b hst qx qy qr hhit o
    simp only [cellKey] at this
    rw [show ⌊qx / h.cellSize⌋ + (⌊b.x / h.cellSize⌋ - ⌊qx / h.cellSize⌋) = ⌊b.x / h.cellSize⌋
      by ring, show ⌊qy / h.cellSize⌋ + (⌊b.y / h.cellSize⌋ - ⌊qy / h.cellSize⌋)
      = ⌊b.y / h.cellSize⌋ by ring]
    exact this
  obtain ⟨extra, heq, hv⟩ := foldlM_append_mem
    (fun out1 di => ([-1, 0, 1] : List Int).foldlM
      (fun out2 dj => queryCell h qx qy qr (⌊qx / h.cellSize⌋ + di) (⌊qy / h.cellSize⌋ + dj) out2)
      out1)
    [-1, 0, 1] (fun o di _ => hinner di o) b.id (⌊b.x / h.cellSize⌋ - ⌊qx / h.cellSize⌋) hmemI
    hfound []
  refine ⟨uniqueIds ([] ++ extra), ?_, ?_⟩
  · unfold query
    simp only [heq, Option.map_some']
  · rw [mem_uniqueIds]; simpa using hv

end GridQuery

section GridCompleteness

open SpatialHash

variable {F : Type} [LinearOrderedField F] [FloorRing F]

/-- Two numbers closer than the cell size fall into the same or into adjacent
cells. -/
theorem floor_div_near (c x q : F) (hc : 0 < c) (hd : |x - q| < c) :
    -1 ≤ ⌊x / c⌋ - ⌊q / c⌋ ∧ ⌊x / c⌋ - ⌊q / c⌋ ≤ 1 := by
  obtain ⟨hlo, hhi⟩ := abs_lt.mp hd
  have h1 : x / c < q / c + 1 := by
    rw [div_lt_iff₀ hc]
    have : (q / c + 1) * c = q + c := by field_simp
    linarith
  have h2 : q / c < x / c + 1 := by
    rw [div_lt_iff₀ hc]
    have : (x / c + 1) * c = x + c := by field_simp
    linarith
  have hx := Int.floor_le (x / c)
  have hx' := Int.lt_floor_add_one (x / c)
  have hq := Int.floor_le (q / c)
  have hq' := Int.lt_floor_add_one (q / c)
  have a1 : (⌊x / c⌋ : F) < (⌊q / c⌋ : F) + 2 := by linarith
  have a2 : (⌊q / c⌋ : F) < (⌊x / c⌋ : F) + 2 := by linarith
  have b1 : ⌊x / c⌋ < ⌊q / c⌋ + 2 := by exact_mod_cast a1
  have b2 : ⌊q / c⌋ < ⌊x / c⌋ + 2 := by exact_mod_cast a2
  constructor <;> omega

omit [FloorRing F] in
theorem abs_lt_of_sq_dist_lt (dx dy d : F) (hd : 0 < d) (h : dx ^ 2 + dy ^ 2 < d ^ 2) :
    |dx| < d := by
  rw [abs_lt]
  constructor <;> nlinarith [sq_nonneg dy, sq_nonneg (dx + d), sq_nonneg (dx - d)]

/-- C2.  Let `r > 0` and let the grid have cell size `max(2r, 1)` (and a table
of `tableSize > 0` slots).  After `clear()` and the insertion of any sequence
of radius-`r` entries, with nesting bound at least 2 for `insert`/`resize`,
every insertion returns, and for every query point `query(qx, qy, 2r)`
returns a list that holds the id of every inserted entry whose centre is at
squared distance less than `(2r)^2` from the query point. -/
theorem grid_query_finds_overlapping (r : F) (hr : 0 < r) (g : SpatialHash F)
    (hlen : g.table.length = g.tableSize) (hpos : 0 < g.tableSize)
    (hcs : g.cellSize = max (2 * r) 1) (es : List (BodyRef F)) (hes : ∀ e ∈ es, e.r = r)
    (fuel : Nat) (hfuel : 2 ≤ fuel) (qx qy : F) :
    ∃ g1 ids, insertAll fuel (clear g) es = some g1 ∧ query g1 qx qy (2 * r) = some ids ∧
      ∀ e ∈ es, (e.x - qx) ^ 2 + (e.y - qy) ^ 2 < (2 * r) ^ 2 → e.id ∈ ids := by
  obtain ⟨g1, heq, hwf1, hcs1, _, hall⟩ :=
    insertAll_spec fuel hfuel es (clear g) (WF_clear g hlen hpos)
  have hn := hwf1.size_pos
  have hcell : g1.cellSize = max (2 * r) 1 := by rw [hcs1]; exact hcs
  have hcpos : 0 < g1.cellSize := by rw [hcell]; exact lt_max_of_lt_right one_pos
  have hc2r : 2 * r ≤ g1.cellSize := by rw [hcell]; exact le_max_left _ _
  obtain ⟨ids0, hq0⟩ : ∃ ids0, query g1 qx qy (2 * r) = some ids0 := by
    have h3 := foldlM_append_some
      (fun out1 di => ([-1, 0, 1] : List Int).foldlM
        (fun out2 dj => queryCell g1 qx qy (2 * r) (⌊qx / g1.cellSize⌋ + di)
          (⌊qy / g1.cellSize⌋ + dj) out2) out1)
      [-1, 0, 1]
      (fun o di _ => foldlM_append_some _ _
        (fun o2 dj _ => queryCell_some g1 hn qx qy (2 * r) _ _ o2) o) []
    obtain ⟨extra, hex⟩ := h3
    exact ⟨uniqueIds ([] ++ extra), by unfold query; simp only [hex, Option.map_some']⟩
  refine ⟨g1, ids0, heq, hq0, ?_⟩
  intro e he hdist
  have hhit : Quadtree.hitsQuery qx qy (2 * r) e = true := by
    simp only [Quadtree.hitsQuery, decide_eq_true_eq, hes e he]
    nlinarith [hdist, mul_pos hr hr]
  have hx : |e.x - qx| < g1.cellSize :=
    lt_of_lt_of_le (abs_lt_of_sq_dist_lt _ _ _ (by linarith) hdist) hc2r
  have hy : |e.y - qy| < g1.cellSize :=
    lt_of_lt_of_le (abs_lt_of_sq_dist_lt _ _ _ (by linarith)
      (by rw [add_comm]; exact hdist)) hc2r
  obtain ⟨ids, hq, hmem⟩ := query_finds g1 hwf1 e (hall e he) qx qy (2 * r) hhit
    (floor_div_near _ _ _ hcpos hx) (floor_div_near _ _ _ hcpos hy)
  rw [hq0] at hq
  rw [Option.some.inj hq]
  exact hmem

/-- C2 at the grid of `EngineHash(800, 600, 5)` with three entries. -/
theorem grid_query_finds_overlapping_witness :
    ((0 : ℚ) < 5 ∧
      (SpatialHash.new (max (2 * 5) 1) : SpatialHash ℚ).table.length
        = (SpatialHash.new (max (2 * 5) 1) : SpatialHash ℚ).tableSize ∧
      0 < (SpatialHash.new (max (2 * 5) 1) : SpatialHash ℚ).tableSize ∧
      (SpatialHash.new (max (2 * 5) 1) : SpatialHash ℚ).cellSize = max (2 * 5) 1 ∧
      (∀ e ∈ ([⟨0, 394, 100, 5⟩, ⟨1, 400, 100, 5⟩, ⟨2, 50, 50, 5⟩] : List (BodyRef ℚ)), e.r = 5) ∧
      2 ≤ 2) ∧
    ∃ g1 ids,
      insertAll 2 (clear (SpatialHash.new (max (2 * 5) 1) : SpatialHash ℚ))
        [⟨0, 394, 100, 5⟩, ⟨1, 400, 100, 5⟩, ⟨2, 50, 50, 5⟩] = some g1 ∧
      query g1 394 100 (2 * 5) = some ids ∧
      ∀ e ∈ ([⟨0, 394, 100, 5⟩, ⟨1, 400, 100, 5⟩, ⟨2, 50, 50, 5⟩] : List (BodyRef ℚ)),
        (e.x - 394) ^ 2 + (e.y - 100) ^ 2 < (2 * 5) ^ 2 → e.id ∈ ids :=
  ⟨by decide!, grid_query_finds_overlapping 5 (by norm_num) _ (by decide!) (by decide!)
    (by decide!) _ (by decide!) 2 (le_refl 2) 394 100⟩

end GridCompleteness

section GridBlock

open SpatialHash

variable {F : Type} [LinearOrderedField F] [FloorRing F]

end GridBlock

section GridExact

open SpatialHash

variable {F : Type} [LinearOrderedField F] [FloorRing F]

omit [LinearOrderedField F] [FloorRing F] in
theorem SpatialHash.Stored_place_only (h : SpatialHash F) (s : Nat) (key : HashKey)
    (b b' : BodyRef F) (hs : s < h.table.length)
    (hstop : (h.cellAt s).occupied = false ∨ (h.cellAt s).key = key)
    (hvac : (h.cellAt s).occupied = false → (h.cellAt s).bodies = [])
    (hb' : Stored (place h s key b) b') : Stored h b' ∨ b' = b := by
  obtain ⟨s0, hs0, hocc, hmem⟩ := hb'
  rw [tableSize_place] at hs0
  by_cases hne : s0 = s
  · rw [hne, cellAt_place_same h s key b hs hstop] at hmem
    simp only [List.mem_append, List.mem_singleton] at hmem
    rcases hmem with hold | hnew
    · by_cases ho : (h.cellAt s).occupied = true
      · exact Or.inl ⟨s, by rw [← hne]; exact hs0, ho, hold⟩
      · rw [hvac (by simpa using ho)] at hold
        exact absurd hold (List.not_mem_nil _)
    · exact Or.inr hnew
  · rw [cellAt_place_other h s s0 key b hne] at hocc hmem
    exact Or.inl ⟨s0, hs0, hocc, hmem⟩

omit [LinearOrderedField F] [FloorRing F] in
theorem SpatialHash.HasKey_place_only (h : SpatialHash F) (s : Nat) (key k : HashKey)
    (b : BodyRef F) (hs : s < h.table.length)
    (hstop : (h.cellAt s).occupied = false ∨ (h.cellAt s).key = key)
    (hk : HasKey (place h s key b) k) : HasKey h k ∨ k = key := by
  obtain ⟨s0, hs0, hocc, hkey⟩ := hk
  rw [tableSize_place] at hs0
  by_cases hne : s0 = s
  · rw [hne, cellAt_place_same h s key b hs hstop] at hkey
    exact Or.inr hkey.symm
  · rw [cellAt_place_other h s s0 key b hne] at hocc hkey
    exact Or.inl ⟨s0, hs0, hocc, hkey⟩

omit [LinearOrderedField F] [FloorRing F] in
theorem SpatialHash.Populated_place (h : SpatialHash F) (s : Nat) (key : HashKey)
    (b : BodyRef F) (hs : s < h.table.length)
    (hstop : (h.cellAt s).occupied = false ∨ (h.cellAt s).key = key)
    (hp : Populated h) : Populated (place h s key b) := by
  intro s0 hs0 hocc
  rw [tableSize_place] at hs0
  by_cases hne : s0 = s
  · rw [hne, cellAt_place_same h s key b hs hstop]
    simp
  · rw [cellAt_place_other h s s0 key b hne] at hocc ⊢
    exact hp s0 hs0 hocc

/-- The part of `insert` after the load test, on a table with a free slot,
adds exactly the entry. -/
theorem SpatialHash.insertTail_exact (h : SpatialHash F) (hwf : WF h) (b : BodyRef F)
    (resize : SpatialHash F → Option (SpatialHash F)) (hlt : h.itemCount < h.tableSize) :
    ∃ h1, insertTail resize h b = some h1 ∧ InsertedExactly h b h1 := by
  obtain ⟨e, he, hpre, hstop, heq⟩ := insertTail_room h hwf b resize hlt
  obtain ⟨h1, heq1, hin⟩ := insertTail_spec h hwf b resize hlt
  have hh : h1 = place h (probeSlot h (cellKey h.cellSize b.x b.y) e)
      (cellKey h.cellSize b.x b.y) b := by
    rw [heq] at heq1
    exact (Option.some.inj heq1).symm
  have hs : probeSlot h (cellKey h.cellSize b.x b.y) e < h.tableSize :=
    probeSlot_lt h _ e hwf.size_pos
  have hsl : probeSlot h (cellKey h.cellSize b.x b.y) e < h.table.length := by
    rw [hwf.length_eq]; exact hs
  refine ⟨h1, heq1, hin, ?_, ?_, ?_, ?_⟩
  · intro b' hb'
    rw [hh] at hb'
    exact Stored_place_only h _ _ b b' hsl hstop (hwf.vacant _ hs) hb'
  · intro k hk
    rw [hh] at hk
    exact HasKey_place_only h _ _ k b hsl hstop hk
  · intro hnk
    rw [hh, itemCount_place]
    have hocc : ¬ (h.cellAt (probeSlot h (cellKey h.cellSize b.x b.y) e)).occupied = true := by
      intro ho
      rcases hstop with hf | hk
      · rw [hf] at ho; exact Bool.noConfusion ho
      · exact hnk ⟨_, hs, ho, hk⟩
    rw [if_neg hocc]
  · intro hp
    rw [hh]
    exact Populated_place h _ _ b hsl hstop hp

/-- `insert` on a table below the load threshold adds exactly the entry. -/
theorem SpatialHash.insertFuel_room_exact (h : SpatialHash F) (hwf : WF h) (b : BodyRef F)
    (fuel : Nat) (hroom : overLoad h = false) :
    ∃ h1, insertFuel (fuel + 1) h b = some h1 ∧ InsertedExactly h b h1 := by
  have hlt : h.itemCount < h.tableSize := by
    have := (overLoad_false_iff h).mp hroom
    omega
  obtain ⟨h1, heq, hins⟩ := insertTail_exact h hwf b (resizeWith (insertFuel fuel)) hlt
  refine ⟨h1, ?_, hins⟩
  unfold insertFuel
  simp only [hroom, Bool.false_eq_true, if_false, Option.some_bind, heq]

end GridExact

section GridResizeExact

open SpatialHash

variable {F : Type} [LinearOrderedField F] [FloorRing F]

/-- The inner loop of `resize`, with everything it changes: the entries of
the old slot are added and nothing else, the key of the old slot becomes
present when the slot held an entry. -/
theorem SpatialHash.reinsert_cell_exact (fuel : Nat) (k : HashKey) (c : Nat)
    (bs : List (BodyRef F)) :
    ∀ acc : SpatialHash F, WF acc → Populated acc →
      (∀ b ∈ bs, cellKey acc.cellSize b.x b.y = k) →
      (acc.itemCount ≤ c ∨ (acc.itemCount ≤ c + 1 ∧ HasKey acc k)) →
      4 * (c + 1) < 3 * acc.tableSize →
      ∃ acc1, bs.foldlM (insertFuel (fuel + 1)) acc = some acc1 ∧ WF acc1 ∧ Populated acc1 ∧
        acc1.tableSize = acc.tableSize ∧ acc1.cellSize = acc.cellSize ∧
        (acc1.itemCount ≤ c ∨ (acc1.itemCount ≤ c + 1 ∧ HasKey acc1 k)) ∧
        (∀ b', Stored acc1 b' ↔ Stored acc b' ∨ b' ∈ bs) ∧
        (∀ k', HasKey acc1 k' ↔ HasKey acc k' ∨ (k' = k ∧ bs ≠ [])) := by
  induction bs with
  | nil =>
    intro acc hwf hpop _ hcnt _
    exact ⟨acc, rfl, hwf, hpop, rfl, rfl, hcnt, fun b' => by simp, fun k' => by simp⟩
  | cons b rest ih =>
    intro acc hwf hpop hkeys hcnt hsize
    have hroom : overLoad acc = false := by
      rw [overLoad_false_iff]
      rcases hcnt with h1 | ⟨h1, _⟩ <;> omega
    obtain ⟨acc0, heq, hex⟩ := insertFuel_room_exact acc hwf b fuel hroom
    have hins := hex.inPlace
    have hkb : cellKey acc.cellSize b.x b.y = k := hkeys b (List.mem_cons_self _ _)
    have hcnt0 : acc0.itemCount ≤ c ∨ (acc0.itemCount ≤ c + 1 ∧ HasKey acc0 k) := by
      refine Or.inr ⟨?_, hkb ▸ hins.hasKey_self⟩
      rcases hcnt with h1 | ⟨h1, hk⟩
      · have := hins.count_le; omega
      · have := hins.count_eq (hkb ▸ hk); omega
    obtain ⟨acc1, heq1, hwf1, hpop1, hts1, hcs1, hcnt1, hst1, hky1⟩ :=
      ih acc0 hins.wf (hex.populated hpop)
        (fun b' hb' => by rw [hins.cellSize_eq]; exact hkeys b' (List.mem_cons_of_mem _ hb'))
        hcnt0 (by rw [hins.tableSize_eq]; exact hsize)
    refine ⟨acc1, ?_, hwf1, hpop1, hts1.trans hins.tableSize_eq, hcs1.trans hins.cellSize_eq,
      hcnt1, ?_, ?_⟩
    · simp only [List.foldlM_cons, heq, Option.bind_eq_bind, Option.some_bind, heq1]
    · intro b'
      rw [hst1 b', List.mem_cons]
      constructor
      · rintro (h0 | hr)
        · rcases hex.stored_only b' h0 with h | h
          · exact Or.inl h
          · exact Or.inr (Or.inl h)
        · exact Or.inr (Or.inr hr)
      · rintro (h | h | h)
        · exact Or.inl (hins.stored_mono b' h)
        · rw [h]; exact Or.inl hins.stored_self
        · exact Or.inr h
    · intro k'
      rw [hky1 k']
      constructor
      · rintro (h0 | ⟨hk, _⟩)
        · rcases hex.hasKey_only k' h0 with h | h
          · exact Or.inl h
          · exact Or.inr ⟨h.trans hkb, List.cons_ne_nil _ _⟩
        · exact Or.inr ⟨hk, List.cons_ne_nil _ _⟩
      · rintro (h | ⟨hk, _⟩)
        · exact Or.inl (hins.hasKey_mono k' h)
        · rw [hk, ← hkb]; exact Or.inl hins.hasKey_self

/-- The outer loop of `resize`, with everything it changes. -/
theorem SpatialHash.reinsert_cells_exact (fuel : Nat) (n : Nat) (cs : F)
    (cells : List (Cell F)) :
    ∀ (m : Nat) (acc : SpatialHash F), WF acc → Populated acc → acc.tableSize = 2 * n →
      acc.cellSize = cs → acc.itemCount ≤ m → m + cells.length ≤ n →
      (∀ cell ∈ cells, cell.occupied = true → ∀ b ∈ cell.bodies, cellKey cs b.x b.y = cell.key) →
      ∃ acc1, cells.foldlM
          (fun acc cell =>
            if cell.occupied then cell.bodies.foldlM (insertFuel (fuel + 1)) acc else some acc)
          acc = some acc1 ∧
        WF acc1 ∧ Populated acc1 ∧ acc1.tableSize = 2 * n ∧ acc1.cellSize = cs ∧
        acc1.itemCount ≤ m + cells.length ∧
        (∀ b', Stored acc1 b' ↔
          Stored acc b' ∨ ∃ cell ∈ cells, cell.occupied = true ∧ b' ∈ cell.bodies) ∧
        (∀ k', HasKey acc1 k' ↔
          HasKey acc k' ∨ ∃ cell ∈ cells, cell.occupied = true ∧ cell.bodies ≠ [] ∧
            cell.key = k') := by
  induction cells with
  | nil =>
    intro m acc hwf hpop hts hcs hcnt _ _
    exact ⟨acc, rfl, hwf, hpop, hts, hcs, by simpa using hcnt, fun b' => by simp,
      fun k' => by simp⟩
  | cons cell rest ih =>
    intro m acc hwf hpop hts hcs hcnt hlen hkeys
    simp only [List.length_cons] at hlen
    by_cases hocc : cell.occupied = true
    · obtain ⟨acc0, heq0, hwf0, hpop0, hts0, hcs0, hcnt0, hst0, hky0⟩ :=
        reinsert_cell_exact fuel cell.key m cell.bodies acc hwf hpop
          (fun b hb => by rw [hcs]; exact hkeys cell (List.mem_cons_self _ _) hocc b hb)
          (Or.inl hcnt) (by rw [hts]; omega)
      have hcnt0' : acc0.itemCount ≤ m + 1 := by
        rcases hcnt0 with h1 | ⟨h1, _⟩ <;> omega
      obtain ⟨acc1, heq1, hwf1, hpop1, hts1, hcs1, hcnt1, hst1, hky1⟩ :=
        ih (m + 1) acc0 hwf0 hpop0 (hts0.trans hts) (hcs0.trans hcs) hcnt0' (by omega)
          (fun c hc => hkeys c (List.mem_cons_of_mem _ hc))
      refine ⟨acc1, ?_, hwf1, hpop1, hts1, hcs1, by simp only [List.length_cons]; omega, ?_, ?_⟩
      · simp only [List.foldlM_cons, hocc, if_true, heq0, Option.bind_eq_bind, Option.some_bind,
          heq1]
      · intro b'
        rw [hst1 b', hst0 b']
        simp only [List.mem_cons, exists_eq_or_imp, hocc, true_and]
        tauto
      · intro k'
        rw [hky1 k', hky0 k']
        simp only [List.mem_cons, exists_eq_or_imp, hocc, true_and]
        constructor
        · rintro ((h | ⟨h1, h2⟩) | h)
          · exact Or.inl h
          · exact Or.inr (Or.inl ⟨h2, h1.symm⟩)
          · exact Or.inr (Or.inr h)
        · rintro (h | ⟨h1, h2⟩ | h)
          · exact Or.inl (Or.inl h)
          · exact Or.inl (Or.inr ⟨h2.symm, h1⟩)
          · exact Or.inr h
    · obtain ⟨acc1, heq1, hwf1, hpop1, hts1, hcs1, hcnt1, hst1, hky1⟩ :=
        ih (m + 1) acc hwf hpop hts hcs (by omega) (by omega)
          (fun c hc => hkeys c (List.mem_cons_of_mem _ hc))
      refine ⟨acc1, ?_, hwf1, hpop1, hts1, hcs1, by simp only [List.length_cons]; omega, ?_, ?_⟩
      · simp only [List.foldlM_cons, hocc, Bool.false_eq_true, if_false, Option.bind_eq_bind,
          Option.some_bind, heq1]
      · intro b'
        rw [hst1 b']
        simp [hocc]
      · intro k'
        rw [hky1 k']
        simp [hocc]

omit [LinearOrderedField F] [FloorRing F] in
theorem SpatialHash.cellAt_of_lt (h : SpatialHash F) (s : Nat) (hs : s < h.table.length) :
    h.cellAt s = h.table[s] := by
  simp [cellAt, List.getD_eq_getElem?_getD, hs]

omit [LinearOrderedField F] [FloorRing F] in
theorem SpatialHash.not_stored_fresh (m : Nat) (cs : F) (tsz cnt : Nat) (b : BodyRef F) :
    ¬ Stored ({ table := List.replicate m Cell.empty, cellSize := cs, tableSize := tsz,
                itemCount := cnt } : SpatialHash F) b := by
  rintro ⟨s, _, hocc, _⟩
  rw [cellAt_replicate] at hocc
  exact Bool.noConfusion hocc

omit [LinearOrderedField F] [FloorRing F] in
theorem SpatialHash.not_hasKey_fresh (m : Nat) (cs : F) (tsz cnt : Nat) (k : HashKey) :
    ¬ HasKey ({ table := List.replicate m Cell.empty, cellSize := cs, tableSize := tsz,
                itemCount := cnt } : SpatialHash F) k := by
  rintro ⟨s, _, hocc, _⟩
  rw [cellAt_replicate] at hocc
  exact Bool.noConfusion hocc

omit [LinearOrderedField F] [FloorRing F] in
theorem SpatialHash.populated_fresh (m : Nat) (cs : F) (tsz cnt : Nat) :
    Populated ({ table := List.replicate m Cell.empty, cellSize := cs, tableSize := tsz,
                 itemCount := cnt } : SpatialHash F) := by
  intro s _ hocc
  rw [cellAt_replicate] at hocc
  exact Bool.noConfusion hocc

/-- `resize` on a table that satisfies the invariant and whose occupied slots
hold entries: the table size doubles, and the new table stores exactly the
same entries under exactly the same keys. -/
theorem SpatialHash.resize_exact (h : SpatialHash F) (hwf : WF h) (hpop : Populated h)
    (fuel : Nat) :
    ∃ h1, resizeWith (insertFuel (fuel + 1)) h = some h1 ∧ WF h1 ∧ Populated h1 ∧
      h1.tableSize = 2 * h.tableSize ∧ h1.cellSize = h.cellSize ∧
      h1.itemCount ≤ h.tableSize ∧ (∀ b, Stored h1 b ↔ Stored h b) ∧
      (∀ k, HasKey h1 k ↔ HasKey h k) := by
  have hn := hwf.size_pos
  have hkeys : ∀ cell ∈ h.table, cell.occupied = true →
      ∀ b ∈ cell.bodies, cellKey h.cellSize b.x b.y = cell.key := by
    intro cell hc hocc b hb
    obtain ⟨s, hs, hsc⟩ := List.getElem_of_mem hc
    have hcell : h.cellAt s = cell := by rw [cellAt_of_lt h s hs, hsc]
    have := hwf.keyed s (by rw [← hwf.length_eq]; exact hs) (by rw [hcell]; exact hocc) b
      (by rw [hcell]; exact hb)
    rw [hcell] at this
    exact this
  obtain ⟨h1, heq, hwf1, hpop1, hts1, hcs1, hcnt1, hst1, hky1⟩ :=
    reinsert_cells_exact fuel h.tableSize h.cellSize h.table 0
      ({ h with tableSize := h.tableSize * 2,
                table := List.replicate (h.tableSize * 2) Cell.empty,
                itemCount := 0 } : SpatialHash F)
      (WF_fresh (h.tableSize * 2) (by omega) h.cellSize) (populated_fresh _ _ _ _)
      (by simp; omega) rfl (Nat.le_refl 0)
      (by rw [hwf.length_eq]; omega) hkeys
  refine ⟨h1, heq, hwf1, hpop1, hts1, hcs1, ?_, ?_, ?_⟩
  · rw [hwf.length_eq] at hcnt1; omega
  · intro b
    rw [hst1 b]
    constructor
    · rintro (hf | ⟨cell, hc, hocc, hmem⟩)
      · exact absurd hf (not_stored_fresh _ _ _ _ b)
      · obtain ⟨s, hs, hsc⟩ := List.getElem_of_mem hc
        refine ⟨s, by rw [← hwf.length_eq]; exact hs, ?_, ?_⟩
        · rw [cellAt_of_lt h s hs, hsc]; exact hocc
        · rw [cellAt_of_lt h s hs, hsc]; exact hmem
    · rintro ⟨s, hs, hocc, hmem⟩
      have hsl : s < h.table.length := by rw [hwf.length_eq]; exact hs
      rw [cellAt_of_lt h s hsl] at hocc hmem
      exact Or.inr ⟨_, List.getElem_mem hsl, hocc, hmem⟩
  · intro k
    rw [hky1 k]
    constructor
    · rintro (hf | ⟨cell, hc, hocc, _, hkey⟩)
      · exact absurd hf (not_hasKey_fresh _ _ _ _ k)
      · obtain ⟨s, hs, hsc⟩ := List.getElem_of_mem hc
        refine ⟨s, by rw [← hwf.length_eq]; exact hs, ?_, ?_⟩
        · rw [cellAt_of_lt h s hs, hsc]; exact hocc
        · rw [cellAt_of_lt h s hs, hsc]; exact hkey
    · rintro ⟨s, hs, hocc, hkey⟩
      have hsl : s < h.table.length := by rw [hwf.length_eq]; exact hs
      have hne := hpop s hs hocc
      rw [cellAt_of_lt h s hsl] at hocc hkey hne
      exact Or.inr ⟨_, List.getElem_mem hsl, hocc, hne, hkey⟩

end GridResizeExact

section GridFuel

open SpatialHash

variable {F : Type} [LinearOrderedField F] [FloorRing F]

/-- A loop in `Option` returns the same result when its step is replaced by
one that returns at least as often, with the same results. -/
theorem foldlM_option_mono {α β : Type} (f g : β → α → Option β)
    (hfg : ∀ s a r, f s a = some r → g s a = some r) :
    ∀ (l : List α) (s r : β), l.foldlM f s = some r → l.foldlM g s = some r := by
  intro l
  induction l with
  | nil => intro s r h; exact h
  | cons a rest ih =>
    intro s r h
    simp only [List.foldlM_cons, Option.bind_eq_bind] at h ⊢
    cases hf : f s a with
    | none => rw [hf] at h; simp at h
    | some s1 =>
      rw [hf] at h
      rw [hfg s a s1 hf]
      exact ih s1 r h

omit [LinearOrderedField F] [FloorRing F] in
theorem SpatialHash.resizeWith_mono (ins1 ins2 : SpatialHash F → BodyRef F → Option (SpatialHash F))
    (hins : ∀ h b r, ins1 h b = some r → ins2 h b = some r) (h r : SpatialHash F)
    (hr : resizeWith ins1 h = some r) : resizeWith ins2 h = some r := by
  unfold resizeWith at hr ⊢
  refine foldlM_option_mono _ _ ?_ _ _ _ hr
  intro s cell r1 h1
  by_cases hocc : cell.occupied = true
  · simp only [hocc, if_true] at h1 ⊢
    exact foldlM_option_mono _ _ hins _ _ _ h1
  · simp only [hocc, Bool.false_eq_true, if_false] at h1 ⊢
    exact h1

theorem SpatialHash.insertTail_mono (rs1 rs2 : SpatialHash F → Option (SpatialHash F))
    (hrs : ∀ h r, rs1 h = some r → rs2 h = some r) (h : SpatialHash F) (b : BodyRef F)
    (r : SpatialHash F) (hr : insertTail rs1 h b = some r) : insertTail rs2 h b = some r := by
  unfold insertTail at hr ⊢
  dsimp only at hr ⊢
  cases hf : findSlot h (hashKey (cellKey h.cellSize b.x b.y)) (cellKey h.cellSize b.x b.y) with
  | none => rw [hf] at hr; simp at hr
  | some slot =>
    rw [hf] at hr
    simp only [Option.some_bind] at hr ⊢
    by_cases hneg : slot < 0
    · simp only [hneg, if_true] at hr ⊢
      cases h1 : rs1 h with
      | none => rw [h1] at hr; simp at hr
      | some h2 =>
        rw [h1] at hr
        rw [hrs h h2 h1]
        exact hr
    · simp only [hneg, if_false] at hr ⊢
      exact hr

/-- More nesting allowance does not change what `insert` returns. -/
theorem SpatialHash.insertFuel_mono (fuel : Nat) :
    ∀ (h : SpatialHash F) (b : BodyRef F) (r : SpatialHash F),
      insertFuel fuel h b = some r → insertFuel (fuel + 1) h b = some r := by
  induction fuel with
  | zero => intro h b r hr; simp [insertFuel] at hr
  | succ fuel ih =>
    intro h b r hr
    rw [insertFuel] at hr ⊢
    have hrs : ∀ h r, resizeWith (insertFuel fuel) h = some r →
        resizeWith (insertFuel (fuel + 1)) h = some r :=
      fun h r => resizeWith_mono _ _ ih h r
    cases h1 : (if overLoad h then resizeWith (insertFuel fuel) h else some h) with
    | none => rw [h1] at hr; simp at hr
    | some h2 =>
      rw [h1] at hr
      simp only [Option.some_bind] at hr
      have h1' : (if overLoad h then resizeWith (insertFuel (fuel + 1)) h else some h)
          = some h2 := by
        by_cases hl : overLoad h = true
        · simp only [hl, if_true] at h1 ⊢
          exact hrs h h2 h1
        · simp only [hl, Bool.false_eq_true, if_false] at h1 ⊢
          exact h1
      rw [h1']
      simp only [Option.some_bind]
      exact insertTail_mono _ _ hrs h2 b r hr

theorem SpatialHash.insertFuel_mono_add (fuel k : Nat) (h : SpatialHash F) (b : BodyRef F)
    (r : SpatialHash F) (hr : insertFuel fuel h b = some r) :
    insertFuel (fuel + k) h b = some r := by
  induction k with
  | zero => exact hr
  | succ k ih => exact insertFuel_mono (fuel + k) h b r ih

/-- `insert` with nesting bound at least 2, in full: the table size doubles
exactly when the load test fires, the entry and its key are added, and
nothing else changes among the stored entries and keys. -/
theorem SpatialHash.insertFuel_exact (h : SpatialHash F) (hwf : WF h) (hpop : Populated h)
    (b : BodyRef F) (fuel : Nat) (hfuel : 2 ≤ fuel) :
    ∃ h1, insertFuel fuel h b = some h1 ∧ WF h1 ∧ Populated h1 ∧ h1.cellSize = h.cellSize ∧
      h1.tableSize = (if overLoad h then 2 * h.tableSize else h.tableSize) ∧
      (∀ b', Stored h1 b' ↔ Stored h b' ∨ b' = b) ∧
      (∀ k, HasKey h1 k ↔ HasKey h k ∨ k = cellKey h.cellSize b.x b.y) := by
  obtain ⟨f, rfl⟩ : ∃ f, fuel = f + 2 := ⟨fuel - 2, by omega⟩
  cases hload : overLoad h with
  | false =>
    obtain ⟨h1, heq, hex⟩ := insertFuel_room_exact h hwf b (f + 1) hload
    have hin := hex.inPlace
    refine ⟨h1, heq, hin.wf, hex.populated hpop, hin.cellSize_eq, by simpa using hin.tableSize_eq,
      ?_, ?_⟩
    · intro b'
      exact ⟨hex.stored_only b', fun hb => hb.elim (hin.stored_mono b')
        (fun e => e ▸ hin.stored_self)⟩
    · intro k
      exact ⟨hex.hasKey_only k, fun hk => hk.elim (hin.hasKey_mono k)
        (fun e => e ▸ hin.hasKey_self)⟩
  | true =>
    obtain ⟨h0, heq0, hwf0, hpop0, hts0, hcs0, hcnt0, hst0, hky0⟩ := resize_exact h hwf hpop f
    have hlt : h0.itemCount < h0.tableSize := by
      have := hwf.size_pos
      omega
    obtain ⟨h1, heq1, hex⟩ := insertTail_exact h0 hwf0 b (resizeWith (insertFuel (f + 1))) hlt
    have hin := hex.inPlace
    refine ⟨h1, ?_, hin.wf, hex.populated hpop0, hin.cellSize_eq.trans hcs0,
      by simpa using hin.tableSize_eq.trans hts0, ?_, ?_⟩
    · rw [insertFuel]
      simp only [hload, if_true, heq0, Option.some_bind, heq1]
    · intro b'
      rw [← hst0 b']
      exact ⟨hex.stored_only b', fun hb => hb.elim (hin.stored_mono b')
        (fun e => e ▸ hin.stored_self)⟩
    · intro k
      rw [← hky0 k, ← hcs0]
      exact ⟨hex.hasKey_only k, fun hk => hk.elim (hin.hasKey_mono k)
        (fun e => e ▸ hin.hasKey_self)⟩

/-- Every grid state produced by the constructor, `clear()` and `insert`
satisfies the representation invariant, and its occupied slots hold entries. -/
theorem SpatialHash.Reachable.wf_populated {h : SpatialHash F} (hr : Reachable h) :
    WF h ∧ Populated h := by
  induction hr with
  | init cs => exact ⟨WF_fresh 256 (by norm_num) _, populated_fresh _ _ _ _⟩
  | @clear h0 _ ih =>
    refine ⟨WF_clear h0 ih.1.length_eq ih.1.size_pos, ?_⟩
    intro s _ hocc
    rw [(cellAt_clear h0 s).1] at hocc
    exact Bool.noConfusion hocc
  | @insert h0 h1 fuel b _ heq ih =>
    obtain ⟨h2, heq2, hwf2, hpop2, _⟩ :=
      insertFuel_exact h0 ih.1 ih.2 b (fuel + 2) (by omega)
    have := insertFuel_mono_add fuel 2 h0 b h1 heq
    rw [this] at heq2
    rw [Option.some.inj heq2]
    exact ⟨hwf2, hpop2⟩

end GridFuel

section GridQueryExact

open SpatialHash

variable {F : Type} [LinearOrderedField F] [FloorRing F]

/-- Under the invariant no two occupied slots hold the same key. -/
theorem SpatialHash.WF.key_unique {h : SpatialHash F} (hwf : WF h) (s s' : Nat)
    (hs : s < h.tableSize) (hs' : s' < h.tableSize)
    (hocc : (h.cellAt s).occupied = true) (hocc' : (h.cellAt s').occupied = true)
    (hk : (h.cellAt s).key = (h.cellAt s').key) : s = s' := by
  obtain ⟨d, _, hds, hdpre⟩ := hwf.probe s hs hocc
  obtain ⟨d', _, hds', hdpre'⟩ := hwf.probe s' hs' hocc'
  rw [hk] at hds hdpre
  rcases lt_trichotomy d d' with hlt | heq | hgt
  · have := (hdpre' d hlt).2
    rw [hds] at this
    exact absurd hk this
  · exact hds.symm.trans (heq ▸ hds')
  · have := (hdpre d' hgt).2
    rw [hds'] at this
    exact absurd rfl this

omit [FloorRing F] in
/-- The probe loop of `query` for a key that no occupied slot holds leaves
`outIds` as it is. -/
theorem SpatialHash.queryLoop_absent (h : SpatialHash F) (key : HashKey) (qx qy qr : F)
    (out : List Int) (hno : ¬ HasKey h key) :
    ∀ fuel d, 0 < fuel → fuel + d = h.tableSize →
      queryLoop h key qx qy qr (hashKey key % h.tableSize) fuel (probeSlot h key d) out
        = some out := by
  intro fuel
  induction fuel with
  | zero => intro d hf; omega
  | succ fuel ih =>
    intro d _ hsum
    have hn : 0 < h.tableSize := by omega
    unfold queryLoop
    by_cases hocc : (h.cellAt (probeSlot h key d)).occupied = true
    · have hk : (h.cellAt (probeSlot h key d)).key ≠ key :=
        fun hk => hno ⟨_, probeSlot_lt h key d hn, hocc, hk⟩
      simp only [hocc, if_true, hk, if_false, probeSlot_succ]
      by_cases hst : probeSlot h key (d + 1) = hashKey key % h.tableSize
      · simp only [hst, if_true]
      · simp only [hst, if_false]
        have hfpos : 0 < fuel := by
          rcases Nat.eq_zero_or_pos fuel with h0 | h0
          · subst h0
            have : d + 1 = h.tableSize := by omega
            rw [this, probeSlot_full] at hst
            exact absurd rfl hst
          · exact h0
        exact ih (d + 1) hfpos (by omega)
    · simp only [hocc]
      rfl

/-- The probe of `query` for one cell appends exactly the ids of the stored
entries of that cell that pass the overlap test. -/
theorem SpatialHash.queryCell_exact (h : SpatialHash F) (hwf : WF h) (qx qy qr : F)
    (i j : Int) (out : List Int) :
    ∃ extra, queryCell h qx qy qr i j out = some (out ++ extra) ∧
      ∀ x, x ∈ extra ↔ ∃ b, Stored h b ∧ cellKey h.cellSize b.x b.y = ⟨i, j⟩ ∧
        Quadtree.hitsQuery qx qy qr b = true ∧ b.id = x := by
  have hn := hwf.size_pos
  by_cases hk : HasKey h ⟨i, j⟩
  · obtain ⟨s, hs, hocc, hkey⟩ := hk
    obtain ⟨d, hd, hds, hdpre⟩ := hwf.probe s hs hocc
    rw [hkey] at hds hdpre
    have hreach := queryLoop_reach h ⟨i, j⟩ qx qy qr out d hd hdpre
      (by rw [hds]; exact hocc) (by rw [hds]; exact hkey) h.tableSize 0 (Nat.zero_le _)
      (by omega)
    rw [probeSlot_zero, hds] at hreach
    refine ⟨_, hreach, ?_⟩
    intro x
    simp only [List.mem_map, List.mem_filter]
    constructor
    · rintro ⟨b, ⟨hmem, hhit⟩, rfl⟩
      exact ⟨b, ⟨s, hs, hocc, hmem⟩, (hwf.keyed s hs hocc b hmem).trans hkey, hhit, rfl⟩
    · rintro ⟨b, ⟨s', hs', hocc', hmem'⟩, hkb, hhit, rfl⟩
      have hk' := hwf.keyed s' hs' hocc' b hmem'
      have : s' = s := hwf.key_unique s' s hs' hs hocc' hocc (by rw [← hk', hkb, hkey])
      rw [this] at hmem'
      exact ⟨b, ⟨hmem', hhit⟩, rfl⟩
  · have habs := queryLoop_absent h ⟨i, j⟩ qx qy qr out hk h.tableSize 0 hn (by omega)
    rw [probeSlot_zero] at habs
    refine ⟨[], by simpa [queryCell] using habs, ?_⟩
    intro x
    simp only [List.not_mem_nil, false_iff]
    rintro ⟨b, ⟨s, hs, hocc, hmem⟩, hkb, _, _⟩
    exact hk ⟨s, hs, hocc, (hwf.keyed s hs hocc b hmem).symm.trans hkb⟩

/-- A loop in `Option` whose steps append lists described by `P` appends a
list described by `P` over all elements. -/
theorem foldlM_append_iff {α : Type} (f : List Int → α → Option (List Int)) (l : List α)
    (P : α → Int → Prop)
    (hf : ∀ out a, a ∈ l → ∃ extra, f out a = some (out ++ extra) ∧ ∀ x, x ∈ extra ↔ P a x) :
    ∀ out, ∃ extra, l.foldlM f out = some (out ++ extra) ∧
      ∀ x, x ∈ extra ↔ ∃ a ∈ l, P a x := by
  induction l with
  | nil => intro out; exact ⟨[], by simp, by simp⟩
  | cons a rest ih =>
    intro out
    obtain ⟨e1, h1, hx1⟩ := hf out a (List.mem_cons_self _ _)
    obtain ⟨e2, h2, hx2⟩ := ih (fun o x hx => hf o x (List.mem_cons_of_mem _ hx)) (out ++ e1)
    refine ⟨e1 ++ e2, by
      simp only [List.foldlM_cons, h1, Option.bind_eq_bind, Option.some_bind, h2,
        List.append_assoc], ?_⟩
    intro x
    simp only [List.mem_append, hx1, hx2, List.mem_cons, exists_eq_or_imp]

theorem SpatialHash.setInsert_sorted (v : Int) (l : List Int) (hl : l.Sorted (· < ·)) :
    (setInsert v l).Sorted (· < ·) := by
  induction l with
  | nil => simp [setInsert]
  | cons a rest ih =>
    obtain ⟨ha, hrest⟩ := List.sorted_cons.mp hl
    unfold setInsert
    split_ifs with h1 h2
    · refine List.sorted_cons.mpr ⟨?_, hl⟩
      intro b hb
      rcases List.mem_cons.mp hb with rfl | hb
      · exact h1
      · exact lt_trans h1 (ha b hb)
    · exact hl
    · refine List.sorted_cons.mpr ⟨?_, ih hrest⟩
      intro b hb
      rcases (mem_setInsert b v rest).mp hb with rfl | hb
      · omega
      · exact ha b hb

/-- The list written back by `query` is strictly increasing. -/
theorem SpatialHash.uniqueIds_sorted (l : List Int) : (uniqueIds l).Sorted (· < ·) := by
  have key : ∀ s : List Int, s.Sorted (· < ·) →
      (l.foldl (fun s v => setInsert v s) s).Sorted (· < ·) := by
    induction l with
    | nil => intro s hs; exact hs
    | cons a rest ih => intro s hs; exact ih _ (setInsert_sorted a s hs)
  exact key [] List.sorted_nil

theorem sorted_lt_ext (l1 l2 : List Int) (h1 : l1.Sorted (· < ·)) (h2 : l2.Sorted (· < ·))
    (hmem : ∀ x, x ∈ l1 ↔ x ∈ l2) : l1 = l2 :=
  List.eq_of_perm_of_sorted ((List.perm_ext_iff_of_nodup h1.nodup h2.nodup).mpr hmem) h1 h2

/-- `query` returns, in increasing order and without repetition, exactly the
ids of the stored entries that pass the overlap test and whose cell lies in
the 3x3 block around the cell of the query point. -/
theorem SpatialHash.query_exact (h : SpatialHash F) (hwf : WF h) (qx qy qr : F) :
    ∃ ids, query h qx qy qr = some ids ∧ ids.Sorted (· < ·) ∧
      ∀ x, x ∈ ids ↔ ∃ di ∈ ([-1, 0, 1] : List Int), ∃ dj ∈ ([-1, 0, 1] : List Int),
        ∃ b, Stored h b ∧
          cellKey h.cellSize b.x b.y = ⟨⌊qx / h.cellSize⌋ + di, ⌊qy / h.cellSize⌋ + dj⟩ ∧
          Quadtree.hitsQuery qx qy qr b = true ∧ b.id = x := by
  obtain ⟨extra, heq, hx⟩ := foldlM_append_iff
    (fun out1 di => ([-1, 0, 1] : List Int).foldlM
      (fun out2 dj => queryCell h qx qy qr (⌊qx / h.cellSize⌋ + di) (⌊qy / h.cellSize⌋ + dj) out2)
      out1)
    [-1, 0, 1]
    (fun di x => ∃ dj ∈ ([-1, 0, 1] : List Int), ∃ b, Stored h b ∧
      cellKey h.cellSize b.x b.y = ⟨⌊qx / h.cellSize⌋ + di, ⌊qy / h.cellSize⌋ + dj⟩ ∧
      Quadtree.hitsQuery qx qy qr b = true ∧ b.id = x)
    (fun out di _ => foldlM_append_iff _ _
      (fun dj x => ∃ b, Stored h b ∧
        cellKey h.cellSize b.x b.y = ⟨⌊qx / h.cellSize⌋ + di, ⌊qy / h.cellSize⌋ + dj⟩ ∧
        Quadtree.hitsQuery qx qy qr b = true ∧ b.id = x)
      (fun o dj _ => queryCell_exact h hwf qx qy qr _ _ o) out) []
  refine ⟨uniqueIds ([] ++ extra), ?_, uniqueIds_sorted _, ?_⟩
  · unfold query
    simp only [heq, Option.map_some']
  · intro x
    rw [mem_uniqueIds, List.nil_append, hx x]

/-- C14.  For every grid state reachable by the constructor, `clear` and
`insert`, `resize` (with nesting bound at least 1 for the `insert` calls it
makes) returns, and for every query `(qx, qy, qr)` the list of ids returned by
`query` on the resized grid equals the list returned on the grid before the
resize. -/
theorem query_unchanged_by_resize (h : SpatialHash F) (hreach : Reachable h) (fuel : Nat)
    (hfuel : 1 ≤ fuel) :
    ∃ h1, resizeFuel fuel h = some h1 ∧ h1.tableSize = 2 * h.tableSize ∧
      ∀ qx qy qr : F, query h1 qx qy qr = query h qx qy qr := by
  obtain ⟨f, rfl⟩ : ∃ f, fuel = f + 1 := ⟨fuel - 1, by omega⟩
  obtain ⟨hwf, hpop⟩ := hreach.wf_populated
  obtain ⟨h1, heq, hwf1, _, hts1, hcs1, _, hst1, _⟩ := resize_exact h hwf hpop f
  refine ⟨h1, heq, hts1, ?_⟩
  intro qx qy qr
  obtain ⟨ids1, hq1, hs1, hm1⟩ := query_exact h1 hwf1 qx qy qr
  obtain ⟨ids, hq, hs, hm⟩ := query_exact h hwf qx qy qr
  rw [hq1, hq]
  congr 1
  apply sorted_lt_ext _ _ hs1 hs
  intro x
  rw [hm1 x, hm x, hcs1]
  simp only [hst1]

/-- C14 at the grid of `EngineHash(800, 600, 5)` after three insertions. -/
theorem query_unchanged_by_resize_witness :
    Reachable threeEntryGrid ∧ 1 ≤ 1 ∧
      ∃ h1, resizeFuel 1 threeEntryGrid = some h1 ∧
        h1.tableSize = 2 * threeEntryGrid.tableSize ∧
        ∀ qx qy qr : ℚ, query h1 qx qy qr = query threeEntryGrid qx qy qr := by
  have hr : Reachable threeEntryGrid := by
    have h0 : Reachable (SpatialHash.new (10 : ℚ)) := Reachable.init 10
    obtain ⟨g1, hg1⟩ :
        ∃ g1, insertFuel 2 (SpatialHash.new (10 : ℚ)) ⟨0, 394, 100, 5⟩ = some g1 := by
      obtain ⟨g1, hg1, _⟩ := insertFuel_exact _ h0.wf_populated.1 h0.wf_populated.2
        (⟨0, 394, 100, 5⟩ : BodyRef ℚ) 2 (le_refl 2)
      exact ⟨g1, hg1⟩
    have r1 : Reachable g1 := Reachable.insert 2 _ h0 hg1
    obtain ⟨g2, hg2⟩ : ∃ g2, insertFuel 2 g1 ⟨1, 400, 100, 5⟩ = some g2 := by
      obtain ⟨g2, hg2, _⟩ := insertFuel_exact _ r1.wf_populated.1 r1.wf_populated.2
        (⟨1, 400, 100, 5⟩ : BodyRef ℚ) 2 (le_refl 2)
      exact ⟨g2, hg2⟩
    have r2 : Reachable g2 := Reachable.insert 2 _ r1 hg2
    obtain ⟨g3, hg3⟩ : ∃ g3, insertFuel 2 g2 ⟨2, 50, 50, 5⟩ = some g3 := by
      obtain ⟨g3, hg3, _⟩ := insertFuel_exact _ r2.wf_populated.1 r2.wf_populated.2
        (⟨2, 50, 50, 5⟩ : BodyRef ℚ) 2 (le_refl 2)
      exact ⟨g3, hg3⟩
    have r3 : Reachable g3 := Reachable.insert 2 _ r2 hg3
    have : insertAll 2 (SpatialHash.new (10 : ℚ))
        [⟨0, 394, 100, 5⟩, ⟨1, 400, 100, 5⟩, ⟨2, 50, 50, 5⟩] = some g3 := by
      simp only [insertAll, List.foldlM_cons, hg1, Option.bind_eq_bind, Option.some_bind, hg2,
        hg3, List.foldlM_nil]
      rfl
    unfold threeEntryGrid
    rw [this]
    exact r3
  exact ⟨hr, le_refl 1, query_unchanged_by_resize threeEntryGrid hr 1 (le_refl 1)⟩

end GridQueryExact

section GridGrowth

open SpatialHash

variable {F : Type} [LinearOrderedField F] [FloorRing F]

omit [FloorRing F] in
theorem SpatialHash.overLoad_iff (h : SpatialHash F) :
    overLoad h = true ↔ 3 * h.tableSize ≤ 4 * h.itemCount := by
  have := overLoad_false_iff h
  cases hl : overLoad h with
  | false => simp only [Bool.false_eq_true, false_iff, not_le]; exact this.mp hl
  | true =>
    simp only [true_iff]
    by_contra hc
    rw [this.mpr (not_le.mp hc)] at hl
    exact Bool.noConfusion hl

omit [LinearOrderedField F] [FloorRing F] in
theorem SpatialHash.mem_occKeys (h : SpatialHash F) (hlen : h.table.length = h.tableSize)
    (k : HashKey) : k ∈ occKeys h ↔ HasKey h k := by
  unfold occKeys HasKey
  simp only [List.mem_map, List.mem_filter]
  constructor
  · rintro ⟨c, ⟨hc, hocc⟩, rfl⟩
    obtain ⟨s, hs, rfl⟩ := List.getElem_of_mem hc
    exact ⟨s, hlen ▸ hs, by rw [cellAt_of_lt h s hs]; exact hocc, by rw [cellAt_of_lt h s hs]⟩
  · rintro ⟨s, hs, hocc, rfl⟩
    have hs' : s < h.table.length := hlen ▸ hs
    rw [cellAt_of_lt h s hs'] at hocc ⊢
    exact ⟨h.table[s], ⟨List.getElem_mem _, hocc⟩, rfl⟩

omit [LinearOrderedField F] [FloorRing F] in
theorem SpatialHash.length_occKeys (h : SpatialHash F) : (occKeys h).length = occupiedSlots h := by
  unfold occKeys occupiedSlots
  rw [List.length_map, List.countP_eq_length_filter]

/-- Under the invariant the occupied slots hold pairwise different keys. -/
theorem SpatialHash.WF.occKeys_nodup {h : SpatialHash F} (hwf : WF h) : (occKeys h).Nodup := by
  unfold occKeys List.Nodup
  rw [List.pairwise_map]
  have hp : h.table.Pairwise
      (fun x y => x.occupied = true → y.occupied = true → x.key ≠ y.key) := by
    rw [List.pairwise_iff_getElem]
    intro i j hi hj hij hoi hoj hk
    have hi' : i < h.tableSize := hwf.length_eq ▸ hi
    have hj' : j < h.tableSize := hwf.length_eq ▸ hj
    have := hwf.key_unique i j hi' hj' (by rw [cellAt_of_lt h i hi]; exact hoi)
      (by rw [cellAt_of_lt h j hj]; exact hoj)
      (by rw [cellAt_of_lt h i hi, cellAt_of_lt h j hj]; exact hk)
    omega
  refine (List.Pairwise.filter _ hp).imp_of_mem ?_
  intro a b ha hb hab
  exact hab (List.mem_filter.mp ha).2 (List.mem_filter.mp hb).2

/-- Under the invariant `itemCount_` is the number of distinct keys held. -/
theorem SpatialHash.WF.itemCount_eq_card {h : SpatialHash F} (hwf : WF h) (K : Finset HashKey)
    (hK : ∀ k, HasKey h k ↔ k ∈ K) : h.itemCount = K.card := by
  have h1 : (occKeys h).toFinset = K := by
    ext k
    rw [List.mem_toFinset, mem_occKeys h hwf.length_eq, hK]
  rw [← h1, List.toFinset_card_of_nodup hwf.occKeys_nodup, length_occKeys]
  exact hwf.count_eq

/-- The table size after a sequence of insertions into a table of 256 slots
that holds the keys `K0`: it stays at 256 slots while at most 192 distinct
keys have been seen, and is 512 slots afterwards, as long as no more than 383
distinct keys are inserted. -/
theorem SpatialHash.insertAll_growth (fuel : Nat) (hfuel : 2 ≤ fuel) (es : List (BodyRef F)) :
    ∀ (h : SpatialHash F) (K0 : Finset HashKey), WF h → Populated h →
      (∀ k, HasKey h k ↔ k ∈ K0) →
      (K0 ∪ (es.map fun b => cellKey h.cellSize b.x b.y).toFinset).card ≤ 383 →
      ((h.tableSize = 256 ∧ K0.card ≤ 192) ∨ h.tableSize = 512) →
      ∃ h1, insertAll fuel h es = some h1 ∧
        ((h1.tableSize = 256 ∧
            (K0 ∪ (es.map fun b => cellKey h.cellSize b.x b.y).toFinset).card ≤ 192) ∨
          h1.tableSize = 512) := by
  induction es with
  | nil =>
    intro h K0 _ _ _ _ hsz
    refine ⟨h, rfl, ?_⟩
    simpa using hsz
  | cons b rest ih =>
    intro h K0 hwf hpop hK hcard hsz
    obtain ⟨h0, heq0, hwf0, hpop0, hcs0, hts0, _, hkey0⟩ := insertFuel_exact h hwf hpop b fuel hfuel
    have hcount := hwf.itemCount_eq_card K0 hK
    have hK1 : ∀ k, HasKey h0 k ↔ k ∈ K0 ∪ {cellKey h.cellSize b.x b.y} := by
      intro k
      rw [hkey0 k, hK k, Finset.mem_union, Finset.mem_singleton]
    have hunion : K0 ∪ ((b :: rest).map fun b => cellKey h.cellSize b.x b.y).toFinset
        = (K0 ∪ {cellKey h.cellSize b.x b.y}) ∪
            (rest.map fun b => cellKey h0.cellSize b.x b.y).toFinset := by
      rw [hcs0]
      ext k
      simp only [List.map_cons, List.toFinset_cons, Finset.mem_union, Finset.mem_insert,
        Finset.mem_singleton, List.mem_toFinset]
      tauto
    rw [hunion] at hcard ⊢
    have hsub : (K0 ∪ {cellKey h.cellSize b.x b.y}).card ≤
        ((K0 ∪ {cellKey h.cellSize b.x b.y}) ∪
            (rest.map fun b => cellKey h0.cellSize b.x b.y).toFinset).card :=
      Finset.card_le_card Finset.subset_union_left
    have hK0sub : K0.card ≤ (K0 ∪ {cellKey h.cellSize b.x b.y}).card :=
      Finset.card_le_card Finset.subset_union_left
    have hadd : (K0 ∪ {cellKey h.cellSize b.x b.y}).card ≤ K0.card + 1 := by
      refine (Finset.card_union_le _ _).trans ?_
      simp
    have hsz0 : (h0.tableSize = 256 ∧ (K0 ∪ {cellKey h.cellSize b.x b.y}).card ≤ 192) ∨
        h0.tableSize = 512 := by
      by_cases hload : overLoad h = true
      · have hl := (overLoad_iff h).mp hload
        rw [if_pos hload] at hts0
        rcases hsz with ⟨h256, _⟩ | h512
        · right; omega
        · exfalso; omega
      · rw [if_neg hload] at hts0
        have hl : ¬ 3 * h.tableSize ≤ 4 * h.itemCount := fun hc => hload ((overLoad_iff h).mpr hc)
        rcases hsz with ⟨h256, _⟩ | h512
        · left; exact ⟨by omega, by omega⟩
        · right; omega
    obtain ⟨h1, heq1, hres⟩ := ih h0 _ hwf0 hpop0 hK1 hcard hsz0
    refine ⟨h1, ?_, hres⟩
    simp only [insertAll, List.foldlM_cons, heq0, Option.bind_eq_bind, Option.some_bind]
    exact heq1

omit [FloorRing F] in
theorem SpatialHash.populated_new (cs : F) : Populated (SpatialHash.new cs) :=
  populated_fresh 256 _ 256 0

omit [FloorRing F] in
theorem SpatialHash.not_hasKey_new (cs : F) (k : HashKey) : ¬ HasKey (SpatialHash.new cs) k :=
  not_hasKey_fresh 256 _ 256 0 k

/-- C15.  With nesting bound at least 2, `insert` on a reachable grid returns
and the new table size is twice the old one when the number of occupied slots
before the call is at least 75% of the table size (`3 * tableSize <= 4 *
occupied`), and the old one otherwise; and inserting, into the grid made by
the constructor (256 slots), any sequence of entries whose cell keys take
exactly 193 distinct values returns a grid of 512 slots. -/
theorem insert_doubles_table_at_load (fuel : Nat) (hfuel : 2 ≤ fuel) :
    (∀ (h : SpatialHash F) (b : BodyRef F), Reachable h →
      ∃ h1, insertFuel fuel h b = some h1 ∧
        h1.tableSize =
          if 3 * h.tableSize ≤ 4 * occupiedSlots h then 2 * h.tableSize else h.tableSize) ∧
    (∀ (cellSize : F) (es : List (BodyRef F)),
      (es.map fun b => cellKey (SpatialHash.new cellSize).cellSize b.x b.y).toFinset.card = 193 →
      (SpatialHash.new cellSize).tableSize = 256 ∧
      ∃ h1, insertAll fuel (SpatialHash.new cellSize) es = some h1 ∧ h1.tableSize = 512) := by
  constructor
  · intro h b hreach
    obtain ⟨hwf, hpop⟩ := hreach.wf_populated
    obtain ⟨h1, heq, _, _, _, hts, _⟩ := insertFuel_exact h hwf hpop b fuel hfuel
    refine ⟨h1, heq, ?_⟩
    rw [hts]
    have hocc : occupiedSlots h = h.itemCount := hwf.count_eq.symm
    rw [hocc]
    by_cases hload : overLoad h = true
    · rw [if_pos hload, if_pos ((overLoad_iff h).mp hload)]
    · rw [if_neg hload, if_neg (fun hc => hload ((overLoad_iff h).mpr hc))]
  · intro cs es hcard
    refine ⟨rfl, ?_⟩
    have hwf : WF (SpatialHash.new cs) := (Reachable.init cs).wf_populated.1
    obtain ⟨h1, heq, hres⟩ := insertAll_growth fuel hfuel es (SpatialHash.new cs) ∅ hwf
      (populated_new cs) (fun k => by simpa using not_hasKey_new cs k)
      (by rw [Finset.empty_union, hcard]; norm_num) (Or.inl ⟨rfl, by simp⟩)
    refine ⟨h1, heq, ?_⟩
    rcases hres with ⟨_, hle⟩ | h512
    · rw [Finset.empty_union, hcard] at hle
      omega
    · exact h512

end GridGrowth

section GridGrowthExample

open SpatialHash

theorem cellKey_rowEntry (i : Nat) :
    cellKey (SpatialHash.new (10 : ℚ)).cellSize (10 * (i : ℚ) + 5) 5 = ⟨(i : Int), 0⟩ := by
  have hcs : (SpatialHash.new (10 : ℚ)).cellSize = 10 := by
    show max (10 : ℚ) 1 = 10
    norm_num
  rw [hcs]
  unfold cellKey
  congr 1
  · rw [Int.floor_eq_iff]
    constructor
    · push_cast
      linarith
    · push_cast
      linarith
  · rw [Int.floor_eq_iff]
    norm_num

theorem rowEntries_keys :
    (rowEntries.map fun b => cellKey (SpatialHash.new (10 : ℚ)).cellSize b.x b.y).toFinset.card
      = 193 := by
  have hmap : (rowEntries.map fun b => cellKey (SpatialHash.new (10 : ℚ)).cellSize b.x b.y)
      = (List.range 193).map fun (i : Nat) => (⟨(i : Int), 0⟩ : HashKey) := by
    unfold rowEntries
    rw [List.map_map]
    apply List.map_congr_left
    intro i _
    exact cellKey_rowEntry i
  rw [hmap, List.toFinset_card_of_nodup, List.length_map, List.length_range]
  refine List.Nodup.map ?_ (List.nodup_range 193)
  intro a b hab
  have : ((a : Int)) = (b : Int) := congrArg HashKey.i hab
  exact_mod_cast this

/-- C15 at nesting bound 2: the first insertion into the grid made by the
constructor keeps its 256 slots, and inserting `rowEntries` (193 distinct
cells) ends with 512 slots. -/
theorem insert_doubles_table_at_load_witness :
    2 ≤ 2 ∧ Reachable (SpatialHash.new (10 : ℚ)) ∧
    (rowEntries.map fun b => cellKey (SpatialHash.new (10 : ℚ)).cellSize b.x b.y).toFinset.card
      = 193 ∧
    (∃ h1, insertFuel 2 (SpatialHash.new (10 : ℚ)) ⟨0, 5, 5, 5⟩ = some h1 ∧
      h1.tableSize = 256) ∧
    (∃ h1, insertAll 2 (SpatialHash.new (10 : ℚ)) rowEntries = some h1 ∧
      h1.tableSize = 512) := by
  have hocc : occupiedSlots (SpatialHash.new (10 : ℚ)) = 0 := by
    show (List.replicate 256 (Cell.empty : Cell ℚ)).countP (fun c => c.occupied) = 0
    rw [List.countP_replicate]
    rfl
  refine ⟨le_refl 2, Reachable.init 10, rowEntries_keys, ?_, ?_⟩
  · obtain ⟨h1, heq, hts⟩ := (insert_doubles_table_at_load 2 (le_refl 2)).1
      (SpatialHash.new (10 : ℚ)) ⟨0, 5, 5, 5⟩ (Reachable.init 10)
    refine ⟨h1, heq, ?_⟩
    rw [hts, hocc]
    rfl
  · exact ((insert_doubles_table_at_load 2 (le_refl 2)).2 (10 : ℚ) rowEntries
      rowEntries_keys).2

end GridGrowthExample

/-! ## Engines -/

section Engines

/-- The square roots taken during the two evaluations below are exact:
`qsqrt` is applied to 36, to `(1/1000)^2` and to `(1992001/200000)^2`. -/
theorem qsqrt_exact_on_used_inputs :
    qsqrt 36 = 6 ∧ qsqrt (1 / 1000000) = 1 / 1000 ∧
    qsqrt (1992001 / 200000 * (1992001 / 200000)) = 1992001 / 200000 := by
  decide!

/-- C1 fails on the code.  On `midlineBodies` (ids equal to indices, common
radius 5, all inside the 800 x 600 box, at rest) one step of the grid-backed
engine resolves the pair (0, 1) and reports one collision, while one step of
the tree-backed engine resolves no pair and reports none: body 1 fits no
quadrant of the subdivided root, stays in the root's own list, and is never
returned by `Quadtree::query`. -/
theorem engines_disagree_on_midline_pair :
    ((EngineQuadtree.new (800 : ℚ) 600 5).stepState qsqrt midlineBodies (1 / 500)).2.processedPairs
        = [] ∧
    ((EngineQuadtree.new (800 : ℚ) 600 5).step qsqrt midlineBodies (1 / 500)).1.collisionsThisStep
        = 0 ∧
    ((EngineHash.new (800 : ℚ) 600 5).stepState 2 qsqrt midlineBodies (1 / 500)).map
        (fun res => res.2.processedPairs) = some [(0, 1)] ∧
    ((EngineHash.new (800 : ℚ) 600 5).step 2 qsqrt midlineBodies (1 / 500)).map
        (fun res => res.1.collisionsThisStep) = some 1 := by
  decide!

/-- A second way in which the two engines differ, without any subdivision of
the tree.  On `nudgedBodies` the pair (0, 2) is resolved first and its
positional correction pushes body 2 to within a diameter of body 1.  The tree
query of body 1 still returns id 2 (its stored centre is within `3r`), so the
tree-backed engine also resolves (1, 2); the stored entry of body 2 lies two
cells away from body 1, outside the 3x3 block of the grid query, so the
grid-backed engine does not. -/
theorem engines_disagree_after_correction :
    ((EngineQuadtree.new (800 : ℚ) 600 5).stepState qsqrt nudgedBodies (1 / 500)).2.processedPairs
        = [(0, 2), (1, 2)] ∧
    ((EngineHash.new (800 : ℚ) 600 5).stepState 2 qsqrt nudgedBodies (1 / 500)).map
        (fun res => res.2.processedPairs) = some [(0, 2)] := by
  decide!

end Engines

section EngineLoop

open Engine

variable {F : Type} [LinearOrderedField F]

omit [LinearOrderedField F] in
theorem getD_map_lt {α β : Type} (f : α → β) (l : List α) (k : Nat) (hk : k < l.length)
    (d : β) (d' : α) : (l.map f).getD k d = f (l.getD k d') := by
  simp [List.getD_eq_getElem?_getD, hk]

omit [LinearOrderedField F] in
theorem getD_set_eq {α : Type} (l : List α) (k : Nat) (hk : k < l.length) (a d : α) :
    (l.set k a).getD k d = a := by
  simp [List.getD_eq_getElem?_getD, hk]

omit [LinearOrderedField F] in
theorem getD_set_ne {α : Type} (l : List α) (k m : Nat) (hne : k ≠ m) (a d : α) :
    (l.set k a).getD m d = l.getD m d := by
  simp [List.getD_eq_getElem?_getD, List.getElem?_set_ne hne]

theorem physics.wallStep_id (box_w box_h r : F) (p : Particle F) :
    (physics.wallStep box_w box_h r p).id = p.id := by
  unfold physics.wallStep
  dsimp only
  split_ifs <;> rfl

theorem physics.wallStep_collided (box_w box_h r : F) (p : Particle F) :
    (physics.wallStep box_w box_h r p).collided = (p.collided || physics.wallHit box_w box_h r p) := by
  unfold physics.wallStep physics.wallHit
  dsimp only
  split_ifs <;> simp_all

theorem physics.resolve_collision_meta (sqrt : F → F) (a b : Particle F) :
    (physics.resolve_collision sqrt a b).1.id = a.id ∧
    (physics.resolve_collision sqrt a b).2.id = b.id ∧
    (physics.resolve_collision sqrt a b).1.collided = true ∧
    (physics.resolve_collision sqrt a b).2.collided = true :=
  ⟨rfl, rfl, rfl, rfl⟩

theorem physics.positional_correction_meta (sqrt : F → F) (a b : Particle F) (eps : F) :
    (physics.positional_correction sqrt a b eps).1.id = a.id ∧
    (physics.positional_correction sqrt a b eps).2.id = b.id ∧
    (physics.positional_correction sqrt a b eps).1.collided = a.collided ∧
    (physics.positional_correction sqrt a b eps).2.collided = b.collided := by
  unfold physics.positional_correction
  dsimp only
  split_ifs <;> exact ⟨rfl, rfl, rfl, rfl⟩

theorem Engine.length_afterWalls (box_w box_h r : F) (ps : List (Particle F)) (dt : F) :
    (afterWalls box_w box_h r ps dt).length = ps.length := by
  simp [afterWalls, physics.handle_walls, physics.integrate, resetFlags]

theorem Engine.afterWalls_getD (box_w box_h r : F) (ps : List (Particle F)) (dt : F) (k : Nat)
    (hk : k < ps.length) :
    (afterWalls box_w box_h r ps dt).getD k Particle.default
      = physics.wallStep box_w box_h r
          ((physics.integrate (resetFlags ps) dt).getD k Particle.default) := by
  unfold afterWalls physics.handle_walls
  exact getD_map_lt _ _ k (by simp [physics.integrate, resetFlags, hk]) _ _

theorem Engine.integrate_reset_getD (ps : List (Particle F)) (dt : F) (k : Nat)
    (hk : k < ps.length) :
    ((physics.integrate (resetFlags ps) dt).getD k Particle.default).id
        = (ps.getD k Particle.default).id ∧
      ((physics.integrate (resetFlags ps) dt).getD k Particle.default).collided = false := by
  unfold physics.integrate resetFlags
  rw [getD_map_lt _ _ k (by simp [hk]) _ Particle.default,
    getD_map_lt _ _ k hk _ Particle.default]
  exact ⟨rfl, rfl⟩

theorem Engine.IdsOk.afterWalls {ps : List (Particle F)} (hids : IdsOk ps) (box_w box_h r dt : F) :
    IdsOk (afterWalls box_w box_h r ps dt) := by
  intro k hk
  rw [length_afterWalls] at hk
  rw [afterWalls_getD box_w box_h r ps dt k hk, physics.wallStep_id,
    (integrate_reset_getD ps dt k hk).1]
  exact hids k hk

theorem Engine.afterWalls_collided (box_w box_h r : F) (ps : List (Particle F)) (dt : F)
    (k : Nat) (hk : k < ps.length) :
    ((afterWalls box_w box_h r ps dt).getD k Particle.default).collided
      = physics.wallHit box_w box_h r
          ((physics.integrate (resetFlags ps) dt).getD k Particle.default) := by
  rw [afterWalls_getD box_w box_h r ps dt k hk, physics.wallStep_collided,
    (integrate_reset_getD ps dt k hk).2, Bool.false_or]

/-- With the identity-as-index invariant the table `idToIndex` built by
`narrowPhase` maps every id in range to itself. -/
theorem Engine.buildIdToIndex_getD (ps : List (Particle F)) (hids : IdsOk ps) (j : Nat)
    (hj : j < ps.length) : (buildIdToIndex ps).getD j 0 = j := by
  have key : ∀ k, k ≤ ps.length →
      ((List.range k).foldl
        (fun tbl i =>
          let id := (ps.getD i Particle.default).id
          if 0 ≤ id then tbl.set id.toNat i else tbl)
        (List.replicate ps.length 0)).length = ps.length ∧
      ∀ j, j < k → ((List.range k).foldl
        (fun tbl i =>
          let id := (ps.getD i Particle.default).id
          if 0 ≤ id then tbl.set id.toNat i else tbl)
        (List.replicate ps.length 0)).getD j 0 = j := by
    intro k
    induction k with
    | zero => intro _; exact ⟨by simp, fun j hj => absurd hj (Nat.not_lt_zero j)⟩
    | succ k ih =>
      intro hk
      obtain ⟨hlen, hget⟩ := ih (by omega)
      rw [List.range_succ, List.foldl_append]
      simp only [List.foldl_cons, List.foldl_nil]
      have hid := hids k (by omega)
      rw [hid]
      simp only [Int.natCast_nonneg, if_true, Int.toNat_ofNat]
      refine ⟨by rw [List.length_set]; exact hlen, ?_⟩
      intro j hj
      by_cases hjk : j = k
      · subst hjk
        exact getD_set_eq _ _ (by rw [hlen]; omega) _ _
      · rw [getD_set_ne _ _ _ (Ne.symm hjk)]
        exact hget j (by omega)
  exact (key ps.length (le_refl _)).2 j hj

end EngineLoop
section EngineCandidate

open Engine

variable {F : Type} [LinearOrderedField F]

omit [LinearOrderedField F] in
theorem Engine.inPair_append_singleton (k : Nat) (pairs : List (Int × Int)) (a b : Int) :
    InPair k (pairs ++ [(a, b)]) ↔ InPair k pairs ∨ a = (k : Int) ∨ b = (k : Int) := by
  unfold InPair
  constructor
  · rintro ⟨pr, hmem, hpr⟩
    rcases List.mem_append.mp hmem with h | h
    · exact Or.inl ⟨pr, h, hpr⟩
    · rw [List.mem_singleton] at h
      subst h
      exact Or.inr hpr
  · rintro (⟨pr, hmem, hpr⟩ | h)
    · exact ⟨pr, List.mem_append_left _ hmem, hpr⟩
    · exact ⟨(a, b), List.mem_append_right _ (List.mem_singleton_self _), h⟩

/-- One iteration of the candidate loop of `narrowPhase` for body `i`, under
the identity-as-index invariant: the invariant is kept, the candidate counter
is not touched, and at most one pair is logged, with `i` as its lower id. -/
theorem Engine.processCandidate_step (sqrt : F → F) (ps0 : List (Particle F))
    (hids0 : IdsOk ps0) (n c0 : Nat) (f0 : Nat → Bool) (hn : ps0.length = n) (i : Nat)
    (hi : i < n) (st : NarrowState F) (hinv : NarrowInv n c0 f0 st) (j_id : Int) :
    NarrowInv n c0 f0 (processCandidate sqrt (buildIdToIndex ps0) i st j_id) ∧
    (processCandidate sqrt (buildIdToIndex ps0) i st j_id).candidatePairsChecked
      = st.candidatePairsChecked ∧
    ∃ added, (processCandidate sqrt (buildIdToIndex ps0) i st j_id).processedPairs
        = st.processedPairs ++ added ∧
      ∀ pr ∈ added, pr.1 = (i : Int) ∧ (i : Int) < pr.2 := by
  have hpid : (st.particles.getD i Particle.default).id = (i : Int) :=
    hinv.ids i (by rw [hinv.len]; exact hi)
  have hskip : NarrowInv n c0 f0 st ∧ st.candidatePairsChecked = st.candidatePairsChecked ∧
      ∃ added, st.processedPairs = st.processedPairs ++ added ∧
        ∀ pr ∈ added, pr.1 = (i : Int) ∧ (i : Int) < pr.2 :=
    ⟨hinv, rfl, [], by simp, fun _ h => absurd h (List.not_mem_nil _)⟩
  unfold processCandidate
  dsimp only
  rw [hpid]
  by_cases h1 : j_id ≤ (i : Int)
  · rw [if_pos h1]; exact hskip
  rw [if_neg h1]
  by_cases h2 : alreadyProcessed st.processedPairs (i : Int) j_id = true
  · rw [if_pos h2]; exact hskip
  rw [if_neg h2]
  by_cases h3 : j_id < 0 ∨ j_id ≥ (st.particles.length : Int)
  · rw [if_pos h3]; exact hskip
  rw [if_neg h3]
  rw [hinv.len] at h3
  obtain ⟨j, rfl⟩ : ∃ j : Nat, j_id = (j : Int) := ⟨j_id.toNat, by omega⟩
  have hj : j < n := by omega
  have hij : i < j := by omega
  rw [Int.toNat_ofNat, buildIdToIndex_getD ps0 hids0 j (by omega)]
  have hoid : (st.particles.getD j Particle.default).id = (j : Int) :=
    hinv.ids j (by rw [hinv.len]; exact hj)
  by_cases h4 : physics.circle_overlap (st.particles.getD i Particle.default)
      (st.particles.getD j Particle.default) = true
  swap
  · rw [if_neg h4]; exact hskip
  rw [if_pos h4]
  dsimp only
  rw [hoid]
  have hnot : ((i : Int), (j : Int)) ∉ st.processedPairs := by
    intro hmem
    apply h2
    unfold alreadyProcessed
    rw [List.any_eq_true]
    exact ⟨_, hmem, by simp⟩
  obtain ⟨hr1, hr2, hr3, hr4⟩ := physics.resolve_collision_meta sqrt
    (st.particles.getD i Particle.default) (st.particles.getD j Particle.default)
  obtain ⟨hc1, hc2, hc3, hc4⟩ := physics.positional_correction_meta sqrt
    (physics.resolve_collision sqrt (st.particles.getD i Particle.default)
      (st.particles.getD j Particle.default)).1
    (physics.resolve_collision sqrt (st.particles.getD i Particle.default)
      (st.particles.getD j Particle.default)).2 physics.defaultEpsilon
  have hli : i < st.particles.length := by rw [hinv.len]; exact hi
  have hlj : j < (st.particles.set i (physics.positional_correction sqrt
      (physics.resolve_collision sqrt (st.particles.getD i Particle.default)
        (st.particles.getD j Particle.default)).1
      (physics.resolve_collision sqrt (st.particles.getD i Particle.default)
        (st.particles.getD j Particle.default)).2 physics.defaultEpsilon).1).length := by
    rw [List.length_set, hinv.len]; exact hj
  refine ⟨⟨?_, ?_, ?_, ?_, ?_, ?_⟩, rfl, [((i : Int), (j : Int))], rfl, ?_⟩
  · simp only [List.length_set]
    exact hinv.len
  · intro k hk
    simp only [List.length_set] at hk
    by_cases hkj : k = j
    · subst hkj
      rw [getD_set_eq _ _ hlj, hc2, hr2, hoid]
    · rw [getD_set_ne _ _ _ (Ne.symm hkj)]
      by_cases hki : k = i
      · subst hki
        rw [getD_set_eq _ _ hli, hc1, hr1, hpid]
      · rw [getD_set_ne _ _ _ (Ne.symm hki)]
        exact hinv.ids k hk
  · intro pr hpr
    rcases List.mem_append.mp hpr with h | h
    · exact hinv.lower pr h
    · rw [List.mem_singleton] at h
      subst h
      exact ⟨Int.natCast_nonneg i, Int.ofNat_lt.mpr hij, Int.ofNat_lt.mpr hj⟩
  · refine List.Nodup.append hinv.nodup (List.nodup_singleton _) ?_
    intro pr hpr hpr1
    rw [List.mem_singleton] at hpr1
    subst hpr1
    exact hnot hpr
  · show st.collisionsThisStep + 1 = c0 + (st.processedPairs ++ [((i : Int), (j : Int))]).length
    rw [hinv.count, List.length_append, List.length_singleton, Nat.add_assoc]
  · intro k hk
    show (((st.particles.set i _).set j _).getD k Particle.default).collided = true ↔
      f0 k = true ∨ InPair k (st.processedPairs ++ [((i : Int), (j : Int))])
    rw [inPair_append_singleton]
    by_cases hkj : k = j
    · subst hkj
      rw [getD_set_eq _ _ hlj, hc4, hr4]
      simp
    · rw [getD_set_ne _ _ _ (Ne.symm hkj)]
      by_cases hki : k = i
      · subst hki
        rw [getD_set_eq _ _ hli, hc3, hr3]
        simp
      · rw [getD_set_ne _ _ _ (Ne.symm hki), hinv.flags k hk]
        have e1 : ¬ ((i : Int) = (k : Int)) := by omega
        have e2 : ¬ ((j : Int) = (k : Int)) := by omega
        simp only [e1, e2, or_false]
  · intro pr hpr
    rw [List.mem_singleton] at hpr
    subst hpr
    exact ⟨rfl, Int.ofNat_lt.mpr hij⟩

/-- The candidate loop of `narrowPhase` for body `i`. -/
theorem Engine.processBody_step (sqrt : F → F) (ps0 : List (Particle F))
    (hids0 : IdsOk ps0) (n c0 : Nat) (f0 : Nat → Bool) (hn : ps0.length = n) (i : Nat)
    (hi : i < n) (candidates : List Int) (st : NarrowState F) (hinv : NarrowInv n c0 f0 st) :
    NarrowInv n c0 f0 (processBody sqrt (buildIdToIndex ps0) i candidates st) ∧
    (processBody sqrt (buildIdToIndex ps0) i candidates st).candidatePairsChecked
      = st.candidatePairsChecked + candidates.length ∧
    ∃ added, (processBody sqrt (buildIdToIndex ps0) i candidates st).processedPairs
        = st.processedPairs ++ added ∧
      ∀ pr ∈ added, pr.1 = (i : Int) ∧ (i : Int) < pr.2 := by
  have key : ∀ (cs : List Int) (s : NarrowState F), NarrowInv n c0 f0 s →
      NarrowInv n c0 f0 (cs.foldl (processCandidate sqrt (buildIdToIndex ps0) i) s) ∧
      (cs.foldl (processCandidate sqrt (buildIdToIndex ps0) i) s).candidatePairsChecked
        = s.candidatePairsChecked ∧
      ∃ added, (cs.foldl (processCandidate sqrt (buildIdToIndex ps0) i) s).processedPairs
          = s.processedPairs ++ added ∧
        ∀ pr ∈ added, pr.1 = (i : Int) ∧ (i : Int) < pr.2 := by
    intro cs
    induction cs with
    | nil =>
      intro s hs
      exact ⟨hs, rfl, [], by simp, fun _ h => absurd h (List.not_mem_nil _)⟩
    | cons c rest ih =>
      intro s hs
      obtain ⟨hinv1, hc1, a1, ha1, hp1⟩ :=
        processCandidate_step sqrt ps0 hids0 n c0 f0 hn i hi s hs c
      obtain ⟨hinv2, hc2, a2, ha2, hp2⟩ := ih _ hinv1
      refine ⟨hinv2, hc2.trans hc1, a1 ++ a2, ?_, ?_⟩
      · rw [List.foldl_cons, ha2, ha1, List.append_assoc]
      · intro pr hpr
        rcases List.mem_append.mp hpr with h | h
        · exact hp1 pr h
        · exact hp2 pr h
  unfold processBody
  exact key candidates _ ⟨hinv.len, hinv.ids, hinv.lower, hinv.nodup, hinv.count, hinv.flags⟩

end EngineCandidate
section EngineNarrow

open Engine

variable {F : Type} [LinearOrderedField F]

theorem Engine.narrowAt_succ (sqrt : F → F) (cand : Particle F → List Int)
    (ps : List (Particle F)) (cpc cts k : Nat) :
    narrowAt sqrt cand ps cpc cts (k + 1)
      = processBody sqrt (buildIdToIndex ps) k (queryAt sqrt cand ps cpc cts k)
          (narrowAt sqrt cand ps cpc cts k) := by
  unfold queryAt narrowAt
  rw [List.range_succ, List.foldl_append]
  rfl

/-- One iteration of the candidate loop: the candidate counter is not touched,
and the collision counter grows by the number of pairs logged. -/
theorem Engine.processCandidate_counts (sqrt : F → F) (idx : List Nat) (i : Nat)
    (st : NarrowState F) (j_id : Int) :
    (processCandidate sqrt idx i st j_id).candidatePairsChecked = st.candidatePairsChecked ∧
      (processCandidate sqrt idx i st j_id).collisionsThisStep + st.processedPairs.length
        = st.collisionsThisStep + (processCandidate sqrt idx i st j_id).processedPairs.length := by
  unfold processCandidate
  dsimp only
  split_ifs
  · exact ⟨rfl, rfl⟩
  · exact ⟨rfl, rfl⟩
  · exact ⟨rfl, rfl⟩
  · refine ⟨rfl, ?_⟩
    show st.collisionsThisStep + 1 + st.processedPairs.length
      = st.collisionsThisStep + (st.processedPairs ++ [_]).length
    rw [List.length_append, List.length_singleton]
    omega
  · exact ⟨rfl, rfl⟩

theorem Engine.processBody_counts (sqrt : F → F) (idx : List Nat) (i : Nat)
    (candidates : List Int) (st : NarrowState F) :
    (processBody sqrt idx i candidates st).candidatePairsChecked
        = st.candidatePairsChecked + candidates.length ∧
      (processBody sqrt idx i candidates st).collisionsThisStep + st.processedPairs.length
        = st.collisionsThisStep + (processBody sqrt idx i candidates st).processedPairs.length := by
  have key : ∀ (cs : List Int) (s : NarrowState F),
      (cs.foldl (processCandidate sqrt idx i) s).candidatePairsChecked
          = s.candidatePairsChecked ∧
        (cs.foldl (processCandidate sqrt idx i) s).collisionsThisStep + s.processedPairs.length
          = s.collisionsThisStep
            + (cs.foldl (processCandidate sqrt idx i) s).processedPairs.length := by
    intro cs
    induction cs with
    | nil => intro s; exact ⟨rfl, rfl⟩
    | cons c rest ih =>
      intro s
      obtain ⟨h1, h2⟩ := processCandidate_counts sqrt idx i s c
      obtain ⟨h3, h4⟩ := ih (processCandidate sqrt idx i s c)
      rw [List.foldl_cons]
      exact ⟨h3.trans h1, by omega⟩
  unfold processBody
  exact key candidates _

/-- The two counters after the bodies `0, ..., k - 1` have been processed. -/
theorem Engine.narrowAt_counts (sqrt : F → F) (cand : Particle F → List Int)
    (ps : List (Particle F)) (cpc cts : Nat) :
    ∀ k, (narrowAt sqrt cand ps cpc cts k).candidatePairsChecked
          = cpc + ((List.range k).map fun i => (queryAt sqrt cand ps cpc cts i).length).sum ∧
        (narrowAt sqrt cand ps cpc cts k).collisionsThisStep
          = cts + (narrowAt sqrt cand ps cpc cts k).processedPairs.length := by
  intro k
  induction k with
  | zero => exact ⟨rfl, rfl⟩
  | succ k ih =>
    obtain ⟨h1, h2⟩ := ih
    obtain ⟨h3, h4⟩ := processBody_counts sqrt (buildIdToIndex ps) k
      (queryAt sqrt cand ps cpc cts k) (narrowAt sqrt cand ps cpc cts k)
    rw [narrowAt_succ, List.range_succ, List.map_append, List.sum_append]
    simp only [List.map_cons, List.map_nil, List.sum_cons, List.sum_nil, Nat.add_zero]
    exact ⟨by rw [h3, h1, Nat.add_assoc], by omega⟩

/-- The loop invariant holds after the bodies `0, ..., k - 1` have been
processed, and the pairs logged for body `k` have `k` as their lower id. -/
theorem Engine.narrowAt_inv (sqrt : F → F) (cand : Particle F → List Int)
    (ps : List (Particle F)) (hids : IdsOk ps) (cpc cts : Nat) :
    ∀ k, k ≤ ps.length →
      NarrowInv ps.length cts (fun m => (ps.getD m Particle.default).collided)
        (narrowAt sqrt cand ps cpc cts k) := by
  intro k
  induction k with
  | zero =>
    intro _
    refine ⟨rfl, hids, fun _ h => absurd h (List.not_mem_nil _), List.nodup_nil, rfl, ?_⟩
    intro m _
    show (ps.getD m Particle.default).collided = true ↔ _
    constructor
    · exact fun h => Or.inl h
    · rintro (h | ⟨_, h, _⟩)
      · exact h
      · exact absurd h (List.not_mem_nil _)
  | succ k ih =>
    intro hk
    rw [narrowAt_succ]
    exact (processBody_step sqrt ps hids ps.length cts _ rfl k (by omega) _ _
      (ih (by omega))).1

theorem Engine.narrowAt_added (sqrt : F → F) (cand : Particle F → List Int)
    (ps : List (Particle F)) (hids : IdsOk ps) (cpc cts : Nat) (k : Nat) (hk : k < ps.length) :
    ∃ added, (narrowAt sqrt cand ps cpc cts (k + 1)).processedPairs
        = (narrowAt sqrt cand ps cpc cts k).processedPairs ++ added ∧
      ∀ pr ∈ added, pr.1 = (k : Int) ∧ (k : Int) < pr.2 := by
  rw [narrowAt_succ]
  exact (processBody_step sqrt ps hids ps.length cts _ rfl k hk _ _
    (narrowAt_inv sqrt cand ps hids cpc cts k (by omega))).2.2

theorem Engine.resolvedAtOwner (sqrt : F → F) (cand : Particle F → List Int)
    (ps : List (Particle F)) (hids : IdsOk ps) : ResolvedAtOwner sqrt cand ps :=
  fun k hk => narrowAt_added sqrt cand ps hids 0 0 k hk

omit [LinearOrderedField F] in
theorem count_le_one_of_nodup {α : Type} [BEq α] [LawfulBEq α] (l : List α) (hnd : l.Nodup)
    (a : α) : l.count a ≤ 1 := by
  induction l with
  | nil => simp
  | cons x rest ih =>
    obtain ⟨hx, hrest⟩ := List.nodup_cons.mp hnd
    rw [List.count_cons]
    by_cases hxa : (x == a) = true
    · have : a ∉ rest := by
        rw [← eq_of_beq hxa]
        exact hx
      rw [List.count_eq_zero_of_not_mem this, if_pos hxa]
    · rw [if_neg hxa]
      exact ih hrest

omit [LinearOrderedField F] in
theorem Engine.oncePerPair_of (n : Nat) (pairs : List (Int × Int)) (hl : LowerFirst n pairs)
    (hnd : pairs.Nodup) : OncePerPair pairs := by
  intro a b
  have h1 : pairs.count (a, b) ≤ 1 := count_le_one_of_nodup pairs hnd _
  have h2 : pairs.count (b, a) ≤ 1 := count_le_one_of_nodup pairs hnd _
  by_cases hab : a < b
  · have : (b, a) ∉ pairs := by
      intro hmem
      have := (hl _ hmem).2.1
      simp only at this
      omega
    rw [List.count_eq_zero_of_not_mem this]
    omega
  · have : (a, b) ∉ pairs := by
      intro hmem
      have := (hl _ hmem).2.1
      simp only at this
      omega
    rw [List.count_eq_zero_of_not_mem this]
    omega

theorem EngineQuadtree.narrowPhase_eq_narrowAt (sqrt : F → F) (e : EngineQuadtree F)
    (ps : List (Particle F)) :
    EngineQuadtree.narrowPhase sqrt e ps
      = narrowAt sqrt (EngineQuadtree.candidates e) ps e.candidatePairsChecked
          e.collisionsThisStep ps.length := rfl

theorem EngineQuadtree.stepState_eq_narrowAt (sqrt : F → F) (e : EngineQuadtree F)
    (ps : List (Particle F)) (dt : F) :
    (EngineQuadtree.stepState sqrt e ps dt).2
      = narrowAt sqrt (EngineQuadtree.candidates (EngineQuadtree.stepState sqrt e ps dt).1)
          (afterWalls e.box_w e.box_h e.r ps dt) 0 0 ps.length := by
  rw [← length_afterWalls e.box_w e.box_h e.r ps dt]
  rfl

end EngineNarrow

section EngineNarrowHash

open Engine SpatialHash

variable {F : Type} [LinearOrderedField F] [FloorRing F]

/-- On a grid that satisfies the invariant every query of
`EngineHash::narrowPhase` returns, so the loop runs to its end. -/
theorem EngineHash.narrowPhase_returns (sqrt : F → F) (e : EngineHash F) (hwf : WF e.spatialHash)
    (ps : List (Particle F)) :
    EngineHash.narrowPhase sqrt e ps
      = some (narrowAt sqrt (EngineHash.candidates e) ps e.candidatePairsChecked
          e.collisionsThisStep ps.length) := by
  have key : ∀ k, (List.range k).foldlM
      (fun st i =>
        (e.spatialHash.query (st.particles.getD i Particle.default).x
            (st.particles.getD i Particle.default).y (2 * e.r)).map fun candidates =>
          processBody sqrt (buildIdToIndex ps) i candidates st)
      ({ particles := ps, processedPairs := [],
         candidatePairsChecked := e.candidatePairsChecked,
         collisionsThisStep := e.collisionsThisStep } : NarrowState F)
      = some (narrowAt sqrt (EngineHash.candidates e) ps e.candidatePairsChecked
          e.collisionsThisStep k) := by
    intro k
    induction k with
    | zero => rfl
    | succ k ih =>
      rw [List.range_succ, List.foldlM_append, ih, narrowAt_succ]
      obtain ⟨ids, hq, _⟩ := query_exact e.spatialHash hwf
        ((narrowAt sqrt (EngineHash.candidates e) ps e.candidatePairsChecked
          e.collisionsThisStep k).particles.getD k Particle.default).x
        ((narrowAt sqrt (EngineHash.candidates e) ps e.candidatePairsChecked
          e.collisionsThisStep k).particles.getD k Particle.default).y (2 * e.r)
      simp only [Option.bind_eq_bind, Option.some_bind, List.foldlM_cons, List.foldlM_nil, hq,
        Option.map_some', Option.bind_some, queryAt, EngineHash.candidates, Option.getD_some]
      rfl
  exact key ps.length

/-- The query of `narrowPhase` for body `k` returns the list `queryAt`. -/
theorem EngineHash.query_eq_queryAt (sqrt : F → F) (e : EngineHash F) (hwf : WF e.spatialHash)
    (ps : List (Particle F)) (cpc cts k : Nat) :
    e.spatialHash.query
        ((narrowAt sqrt (EngineHash.candidates e) ps cpc cts k).particles.getD k
          Particle.default).x
        ((narrowAt sqrt (EngineHash.candidates e) ps cpc cts k).particles.getD k
          Particle.default).y (2 * e.r)
      = some (queryAt sqrt (EngineHash.candidates e) ps cpc cts k) := by
  obtain ⟨ids, hq, _⟩ := query_exact e.spatialHash hwf
    ((narrowAt sqrt (EngineHash.candidates e) ps cpc cts k).particles.getD k Particle.default).x
    ((narrowAt sqrt (EngineHash.candidates e) ps cpc cts k).particles.getD k Particle.default).y
    (2 * e.r)
  rw [hq]
  simp only [queryAt, EngineHash.candidates, hq, Option.getD_some]

/-- With nesting bound at least 2 and a reachable grid, `EngineHash::step`
runs to the end of `narrowPhase`. -/
theorem EngineHash.stepState_returns (fuel : Nat) (hfuel : 2 ≤ fuel) (sqrt : F → F)
    (e : EngineHash F) (hreach : Reachable e.spatialHash) (ps : List (Particle F)) (dt : F) :
    ∃ e2 : EngineHash F, WF e2.spatialHash ∧ e2.r = e.r ∧
      EngineHash.stepState fuel sqrt e ps dt
        = some (e2, narrowAt sqrt (EngineHash.candidates e2)
            (afterWalls e.box_w e.box_h e.r ps dt) 0 0 ps.length) := by
  obtain ⟨g, hg, hwfg, _⟩ := insertAll_spec fuel hfuel
    (bodyRefs (afterWalls e.box_w e.box_h e.r ps dt)) (SpatialHash.clear e.spatialHash)
    (Reachable.clear hreach).wf_populated.1
  refine ⟨{ e with candidatePairsChecked := 0, collisionsThisStep := 0, spatialHash := g },
    hwfg, rfl, ?_⟩
  have hnp := EngineHash.narrowPhase_returns sqrt
    ({ e with candidatePairsChecked := 0, collisionsThisStep := 0, spatialHash := g })
    hwfg (afterWalls e.box_w e.box_h e.r ps dt)
  rw [length_afterWalls] at hnp
  unfold EngineHash.stepState EngineHash.buildBroadPhase
  dsimp only
  unfold afterWalls at hg hnp ⊢
  rw [hg]
  simp only [Option.map_some', Option.some_bind, Option.bind_eq_bind]
  rw [hnp]
  rfl

end EngineNarrowHash

section EngineClaims

open Engine SpatialHash

variable {F : Type} [LinearOrderedField F] [FloorRing F]

/-- C11.  In one `step` of either engine on bodies whose ids equal their
indices (for the grid engine: on a reachable grid, with nesting bound at
least 2, where `step` is shown to return): a candidate id not above the id of
the body being processed is skipped; the log `processedPairs` of the resolved
pairs holds no unordered pair twice, in either orientation; every logged pair
is written lower id first with both ids in range; and the pairs logged while
body `k` is processed all have `k` as their lower id. -/
theorem pairs_resolved_once_by_lower_id (sqrt : F → F) (fuel : Nat) (hfuel : 2 ≤ fuel)
    (et : EngineQuadtree F) (eh : EngineHash F) (hreach : Reachable eh.spatialHash)
    (ps : List (Particle F)) (hids : IdsOk ps) (dt : F) :
    (∀ (idToIndex : List Nat) (i : Nat) (st : NarrowState F) (j_id : Int),
      j_id ≤ (st.particles.getD i Particle.default).id →
        processCandidate sqrt idToIndex i st j_id = st) ∧
    (OncePerPair (EngineQuadtree.stepState sqrt et ps dt).2.processedPairs ∧
      LowerFirst ps.length (EngineQuadtree.stepState sqrt et ps dt).2.processedPairs ∧
      (EngineQuadtree.stepState sqrt et ps dt).2
        = narrowAt sqrt (EngineQuadtree.candidates (EngineQuadtree.stepState sqrt et ps dt).1)
            (afterWalls et.box_w et.box_h et.r ps dt) 0 0 ps.length ∧
      ResolvedAtOwner sqrt (EngineQuadtree.candidates (EngineQuadtree.stepState sqrt et ps dt).1)
        (afterWalls et.box_w et.box_h et.r ps dt)) ∧
    (∃ res, EngineHash.stepState fuel sqrt eh ps dt = some res ∧
      OncePerPair res.2.processedPairs ∧
      LowerFirst ps.length res.2.processedPairs ∧
      res.2 = narrowAt sqrt (EngineHash.candidates res.1)
            (afterWalls eh.box_w eh.box_h eh.r ps dt) 0 0 ps.length ∧
      ResolvedAtOwner sqrt (EngineHash.candidates res.1)
        (afterWalls eh.box_w eh.box_h eh.r ps dt)) := by
  refine ⟨?_, ?_, ?_⟩
  · intro idToIndex i st j_id hle
    unfold processCandidate
    dsimp only
    rw [if_pos hle]
  · have hids3 := hids.afterWalls et.box_w et.box_h et.r dt
    have hinv := narrowAt_inv sqrt
      (EngineQuadtree.candidates (EngineQuadtree.stepState sqrt et ps dt).1)
      (afterWalls et.box_w et.box_h et.r ps dt) hids3 0 0 ps.length
      (by rw [length_afterWalls])
    rw [length_afterWalls] at hinv
    rw [EngineQuadtree.stepState_eq_narrowAt]
    exact ⟨oncePerPair_of _ _ hinv.lower hinv.nodup, hinv.lower, rfl,
      resolvedAtOwner sqrt _ _ hids3⟩
  · obtain ⟨e2, _, _, heq⟩ := EngineHash.stepState_returns fuel hfuel sqrt eh hreach ps dt
    have hids3 := hids.afterWalls eh.box_w eh.box_h eh.r dt
    have hinv := narrowAt_inv sqrt (EngineHash.candidates e2)
      (afterWalls eh.box_w eh.box_h eh.r ps dt) hids3 0 0 ps.length
      (by rw [length_afterWalls])
    rw [length_afterWalls] at hinv
    exact ⟨_, heq, oncePerPair_of _ _ hinv.lower hinv.nodup, hinv.lower, rfl,
      resolvedAtOwner sqrt _ _ hids3⟩

/-- C12.  After `step` of either engine on bodies whose ids equal their
indices (for the grid engine: on a reachable grid, with nesting bound at
least 2, where `step` is shown to return), the flag `collided` of the body at
index `k` is true exactly when one of the edge tests of `handle_walls` fired
for it in that step or `k` is a member of a pair resolved in that step; and
two body vectors that differ only in their flags give the same result. -/
theorem collided_flag_iff_wall_or_pair (sqrt : F → F) (fuel : Nat) (hfuel : 2 ≤ fuel)
    (et : EngineQuadtree F) (eh : EngineHash F) (hreach : Reachable eh.spatialHash)
    (ps : List (Particle F)) (hids : IdsOk ps) (dt : F) :
    ((∀ k, k < ps.length →
        (((EngineQuadtree.step sqrt et ps dt).2.getD k Particle.default).collided = true ↔
          physics.wallHit et.box_w et.box_h et.r
              ((physics.integrate (resetFlags ps) dt).getD k Particle.default) = true ∨
            InPair k (EngineQuadtree.stepState sqrt et ps dt).2.processedPairs)) ∧
      ∀ ps', resetFlags ps' = resetFlags ps →
        EngineQuadtree.step sqrt et ps' dt = EngineQuadtree.step sqrt et ps dt) ∧
    ((∃ res e1, EngineHash.stepState fuel sqrt eh ps dt = some res ∧
        EngineHash.step fuel sqrt eh ps dt = some (e1, res.2.particles) ∧
        ∀ k, k < ps.length →
          ((res.2.particles.getD k Particle.default).collided = true ↔
            physics.wallHit eh.box_w eh.box_h eh.r
                ((physics.integrate (resetFlags ps) dt).getD k Particle.default) = true ∨
              InPair k res.2.processedPairs)) ∧
      ∀ ps', resetFlags ps' = resetFlags ps →
        EngineHash.step fuel sqrt eh ps' dt = EngineHash.step fuel sqrt eh ps dt) := by
  refine ⟨⟨?_, ?_⟩, ⟨?_, ?_⟩⟩
  · intro k hk
    have hids3 := hids.afterWalls et.box_w et.box_h et.r dt
    have hinv := narrowAt_inv sqrt
      (EngineQuadtree.candidates (EngineQuadtree.stepState sqrt et ps dt).1)
      (afterWalls et.box_w et.box_h et.r ps dt) hids3 0 0 ps.length
      (by rw [length_afterWalls])
    rw [length_afterWalls] at hinv
    have hfl := hinv.flags k hk
    rw [afterWalls_collided et.box_w et.box_h et.r ps dt k hk] at hfl
    show (((EngineQuadtree.stepState sqrt et ps dt).2.particles.getD k
      Particle.default).collided = true ↔ _)
    rw [EngineQuadtree.stepState_eq_narrowAt]
    exact hfl
  · intro ps' hps'
    unfold EngineQuadtree.step EngineQuadtree.stepState
    rw [hps']
  · obtain ⟨e2, _, _, heq⟩ := EngineHash.stepState_returns fuel hfuel sqrt eh hreach ps dt
    have hids3 := hids.afterWalls eh.box_w eh.box_h eh.r dt
    have hinv := narrowAt_inv sqrt (EngineHash.candidates e2)
      (afterWalls eh.box_w eh.box_h eh.r ps dt) hids3 0 0 ps.length
      (by rw [length_afterWalls])
    rw [length_afterWalls] at hinv
    refine ⟨_, _, heq, by unfold EngineHash.step; rw [heq]; rfl, ?_⟩
    intro k hk
    have hfl := hinv.flags k hk
    rw [afterWalls_collided eh.box_w eh.box_h eh.r ps dt k hk] at hfl
    exact hfl
  · intro ps' hps'
    unfold EngineHash.step EngineHash.stepState
    rw [hps']

/-- C13.  After `step` of either engine (for the grid engine: on a reachable
grid, with nesting bound at least 2, where `step` is shown to return), for any
values of the two counters before the call, `collisionsThisStep_` is the
number of pairs logged as resolved in that call and `candidatePairsChecked_`
is the sum of the lengths of the candidate lists that the index query
returned for the bodies `0, ..., n - 1` in that call. -/
theorem step_counters_count_this_step (sqrt : F → F) (fuel : Nat) (hfuel : 2 ≤ fuel)
    (et : EngineQuadtree F) (eh : EngineHash F) (hreach : Reachable eh.spatialHash)
    (ps : List (Particle F)) (dt : F) :
    ((EngineQuadtree.step sqrt et ps dt).1.collisionsThisStep
        = (EngineQuadtree.stepState sqrt et ps dt).2.processedPairs.length ∧
      (EngineQuadtree.step sqrt et ps dt).1.candidatePairsChecked
        = ((List.range ps.length).map fun k =>
            (queryAt sqrt (EngineQuadtree.candidates (EngineQuadtree.stepState sqrt et ps dt).1)
              (afterWalls et.box_w et.box_h et.r ps dt) 0 0 k).length).sum) ∧
    (∃ res e1, EngineHash.stepState fuel sqrt eh ps dt = some res ∧
      EngineHash.step fuel sqrt eh ps dt = some (e1, res.2.particles) ∧
      e1.collisionsThisStep = res.2.processedPairs.length ∧
      e1.candidatePairsChecked
        = ((List.range ps.length).map fun k =>
            (queryAt sqrt (EngineHash.candidates res.1)
              (afterWalls eh.box_w eh.box_h eh.r ps dt) 0 0 k).length).sum ∧
      ∀ k, k < ps.length →
        res.1.spatialHash.query
            ((narrowAt sqrt (EngineHash.candidates res.1)
              (afterWalls eh.box_w eh.box_h eh.r ps dt) 0 0 k).particles.getD k
                Particle.default).x
            ((narrowAt sqrt (EngineHash.candidates res.1)
              (afterWalls eh.box_w eh.box_h eh.r ps dt) 0 0 k).particles.getD k
                Particle.default).y (2 * eh.r)
          = some (queryAt sqrt (EngineHash.candidates res.1)
              (afterWalls eh.box_w eh.box_h eh.r ps dt) 0 0 k)) := by
  constructor
  · have hc := narrowAt_counts sqrt
      (EngineQuadtree.candidates (EngineQuadtree.stepState sqrt et ps dt).1)
      (afterWalls et.box_w et.box_h et.r ps dt) 0 0 ps.length
    rw [← EngineQuadtree.stepState_eq_narrowAt] at hc
    constructor
    · show (EngineQuadtree.stepState sqrt et ps dt).2.collisionsThisStep = _
      rw [hc.2, Nat.zero_add]
    · show (EngineQuadtree.stepState sqrt et ps dt).2.candidatePairsChecked = _
      rw [hc.1, Nat.zero_add]
  · obtain ⟨e2, hwf2, hr2, heq⟩ := EngineHash.stepState_returns fuel hfuel sqrt eh hreach ps dt
    have hc := narrowAt_counts sqrt (EngineHash.candidates e2)
      (afterWalls eh.box_w eh.box_h eh.r ps dt) 0 0 ps.length
    refine ⟨_, _, heq, by unfold EngineHash.step; rw [heq]; rfl, ?_, ?_, ?_⟩
    · show (narrowAt sqrt (EngineHash.candidates e2)
        (afterWalls eh.box_w eh.box_h eh.r ps dt) 0 0 ps.length).collisionsThisStep = _
      rw [hc.2, Nat.zero_add]
    · show (narrowAt sqrt (EngineHash.candidates e2)
        (afterWalls eh.box_w eh.box_h eh.r ps dt) 0 0 ps.length).candidatePairsChecked = _
      rw [hc.1, Nat.zero_add]
    · intro k _
      have := EngineHash.query_eq_queryAt sqrt e2 hwf2
        (afterWalls eh.box_w eh.box_h eh.r ps dt) 0 0 k
      rw [hr2] at this
      exact this

end EngineClaims
section EngineWitnesses

open Engine SpatialHash

theorem idsOk_midlineBodies : IdsOk midlineBodies := by
  intro k hk
  have hk9 : k < 9 := hk
  interval_cases k <;> rfl

theorem reachable_engineHash_new (box_w box_h r : ℚ) :
    Reachable (EngineHash.new box_w box_h r).spatialHash :=
  Reachable.init _

/-- C11 on `midlineBodies` in the 800 x 600 box. -/
theorem pairs_resolved_once_by_lower_id_witness :
    2 ≤ 2 ∧ Reachable (EngineHash.new (800 : ℚ) 600 5).spatialHash ∧ IdsOk midlineBodies ∧
    OncePerPair ((EngineQuadtree.new (800 : ℚ) 600 5).stepState qsqrt midlineBodies
      (1 / 500)).2.processedPairs ∧
    ∃ res, (EngineHash.new (800 : ℚ) 600 5).stepState 2 qsqrt midlineBodies (1 / 500)
        = some res ∧
      OncePerPair res.2.processedPairs ∧ LowerFirst 9 res.2.processedPairs := by
  have h := pairs_resolved_once_by_lower_id qsqrt 2 (le_refl 2)
    (EngineQuadtree.new (800 : ℚ) 600 5) (EngineHash.new (800 : ℚ) 600 5)
    (reachable_engineHash_new 800 600 5) midlineBodies idsOk_midlineBodies (1 / 500)
  obtain ⟨_, ⟨ht, _⟩, res, hres, ho, hl, _⟩ := h
  exact ⟨le_refl 2, reachable_engineHash_new 800 600 5, idsOk_midlineBodies, ht,
    res, hres, ho, hl⟩

/-- C12 on `midlineBodies` in the 800 x 600 box, for body 0. -/
theorem collided_flag_iff_wall_or_pair_witness :
    2 ≤ 2 ∧ Reachable (EngineHash.new (800 : ℚ) 600 5).spatialHash ∧ IdsOk midlineBodies ∧
    ((((EngineQuadtree.new (800 : ℚ) 600 5).step qsqrt midlineBodies (1 / 500)).2.getD 0
        Particle.default).collided = true ↔
      physics.wallHit (800 : ℚ) 600 5
          ((physics.integrate (resetFlags midlineBodies) (1 / 500)).getD 0
            Particle.default) = true ∨
        InPair 0 ((EngineQuadtree.new (800 : ℚ) 600 5).stepState qsqrt midlineBodies
          (1 / 500)).2.processedPairs) := by
  have h := collided_flag_iff_wall_or_pair qsqrt 2 (le_refl 2)
    (EngineQuadtree.new (800 : ℚ) 600 5) (EngineHash.new (800 : ℚ) 600 5)
    (reachable_engineHash_new 800 600 5) midlineBodies idsOk_midlineBodies (1 / 500)
  exact ⟨le_refl 2, reachable_engineHash_new 800 600 5, idsOk_midlineBodies,
    h.1.1 0 (by decide)⟩

/-- C13 on `midlineBodies` in the 800 x 600 box. -/
theorem step_counters_count_this_step_witness :
    2 ≤ 2 ∧ Reachable (EngineHash.new (800 : ℚ) 600 5).spatialHash ∧
    ((EngineQuadtree.new (800 : ℚ) 600 5).step qsqrt midlineBodies (1 / 500)).1.collisionsThisStep
      = ((EngineQuadtree.new (800 : ℚ) 600 5).stepState qsqrt midlineBodies
          (1 / 500)).2.processedPairs.length ∧
    ∃ res e1, (EngineHash.new (800 : ℚ) 600 5).stepState 2 qsqrt midlineBodies (1 / 500)
        = some res ∧
      (EngineHash.new (800 : ℚ) 600 5).step 2 qsqrt midlineBodies (1 / 500)
        = some (e1, res.2.particles) ∧
      e1.collisionsThisStep = res.2.processedPairs.length := by
  have h := step_counters_count_this_step qsqrt 2 (le_refl 2)
    (EngineQuadtree.new (800 : ℚ) 600 5) (EngineHash.new (800 : ℚ) 600 5)
    (reachable_engineHash_new 800 600 5) midlineBodies (1 / 500)
  obtain ⟨⟨ht, _⟩, res, e1, hres, hstep, hc, _⟩ := h
  exact ⟨le_refl 2, reachable_engineHash_new 800 600 5, ht, res, e1, hres, hstep, hc⟩

end EngineWitnesses



section GridQuerySet

open SpatialHash

variable {F : Type} [LinearOrderedField F] [FloorRing F]

/-- C21.  For every grid (with a table size above 0, as the constructor and
`resize` establish) and every query, `SpatialHash::query` returns, and the id
list it returns is strictly increasing, so it contains no id twice. -/
theorem query_ids_strictly_increasing (h : SpatialHash F) (hpos : 0 < h.tableSize)
    (qx qy qr : F) :
    ∃ ids, query h qx qy qr = some ids ∧ ids.Sorted (· < ·) ∧ ids.Nodup ∧
      ∀ x, ids.count x ≤ 1 := by
  have hinner : ∀ di out, ∃ extra, ([-1, 0, 1] : List Int).foldlM
      (fun out2 dj => queryCell h qx qy qr (⌊qx / h.cellSize⌋ + di) (⌊qy / h.cellSize⌋ + dj) out2)
      out = some (out ++ extra) :=
    fun di out => foldlM_append_some _ _ (fun o dj _ => queryCell_some h hpos qx qy qr _ _ o) out
  obtain ⟨extra, hex⟩ := foldlM_append_some
    (fun out1 di => ([-1, 0, 1] : List Int).foldlM
      (fun out2 dj => queryCell h qx qy qr (⌊qx / h.cellSize⌋ + di) (⌊qy / h.cellSize⌋ + dj) out2)
      out1)
    [-1, 0, 1] (fun out di _ => hinner di out) []
  have hs := uniqueIds_sorted ([] ++ extra)
  refine ⟨uniqueIds ([] ++ extra), ?_, hs, hs.nodup, fun x => count_le_one_of_nodup _ hs.nodup x⟩
  unfold query
  simp only [hex, Option.map_some']

/-- C21 at the grid of the hash engine after three insertions, for the query
of radius 10 around (394, 100). -/
theorem query_ids_strictly_increasing_witness :
    0 < threeEntryGrid.tableSize ∧
    ∃ ids, query threeEntryGrid 394 100 10 = some ids ∧ ids.Sorted (· < ·) ∧ ids.Nodup ∧
      ∀ x, ids.count x ≤ 1 := by
  have hpos : 0 < threeEntryGrid.tableSize := by decide!
  exact ⟨hpos, query_ids_strictly_increasing threeEntryGrid hpos 394 100 10⟩

end GridQuerySet

section IntegrateFrame

variable {F : Type} [LinearOrderedField F]

/-- C24.  For every body sequence and every `dt`, `integrate` keeps the number
and the order of the bodies, and the body at every index `k` becomes the body
with position `(x + vx·dt, y + vy·dt)` and the same velocity, radius, id and
flag. -/
theorem integrate_moves_positions_only (ps : List (Particle F)) (dt : F) :
    (physics.integrate ps dt).length = ps.length ∧
    ∀ k : Nat, (physics.integrate ps dt)[k]?
      = (ps[k]?).map fun p =>
          ({ x := p.x + p.vx * dt, y := p.y + p.vy * dt, vx := p.vx, vy := p.vy, r := p.r,
             id := p.id, collided := p.collided } : Particle F) := by
  constructor
  · simp [physics.integrate]
  · intro k
    unfold physics.integrate
    rw [List.getElem?_map]

end IntegrateFrame

section CellAdjacency

open SpatialHash

variable {F : Type} [LinearOrderedField F] [FloorRing F]

/-- C25.  For every `r > 0` the grid of `EngineHash(box_w, box_h, r)` has cell
size `c = max(2r, 1)`, and any two points whose squared distance is less than
`(2r)^2` have cell keys `(floor(x/c), floor(y/c))` that differ by at most 1 in
each coordinate. -/
theorem close_points_in_adjacent_cells (box_w box_h r : F) (hr : 0 < r) (x1 y1 x2 y2 : F)
    (hd : (x1 - x2) ^ 2 + (y1 - y2) ^ 2 < (2 * r) ^ 2) :
    (EngineHash.new box_w box_h r).spatialHash.cellSize = max (2 * r) 1 ∧
    |(cellKey (max (2 * r) 1) x1 y1).i - (cellKey (max (2 * r) 1) x2 y2).i| ≤ 1 ∧
    |(cellKey (max (2 * r) 1) x1 y1).j - (cellKey (max (2 * r) 1) x2 y2).j| ≤ 1 := by
  have h2r : 0 < 2 * r := by linarith
  have hc : 0 < max (2 * r) 1 := lt_max_of_lt_left h2r
  have hle : 2 * r ≤ max (2 * r) 1 := le_max_left _ _
  have hx : |x1 - x2| < max (2 * r) 1 :=
    lt_of_lt_of_le (abs_lt_of_sq_dist_lt (x1 - x2) (y1 - y2) (2 * r) h2r hd) hle
  have hy : |y1 - y2| < max (2 * r) 1 :=
    lt_of_lt_of_le (abs_lt_of_sq_dist_lt (y1 - y2) (x1 - x2) (2 * r) h2r
      (by rw [add_comm]; exact hd)) hle
  refine ⟨?_, ?_, ?_⟩
  · show max (max (2 * r) 1) 1 = max (2 * r) 1
    exact max_eq_left (le_max_right _ _)
  · have := floor_div_near (max (2 * r) 1) x1 x2 hc hx
    show |⌊x1 / max (2 * r) 1⌋ - ⌊x2 / max (2 * r) 1⌋| ≤ 1
    rw [abs_le]
    exact this
  · have := floor_div_near (max (2 * r) 1) y1 y2 hc hy
    show |⌊y1 / max (2 * r) 1⌋ - ⌊y2 / max (2 * r) 1⌋| ≤ 1
    rw [abs_le]
    exact this

/-- C25 for `r = 5`: the points (18, 5) and (9, 5), 9 apart, lie in the
adjacent cells (1, 0) and (0, 0). -/
theorem close_points_in_adjacent_cells_witness :
    (0 : ℚ) < 5 ∧ ((18 : ℚ) - 9) ^ 2 + ((5 : ℚ) - 5) ^ 2 < (2 * 5) ^ 2 ∧
    |(cellKey (max (2 * (5 : ℚ)) 1) 18 5).i - (cellKey (max (2 * (5 : ℚ)) 1) 9 5).i| ≤ 1 ∧
    |(cellKey (max (2 * (5 : ℚ)) 1) 18 5).j - (cellKey (max (2 * (5 : ℚ)) 1) 9 5).j| ≤ 1 :=
  ⟨by norm_num, by norm_num,
    (close_points_in_adjacent_cells (800 : ℚ) 600 5 (by norm_num) 18 5 9 5 (by norm_num)).2⟩

end CellAdjacency



section TreeShape

open Quadtree

variable {F : Type} [LinearOrderedField F]

theorem insertLeaf_rejects (cap : Int) (k : Nat) (r : Rect F) (bs : List (BodyRef F))
    (b : BodyRef F) (h : contains r b = false) :
    insertLeaf cap k r bs b = (false, .leaf r bs) := by
  cases k with
  | zero => unfold insertLeaf; simp [h]
  | succ k => unfold insertLeaf; simp [h]

omit [LinearOrderedField F] in
/-- The loop over the children followed by the fallback, by cases: the entry
goes to the first child whose call returns true, the children before it stay
as they are; when no call returns true the entry is appended to the node's
own list. -/
theorem tryChildren_cases (r : Rect F) (bodies : List (BodyRef F)) (c0 c1 c2 c3 : Node F)
    (r0 r1 r2 r3 : Bool × Node F) (b : BodyRef F)
    (h0 : r0.1 = false → r0.2 = c0) (h1 : r1.1 = false → r1.2 = c1)
    (h2 : r2.1 = false → r2.2 = c2) (h3 : r3.1 = false → r3.2 = c3) :
    (r0.1 = true ∧
      (tryChildren r bodies c1 c2 c3 r0 r1 r2 r3 b).2 = .inner r bodies r0.2 c1 c2 c3) ∨
    (r0.1 = false ∧ r1.1 = true ∧
      (tryChildren r bodies c1 c2 c3 r0 r1 r2 r3 b).2 = .inner r bodies c0 r1.2 c2 c3) ∨
    (r0.1 = false ∧ r1.1 = false ∧ r2.1 = true ∧
      (tryChildren r bodies c1 c2 c3 r0 r1 r2 r3 b).2 = .inner r bodies c0 c1 r2.2 c3) ∨
    (r0.1 = false ∧ r1.1 = false ∧ r2.1 = false ∧ r3.1 = true ∧
      (tryChildren r bodies c1 c2 c3 r0 r1 r2 r3 b).2 = .inner r bodies c0 c1 c2 r3.2) ∨
    (r0.1 = false ∧ r1.1 = false ∧ r2.1 = false ∧ r3.1 = false ∧
      (tryChildren r bodies c1 c2 c3 r0 r1 r2 r3 b).2
        = .inner r (bodies ++ [b]) c0 c1 c2 c3) := by
  unfold tryChildren
  cases e0 : r0.1 with
  | true => left; exact ⟨rfl, by simp⟩
  | false =>
    right
    rw [h0 e0]
    cases e1 : r1.1 with
    | true => left; exact ⟨rfl, rfl, by simp⟩
    | false =>
      right
      rw [h1 e1]
      cases e2 : r2.1 with
      | true => left; exact ⟨rfl, rfl, rfl, by simp⟩
      | false =>
        right
        rw [h2 e2]
        cases e3 : r3.1 with
        | true => left; exact ⟨rfl, rfl, rfl, rfl, by simp⟩
        | false =>
          right
          rw [h3 e3]
          exact ⟨rfl, rfl, rfl, rfl, by simp⟩

/-- The result of `insertRecursive` on a subdivided node that contains the
entry, by cases. -/
theorem insertRecursive_inner_cases (cap maxDepth : Int) (r : Rect F)
    (bodies : List (BodyRef F)) (c0 c1 c2 c3 : Node F) (b : BodyRef F) (depth : Int)
    (hfit : contains r b = true) :
    (contains c0.rect b = true ∧
      (insertRecursive cap maxDepth (.inner r bodies c0 c1 c2 c3) b depth).2
        = .inner r bodies (insertRecursive cap maxDepth c0 b (depth + 1)).2 c1 c2 c3) ∨
    (contains c0.rect b = false ∧ contains c1.rect b = true ∧
      (insertRecursive cap maxDepth (.inner r bodies c0 c1 c2 c3) b depth).2
        = .inner r bodies c0 (insertRecursive cap maxDepth c1 b (depth + 1)).2 c2 c3) ∨
    (contains c0.rect b = false ∧ contains c1.rect b = false ∧ contains c2.rect b = true ∧
      (insertRecursive cap maxDepth (.inner r bodies c0 c1 c2 c3) b depth).2
        = .inner r bodies c0 c1 (insertRecursive cap maxDepth c2 b (depth + 1)).2 c3) ∨
    (contains c0.rect b = false ∧ contains c1.rect b = false ∧ contains c2.rect b = false ∧
      contains c3.rect b = true ∧
      (insertRecursive cap maxDepth (.inner r bodies c0 c1 c2 c3) b depth).2
        = .inner r bodies c0 c1 c2 (insertRecursive cap maxDepth c3 b (depth + 1)).2) ∨
    (contains c0.rect b = false ∧ contains c1.rect b = false ∧ contains c2.rect b = false ∧
      contains c3.rect b = false ∧
      (insertRecursive cap maxDepth (.inner r bodies c0 c1 c2 c3) b depth).2
        = .inner r (bodies ++ [b]) c0 c1 c2 c3) := by
  have key := tryChildren_cases r bodies c0 c1 c2 c3
    (insertRecursive cap maxDepth c0 b (depth + 1))
    (insertRecursive cap maxDepth c1 b (depth + 1))
    (insertRecursive cap maxDepth c2 b (depth + 1))
    (insertRecursive cap maxDepth c3 b (depth + 1)) b
    (fun h => by
      rw [insertRecursive_fst] at h
      rw [insertRecursive_rejects _ _ _ _ _ h])
    (fun h => by
      rw [insertRecursive_fst] at h
      rw [insertRecursive_rejects _ _ _ _ _ h])
    (fun h => by
      rw [insertRecursive_fst] at h
      rw [insertRecursive_rejects _ _ _ _ _ h])
    (fun h => by
      rw [insertRecursive_fst] at h
      rw [insertRecursive_rejects _ _ _ _ _ h])
  simp only [insertRecursive_fst] at key
  have hun : insertRecursive cap maxDepth (.inner r bodies c0 c1 c2 c3) b depth
      = tryChildren r bodies c1 c2 c3
        (insertRecursive cap maxDepth c0 b (depth + 1))
        (insertRecursive cap maxDepth c1 b (depth + 1))
        (insertRecursive cap maxDepth c2 b (depth + 1))
        (insertRecursive cap maxDepth c3 b (depth + 1)) b := by
    rw [insertRecursive]
    simp [hfit]
  rw [hun]
  exact key

/-- The result of `insertRecursive` on a leaf that contains the entry, is full
and lies above the maximum depth (`k + 1` levels left), by cases: the node is
subdivided, its entries are redistributed, and the entry goes to the first
child that contains it or stays on the node. -/
theorem insertLeaf_full_cases (cap : Int) (k : Nat) (r : Rect F) (bs : List (BodyRef F))
    (b : BodyRef F) (hfit : contains r b = true) (hfull : ¬ (bs.length : Int) < cap % 2 ^ 64) :
    (contains (childNW r) b = true ∧
      (insertLeaf cap (k + 1) r bs b).2
        = .inner r (redistribute r bs).overflow
            (insertLeaf cap k (childNW r) (redistribute r bs).q0 b).2
            (.leaf (childNE r) (redistribute r bs).q1)
            (.leaf (childSW r) (redistribute r bs).q2)
            (.leaf (childSE r) (redistribute r bs).q3)) ∨
    (contains (childNW r) b = false ∧ contains (childNE r) b = true ∧
      (insertLeaf cap (k + 1) r bs b).2
        = .inner r (redistribute r bs).overflow
            (.leaf (childNW r) (redistribute r bs).q0)
            (insertLeaf cap k (childNE r) (redistribute r bs).q1 b).2
            (.leaf (childSW r) (redistribute r bs).q2)
            (.leaf (childSE r) (redistribute r bs).q3)) ∨
    (contains (childNW r) b = false ∧ contains (childNE r) b = false ∧
      contains (childSW r) b = true ∧
      (insertLeaf cap (k + 1) r bs b).2
        = .inner r (redistribute r bs).overflow
            (.leaf (childNW r) (redistribute r bs).q0)
            (.leaf (childNE r) (redistribute r bs).q1)
            (insertLeaf cap k (childSW r) (redistribute r bs).q2 b).2
            (.leaf (childSE r) (redistribute r bs).q3)) ∨
    (contains (childNW r) b = false ∧ contains (childNE r) b = false ∧
      contains (childSW r) b = false ∧ contains (childSE r) b = true ∧
      (insertLeaf cap (k + 1) r bs b).2
        = .inner r (redistribute r bs).overflow
            (.leaf (childNW r) (redistribute r bs).q0)
            (.leaf (childNE r) (redistribute r bs).q1)
            (.leaf (childSW r) (redistribute r bs).q2)
            (insertLeaf cap k (childSE r) (redistribute r bs).q3 b).2) ∨
    (contains (childNW r) b = false ∧ contains (childNE r) b = false ∧
      contains (childSW r) b = false ∧ contains (childSE r) b = false ∧
      (insertLeaf cap (k + 1) r bs b).2
        = .inner r ((redistribute r bs).overflow ++ [b])
            (.leaf (childNW r) (redistribute r bs).q0)
            (.leaf (childNE r) (redistribute r bs).q1)
            (.leaf (childSW r) (redistribute r bs).q2)
            (.leaf (childSE r) (redistribute r bs).q3)) := by
  have key := tryChildren_cases r (redistribute r bs).overflow
    (.leaf (childNW r) (redistribute r bs).q0) (.leaf (childNE r) (redistribute r bs).q1)
    (.leaf (childSW r) (redistribute r bs).q2) (.leaf (childSE r) (redistribute r bs).q3)
    (insertLeaf cap k (childNW r) (redistribute r bs).q0 b)
    (insertLeaf cap k (childNE r) (redistribute r bs).q1 b)
    (insertLeaf cap k (childSW r) (redistribute r bs).q2 b)
    (insertLeaf cap k (childSE r) (redistribute r bs).q3 b) b
    (fun h => by
      rw [insertLeaf_fst] at h
      rw [insertLeaf_rejects _ _ _ _ _ h])
    (fun h => by
      rw [insertLeaf_fst] at h
      rw [insertLeaf_rejects _ _ _ _ _ h])
    (fun h => by
      rw [insertLeaf_fst] at h
      rw [insertLeaf_rejects _ _ _ _ _ h])
    (fun h => by
      rw [insertLeaf_fst] at h
      rw [insertLeaf_rejects _ _ _ _ _ h])
  simp only [insertLeaf_fst] at key
  have hun : insertLeaf cap (k + 1) r bs b
      = tryChildren r (redistribute r bs).overflow (.leaf (childNE r) (redistribute r bs).q1)
        (.leaf (childSW r) (redistribute r bs).q2) (.leaf (childSE r) (redistribute r bs).q3)
        (insertLeaf cap k (childNW r) (redistribute r bs).q0 b)
        (insertLeaf cap k (childNE r) (redistribute r bs).q1 b)
        (insertLeaf cap k (childSW r) (redistribute r bs).q2 b)
        (insertLeaf cap k (childSE r) (redistribute r bs).q3 b) b := by
    rw [insertLeaf]
    simp only [hfit, not_true_eq_false, if_false, hfull]
  rw [hun]
  exact key

theorem insertLeaf_room (cap : Int) (k : Nat) (r : Rect F) (bs : List (BodyRef F))
    (b : BodyRef F) (hfit : contains r b = true)
    (hroom : k = 0 ∨ (bs.length : Int) < cap % 2 ^ 64) :
    insertLeaf cap k r bs b = (true, .leaf r (bs ++ [b])) := by
  cases k with
  | zero => unfold insertLeaf; simp [hfit]
  | succ k =>
    rcases hroom with h | h
    · exact absurd h (Nat.succ_ne_zero k)
    · rw [insertLeaf]
      simp only [hfit, not_true_eq_false, if_false, h, if_true]

theorem insertLeaf_rect (cap : Int) (k : Nat) (r : Rect F) (bs : List (BodyRef F))
    (b : BodyRef F) : (insertLeaf cap k r bs b).2.rect = r := by
  by_cases hfit : contains r b = true
  · cases k with
    | zero => rw [insertLeaf_room cap 0 r bs b hfit (Or.inl rfl)]; rfl
    | succ k =>
      by_cases hroom : (bs.length : Int) < cap % 2 ^ 64
      · rw [insertLeaf_room cap _ r bs b hfit (Or.inr hroom)]; rfl
      · rcases insertLeaf_full_cases cap k r bs b hfit hroom with
          ⟨_, h⟩ | ⟨_, _, h⟩ | ⟨_, _, _, h⟩ | ⟨_, _, _, _, h⟩ | ⟨_, _, _, _, h⟩ <;>
        rw [h] <;> rfl
  · rw [insertLeaf_rejects cap k r bs b (by simpa using hfit)]; rfl

theorem insertRecursive_rect (cap maxDepth : Int) (node : Node F) (b : BodyRef F)
    (depth : Int) : (insertRecursive cap maxDepth node b depth).2.rect = node.rect := by
  cases node with
  | leaf r bs => exact insertLeaf_rect _ _ _ _ _
  | inner r bodies c0 c1 c2 c3 =>
    by_cases hfit : contains r b = true
    · rcases insertRecursive_inner_cases cap maxDepth r bodies c0 c1 c2 c3 b depth hfit with
        ⟨_, h⟩ | ⟨_, _, h⟩ | ⟨_, _, _, h⟩ | ⟨_, _, _, _, h⟩ | ⟨_, _, _, _, h⟩ <;>
      rw [h] <;> rfl
    · rw [insertRecursive_rejects cap maxDepth _ b depth (by simpa [Node.rect] using hfit)]

end TreeShape

section TreeInvariants

open Quadtree

variable {F : Type} [LinearOrderedField F]

omit [LinearOrderedField F] in
theorem Node.rect_leaf (r : Rect F) (bs : List (BodyRef F)) : (Node.leaf r bs).rect = r := rfl

omit [LinearOrderedField F] in
theorem Node.rect_inner (r : Rect F) (bs : List (BodyRef F)) (c0 c1 c2 c3 : Node F) :
    (Node.inner r bs c0 c1 c2 c3).rect = r := rfl

theorem redistribute_overflow_fits_none (r : Rect F) (bs : List (BodyRef F)) :
    (redistribute r bs).overflow.all (fun e =>
      !contains (childNW r) e && !contains (childNE r) e && !contains (childSW r) e
        && !contains (childSE r) e) = true := by
  rw [redistribute_eq]
  rw [List.all_eq_true]
  intro e he
  exact (List.mem_filter.mp he).2

omit [LinearOrderedField F] in
theorem all_append_singleton {α : Type} (p : α → Bool) (l : List α) (a : α)
    (hl : l.all p = true) (ha : p a = true) : (l ++ [a]).all p = true := by
  rw [List.all_append, hl, Bool.true_and]
  simp [ha]

/-- Inserting into a leaf keeps the overflow invariant. -/
theorem insertLeaf_overflowOK (cap : Int) (k : Nat) :
    ∀ (r : Rect F) (bs : List (BodyRef F)) (b : BodyRef F),
      (insertLeaf cap k r bs b).2.overflowOK = true := by
  induction k with
  | zero =>
    intro r bs b
    by_cases hfit : contains r b = true
    · rw [insertLeaf_room cap 0 r bs b hfit (Or.inl rfl)]; rfl
    · rw [insertLeaf_rejects cap 0 r bs b (by simpa using hfit)]; rfl
  | succ k ih =>
    intro r bs b
    by_cases hfit : contains r b = true
    swap
    · rw [insertLeaf_rejects cap _ r bs b (by simpa using hfit)]; rfl
    by_cases hroom : (bs.length : Int) < cap % 2 ^ 64
    · rw [insertLeaf_room cap _ r bs b hfit (Or.inr hroom)]; rfl
    have hov := redistribute_overflow_fits_none r bs
    rcases insertLeaf_full_cases cap k r bs b hfit hroom with
      ⟨_, h⟩ | ⟨_, _, h⟩ | ⟨_, _, _, h⟩ | ⟨_, _, _, _, h⟩ | ⟨h0, h1, h2, h3, h⟩
    · rw [h]
      simp only [Node.overflowOK, Node.rect_leaf, insertLeaf_rect, hov, ih, Bool.and_self]
    · rw [h]
      simp only [Node.overflowOK, Node.rect_leaf, insertLeaf_rect, hov, ih, Bool.and_self]
    · rw [h]
      simp only [Node.overflowOK, Node.rect_leaf, insertLeaf_rect, hov, ih, Bool.and_self]
    · rw [h]
      simp only [Node.overflowOK, Node.rect_leaf, insertLeaf_rect, hov, ih, Bool.and_self]
    · rw [h]
      simp only [Node.overflowOK, Node.rect_leaf, Bool.and_true]
      exact all_append_singleton _ _ _ hov (by simp [h0, h1, h2, h3])

/-- `insertRecursive` keeps the overflow invariant. -/
theorem insertRecursive_overflowOK (cap maxDepth : Int) (node : Node F) (b : BodyRef F) :
    ∀ depth : Int, node.overflowOK = true →
      (insertRecursive cap maxDepth node b depth).2.overflowOK = true := by
  induction node with
  | leaf r bs => intro depth _; exact insertLeaf_overflowOK _ _ _ _ _
  | inner r bodies c0 c1 c2 c3 ih0 ih1 ih2 ih3 =>
    intro depth hok
    simp only [Node.overflowOK, Bool.and_eq_true] at hok
    obtain ⟨⟨⟨⟨hb, h0⟩, h1⟩, h2⟩, h3⟩ := hok
    by_cases hfit : contains r b = true
    swap
    · rw [insertRecursive_rejects cap maxDepth _ b depth (by simpa [Node.rect] using hfit)]
      simp only [Node.overflowOK, Bool.and_eq_true]
      exact ⟨⟨⟨⟨hb, h0⟩, h1⟩, h2⟩, h3⟩
    rcases insertRecursive_inner_cases cap maxDepth r bodies c0 c1 c2 c3 b depth hfit with
      ⟨_, h⟩ | ⟨_, _, h⟩ | ⟨_, _, _, h⟩ | ⟨_, _, _, _, h⟩ | ⟨e0, e1, e2, e3, h⟩
    · rw [h]
      simp only [Node.overflowOK, insertRecursive_rect, hb, ih0 _ h0, h1, h2, h3, Bool.and_self]
    · rw [h]
      simp only [Node.overflowOK, insertRecursive_rect, hb, ih1 _ h1, h0, h2, h3, Bool.and_self]
    · rw [h]
      simp only [Node.overflowOK, insertRecursive_rect, hb, ih2 _ h2, h0, h1, h3, Bool.and_self]
    · rw [h]
      simp only [Node.overflowOK, insertRecursive_rect, hb, ih3 _ h3, h0, h1, h2, Bool.and_self]
    · rw [h]
      simp only [Node.overflowOK, h0, h1, h2, h3, Bool.and_true]
      exact all_append_singleton _ _ _ hb (by simp [e0, e1, e2, e3])

/-- Inserting into a leaf at depth `d` with `k = maxDepth - d` levels left
keeps the depth bound. -/
theorem insertLeaf_depthBounded (cap D : Int) (k : Nat) :
    ∀ (d : Int) (r : Rect F) (bs : List (BodyRef F)) (b : BodyRef F),
      k = (D - d).toNat → d ≤ D → (insertLeaf cap k r bs b).2.depthBounded D d = true := by
  induction k with
  | zero =>
    intro d r bs b _ hd
    by_cases hfit : contains r b = true
    · rw [insertLeaf_room cap 0 r bs b hfit (Or.inl rfl)]
      simpa [Node.depthBounded] using hd
    · rw [insertLeaf_rejects cap 0 r bs b (by simpa using hfit)]
      simpa [Node.depthBounded] using hd
  | succ k ih =>
    intro d r bs b hk hd
    have hlt : d < D := by omega
    have hk1 : k = (D - (d + 1)).toNat := by omega
    have hd1 : d + 1 ≤ D := by omega
    by_cases hfit : contains r b = true
    swap
    · rw [insertLeaf_rejects cap _ r bs b (by simpa using hfit)]
      simpa [Node.depthBounded] using hd
    by_cases hroom : (bs.length : Int) < cap % 2 ^ 64
    · rw [insertLeaf_room cap _ r bs b hfit (Or.inr hroom)]
      simpa [Node.depthBounded] using hd
    rcases insertLeaf_full_cases cap k r bs b hfit hroom with
      ⟨_, h⟩ | ⟨_, _, h⟩ | ⟨_, _, _, h⟩ | ⟨_, _, _, _, h⟩ | ⟨_, _, _, _, h⟩ <;>
    · rw [h]
      simp only [Node.depthBounded, ih _ _ _ _ hk1 hd1, hlt, hd1, decide_True, Bool.and_self]

/-- `insertRecursive` keeps the depth bound. -/
theorem insertRecursive_depthBounded (cap D : Int) (node : Node F) (b : BodyRef F) :
    ∀ d : Int, node.depthBounded D d = true →
      (insertRecursive cap D node b d).2.depthBounded D d = true := by
  induction node with
  | leaf r bs =>
    intro d hok
    have hd : d ≤ D := by simpa [Node.depthBounded] using hok
    exact insertLeaf_depthBounded cap D _ d r bs b rfl hd
  | inner r bodies c0 c1 c2 c3 ih0 ih1 ih2 ih3 =>
    intro d hok
    simp only [Node.depthBounded, Bool.and_eq_true] at hok
    obtain ⟨⟨⟨⟨hb, h0⟩, h1⟩, h2⟩, h3⟩ := hok
    by_cases hfit : contains r b = true
    swap
    · rw [insertRecursive_rejects cap D _ b d (by simpa [Node.rect] using hfit)]
      simp only [Node.depthBounded, Bool.and_eq_true]
      exact ⟨⟨⟨⟨hb, h0⟩, h1⟩, h2⟩, h3⟩
    rcases insertRecursive_inner_cases cap D r bodies c0 c1 c2 c3 b d hfit with
      ⟨_, h⟩ | ⟨_, _, h⟩ | ⟨_, _, _, h⟩ | ⟨_, _, _, _, h⟩ | ⟨_, _, _, _, h⟩
    · rw [h]
      simp only [Node.depthBounded, hb, ih0 _ h0, h1, h2, h3, Bool.and_self]
    · rw [h]
      simp only [Node.depthBounded, hb, ih1 _ h1, h0, h2, h3, Bool.and_self]
    · rw [h]
      simp only [Node.depthBounded, hb, ih2 _ h2, h0, h1, h3, Bool.and_self]
    · rw [h]
      simp only [Node.depthBounded, hb, ih3 _ h3, h0, h1, h2, Bool.and_self]
    · rw [h]
      simp only [Node.depthBounded, hb, h0, h1, h2, h3, Bool.and_self]

/-- Inserting into a leaf at depth `d` with `k = maxDepth - d` levels left
keeps the load bound of the leaves above the maximum depth. -/
theorem insertLeaf_leafLoadOK (c D : Int) (hc : 0 ≤ c) (k : Nat) :
    ∀ (d : Int) (r : Rect F) (bs : List (BodyRef F)) (b : BodyRef F),
      k = (D - d).toNat → (d < D → (bs.length : Int) ≤ c) →
      (insertLeaf c k r bs b).2.leafLoadOK c D d = true := by
  induction k with
  | zero =>
    intro d r bs b hk _
    have hnot : ¬ d < D := by omega
    by_cases hfit : contains r b = true
    · rw [insertLeaf_room c 0 r bs b hfit (Or.inl rfl)]
      simp [Node.leafLoadOK, hnot]
    · rw [insertLeaf_rejects c 0 r bs b (by simpa using hfit)]
      simp [Node.leafLoadOK, hnot]
  | succ k ih =>
    intro d r bs b hk hload
    have hlt : d < D := by omega
    have hk1 : k = (D - (d + 1)).toNat := by omega
    have hlen := hload hlt
    by_cases hfit : contains r b = true
    swap
    · rw [insertLeaf_rejects c _ r bs b (by simpa using hfit)]
      simp only [Node.leafLoadOK, decide_eq_true_eq]
      exact hload
    by_cases hroom : (bs.length : Int) < c % 2 ^ 64
    · rw [insertLeaf_room c _ r bs b hfit (Or.inr hroom)]
      simp only [Node.leafLoadOK, decide_eq_true_eq, List.length_append, List.length_singleton]
      intro _
      push_cast
      omega
    obtain ⟨l0, l1, l2, l3⟩ := redistribute_length_le r bs
    have q0 : d + 1 < D → ((redistribute r bs).q0.length : Int) ≤ c := fun _ => by omega
    have q1 : d + 1 < D → ((redistribute r bs).q1.length : Int) ≤ c := fun _ => by omega
    have q2 : d + 1 < D → ((redistribute r bs).q2.length : Int) ≤ c := fun _ => by omega
    have q3 : d + 1 < D → ((redistribute r bs).q3.length : Int) ≤ c := fun _ => by omega
    rcases insertLeaf_full_cases c k r bs b hfit hroom with
      ⟨_, h⟩ | ⟨_, _, h⟩ | ⟨_, _, _, h⟩ | ⟨_, _, _, _, h⟩ | ⟨_, _, _, _, h⟩
    · rw [h]
      simp only [Node.leafLoadOK, ih _ _ _ _ hk1 q0, Bool.true_and, Bool.and_eq_true,
        decide_eq_true_eq]
      exact ⟨⟨q1, q2⟩, q3⟩
    · rw [h]
      simp only [Node.leafLoadOK, ih _ _ _ _ hk1 q1, Bool.true_and, Bool.and_true,
        Bool.and_eq_true, decide_eq_true_eq]
      exact ⟨⟨q0, q2⟩, q3⟩
    · rw [h]
      simp only [Node.leafLoadOK, ih _ _ _ _ hk1 q2, Bool.true_and, Bool.and_true,
        Bool.and_eq_true, decide_eq_true_eq]
      exact ⟨⟨q0, q1⟩, q3⟩
    · rw [h]
      simp only [Node.leafLoadOK, ih _ _ _ _ hk1 q3, Bool.true_and, Bool.and_true,
        Bool.and_eq_true, decide_eq_true_eq]
      exact ⟨⟨q0, q1⟩, q2⟩
    · rw [h]
      simp only [Node.leafLoadOK, Bool.and_eq_true, decide_eq_true_eq]
      exact ⟨⟨⟨q0, q1⟩, q2⟩, q3⟩

/-- `insertRecursive` keeps the load bound of the leaves above the maximum
depth. -/
theorem insertRecursive_leafLoadOK (c D : Int) (hc : 0 ≤ c) (node : Node F) (b : BodyRef F) :
    ∀ d : Int, node.leafLoadOK c D d = true →
      (insertRecursive c D node b d).2.leafLoadOK c D d = true := by
  induction node with
  | leaf r bs =>
    intro d hok
    have hd : d < D → (bs.length : Int) ≤ c := by
      simpa only [Node.leafLoadOK, decide_eq_true_eq] using hok
    exact insertLeaf_leafLoadOK c D hc _ d r bs b rfl hd
  | inner r bodies c0 c1 c2 c3 ih0 ih1 ih2 ih3 =>
    intro d hok
    simp only [Node.leafLoadOK, Bool.and_eq_true] at hok
    obtain ⟨⟨⟨h0, h1⟩, h2⟩, h3⟩ := hok
    by_cases hfit : contains r b = true
    swap
    · rw [insertRecursive_rejects c D _ b d (by simpa [Node.rect] using hfit)]
      simp only [Node.leafLoadOK, Bool.and_eq_true]
      exact ⟨⟨⟨h0, h1⟩, h2⟩, h3⟩
    rcases insertRecursive_inner_cases c D r bodies c0 c1 c2 c3 b d hfit with
      ⟨_, h⟩ | ⟨_, _, h⟩ | ⟨_, _, _, h⟩ | ⟨_, _, _, _, h⟩ | ⟨_, _, _, _, h⟩
    · rw [h]
      simp only [Node.leafLoadOK, ih0 _ h0, h1, h2, h3, Bool.and_self]
    · rw [h]
      simp only [Node.leafLoadOK, ih1 _ h1, h0, h2, h3, Bool.and_self]
    · rw [h]
      simp only [Node.leafLoadOK, ih2 _ h2, h0, h1, h3, Bool.and_self]
    · rw [h]
      simp only [Node.leafLoadOK, ih3 _ h3, h0, h1, h2, Bool.and_self]
    · rw [h]
      simp only [Node.leafLoadOK, h0, h1, h2, h3, Bool.and_self]

end TreeInvariants

section TreeBag

open Quadtree

variable {F : Type} [LinearOrderedField F]

omit [LinearOrderedField F] in
theorem Node.allBodies_inner_coe (r : Rect F) (bs : List (BodyRef F)) (c0 c1 c2 c3 : Node F) :
    ((Node.inner r bs c0 c1 c2 c3).allBodies : Multiset (BodyRef F))
      = (bs : Multiset (BodyRef F)) + ((c0.allBodies : Multiset (BodyRef F))
          + ((c1.allBodies : Multiset (BodyRef F)) + ((c2.allBodies : Multiset (BodyRef F))
            + (c3.allBodies : Multiset (BodyRef F))))) := by
  simp only [Node.allBodies, Multiset.coe_add]

omit [LinearOrderedField F] in
theorem Node.allBodies_leaf (r : Rect F) (bs : List (BodyRef F)) :
    (Node.leaf r bs).allBodies = bs := rfl

/-- One iteration of the redistribution loop adds the body to exactly one of
the five lists. -/
theorem redistributeStep_bag (r : Rect F) (s : Quads F) (e : BodyRef F) :
    (((redistributeStep r s e).overflow : Multiset (BodyRef F))
        + (((redistributeStep r s e).q0 : Multiset (BodyRef F))
          + (((redistributeStep r s e).q1 : Multiset (BodyRef F))
            + (((redistributeStep r s e).q2 : Multiset (BodyRef F))
              + ((redistributeStep r s e).q3 : Multiset (BodyRef F))))))
      = ((s.overflow : Multiset (BodyRef F)) + ((s.q0 : Multiset (BodyRef F))
          + ((s.q1 : Multiset (BodyRef F)) + ((s.q2 : Multiset (BodyRef F))
            + (s.q3 : Multiset (BodyRef F)))))) + {e} := by
  unfold redistributeStep
  split_ifs <;>
  · simp only [← Multiset.coe_add, ← Multiset.coe_singleton]
    abel

/-- The redistribution loop of `subdivide` neither loses nor duplicates an
entry. -/
theorem redistribute_bag (r : Rect F) (bs : List (BodyRef F)) :
    (((redistribute r bs).overflow : Multiset (BodyRef F))
        + (((redistribute r bs).q0 : Multiset (BodyRef F))
          + (((redistribute r bs).q1 : Multiset (BodyRef F))
            + (((redistribute r bs).q2 : Multiset (BodyRef F))
              + ((redistribute r bs).q3 : Multiset (BodyRef F))))))
      = (bs : Multiset (BodyRef F)) := by
  have key : ∀ (l : List (BodyRef F)) (s : Quads F),
      (((l.foldl (redistributeStep r) s).overflow : Multiset (BodyRef F))
        + (((l.foldl (redistributeStep r) s).q0 : Multiset (BodyRef F))
          + (((l.foldl (redistributeStep r) s).q1 : Multiset (BodyRef F))
            + (((l.foldl (redistributeStep r) s).q2 : Multiset (BodyRef F))
              + ((l.foldl (redistributeStep r) s).q3 : Multiset (BodyRef F))))))
      = ((s.overflow : Multiset (BodyRef F)) + ((s.q0 : Multiset (BodyRef F))
          + ((s.q1 : Multiset (BodyRef F)) + ((s.q2 : Multiset (BodyRef F))
            + (s.q3 : Multiset (BodyRef F)))))) + (l : Multiset (BodyRef F)) := by
    intro l
    induction l with
    | nil => intro s; simp
    | cons e rest ih =>
      intro s
      rw [List.foldl_cons, ih, redistributeStep_bag, add_assoc]
      congr 1
  have := key bs ⟨[], [], [], [], []⟩
  unfold redistribute
  rw [this]
  simp

/-- Inserting into a leaf that contains the entry adds exactly that entry to
the entries of the subtree. -/
theorem insertLeaf_bag (cap : Int) (k : Nat) :
    ∀ (r : Rect F) (bs : List (BodyRef F)) (b : BodyRef F), contains r b = true →
      ((insertLeaf cap k r bs b).2.allBodies : Multiset (BodyRef F))
        = (bs : Multiset (BodyRef F)) + {b} := by
  induction k with
  | zero =>
    intro r bs b hfit
    rw [insertLeaf_room cap 0 r bs b hfit (Or.inl rfl)]
    simp only [Node.allBodies_leaf, ← Multiset.coe_add, ← Multiset.coe_singleton]
  | succ k ih =>
    intro r bs b hfit
    by_cases hroom : (bs.length : Int) < cap % 2 ^ 64
    · rw [insertLeaf_room cap _ r bs b hfit (Or.inr hroom)]
      simp only [Node.allBodies_leaf, ← Multiset.coe_add, ← Multiset.coe_singleton]
    have hb := redistribute_bag r bs
    rcases insertLeaf_full_cases cap k r bs b hfit hroom with
      ⟨e0, h⟩ | ⟨_, e1, h⟩ | ⟨_, _, e2, h⟩ | ⟨_, _, _, e3, h⟩ | ⟨_, _, _, _, h⟩
    · rw [h, Node.allBodies_inner_coe, ih _ _ _ e0, ← hb]
      simp only [Node.allBodies_leaf]
      abel
    · rw [h, Node.allBodies_inner_coe, ih _ _ _ e1, ← hb]
      simp only [Node.allBodies_leaf]
      abel
    · rw [h, Node.allBodies_inner_coe, ih _ _ _ e2, ← hb]
      simp only [Node.allBodies_leaf]
      abel
    · rw [h, Node.allBodies_inner_coe, ih _ _ _ e3, ← hb]
      simp only [Node.allBodies_leaf]
      abel
    · rw [h, Node.allBodies_inner_coe, ← hb]
      simp only [Node.allBodies_leaf, ← Multiset.coe_add, ← Multiset.coe_singleton]
      abel

/-- `insertRecursive` on a node that contains the entry adds exactly that
entry to the entries of the subtree. -/
theorem insertRecursive_bag (cap maxDepth : Int) (node : Node F) (b : BodyRef F) :
    ∀ depth : Int, contains node.rect b = true →
      ((insertRecursive cap maxDepth node b depth).2.allBodies : Multiset (BodyRef F))
        = (node.allBodies : Multiset (BodyRef F)) + {b} := by
  induction node with
  | leaf r bs => intro depth hfit; exact insertLeaf_bag _ _ _ _ _ hfit
  | inner r bodies c0 c1 c2 c3 ih0 ih1 ih2 ih3 =>
    intro depth hfit
    rcases insertRecursive_inner_cases cap maxDepth r bodies c0 c1 c2 c3 b depth hfit with
      ⟨e0, h⟩ | ⟨_, e1, h⟩ | ⟨_, _, e2, h⟩ | ⟨_, _, _, e3, h⟩ | ⟨_, _, _, _, h⟩
    · rw [h, Node.allBodies_inner_coe, Node.allBodies_inner_coe, ih0 _ e0]
      abel
    · rw [h, Node.allBodies_inner_coe, Node.allBodies_inner_coe, ih1 _ e1]
      abel
    · rw [h, Node.allBodies_inner_coe, Node.allBodies_inner_coe, ih2 _ e2]
      abel
    · rw [h, Node.allBodies_inner_coe, Node.allBodies_inner_coe, ih3 _ e3]
      abel
    · rw [h, Node.allBodies_inner_coe, Node.allBodies_inner_coe]
      simp only [← Multiset.coe_add, ← Multiset.coe_singleton]
      abel

end TreeBag

section TreeClaims

open Quadtree

variable {F : Type} [LinearOrderedField F]

theorem Quadtree.TreeReachable.of_insertAll {t : Quadtree F} (hr : TreeReachable t)
    (es : List (BodyRef F)) : TreeReachable (t.insertAll es) := by
  induction es generalizing t with
  | nil => exact hr
  | cons e rest ih =>
    rw [insertAll_cons]
    exact ih (TreeReachable.insert e hr)

theorem treeReachable_straddlingTree : TreeReachable straddlingTree :=
  (TreeReachable.clear (TreeReachable.init 0 0 100 100 1 12)).of_insertAll straddlingEntries

/-- C27.  For every tree produced by the constructor, `clear()` and `insert`,
every entry held directly by a subdivided node is contained in the rectangle
of none of that node's four children (`overflowOK`, which checks every
subdivided node of the tree; spelled out for the root in the second part). -/
theorem overflow_entries_fit_no_child (t : Quadtree F) (hreach : TreeReachable t) :
    t.root.overflowOK = true ∧
    ∀ r bodies c0 c1 c2 c3, t.root = .inner r bodies c0 c1 c2 c3 →
      ∀ e ∈ bodies, contains c0.rect e = false ∧ contains c1.rect e = false ∧
        contains c2.rect e = false ∧ contains c3.rect e = false := by
  have hok : t.root.overflowOK = true := by
    induction hreach with
    | init x y w h cap maxDepth => rfl
    | clear _ _ => rfl
    | insert b _ ih => exact insertRecursive_overflowOK _ _ _ _ _ ih
  refine ⟨hok, ?_⟩
  intro r bodies c0 c1 c2 c3 hroot e he
  rw [hroot] at hok
  simp only [Node.overflowOK, Bool.and_eq_true, List.all_eq_true, Bool.not_eq_true'] at hok
  obtain ⟨⟨⟨h0, h1⟩, h2⟩, h3⟩ := hok.1.1.1.1 e he
  exact ⟨h0, h1, h2, h3⟩

/-- C27 on `straddlingTree`, whose root holds entry 1 as overflow. -/
theorem overflow_entries_fit_no_child_witness :
    TreeReachable straddlingTree ∧ straddlingTree.root.bodies = [⟨1, 50, 50, 5⟩] ∧
    straddlingTree.root.overflowOK = true :=
  ⟨treeReachable_straddlingTree, by decide!,
    (overflow_entries_fit_no_child straddlingTree treeReachable_straddlingTree).1⟩

/-- C28.  For every tree with maximum depth `D >= 0` produced by the
constructor, `clear()` and `insert`, no node lies deeper than `D` and every
subdivided node lies at a depth strictly below `D` (`depthBounded`, from the
root at depth 0); and `insertRecursive` on a leaf at a depth `>= D` that
contains the entry appends it without subdividing, whatever the capacity and
however many entries the leaf holds. -/
theorem depth_bounded_by_max_depth (t : Quadtree F) (hreach : TreeReachable t)
    (hD : 0 ≤ t.maxDepth) :
    t.root.depthBounded t.maxDepth 0 = true ∧
    ∀ (cap : Int) (r : Rect F) (bodies : List (BodyRef F)) (b : BodyRef F) (depth : Int),
      t.maxDepth ≤ depth → contains r b = true →
        insertRecursive cap t.maxDepth (.leaf r bodies) b depth
          = (true, .leaf r (bodies ++ [b])) := by
  constructor
  · induction hreach with
    | init x y w h cap maxDepth =>
      show decide ((0 : Int) ≤ maxDepth) = true
      exact decide_eq_true hD
    | @clear t0 _ _ =>
      show decide ((0 : Int) ≤ t0.maxDepth) = true
      exact decide_eq_true hD
    | insert b _ ih => exact insertRecursive_depthBounded _ _ _ _ _ (ih hD)
  · intro cap r bodies b depth hdepth hfit
    exact insertRecursive_leaf_appends cap t.maxDepth r bodies b depth hfit (Or.inr hdepth)

/-- C28 on `straddlingTree` (maximum depth 12). -/
theorem depth_bounded_by_max_depth_witness :
    TreeReachable straddlingTree ∧ 0 ≤ straddlingTree.maxDepth ∧
    straddlingTree.root.depthBounded straddlingTree.maxDepth 0 = true :=
  ⟨treeReachable_straddlingTree, by decide,
    (depth_bounded_by_max_depth straddlingTree treeReachable_straddlingTree (by decide)).1⟩

/-- C29.  For every tree with leaf capacity `c >= 0` produced by the
constructor, `clear()` and `insert`, every leaf at a depth below the maximum
depth holds at most `c` entries (`leafLoadOK`, from the root at depth 0). -/
theorem leaves_above_max_depth_within_capacity (t : Quadtree F) (hreach : TreeReachable t)
    (hc : 0 ≤ t.capacity) :
    t.root.leafLoadOK t.capacity t.maxDepth 0 = true := by
  induction hreach with
  | init x y w h cap maxDepth =>
    show decide ((0 : Int) < maxDepth → (((([] : List (BodyRef F))).length : Nat) : Int) ≤ cap)
      = true
    exact decide_eq_true (fun _ => hc)
  | @clear t0 _ _ =>
    show decide ((0 : Int) < t0.maxDepth →
      (((([] : List (BodyRef F))).length : Nat) : Int) ≤ t0.capacity) = true
    exact decide_eq_true (fun _ => hc)
  | insert b _ ih => exact insertRecursive_leafLoadOK _ _ hc _ _ _ (ih hc)

/-- C29 on `straddlingTree` (capacity 1). -/
theorem leaves_above_max_depth_within_capacity_witness :
    TreeReachable straddlingTree ∧ 0 ≤ straddlingTree.capacity ∧
    straddlingTree.root.leafLoadOK straddlingTree.capacity straddlingTree.maxDepth 0 = true :=
  ⟨treeReachable_straddlingTree, by decide,
    leaves_above_max_depth_within_capacity straddlingTree treeReachable_straddlingTree
      (by decide)⟩

/-- C30.  For every tree and entry, after an `insert` that returns true the
multiset of the entries stored over all nodes of the tree is the multiset
stored before plus the inserted entry. -/
theorem insert_adds_exactly_one_entry (t : Quadtree F) (b : BodyRef F)
    (h : (t.insert b).1 = true) :
    ((t.insert b).2.root.allBodies : Multiset (BodyRef F))
      = (t.root.allBodies : Multiset (BodyRef F)) + {b} := by
  have hfit : contains t.root.rect b = true := by
    rw [← insertRecursive_fst t.capacity t.maxDepth t.root b 0]
    exact h
  exact insertRecursive_bag t.capacity t.maxDepth t.root b 0 hfit

/-- C30 on `straddlingTree` and an entry that stays on the subdivided root. -/
theorem insert_adds_exactly_one_entry_witness :
    (straddlingTree.insert ⟨2, 50, 50, 2⟩).1 = true ∧
    ((straddlingTree.insert ⟨2, 50, 50, 2⟩).2.root.allBodies : Multiset (BodyRef ℚ))
      = (straddlingTree.root.allBodies : Multiset (BodyRef ℚ)) + {⟨2, 50, 50, 2⟩} :=
  ⟨by decide!, insert_adds_exactly_one_entry straddlingTree ⟨2, 50, 50, 2⟩ (by decide!)⟩

end TreeClaims



section GridLog

open SpatialHash

variable {F : Type} [LinearOrderedField F] [FloorRing F]

/-- An `insert` that returns on a reachable grid, whatever the nesting bound:
the cell size is kept and exactly the inserted entry is added to the stored
ones. -/
theorem SpatialHash.Reachable.insert_exact {h h1 : SpatialHash F} (hr : Reachable h)
    (fuel : Nat) (b : BodyRef F) (heq : insertFuel fuel h b = some h1) :
    h1.cellSize = h.cellSize ∧ ∀ b', Stored h1 b' ↔ Stored h b' ∨ b' = b := by
  obtain ⟨h2, heq2, _, _, hcs, _, hst, _⟩ :=
    insertFuel_exact h hr.wf_populated.1 hr.wf_populated.2 b (fuel + 2) (by omega)
  have := insertFuel_mono_add fuel 2 h b h1 heq
  rw [this] at heq2
  rw [Option.some.inj heq2]
  exact ⟨hcs, hst⟩

omit [LinearOrderedField F] [FloorRing F] in
theorem SpatialHash.not_stored_clear (h : SpatialHash F) (b : BodyRef F) :
    ¬ Stored (SpatialHash.clear h) b := by
  rintro ⟨s, _, hocc, _⟩
  rw [(cellAt_clear h s).1] at hocc
  exact Bool.noConfusion hocc

omit [FloorRing F] in
theorem SpatialHash.not_stored_new (cs : F) (b : BodyRef F) :
    ¬ Stored (SpatialHash.new cs) b :=
  not_stored_fresh 256 _ 256 0 b

/-- A grid state with its log is a reachable grid state, and it stores exactly
the entries of the log. -/
theorem SpatialHash.ReachableLog.stored_iff {h : SpatialHash F} {log : List (BodyRef F)}
    (hr : ReachableLog h log) : Reachable h ∧ ∀ b, Stored h b ↔ b ∈ log := by
  induction hr with
  | init cs =>
    exact ⟨Reachable.init cs, fun b => ⟨fun hst => absurd hst (not_stored_new cs b),
      fun hb => absurd hb (List.not_mem_nil _)⟩⟩
  | @clear h0 log0 _ ih =>
    exact ⟨Reachable.clear ih.1, fun b => ⟨fun hst => absurd hst (not_stored_clear h0 b),
      fun hb => absurd hb (List.not_mem_nil _)⟩⟩
  | @insert h0 h1 log0 fuel b _ heq ih =>
    refine ⟨Reachable.insert fuel b ih.1 heq, ?_⟩
    intro b'
    rw [(ih.1.insert_exact fuel b heq).2 b', ih.2 b', List.mem_append, List.mem_singleton]

/-- With nesting bound at least 2 a sequence of insertions into a reachable
grid returns, and the log grows by the inserted entries. -/
theorem SpatialHash.ReachableLog.insertAll_log (fuel : Nat) (hfuel : 2 ≤ fuel)
    (bs : List (BodyRef F)) :
    ∀ (h : SpatialHash F) (log : List (BodyRef F)), ReachableLog h log →
      ∃ g, SpatialHash.insertAll fuel h bs = some g ∧ ReachableLog g (log ++ bs) := by
  induction bs with
  | nil => intro h log hr; exact ⟨h, rfl, by simpa using hr⟩
  | cons b rest ih =>
    intro h log hr
    obtain ⟨h1, heq1, _⟩ := insertFuel_exact h hr.stored_iff.1.wf_populated.1
      hr.stored_iff.1.wf_populated.2 b fuel hfuel
    obtain ⟨g, hg, hlog⟩ := ih h1 (log ++ [b]) (ReachableLog.insert fuel b hr heq1)
    refine ⟨g, ?_, by simpa using hlog⟩
    simp only [SpatialHash.insertAll, List.foldlM_cons, heq1, Option.bind_eq_bind,
      Option.some_bind]
    exact hg

end GridLog



section EngineFrame

open Engine SpatialHash

variable {F : Type} [LinearOrderedField F]

omit [LinearOrderedField F] in
theorem map_set_same {α β : Type} (f : α → β) (l : List α) (i : Nat) (a d : α)
    (h : f a = f (l.getD i d)) : (l.set i a).map f = l.map f := by
  apply List.ext_getElem?
  intro n
  simp only [List.getElem?_map, List.getElem?_set]
  split_ifs with h1 h2
  · subst h1
    have : l.getD i d = l[i] := by simp [List.getD_eq_getElem?_getD, h2]
    rw [this] at h
    simp [h2, h]
  · subst h1
    simp [List.getElem?_eq_none (Nat.le_of_not_lt h2)]
  · rfl

omit [LinearOrderedField F] in
theorem getD_of_map_eq {α β : Type} (f : α → β) (l l' : List α) (h : l'.map f = l.map f)
    (k : Nat) (d : α) : f (l'.getD k d) = f (l.getD k d) := by
  have h1 := List.getD_map (f := f) (l := l') (n := k) (d := d)
  have h2 := List.getD_map (f := f) (l := l) (n := k) (d := d)
  rw [← h1, ← h2, h]

theorem physics.positional_correction_radius (sqrt : F → F) (a b : Particle F) (eps : F) :
    (physics.positional_correction sqrt a b eps).1.r = a.r ∧
    (physics.positional_correction sqrt a b eps).2.r = b.r := by
  unfold physics.positional_correction
  dsimp only
  split_ifs <;> exact ⟨rfl, rfl⟩

/-- One iteration of the candidate loop changes no id and no radius, and
keeps the number and the order of the bodies. -/
theorem Engine.processCandidate_frame (sqrt : F → F) (idx : List Nat) (i : Nat)
    (st : NarrowState F) (j_id : Int) :
    (processCandidate sqrt idx i st j_id).particles.map (fun p => (p.id, p.r))
      = st.particles.map (fun p => (p.id, p.r)) := by
  unfold processCandidate
  dsimp only
  split_ifs
  · rfl
  · rfl
  · rfl
  · obtain ⟨hc1, hc2, _, _⟩ := physics.positional_correction_meta sqrt
      (physics.resolve_collision sqrt (st.particles.getD i Particle.default)
        (st.particles.getD (idx.getD j_id.toNat 0) Particle.default)).1
      (physics.resolve_collision sqrt (st.particles.getD i Particle.default)
        (st.particles.getD (idx.getD j_id.toNat 0) Particle.default)).2 physics.defaultEpsilon
    obtain ⟨hr1, hr2⟩ := physics.positional_correction_radius sqrt
      (physics.resolve_collision sqrt (st.particles.getD i Particle.default)
        (st.particles.getD (idx.getD j_id.toNat 0) Particle.default)).1
      (physics.resolve_collision sqrt (st.particles.getD i Particle.default)
        (st.particles.getD (idx.getD j_id.toNat 0) Particle.default)).2 physics.defaultEpsilon
    have h1 := map_set_same (fun p : Particle F => (p.id, p.r)) st.particles i
      (physics.positional_correction sqrt
        (physics.resolve_collision sqrt (st.particles.getD i Particle.default)
          (st.particles.getD (idx.getD j_id.toNat 0) Particle.default)).1
        (physics.resolve_collision sqrt (st.particles.getD i Particle.default)
          (st.particles.getD (idx.getD j_id.toNat 0) Particle.default)).2
        physics.defaultEpsilon).1 Particle.default
      (by
        show (_, _) = (_, _)
        rw [hc1, hr1]
        rfl)
    show ((st.particles.set i _).set (idx.getD j_id.toNat 0) _).map _ = _
    rw [map_set_same (fun p : Particle F => (p.id, p.r)) _ _ _ Particle.default, h1]
    rw [getD_of_map_eq _ _ _ h1]
    show (_, _) = (_, _)
    rw [hc2, hr2]
    rfl
  · rfl

theorem Engine.processBody_frame (sqrt : F → F) (idx : List Nat) (i : Nat)
    (candidates : List Int) (st : NarrowState F) :
    (processBody sqrt idx i candidates st).particles.map (fun p => (p.id, p.r))
      = st.particles.map (fun p => (p.id, p.r)) := by
  have key : ∀ (cs : List Int) (s : NarrowState F),
      (cs.foldl (processCandidate sqrt idx i) s).particles.map (fun p => (p.id, p.r))
        = s.particles.map (fun p => (p.id, p.r)) := by
    intro cs
    induction cs with
    | nil => intro s; rfl
    | cons c rest ih =>
      intro s
      rw [List.foldl_cons, ih, processCandidate_frame]
  unfold processBody
  exact key candidates _

theorem Engine.narrowAt_frame (sqrt : F → F) (cand : Particle F → List Int)
    (ps : List (Particle F)) (cpc cts : Nat) :
    ∀ k, (narrowAt sqrt cand ps cpc cts k).particles.map (fun p => (p.id, p.r))
      = ps.map (fun p => (p.id, p.r)) := by
  intro k
  induction k with
  | zero => rfl
  | succ k ih => rw [narrowAt_succ, processBody_frame, ih]

theorem physics.wallStep_radius (box_w box_h r : F) (p : Particle F) :
    (physics.wallStep box_w box_h r p).r = p.r := by
  unfold physics.wallStep
  dsimp only
  split_ifs <;> rfl

theorem Engine.afterWalls_frame (box_w box_h r : F) (ps : List (Particle F)) (dt : F) :
    (afterWalls box_w box_h r ps dt).map (fun p => (p.id, p.r))
      = ps.map (fun p => (p.id, p.r)) := by
  unfold afterWalls physics.handle_walls physics.integrate resetFlags
  rw [List.map_map, List.map_map, List.map_map]
  apply List.map_congr_left
  intro p _
  simp only [Function.comp_apply, physics.wallStep_id, physics.wallStep_radius]

omit [LinearOrderedField F] in
theorem frame_components (l l' : List (Particle F))
    (h : l'.map (fun p => (p.id, p.r)) = l.map (fun p => (p.id, p.r))) :
    l'.length = l.length ∧ l'.map (fun p => p.id) = l.map (fun p => p.id) ∧
      l'.map (fun p => p.r) = l.map (fun p => p.r) := by
  refine ⟨?_, ?_, ?_⟩
  · have := congrArg List.length h
    simpa using this
  · have := congrArg (List.map Prod.fst) h
    simpa [List.map_map, Function.comp] using this
  · have := congrArg (List.map Prod.snd) h
    simpa [List.map_map, Function.comp] using this

theorem Engine.IdsOk.of_map_id {l l' : List (Particle F)} (hids : IdsOk l)
    (hlen : l'.length = l.length) (h : l'.map (fun p => p.id) = l.map (fun p => p.id)) :
    IdsOk l' := by
  intro k hk
  rw [getD_of_map_eq (fun p : Particle F => p.id) l l' h k Particle.default]
  exact hids k (hlen ▸ hk)

end EngineFrame

section EngineFrameClaim

open Engine SpatialHash

variable {F : Type} [LinearOrderedField F] [FloorRing F]

/-- C23.  For every body sequence whose ids equal their indices, `step` of
either engine (for the grid engine: on a reachable grid, with nesting bound at
least 2, where `step` is shown to return) keeps the number of bodies, the list
of their ids and the list of their radii, index by index, so the
identity-equals-index invariant holds after the step. -/
theorem step_keeps_ids_and_radii (sqrt : F → F) (fuel : Nat) (hfuel : 2 ≤ fuel)
    (et : EngineQuadtree F) (eh : EngineHash F) (hreach : Reachable eh.spatialHash)
    (ps : List (Particle F)) (hids : IdsOk ps) (dt : F) :
    ((EngineQuadtree.step sqrt et ps dt).2.length = ps.length ∧
      (EngineQuadtree.step sqrt et ps dt).2.map (fun p => p.id) = ps.map (fun p => p.id) ∧
      (EngineQuadtree.step sqrt et ps dt).2.map (fun p => p.r) = ps.map (fun p => p.r) ∧
      IdsOk (EngineQuadtree.step sqrt et ps dt).2) ∧
    (∃ res, EngineHash.step fuel sqrt eh ps dt = some res ∧
      res.2.length = ps.length ∧
      res.2.map (fun p => p.id) = ps.map (fun p => p.id) ∧
      res.2.map (fun p => p.r) = ps.map (fun p => p.r) ∧
      IdsOk res.2) := by
  constructor
  · have h : (EngineQuadtree.step sqrt et ps dt).2.map (fun p => (p.id, p.r))
        = ps.map (fun p => (p.id, p.r)) := by
      show (EngineQuadtree.stepState sqrt et ps dt).2.particles.map _ = _
      rw [EngineQuadtree.stepState_eq_narrowAt, narrowAt_frame, afterWalls_frame]
    obtain ⟨h1, h2, h3⟩ := frame_components ps _ h
    exact ⟨h1, h2, h3, hids.of_map_id h1 h2⟩
  · obtain ⟨e2, _, _, heq⟩ := EngineHash.stepState_returns fuel hfuel sqrt eh hreach ps dt
    refine ⟨_, by unfold EngineHash.step; rw [heq]; rfl, ?_⟩
    have h : (narrowAt sqrt (EngineHash.candidates e2)
        (afterWalls eh.box_w eh.box_h eh.r ps dt) 0 0 ps.length).particles.map
          (fun p => (p.id, p.r)) = ps.map (fun p => (p.id, p.r)) := by
      rw [narrowAt_frame, afterWalls_frame]
    obtain ⟨h1, h2, h3⟩ := frame_components ps _ h
    exact ⟨h1, h2, h3, hids.of_map_id h1 h2⟩

/-- C23 on `midlineBodies` in the 800 x 600 box. -/
theorem step_keeps_ids_and_radii_witness :
    2 ≤ 2 ∧ Reachable (EngineHash.new (800 : ℚ) 600 5).spatialHash ∧ IdsOk midlineBodies ∧
    IdsOk ((EngineQuadtree.new (800 : ℚ) 600 5).step qsqrt midlineBodies (1 / 500)).2 ∧
    ∃ res, (EngineHash.new (800 : ℚ) 600 5).step 2 qsqrt midlineBodies (1 / 500) = some res ∧
      res.2.map (fun p => p.r) = midlineBodies.map (fun p => p.r) ∧ IdsOk res.2 := by
  have h := step_keeps_ids_and_radii qsqrt 2 (le_refl 2)
    (EngineQuadtree.new (800 : ℚ) 600 5) (EngineHash.new (800 : ℚ) 600 5)
    (reachable_engineHash_new 800 600 5) midlineBodies idsOk_midlineBodies (1 / 500)
  obtain ⟨⟨_, _, _, ht⟩, res, hres, _, _, hr, hi⟩ := h
  exact ⟨le_refl 2, reachable_engineHash_new 800 600 5, idsOk_midlineBodies, ht,
    res, hres, hr, hi⟩

end EngineFrameClaim



section TreeHistory

open Engine Quadtree

variable {F : Type} [LinearOrderedField F]

theorem Quadtree.clear_insert (t : Quadtree F) (b : BodyRef F) :
    (t.insert b).2.clear = t.clear := by
  unfold Quadtree.clear Quadtree.insert
  simp only [insertRecursive_rect]

theorem Quadtree.clear_insertAll (bs : List (BodyRef F)) :
    ∀ t : Quadtree F, (t.insertAll bs).clear = t.clear := by
  induction bs with
  | nil => intro t; rfl
  | cons b rest ih =>
    intro t
    rw [insertAll_cons, ih, Quadtree.clear_insert]

/-- What a tree engine keeps over its steps: the box, the radius, and the
bounds, capacity and maximum depth of its tree. -/
theorem EngineQuadtree.TreeRun.keeps_tree {box_w box_h r : F} {e : EngineQuadtree F}
    (hrun : EngineQuadtree.TreeRun box_w box_h r e) :
    e.box_w = box_w ∧ e.box_h = box_h ∧ e.r = r ∧
      e.quadtree.clear = (Quadtree.new 0 0 box_w box_h 8 12).clear := by
  induction hrun with
  | init => exact ⟨rfl, rfl, rfl, rfl⟩
  | @step e0 sqrt ps dt _ ih =>
    obtain ⟨h1, h2, h3, h4⟩ := ih
    refine ⟨h1, h2, h3, ?_⟩
    show ((Quadtree.clear e0.quadtree).insertAll _).clear = _
    rw [Quadtree.clear_insertAll]
    exact h4

/-- The tree engine's `step` reads nothing of the engine but the box, the
radius and the cleared tree. -/
theorem EngineQuadtree.stepState_congr (sqrt : F → F) (e1 e2 : EngineQuadtree F)
    (hw : e1.box_w = e2.box_w) (hh : e1.box_h = e2.box_h) (hr : e1.r = e2.r)
    (hq : e1.quadtree.clear = e2.quadtree.clear) (ps : List (Particle F)) (dt : F) :
    EngineQuadtree.stepState sqrt e1 ps dt = EngineQuadtree.stepState sqrt e2 ps dt := by
  obtain ⟨q1, bw1, bh1, r1, c1, d1⟩ := e1
  obtain ⟨q2, bw2, bh2, r2, c2, d2⟩ := e2
  simp only at hw hh hr hq
  subst hw hh hr
  unfold EngineQuadtree.stepState EngineQuadtree.buildBroadPhase
  simp only [hq]

end TreeHistory

section GridHistory

open Engine SpatialHash

variable {F : Type} [LinearOrderedField F] [FloorRing F]

/-- Two grids that satisfy the invariant, have the same cell size and store
the same entries answer every query with the same list, whatever their table
sizes. -/
theorem SpatialHash.query_eq_of_stored_iff (h1 h2 : SpatialHash F) (hwf1 : WF h1) (hwf2 : WF h2)
    (hcs : h1.cellSize = h2.cellSize) (hst : ∀ b, Stored h1 b ↔ Stored h2 b) (qx qy qr : F) :
    query h1 qx qy qr = query h2 qx qy qr := by
  obtain ⟨ids1, hq1, hs1, hm1⟩ := query_exact h1 hwf1 qx qy qr
  obtain ⟨ids2, hq2, hs2, hm2⟩ := query_exact h2 hwf2 qx qy qr
  rw [hq1, hq2]
  congr 1
  apply sorted_lt_ext _ _ hs1 hs2
  intro x
  rw [hm1 x, hm2 x, hcs]
  simp only [hst]

/-- A sequence of insertions that returns, on a reachable grid: the result is
reachable and has the same cell size. -/
theorem SpatialHash.Reachable.insertAll_some (fuel : Nat) (bs : List (BodyRef F)) :
    ∀ (h g : SpatialHash F), Reachable h → SpatialHash.insertAll fuel h bs = some g →
      Reachable g ∧ g.cellSize = h.cellSize := by
  induction bs with
  | nil =>
    intro h g hr hg
    have : h = g := by simpa [SpatialHash.insertAll] using hg
    subst this
    exact ⟨hr, rfl⟩
  | cons b rest ih =>
    intro h g hr hg
    unfold SpatialHash.insertAll at hg
    rw [List.foldlM_cons] at hg
    cases h1eq : insertFuel fuel h b with
    | none => rw [h1eq] at hg; simp at hg
    | some h1 =>
      rw [h1eq] at hg
      obtain ⟨hrg, hcs⟩ := ih h1 g (Reachable.insert fuel b hr h1eq) hg
      exact ⟨hrg, hcs.trans (hr.insert_exact fuel b h1eq).1⟩

theorem SpatialHash.Reachable.exists_log {h : SpatialHash F} (hr : Reachable h) :
    ∃ log, ReachableLog h log := by
  induction hr with
  | init cs => exact ⟨[], ReachableLog.init cs⟩
  | clear _ ih =>
    obtain ⟨log, hlog⟩ := ih
    exact ⟨[], ReachableLog.clear hlog⟩
  | insert fuel b _ heq ih =>
    obtain ⟨log, hlog⟩ := ih
    exact ⟨log ++ [b], ReachableLog.insert fuel b hlog heq⟩

/-- The grid that `buildBroadPhase` builds on a reachable grid: the insertions
return, the cell size is kept, and exactly the given entries are stored. -/
theorem SpatialHash.Reachable.rebuild {h : SpatialHash F} (hr : Reachable h) (fuel : Nat)
    (hfuel : 2 ≤ fuel) (bs : List (BodyRef F)) :
    ∃ g, SpatialHash.insertAll fuel (SpatialHash.clear h) bs = some g ∧ Reachable g ∧
      g.cellSize = h.cellSize ∧ ∀ b, Stored g b ↔ b ∈ bs := by
  obtain ⟨log, hlog⟩ := hr.exists_log
  obtain ⟨g, hg, hglog⟩ := SpatialHash.ReachableLog.insertAll_log fuel hfuel bs
    (SpatialHash.clear h) [] (ReachableLog.clear hlog)
  obtain ⟨hrg, hcs⟩ := Reachable.insertAll_some fuel bs _ g (Reachable.clear hr) hg
  refine ⟨g, hg, hrg, hcs, ?_⟩
  intro b
  rw [hglog.stored_iff.2 b, List.nil_append]

/-- What `EngineHash::step` leaves in the engine when it returns. -/
theorem EngineHash.step_some (fuel : Nat) (sqrt : F → F) (e e1 : EngineHash F)
    (ps ps1 : List (Particle F)) (dt : F)
    (h : EngineHash.step fuel sqrt e ps dt = some (e1, ps1)) :
    e1.box_w = e.box_w ∧ e1.box_h = e.box_h ∧ e1.r = e.r ∧
      SpatialHash.insertAll fuel (SpatialHash.clear e.spatialHash)
        (bodyRefs (afterWalls e.box_w e.box_h e.r ps dt)) = some e1.spatialHash := by
  unfold EngineHash.step EngineHash.stepState EngineHash.buildBroadPhase at h
  dsimp only at h
  unfold afterWalls
  cases hg : SpatialHash.insertAll fuel (SpatialHash.clear e.spatialHash)
      (bodyRefs (physics.handle_walls (physics.integrate (resetFlags ps) dt)
        e.box_w e.box_h e.r)) with
  | none => rw [hg] at h; simp at h
  | some g =>
    rw [hg] at h
    simp only [Option.map_some', Option.some_bind, Option.bind_eq_bind, Option.map_map,
      Option.map_eq_some', Function.comp_apply, Prod.mk.injEq] at h
    obtain ⟨st, _, he1, _⟩ := h
    rw [← he1]
    exact ⟨rfl, rfl, rfl, rfl⟩

/-- What a grid engine keeps over its steps: the box, the radius, the cell
size, and a reachable grid. -/
theorem EngineHash.GridRun.keeps_grid {box_w box_h r : F} {e : EngineHash F}
    (hrun : EngineHash.GridRun box_w box_h r e) :
    e.box_w = box_w ∧ e.box_h = box_h ∧ e.r = r ∧ Reachable e.spatialHash ∧
      e.spatialHash.cellSize = (EngineHash.new box_w box_h r).spatialHash.cellSize := by
  induction hrun with
  | init => exact ⟨rfl, rfl, rfl, Reachable.init _, rfl⟩
  | @step e0 e1 ps1 fuel sqrt ps dt _ heq ih =>
    obtain ⟨h1, h2, h3, h4, h5⟩ := ih
    obtain ⟨g1, g2, g3, g4⟩ := EngineHash.step_some fuel sqrt e0 e1 ps ps1 dt heq
    obtain ⟨hr, hcs⟩ := Reachable.insertAll_some fuel _ _ _ (Reachable.clear h4) g4
    exact ⟨g1.trans h1, g2.trans h2, g3.trans h3, hr, hcs.trans h5⟩

/-- With nesting bound at least 2 and a reachable grid, `EngineHash::step`
returns, and its result is the narrow phase run with the queries of a grid
that stores exactly the entries of the current bodies. -/
theorem EngineHash.step_exact (fuel : Nat) (hfuel : 2 ≤ fuel) (sqrt : F → F)
    (e : EngineHash F) (hreach : Reachable e.spatialHash) (ps : List (Particle F)) (dt : F) :
    ∃ (e1 : EngineHash F) (g : SpatialHash F), WF g ∧ g.cellSize = e.spatialHash.cellSize ∧
      (∀ b, Stored g b ↔ b ∈ bodyRefs (afterWalls e.box_w e.box_h e.r ps dt)) ∧
      EngineHash.step fuel sqrt e ps dt
        = some (e1, (narrowAt sqrt (fun p => (g.query p.x p.y (2 * e.r)).getD [])
            (afterWalls e.box_w e.box_h e.r ps dt) 0 0 ps.length).particles) ∧
      e1.candidatePairsChecked
        = (narrowAt sqrt (fun p => (g.query p.x p.y (2 * e.r)).getD [])
            (afterWalls e.box_w e.box_h e.r ps dt) 0 0 ps.length).candidatePairsChecked ∧
      e1.collisionsThisStep
        = (narrowAt sqrt (fun p => (g.query p.x p.y (2 * e.r)).getD [])
            (afterWalls e.box_w e.box_h e.r ps dt) 0 0 ps.length).collisionsThisStep := by
  obtain ⟨g, hg, hrg, hcs, hst⟩ := hreach.rebuild fuel hfuel
    (bodyRefs (afterWalls e.box_w e.box_h e.r ps dt))
  have hwfg := hrg.wf_populated.1
  have hnp := EngineHash.narrowPhase_returns sqrt
    ({ e with candidatePairsChecked := 0, collisionsThisStep := 0, spatialHash := g })
    hwfg (afterWalls e.box_w e.box_h e.r ps dt)
  rw [length_afterWalls] at hnp
  refine ⟨⟨g, e.box_w, e.box_h, e.r,
      (narrowAt sqrt (fun p => (g.query p.x p.y (2 * e.r)).getD [])
        (afterWalls e.box_w e.box_h e.r ps dt) 0 0 ps.length).candidatePairsChecked,
      (narrowAt sqrt (fun p => (g.query p.x p.y (2 * e.r)).getD [])
        (afterWalls e.box_w e.box_h e.r ps dt) 0 0 ps.length).collisionsThisStep⟩,
    g, hwfg, hcs, hst, ?_, rfl, rfl⟩
  unfold EngineHash.step EngineHash.stepState EngineHash.buildBroadPhase
  dsimp only
  unfold afterWalls at hg hnp ⊢
  rw [hg]
  simp only [Option.map_some', Option.some_bind, Option.bind_eq_bind]
  rw [hnp]
  rfl

end GridHistory

section HistoryClaim

open Engine SpatialHash

variable {F : Type} [LinearOrderedField F] [FloorRing F]

/-- C22.  For two instances of the same engine variant built with the same box
and radius, each after any number of earlier calls of `step` (for the grid
engine: calls that returned, with any table size reached), `step` on the same
body sequence with the same `dt` gives the same body sequence and the same two
counters; the grid engine's `step` is shown to return for nesting bounds at
least 2. -/
theorem step_independent_of_history (box_w box_h r : F) (sqrt : F → F) (f1 f2 : Nat)
    (hf1 : 2 ≤ f1) (hf2 : 2 ≤ f2) (t1 t2 : EngineQuadtree F)
    (ht1 : EngineQuadtree.TreeRun box_w box_h r t1)
    (ht2 : EngineQuadtree.TreeRun box_w box_h r t2) (g1 g2 : EngineHash F)
    (hg1 : EngineHash.GridRun box_w box_h r g1) (hg2 : EngineHash.GridRun box_w box_h r g2)
    (ps : List (Particle F)) (dt : F) :
    ((EngineQuadtree.step sqrt t1 ps dt).2 = (EngineQuadtree.step sqrt t2 ps dt).2 ∧
      (EngineQuadtree.step sqrt t1 ps dt).1.candidatePairsChecked
        = (EngineQuadtree.step sqrt t2 ps dt).1.candidatePairsChecked ∧
      (EngineQuadtree.step sqrt t1 ps dt).1.collisionsThisStep
        = (EngineQuadtree.step sqrt t2 ps dt).1.collisionsThisStep) ∧
    (∃ r1 r2, EngineHash.step f1 sqrt g1 ps dt = some r1 ∧
      EngineHash.step f2 sqrt g2 ps dt = some r2 ∧ r1.2 = r2.2 ∧
      r1.1.candidatePairsChecked = r2.1.candidatePairsChecked ∧
      r1.1.collisionsThisStep = r2.1.collisionsThisStep) := by
  constructor
  · obtain ⟨a1, a2, a3, a4⟩ := ht1.keeps_tree
    obtain ⟨b1, b2, b3, b4⟩ := ht2.keeps_tree
    have h := EngineQuadtree.stepState_congr sqrt t1 t2 (a1.trans b1.symm) (a2.trans b2.symm)
      (a3.trans b3.symm) (a4.trans b4.symm) ps dt
    unfold EngineQuadtree.step
    rw [h]
    exact ⟨rfl, rfl, rfl⟩
  · obtain ⟨a1, a2, a3, a4, a5⟩ := hg1.keeps_grid
    obtain ⟨b1, b2, b3, b4, b5⟩ := hg2.keeps_grid
    obtain ⟨e1, ga, hwfa, hcsa, hsta, hstep1, hc1, hd1⟩ :=
      EngineHash.step_exact f1 hf1 sqrt g1 a4 ps dt
    obtain ⟨e2, gb, hwfb, hcsb, hstb, hstep2, hc2, hd2⟩ :=
      EngineHash.step_exact f2 hf2 sqrt g2 b4 ps dt
    rw [a1, a2, a3] at hsta hstep1 hc1 hd1
    rw [b1, b2, b3] at hstb hstep2 hc2 hd2
    have hcand : (fun p : Particle F => (ga.query p.x p.y (2 * r)).getD [])
        = fun p : Particle F => (gb.query p.x p.y (2 * r)).getD [] := by
      funext p
      rw [query_eq_of_stored_iff ga gb hwfa hwfb
        ((hcsa.trans a5).trans (hcsb.trans b5).symm)
        (fun b => (hsta b).trans (hstb b).symm)]
    rw [hcand] at hstep1 hc1 hd1
    exact ⟨_, _, hstep1, hstep2, rfl, hc1.trans hc2.symm, hd1.trans hd2.symm⟩

end HistoryClaim

section HistoryWitness

open Engine SpatialHash

theorem physics.wallStep_of_inside {F : Type} [LinearOrderedField F] (box_w box_h r : F)
    (p : Particle F) (h : insideBox box_w box_h r p) : physics.wallStep box_w box_h r p = p := by
  obtain ⟨a1, a2, a3, a4⟩ := h
  have h1 : ¬ (p.x - r < 0) := by linarith
  have h2 : ¬ (p.x + r > box_w) := by linarith
  have h3 : ¬ (p.y - r < 0) := by linarith
  have h4 : ¬ (p.y + r > box_h) := by linarith
  unfold physics.wallStep
  simp only [h1, h2, h3, h4, if_false]

theorem bodyRefs_afterWalls_rowBodies :
    bodyRefs (afterWalls (2000 : ℚ) 600 5 rowBodies 0) = rowEntries := by
  unfold bodyRefs afterWalls physics.handle_walls physics.integrate resetFlags rowBodies
    rowEntries
  simp only [List.map_map]
  apply List.map_congr_left
  intro i hi
  have hi1 : i < 193 := List.mem_range.mp hi
  have h0 : (0 : ℚ) ≤ (i : ℚ) := Nat.cast_nonneg i
  have h1 : (i : ℚ) ≤ 192 := by exact_mod_cast Nat.lt_succ_iff.mp hi1
  simp only [Function.comp_apply, mul_zero, add_zero]
  rw [physics.wallStep_of_inside]
  refine ⟨?_, ?_, ?_, ?_⟩ <;> simp only <;> linarith

theorem rowEntries_grow_table :
    ∃ g, SpatialHash.insertAll 2 (SpatialHash.new (10 : ℚ)) rowEntries = some g ∧
      g.tableSize = 512 := by
  have hwf : WF (SpatialHash.new (10 : ℚ)) := (Reachable.init 10).wf_populated.1
  obtain ⟨h1, heq, hres⟩ := insertAll_growth 2 (le_refl 2) rowEntries (SpatialHash.new 10) ∅ hwf
    (populated_new 10) (fun k => by simpa using not_hasKey_new (10 : ℚ) k)
    (by rw [Finset.empty_union, rowEntries_keys]; norm_num) (Or.inl ⟨rfl, by simp⟩)
  refine ⟨h1, heq, ?_⟩
  rcases hres with ⟨_, hle⟩ | h512
  · rw [Finset.empty_union, rowEntries_keys] at hle
    omega
  · exact h512

theorem clear_new (cs : ℚ) : SpatialHash.clear (SpatialHash.new cs) = SpatialHash.new cs := by
  unfold SpatialHash.clear SpatialHash.new
  simp only [List.map_replicate]
  rfl

/-- One `step` of the grid engine on `rowBodies` returns and leaves a table of
512 slots. -/
theorem grownGridEngine_run :
    EngineHash.GridRun (2000 : ℚ) 600 5 grownGridEngine ∧
      grownGridEngine.spatialHash.tableSize = 512 := by
  obtain ⟨e1, g, _, _, _, hstep, _, _⟩ := EngineHash.step_exact 2 (le_refl 2) qsqrt
    (EngineHash.new (2000 : ℚ) 600 5) (reachable_engineHash_new 2000 600 5) rowBodies 0
  have hg : grownGridEngine = e1 := by
    unfold grownGridEngine
    rw [hstep]
    rfl
  rw [hg]
  refine ⟨EngineHash.GridRun.step 2 qsqrt rowBodies 0 EngineHash.GridRun.init hstep, ?_⟩
  obtain ⟨_, _, _, hins⟩ := EngineHash.step_some 2 qsqrt _ e1 rowBodies _ 0 hstep
  have hnew : (EngineHash.new (2000 : ℚ) 600 5).spatialHash = SpatialHash.new 10 := by
    show SpatialHash.new (max (2 * (5 : ℚ)) 1) = SpatialHash.new 10
    norm_num
  have hb : bodyRefs (afterWalls (EngineHash.new (2000 : ℚ) 600 5).box_w
      (EngineHash.new (2000 : ℚ) 600 5).box_h (EngineHash.new (2000 : ℚ) 600 5).r rowBodies 0)
      = rowEntries := bodyRefs_afterWalls_rowBodies
  rw [hnew, clear_new, hb] at hins
  obtain ⟨g1, hg1, h512⟩ := rowEntries_grow_table
  rw [hg1] at hins
  rw [← Option.some.inj hins]
  exact h512

/-- C22 for the engines of the 2000 x 600 box with radius 5: a fresh instance
and an instance that has run one step on `rowBodies` (which grew the grid's
table from 256 to 512 slots) give the same result on `midlineBodies`. -/
theorem step_independent_of_history_witness :
    2 ≤ 2 ∧
    EngineQuadtree.TreeRun (2000 : ℚ) 600 5
      ((EngineQuadtree.new (2000 : ℚ) 600 5).step qsqrt rowBodies 0).1 ∧
    EngineHash.GridRun (2000 : ℚ) 600 5 grownGridEngine ∧
    (EngineHash.new (2000 : ℚ) 600 5).spatialHash.tableSize = 256 ∧
    grownGridEngine.spatialHash.tableSize = 512 ∧
    ((EngineQuadtree.new (2000 : ℚ) 600 5).step qsqrt midlineBodies (1 / 500)).2
      = (((EngineQuadtree.new (2000 : ℚ) 600 5).step qsqrt rowBodies 0).1.step qsqrt
          midlineBodies (1 / 500)).2 ∧
    ∃ r1 r2, (EngineHash.new (2000 : ℚ) 600 5).step 2 qsqrt midlineBodies (1 / 500) = some r1 ∧
      grownGridEngine.step 2 qsqrt midlineBodies (1 / 500) = some r2 ∧ r1.2 = r2.2 ∧
      r1.1.candidatePairsChecked = r2.1.candidatePairsChecked ∧
      r1.1.collisionsThisStep = r2.1.collisionsThisStep := by
  have ht : EngineQuadtree.TreeRun (2000 : ℚ) 600 5
      ((EngineQuadtree.new (2000 : ℚ) 600 5).step qsqrt rowBodies 0).1 :=
    EngineQuadtree.TreeRun.step qsqrt rowBodies 0 EngineQuadtree.TreeRun.init
  have h := step_independent_of_history (2000 : ℚ) 600 5 qsqrt 2 2 (le_refl 2) (le_refl 2)
    (EngineQuadtree.new (2000 : ℚ) 600 5) _ EngineQuadtree.TreeRun.init ht
    (EngineHash.new (2000 : ℚ) 600 5) grownGridEngine EngineHash.GridRun.init
    grownGridEngine_run.1 midlineBodies (1 / 500)
  exact ⟨le_refl 2, ht, grownGridEngine_run.1, rfl, grownGridEngine_run.2, h.1.1, h.2⟩

end HistoryWitness



section PhysicsSymmetry

open physics

variable {F : Type} [LinearOrderedField F]

/-- C34.  For every pair of bodies (and every square-root function),
`resolve_collision` conserves total momentum: `a.vx + b.vx` and `a.vy + b.vy`
are the same after the call as before it. -/
theorem resolve_collision_conserves_momentum (sqrt : F → F) (a b : Particle F) :
    (resolve_collision sqrt a b).1.vx + (resolve_collision sqrt a b).2.vx = a.vx + b.vx ∧
    (resolve_collision sqrt a b).1.vy + (resolve_collision sqrt a b).2.vy = a.vy + b.vy := by
  unfold resolve_collision
  dsimp only
  constructor <;> ring

theorem centre_dist_sq_comm (a b : Particle F) : centre_dist_sq b a = centre_dist_sq a b := by
  unfold centre_dist_sq
  ring

/-- The normal of the swapped pair: the same vector in the fallback branch,
the opposite vector otherwise. -/
theorem collision_normal_swap (sqrt : F → F) (a b : Particle F) :
    (centre_dist_sq a b < tiny → collision_normal sqrt b a = collision_normal sqrt a b) ∧
    (¬ centre_dist_sq a b < tiny →
      (collision_normal sqrt b a).1 = -(collision_normal sqrt a b).1 ∧
      (collision_normal sqrt b a).2 = -(collision_normal sqrt a b).2) := by
  rw [collision_normal_eq_div, collision_normal_eq_div]
  unfold collision_dist
  rw [centre_dist_sq_comm a b]
  constructor
  · intro h
    simp only [h, if_true]
  · intro h
    simp only [h, if_false]
    constructor <;> ring

/-- C35.  For every pair of bodies `a` and `b` (coincident centres included)
and every square-root function, `resolve_collision(a, b)` and
`resolve_collision(b, a)` leave `a` in the same final state and `b` in the same
final state. -/
theorem resolve_collision_argument_order (sqrt : F → F) (a b : Particle F) :
    (resolve_collision sqrt b a).2 = (resolve_collision sqrt a b).1 ∧
    (resolve_collision sqrt b a).1 = (resolve_collision sqrt a b).2 := by
  obtain ⟨hsame, hopp⟩ := collision_normal_swap sqrt a b
  by_cases h : centre_dist_sq a b < tiny
  · have hn := hsame h
    unfold resolve_collision
    dsimp only
    rw [hn]
    constructor
    · congr 1 <;> ring
    · congr 1 <;> ring
  · obtain ⟨h1, h2⟩ := hopp h
    unfold resolve_collision
    dsimp only
    rw [h1, h2]
    constructor
    · congr 1 <;> ring
    · congr 1 <;> ring

/-- C37.  `handle_walls` leaves every body that is already inside the box
unchanged: if `r <= x <= box_w - r` and `r <= y <= box_h - r`, the body at
that index is the same after the call as before it (position, velocity, flag
and every other field). -/
theorem handle_walls_keeps_inside_bodies (box_w box_h r : F) (particles : List (Particle F))
    (k : Nat) (p : Particle F) (hk : particles[k]? = some p)
    (hin : r ≤ p.x ∧ p.x ≤ box_w - r ∧ r ≤ p.y ∧ p.y ≤ box_h - r) :
    (handle_walls particles box_w box_h r)[k]? = some p := by
  unfold handle_walls
  rw [List.getElem?_map, hk, Option.map_some', wallStep_of_inside box_w box_h r p hin]

/-- C37 for the body at (400, 300) in the 800 x 600 box, with velocity
(7, -2) and its flag set. -/
theorem handle_walls_keeps_inside_bodies_witness :
    ([(⟨3, 300, -20, 0, 5, 0, false⟩ : Particle ℚ), ⟨400, 300, 7, -2, 5, 1, true⟩][1]?
        = some ⟨400, 300, 7, -2, 5, 1, true⟩ ∧
      ((5 : ℚ) ≤ 400 ∧ (400 : ℚ) ≤ 800 - 5 ∧ (5 : ℚ) ≤ 300 ∧ (300 : ℚ) ≤ 600 - 5)) ∧
    (handle_walls [(⟨3, 300, -20, 0, 5, 0, false⟩ : Particle ℚ), ⟨400, 300, 7, -2, 5, 1, true⟩]
        800 600 5)[1]? = some ⟨400, 300, 7, -2, 5, 1, true⟩ :=
  ⟨⟨rfl, by norm_num⟩,
    handle_walls_keeps_inside_bodies (800 : ℚ) 600 5 _ 1 ⟨400, 300, 7, -2, 5, 1, true⟩ rfl
      (by norm_num)⟩

end PhysicsSymmetry

section CorrectionDistance

open physics

/-- The result of `positional_correction` when it moves the bodies. -/
theorem positional_correction_moved (a b : Particle ℝ) (epsilon : ℝ)
    (hov : circle_overlap a b = true) (hd : centre_dist_sq a b > tiny)
    (hmove : a.r + b.r - Real.sqrt (centre_dist_sq a b) > epsilon) :
    positional_correction Real.sqrt a b epsilon
      = ({ a with
            x := a.x - (a.r + b.r - Real.sqrt (centre_dist_sq a b)) * (1 / 2) * epsilon
                  * ((b.x - a.x) / Real.sqrt (centre_dist_sq a b))
            y := a.y - (a.r + b.r - Real.sqrt (centre_dist_sq a b)) * (1 / 2) * epsilon
                  * ((b.y - a.y) / Real.sqrt (centre_dist_sq a b)) },
         { b with
            x := b.x + (a.r + b.r - Real.sqrt (centre_dist_sq a b)) * (1 / 2) * epsilon
                  * ((b.x - a.x) / Real.sqrt (centre_dist_sq a b))
            y := b.y + (a.r + b.r - Real.sqrt (centre_dist_sq a b)) * (1 / 2) * epsilon
                  * ((b.y - a.y) / Real.sqrt (centre_dist_sq a b)) }) := by
  have h1 : centre_dist_sq a b < (a.r + b.r) * (a.r + b.r) :=
    (circle_overlap_iff_centre_dist a b).mp hov
  unfold positional_correction
  unfold centre_dist_sq at h1 hd hmove ⊢
  dsimp only
  rw [if_pos ⟨h1, hd⟩, if_pos hmove]

/-- The squared centre distance after a move of `a` by `-c·n` and of `b` by
`+c·n` along the unit normal `n = (dx/d, dy/d)`. -/
theorem centre_dist_sq_after_move (a b : Particle ℝ) (c : ℝ) (hd : 0 < centre_dist_sq a b) :
    centre_dist_sq
        { a with
          x := a.x - c * ((b.x - a.x) / Real.sqrt (centre_dist_sq a b))
          y := a.y - c * ((b.y - a.y) / Real.sqrt (centre_dist_sq a b)) }
        { b with
          x := b.x + c * ((b.x - a.x) / Real.sqrt (centre_dist_sq a b))
          y := b.y + c * ((b.y - a.y) / Real.sqrt (centre_dist_sq a b)) }
      = (Real.sqrt (centre_dist_sq a b) + 2 * c) ^ 2 := by
  have hs : 0 < Real.sqrt (centre_dist_sq a b) := Real.sqrt_pos.mpr hd
  have hsq : Real.sqrt (centre_dist_sq a b) ^ 2 = centre_dist_sq a b :=
    Real.sq_sqrt (le_of_lt hd)
  have hne : Real.sqrt (centre_dist_sq a b) ≠ 0 := ne_of_gt hs
  have key : (b.x - a.x) ^ 2 + (b.y - a.y) ^ 2 = Real.sqrt (centre_dist_sq a b) ^ 2 := by
    rw [hsq]
    unfold centre_dist_sq
    ring
  generalize Real.sqrt (centre_dist_sq a b) = d at hs hne key
  show (b.x + c * ((b.x - a.x) / d) - (a.x - c * ((b.x - a.x) / d)))
        * (b.x + c * ((b.x - a.x) / d) - (a.x - c * ((b.x - a.x) / d)))
      + (b.y + c * ((b.y - a.y) / d) - (a.y - c * ((b.y - a.y) / d)))
        * (b.y + c * ((b.y - a.y) / d) - (a.y - c * ((b.y - a.y) / d)))
      = (d + 2 * c) ^ 2
  have e1 : b.x + c * ((b.x - a.x) / d) - (a.x - c * ((b.x - a.x) / d))
      = (b.x - a.x) * ((d + 2 * c) / d) := by
    field_simp
    ring
  have e2 : b.y + c * ((b.y - a.y) / d) - (a.y - c * ((b.y - a.y) / d))
      = (b.y - a.y) * ((d + 2 * c) / d) := by
    field_simp
    ring
  rw [e1, e2]
  have : (b.x - a.x) * ((d + 2 * c) / d) * ((b.x - a.x) * ((d + 2 * c) / d))
      + (b.y - a.y) * ((d + 2 * c) / d) * ((b.y - a.y) * ((d + 2 * c) / d))
      = ((b.x - a.x) ^ 2 + (b.y - a.y) ^ 2) * ((d + 2 * c) / d) ^ 2 := by ring
  rw [this, key]
  field_simp

/-- C36.  Over the reals, whenever `positional_correction` moves the bodies
(they overlap, `d^2 > 1e-10`, `overlap = a.r + b.r - d > epsilon`), the centre
distance after the call is `|d + overlap × epsilon|`.  It equals
`d + overlap × epsilon`, the distance has grown by exactly
`overlap × epsilon`, exactly when `d + overlap × epsilon >= 0`, in particular
for every `epsilon >= 0`; and for `0 < epsilon < 1` the two bodies still
overlap after the correction, with remaining overlap
`overlap × (1 - epsilon)`. -/
theorem positional_correction_widens_distance (a b : Particle ℝ) (epsilon : ℝ)
    (hov : circle_overlap a b = true) (hd : centre_dist_sq a b > tiny)
    (hmove : a.r + b.r - Real.sqrt (centre_dist_sq a b) > epsilon) :
    Real.sqrt (centre_dist_sq (positional_correction Real.sqrt a b epsilon).1
        (positional_correction Real.sqrt a b epsilon).2)
      = |Real.sqrt (centre_dist_sq a b)
          + (a.r + b.r - Real.sqrt (centre_dist_sq a b)) * epsilon| ∧
    (Real.sqrt (centre_dist_sq (positional_correction Real.sqrt a b epsilon).1
        (positional_correction Real.sqrt a b epsilon).2)
      = Real.sqrt (centre_dist_sq a b)
          + (a.r + b.r - Real.sqrt (centre_dist_sq a b)) * epsilon ↔
      0 ≤ Real.sqrt (centre_dist_sq a b)
          + (a.r + b.r - Real.sqrt (centre_dist_sq a b)) * epsilon) ∧
    (0 ≤ epsilon →
      Real.sqrt (centre_dist_sq (positional_correction Real.sqrt a b epsilon).1
          (positional_correction Real.sqrt a b epsilon).2)
        = Real.sqrt (centre_dist_sq a b)
            + (a.r + b.r - Real.sqrt (centre_dist_sq a b)) * epsilon) ∧
    (0 < epsilon → epsilon < 1 →
      circle_overlap (positional_correction Real.sqrt a b epsilon).1
          (positional_correction Real.sqrt a b epsilon).2 = true ∧
      (positional_correction Real.sqrt a b epsilon).1.r
          + (positional_correction Real.sqrt a b epsilon).2.r
          - Real.sqrt (centre_dist_sq (positional_correction Real.sqrt a b epsilon).1
              (positional_correction Real.sqrt a b epsilon).2)
        = (a.r + b.r - Real.sqrt (centre_dist_sq a b)) * (1 - epsilon)) := by
  have htiny : (0 : ℝ) < tiny := by unfold tiny; norm_num
  have hpos : 0 < centre_dist_sq a b := lt_trans htiny hd
  have hs : 0 < Real.sqrt (centre_dist_sq a b) := Real.sqrt_pos.mpr hpos
  have hnew := centre_dist_sq_after_move a b
    ((a.r + b.r - Real.sqrt (centre_dist_sq a b)) * (1 / 2) * epsilon) hpos
  have habs : Real.sqrt (centre_dist_sq (positional_correction Real.sqrt a b epsilon).1
        (positional_correction Real.sqrt a b epsilon).2)
      = |Real.sqrt (centre_dist_sq a b)
          + (a.r + b.r - Real.sqrt (centre_dist_sq a b)) * epsilon| := by
    rw [positional_correction_moved a b epsilon hov hd hmove]
    dsimp only
    rw [hnew, Real.sqrt_sq_eq_abs]
    congr 1
    ring
  have hiff : Real.sqrt (centre_dist_sq (positional_correction Real.sqrt a b epsilon).1
        (positional_correction Real.sqrt a b epsilon).2)
      = Real.sqrt (centre_dist_sq a b)
          + (a.r + b.r - Real.sqrt (centre_dist_sq a b)) * epsilon ↔
      0 ≤ Real.sqrt (centre_dist_sq a b)
          + (a.r + b.r - Real.sqrt (centre_dist_sq a b)) * epsilon := by
    rw [habs]
    exact abs_eq_self
  have hge : 0 ≤ epsilon →
      Real.sqrt (centre_dist_sq (positional_correction Real.sqrt a b epsilon).1
          (positional_correction Real.sqrt a b epsilon).2)
        = Real.sqrt (centre_dist_sq a b)
            + (a.r + b.r - Real.sqrt (centre_dist_sq a b)) * epsilon := by
    intro heps
    apply hiff.mpr
    have hovl : 0 < a.r + b.r - Real.sqrt (centre_dist_sq a b) := lt_of_le_of_lt heps hmove
    have : 0 ≤ (a.r + b.r - Real.sqrt (centre_dist_sq a b)) * epsilon :=
      mul_nonneg (le_of_lt hovl) heps
    linarith
  refine ⟨habs, hiff, hge, ?_⟩
  intro h0 h1
  have hovl : 0 < a.r + b.r - Real.sqrt (centre_dist_sq a b) := lt_trans h0 hmove
  have hdist := hge (le_of_lt h0)
  have hr : (positional_correction Real.sqrt a b epsilon).1.r = a.r ∧
      (positional_correction Real.sqrt a b epsilon).2.r = b.r :=
    positional_correction_radius Real.sqrt a b epsilon
  constructor
  · rw [circle_overlap_iff_centre_dist, hr.1, hr.2]
    rw [positional_correction_moved a b epsilon hov hd hmove]
    dsimp only
    rw [hnew]
    have hlt : Real.sqrt (centre_dist_sq a b)
        + 2 * ((a.r + b.r - Real.sqrt (centre_dist_sq a b)) * (1 / 2) * epsilon) < a.r + b.r := by
      have : (a.r + b.r - Real.sqrt (centre_dist_sq a b)) * epsilon
          < (a.r + b.r - Real.sqrt (centre_dist_sq a b)) * 1 :=
        mul_lt_mul_of_pos_left h1 hovl
      linarith
    have hnn : 0 ≤ Real.sqrt (centre_dist_sq a b)
        + 2 * ((a.r + b.r - Real.sqrt (centre_dist_sq a b)) * (1 / 2) * epsilon) := by
      have : 0 ≤ (a.r + b.r - Real.sqrt (centre_dist_sq a b)) * epsilon :=
        mul_nonneg (le_of_lt hovl) (le_of_lt h0)
      linarith
    nlinarith
  · rw [hdist, hr.1, hr.2]
    ring

/-- C36 for two bodies of radius 5 with centres 8 apart and the default
`epsilon = 0.01`. -/
theorem positional_correction_widens_distance_witness :
    (circle_overlap (⟨100, 100, 0, 0, 5, 0, false⟩ : Particle ℝ) ⟨108, 100, 0, 0, 5, 1, false⟩
        = true ∧
      centre_dist_sq (⟨100, 100, 0, 0, 5, 0, false⟩ : Particle ℝ) ⟨108, 100, 0, 0, 5, 1, false⟩
        > tiny ∧
      (5 : ℝ) + 5 - Real.sqrt (centre_dist_sq (⟨100, 100, 0, 0, 5, 0, false⟩ : Particle ℝ)
        ⟨108, 100, 0, 0, 5, 1, false⟩) > 1 / 100) ∧
    Real.sqrt (centre_dist_sq
        (positional_correction Real.sqrt (⟨100, 100, 0, 0, 5, 0, false⟩ : Particle ℝ)
          ⟨108, 100, 0, 0, 5, 1, false⟩ (1 / 100)).1
        (positional_correction Real.sqrt (⟨100, 100, 0, 0, 5, 0, false⟩ : Particle ℝ)
          ⟨108, 100, 0, 0, 5, 1, false⟩ (1 / 100)).2)
      = Real.sqrt (centre_dist_sq (⟨100, 100, 0, 0, 5, 0, false⟩ : Particle ℝ)
          ⟨108, 100, 0, 0, 5, 1, false⟩)
        + ((5 : ℝ) + 5 - Real.sqrt (centre_dist_sq (⟨100, 100, 0, 0, 5, 0, false⟩ : Particle ℝ)
          ⟨108, 100, 0, 0, 5, 1, false⟩)) * (1 / 100) := by
  have hd : centre_dist_sq (⟨100, 100, 0, 0, 5, 0, false⟩ : Particle ℝ)
      ⟨108, 100, 0, 0, 5, 1, false⟩ = 64 := by
    unfold centre_dist_sq
    norm_num
  have h1 : circle_overlap (⟨100, 100, 0, 0, 5, 0, false⟩ : Particle ℝ)
      ⟨108, 100, 0, 0, 5, 1, false⟩ = true := by
    rw [circle_overlap_iff_centre_dist, hd]; norm_num
  have h2 : centre_dist_sq (⟨100, 100, 0, 0, 5, 0, false⟩ : Particle ℝ)
      ⟨108, 100, 0, 0, 5, 1, false⟩ > tiny := by
    rw [hd]; unfold tiny; norm_num
  have h3 : (5 : ℝ) + 5 - Real.sqrt (centre_dist_sq (⟨100, 100, 0, 0, 5, 0, false⟩ : Particle ℝ)
      ⟨108, 100, 0, 0, 5, 1, false⟩) > 1 / 100 := by
    rw [hd, sqrt_sixty_four]; norm_num
  exact ⟨⟨h1, h2, h3⟩,
    (positional_correction_widens_distance _ _ (1 / 100) h1 h2 h3).2.2.1 (by norm_num)⟩

end CorrectionDistance



section TreeContainment

open Quadtree

variable {F : Type} [LinearOrderedField F]

/-- The entries of the subtree after `insertRecursive` on a node that contains
the entry: the old ones and the new one. -/
theorem insertRecursive_mem_iff (cap maxDepth : Int) (node : Node F) (b : BodyRef F)
    (depth : Int) (hfit : contains node.rect b = true) (e : BodyRef F) :
    e ∈ (insertRecursive cap maxDepth node b depth).2.allBodies ↔ e ∈ node.allBodies ∨ e = b := by
  have h := insertRecursive_bag cap maxDepth node b depth hfit
  rw [← Multiset.mem_coe, h, Multiset.mem_add, Multiset.mem_singleton, Multiset.mem_coe]

theorem insertLeaf_mem_iff (cap : Int) (k : Nat) (r : Rect F) (bs : List (BodyRef F))
    (b : BodyRef F) (hfit : contains r b = true) (e : BodyRef F) :
    e ∈ (insertLeaf cap k r bs b).2.allBodies ↔ e ∈ bs ∨ e = b := by
  have h := insertLeaf_bag cap k r bs b hfit
  rw [← Multiset.mem_coe, h, Multiset.mem_add, Multiset.mem_singleton, Multiset.mem_coe]

omit [LinearOrderedField F] in
theorem Node.leafBodies_subset (node : Node F) : ∀ e ∈ node.leafBodies, e ∈ node.allBodies := by
  induction node with
  | leaf r bs => intro e he; exact he
  | inner r bodies c0 c1 c2 c3 ih0 ih1 ih2 ih3 =>
    intro e he
    simp only [Node.leafBodies, List.mem_append] at he
    simp only [Node.allBodies, List.mem_append]
    rcases he with h | h | h | h
    · exact Or.inr (Or.inl (ih0 e h))
    · exact Or.inr (Or.inr (Or.inl (ih1 e h)))
    · exact Or.inr (Or.inr (Or.inr (Or.inl (ih2 e h))))
    · exact Or.inr (Or.inr (Or.inr (Or.inr (ih3 e h))))

theorem Node.subtreeInside_inner (r : Rect F) (bodies : List (BodyRef F)) (c0 c1 c2 c3 : Node F)
    (hall : ∀ e ∈ (Node.inner r bodies c0 c1 c2 c3).allBodies, contains r e = true)
    (h0 : c0.subtreeInside = true) (h1 : c1.subtreeInside = true)
    (h2 : c2.subtreeInside = true) (h3 : c3.subtreeInside = true) :
    (Node.inner r bodies c0 c1 c2 c3).subtreeInside = true := by
  simp only [Node.subtreeInside, h0, h1, h2, h3, Bool.and_true]
  rw [List.all_eq_true]
  exact hall

theorem Node.subtreeInside_all (node : Node F) (h : node.subtreeInside = true) :
    ∀ e ∈ node.allBodies, contains node.rect e = true := by
  cases node with
  | leaf r bs =>
    simp only [Node.subtreeInside, List.all_eq_true] at h
    exact h
  | inner r bodies c0 c1 c2 c3 =>
    simp only [Node.subtreeInside, Bool.and_eq_true, List.all_eq_true] at h
    exact h.1.1.1.1

theorem Node.subtreeInside_leaf (r : Rect F) (bs : List (BodyRef F))
    (h : ∀ e ∈ bs, contains r e = true) : (Node.leaf r bs).subtreeInside = true := by
  simp only [Node.subtreeInside, List.all_eq_true]
  exact h

theorem redistribute_inside (r : Rect F) (bs : List (BodyRef F)) :
    (∀ e ∈ (redistribute r bs).q0, contains (childNW r) e = true) ∧
    (∀ e ∈ (redistribute r bs).q1, contains (childNE r) e = true) ∧
    (∀ e ∈ (redistribute r bs).q2, contains (childSW r) e = true) ∧
    (∀ e ∈ (redistribute r bs).q3, contains (childSE r) e = true) := by
  rw [redistribute_eq]
  refine ⟨?_, ?_, ?_, ?_⟩
  · intro e he
    exact (List.mem_filter.mp he).2
  · intro e he
    have := (List.mem_filter.mp he).2
    simp only [Bool.and_eq_true] at this
    exact this.2
  · intro e he
    have := (List.mem_filter.mp he).2
    simp only [Bool.and_eq_true] at this
    exact this.2
  · intro e he
    have := (List.mem_filter.mp he).2
    simp only [Bool.and_eq_true] at this
    exact this.2

/-- Inserting into a leaf whose entries lie inside its rectangle keeps every
entry inside the rectangle of every node above it. -/
theorem insertLeaf_subtreeInside (cap : Int) (k : Nat) :
    ∀ (r : Rect F) (bs : List (BodyRef F)) (b : BodyRef F),
      (∀ e ∈ bs, contains r e = true) → (insertLeaf cap k r bs b).2.subtreeInside = true := by
  induction k with
  | zero =>
    intro r bs b hbs
    by_cases hfit : contains r b = true
    · rw [insertLeaf_room cap 0 r bs b hfit (Or.inl rfl)]
      apply Node.subtreeInside_leaf
      intro e he
      rcases List.mem_append.mp he with h | h
      · exact hbs e h
      · rw [List.mem_singleton.mp h]; exact hfit
    · rw [insertLeaf_rejects cap 0 r bs b (by simpa using hfit)]
      exact Node.subtreeInside_leaf r bs hbs
  | succ k ih =>
    intro r bs b hbs
    by_cases hfit : contains r b = true
    swap
    · rw [insertLeaf_rejects cap _ r bs b (by simpa using hfit)]
      exact Node.subtreeInside_leaf r bs hbs
    by_cases hroom : (bs.length : Int) < cap % 2 ^ 64
    · rw [insertLeaf_room cap _ r bs b hfit (Or.inr hroom)]
      apply Node.subtreeInside_leaf
      intro e he
      rcases List.mem_append.mp he with h | h
      · exact hbs e h
      · rw [List.mem_singleton.mp h]; exact hfit
    have hall : ∀ e ∈ (insertLeaf cap (k + 1) r bs b).2.allBodies, contains r e = true := by
      intro e he
      rcases (insertLeaf_mem_iff cap (k + 1) r bs b hfit e).mp he with h | h
      · exact hbs e h
      · rw [h]; exact hfit
    obtain ⟨i0, i1, i2, i3⟩ := redistribute_inside r bs
    have l0 := Node.subtreeInside_leaf (childNW r) _ i0
    have l1 := Node.subtreeInside_leaf (childNE r) _ i1
    have l2 := Node.subtreeInside_leaf (childSW r) _ i2
    have l3 := Node.subtreeInside_leaf (childSE r) _ i3
    rcases insertLeaf_full_cases cap k r bs b hfit hroom with
      ⟨_, h⟩ | ⟨_, _, h⟩ | ⟨_, _, _, h⟩ | ⟨_, _, _, _, h⟩ | ⟨_, _, _, _, h⟩
    · rw [h] at hall ⊢
      exact Node.subtreeInside_inner _ _ _ _ _ _ hall (ih _ _ _ i0) l1 l2 l3
    · rw [h] at hall ⊢
      exact Node.subtreeInside_inner _ _ _ _ _ _ hall l0 (ih _ _ _ i1) l2 l3
    · rw [h] at hall ⊢
      exact Node.subtreeInside_inner _ _ _ _ _ _ hall l0 l1 (ih _ _ _ i2) l3
    · rw [h] at hall ⊢
      exact Node.subtreeInside_inner _ _ _ _ _ _ hall l0 l1 l2 (ih _ _ _ i3)
    · rw [h] at hall ⊢
      exact Node.subtreeInside_inner _ _ _ _ _ _ hall l0 l1 l2 l3

/-- `insertRecursive` keeps every entry inside the rectangle of every node
above it. -/
theorem insertRecursive_subtreeInside (cap maxDepth : Int) (node : Node F) (b : BodyRef F) :
    ∀ depth : Int, node.subtreeInside = true →
      (insertRecursive cap maxDepth node b depth).2.subtreeInside = true := by
  induction node with
  | leaf r bs =>
    intro depth hok
    exact insertLeaf_subtreeInside cap _ r bs b (Node.subtreeInside_all _ hok)
  | inner r bodies c0 c1 c2 c3 ih0 ih1 ih2 ih3 =>
    intro depth hok
    by_cases hfit : contains r b = true
    swap
    · rw [insertRecursive_rejects cap maxDepth _ b depth (by simpa [Node.rect] using hfit)]
      exact hok
    have hall : ∀ e ∈ (insertRecursive cap maxDepth (.inner r bodies c0 c1 c2 c3) b
        depth).2.allBodies, contains r e = true := by
      intro e he
      rcases (insertRecursive_mem_iff cap maxDepth (.inner r bodies c0 c1 c2 c3) b depth hfit
        e).mp he with h | h
      · exact Node.subtreeInside_all _ hok e h
      · rw [h]; exact hfit
    simp only [Node.subtreeInside, Bool.and_eq_true] at hok
    obtain ⟨⟨⟨⟨_, h0⟩, h1⟩, h2⟩, h3⟩ := hok
    rcases insertRecursive_inner_cases cap maxDepth r bodies c0 c1 c2 c3 b depth hfit with
      ⟨_, h⟩ | ⟨_, _, h⟩ | ⟨_, _, _, h⟩ | ⟨_, _, _, _, h⟩ | ⟨_, _, _, _, h⟩
    · rw [h] at hall ⊢
      exact Node.subtreeInside_inner _ _ _ _ _ _ hall (ih0 _ h0) h1 h2 h3
    · rw [h] at hall ⊢
      exact Node.subtreeInside_inner _ _ _ _ _ _ hall h0 (ih1 _ h1) h2 h3
    · rw [h] at hall ⊢
      exact Node.subtreeInside_inner _ _ _ _ _ _ hall h0 h1 (ih2 _ h2) h3
    · rw [h] at hall ⊢
      exact Node.subtreeInside_inner _ _ _ _ _ _ hall h0 h1 h2 (ih3 _ h3)
    · rw [h] at hall ⊢
      exact Node.subtreeInside_inner _ _ _ _ _ _ hall h0 h1 h2 h3

theorem Node.ownInside_of_subtreeInside (node : Node F) :
    node.subtreeInside = true → node.ownInside = true := by
  induction node with
  | leaf r bs => intro h; exact h
  | inner r bodies c0 c1 c2 c3 ih0 ih1 ih2 ih3 =>
    intro h
    simp only [Node.subtreeInside, Bool.and_eq_true, List.all_eq_true] at h
    obtain ⟨⟨⟨⟨hall, h0⟩, h1⟩, h2⟩, h3⟩ := h
    simp only [Node.ownInside, ih0 h0, ih1 h1, ih2 h2, ih3 h3, Bool.and_true, List.all_eq_true]
    intro e he
    exact hall e (List.mem_append_left _ he)

theorem Quadtree.TreeReachable.subtreeInside {t : Quadtree F} (hreach : TreeReachable t) :
    t.root.subtreeInside = true := by
  induction hreach with
  | init x y w h cap maxDepth => rfl
  | clear _ _ => rfl
  | insert b _ ih => exact insertRecursive_subtreeInside _ _ _ _ _ ih

/-- In exact arithmetic, for every tree produced by the constructor,
`clear()` and `insert`, every entry stored at a node, in a leaf's list or in
the overflow list of a subdivided node, has its full circle inside that
node's rectangle (`ownInside`); in fact inside the rectangle of every node
above it (`subtreeInside`).  Spelled out for the root in the third part.  The
statement for the rounded test is `stored_entries_pass_rounded_contains`. -/
theorem stored_entries_inside_node_rect (t : Quadtree F) (hreach : TreeReachable t) :
    t.root.ownInside = true ∧ t.root.subtreeInside = true ∧
    ∀ e ∈ t.root.bodies,
      e.x - e.r ≥ t.root.rect.x ∧ e.x + e.r ≤ t.root.rect.x + t.root.rect.w ∧
      e.y - e.r ≥ t.root.rect.y ∧ e.y + e.r ≤ t.root.rect.y + t.root.rect.h := by
  have hsub := hreach.subtreeInside
  refine ⟨Node.ownInside_of_subtreeInside _ hsub, hsub, ?_⟩
  intro e he
  have hmem : e ∈ t.root.allBodies := by
    cases hroot : t.root with
    | leaf r bs => rw [hroot] at he; exact he
    | inner r bodies c0 c1 c2 c3 =>
      rw [hroot] at he
      exact List.mem_append_left _ he
  have := Node.subtreeInside_all _ hsub e hmem
  simpa [contains] using this

/-- The exact containment invariant on `straddlingTree`, whose root holds
entry 1 as overflow. -/
theorem stored_entries_inside_node_rect_witness :
    TreeReachable straddlingTree ∧ straddlingTree.root.bodies = [⟨1, 50, 50, 5⟩] ∧
    straddlingTree.root.ownInside = true :=
  ⟨treeReachable_straddlingTree, by decide!,
    (stored_entries_inside_node_rect straddlingTree treeReachable_straddlingTree).1⟩

end TreeContainment

section TreePruning

open Quadtree

variable {F : Type} [LinearOrderedField F]

/-- The gap between a coordinate `q` and the interval `[X, X + W]`, when that
interval holds `[c - r, c + r]`: it is 0, or at least `r` shorter than the gap
between `q` and `c`. -/
theorem clamp_gap (X W q c r : F) (h1 : X ≤ c - r) (h2 : c + r ≤ X + W) (hr : 0 ≤ r) :
    ∃ a, 0 ≤ a ∧ (q - max X (min q (X + W))) * (q - max X (min q (X + W))) = a * a ∧
      (a = 0 ∨ (a + r) * (a + r) ≤ (c - q) * (c - q)) := by
  have hXW : X ≤ X + W := by linarith
  by_cases hlo : q < X
  · have hm : max X (min q (X + W)) = X := by
      rw [min_eq_left (by linarith), max_eq_left (le_of_lt hlo)]
    refine ⟨X - q, by linarith, by rw [hm]; ring, Or.inr ?_⟩
    have e1 : 0 ≤ X - q + r := by linarith
    have e2 : X - q + r ≤ c - q := by linarith
    nlinarith
  · by_cases hhi : X + W < q
    · have hm : max X (min q (X + W)) = X + W := by
        rw [min_eq_right (le_of_lt hhi), max_eq_right hXW]
      refine ⟨q - (X + W), by linarith, by rw [hm], Or.inr ?_⟩
      have e1 : 0 ≤ q - (X + W) + r := by linarith
      have e2 : q - (X + W) + r ≤ q - c := by linarith
      nlinarith
    · have hm : max X (min q (X + W)) = q := by
        rw [min_eq_left (not_lt.mp hhi), max_eq_right (not_lt.mp hlo)]
      exact ⟨0, le_refl 0, by rw [hm]; ring, Or.inl rfl⟩

/-- The arithmetic behind pruning: if the point `q` is closer than `r + qr` to
the centre, it is closer than `qr` to the square of half-side `r` around it. -/
theorem gap_lt_of_dist_lt (a b r qr dx dy : F) (ha : 0 ≤ a) (hb : 0 ≤ b) (hr : 0 ≤ r)
    (hq : 0 < qr) (hax : a = 0 ∨ (a + r) * (a + r) ≤ dx * dx)
    (hby : b = 0 ∨ (b + r) * (b + r) ≤ dy * dy)
    (hd : dx * dx + dy * dy < (r + qr) * (r + qr)) : a * a + b * b < qr * qr := by
  have hdx : 0 ≤ dx * dx := mul_self_nonneg dx
  have hdy : 0 ≤ dy * dy := mul_self_nonneg dy
  have hqq : 0 < qr * qr := mul_pos hq hq
  have hrr : 0 ≤ r * r := mul_self_nonneg r
  have one : ∀ c d : F, 0 ≤ c → (c + r) * (c + r) ≤ d * d → qr * qr ≤ c * c →
      (qr + r) * (qr + r) ≤ d * d := by
    intro c d hc hcd hcq
    have hqc : qr ≤ c := by
      by_contra h
      have := mul_self_lt_mul_self hc (not_le.mp h)
      linarith
    have := mul_self_le_mul_self (by linarith : 0 ≤ qr + r) (by linarith : qr + r ≤ c + r)
    linarith
  rcases hax with rfl | hax
  · rcases hby with rfl | hby
    · linarith
    · by_contra hcon
      have := one b dy hb hby (by linarith [not_lt.mp hcon])
      linarith
  · rcases hby with rfl | hby
    · by_contra hcon
      have := one a dx ha hax (by linarith [not_lt.mp hcon])
      linarith
    · by_contra hcon
      have hcon1 : qr * qr ≤ a * a + b * b := not_lt.mp hcon
      have hab : 0 ≤ a * b := mul_nonneg ha hb
      have hsum : qr ≤ a + b := by
        by_contra h
        have := mul_self_lt_mul_self (by linarith : 0 ≤ a + b) (not_le.mp h)
        linarith
      have h3 : 0 ≤ r * (a + b - qr) := mul_nonneg hr (by linarith)
      linarith

/-- An entry of non-negative radius that lies inside a rectangle and passes
the overlap test of a query of positive radius: the rectangle passes the
pruning test. -/
theorem intersects_of_hit (rect : Rect F) (b : BodyRef F) (qx qy qr : F) (hr : 0 ≤ b.r)
    (hq : 0 < qr) (hc : contains rect b = true) (hh : hitsQuery qx qy qr b = true) :
    intersects rect qx qy qr = true := by
  simp only [contains, decide_eq_true_eq] at hc
  obtain ⟨c1, c2, c3, c4⟩ := hc
  simp only [hitsQuery, decide_eq_true_eq] at hh
  obtain ⟨a, ha, hae, hax⟩ := clamp_gap rect.x rect.w qx b.x b.r c1 c2 hr
  obtain ⟨a', ha', hae', hay⟩ := clamp_gap rect.y rect.h qy b.y b.r c3 c4 hr
  simp only [intersects, decide_eq_true_eq]
  rw [hae, hae']
  refine gap_lt_of_dist_lt a a' b.r qr (b.x - qx) (b.y - qy) ha ha' hr hq hax hay ?_
  linarith

theorem foldl_no_hits (qx qy qr : F) (bs : List (BodyRef F))
    (h : ∀ e ∈ bs, hitsQuery qx qy qr e = false) (out : List Int) :
    bs.foldl (fun out body => if hitsQuery qx qy qr body then out ++ [body.id] else out) out
      = out := by
  induction bs generalizing out with
  | nil => rfl
  | cons e rest ih =>
    rw [List.foldl_cons, h e (List.mem_cons_self _ _)]
    simp only [Bool.false_eq_true, if_false]
    exact ih (fun x hx => h x (List.mem_cons_of_mem _ hx)) out

theorem queryNoPruning_no_hits (qx qy qr : F) (node : Node F) :
    (∀ e ∈ node.leafBodies, hitsQuery qx qy qr e = false) →
      ∀ out, queryNoPruning node qx qy qr out = out := by
  induction node with
  | leaf r bs =>
    intro h out
    exact foldl_no_hits qx qy qr bs h out
  | inner r bodies c0 c1 c2 c3 ih0 ih1 ih2 ih3 =>
    intro h out
    simp only [Node.leafBodies, List.mem_append] at h
    simp only [queryNoPruning]
    rw [ih0 (fun e he => h e (Or.inl he)), ih1 (fun e he => h e (Or.inr (Or.inl he))),
      ih2 (fun e he => h e (Or.inr (Or.inr (Or.inl he)))),
      ih3 (fun e he => h e (Or.inr (Or.inr (Or.inr he))))]

/-- On a subtree whose entries lie inside the rectangles of the nodes above
them, the pruned traversal returns what the traversal of all leaves
returns. -/
theorem queryRecursive_eq_queryNoPruning (qx qy qr : F) (hq : 0 < qr) (node : Node F) :
    node.subtreeInside = true → (∀ e ∈ node.leafBodies, 0 ≤ e.r) →
      ∀ out, queryRecursive node qx qy qr out = queryNoPruning node qx qy qr out := by
  induction node with
  | leaf r bs =>
    intro hin hrad out
    simp only [queryRecursive, queryNoPruning]
    split_ifs with hint
    · rfl
    · symm
      apply foldl_no_hits
      intro e he
      by_contra hhit
      exact hint (intersects_of_hit r e qx qy qr (hrad e he) hq
        (Node.subtreeInside_all _ hin e he) (by simpa using hhit))
  | inner r bodies c0 c1 c2 c3 ih0 ih1 ih2 ih3 =>
    intro hin hrad out
    have hall := Node.subtreeInside_all _ hin
    simp only [Node.subtreeInside, Bool.and_eq_true] at hin
    obtain ⟨⟨⟨⟨_, h0⟩, h1⟩, h2⟩, h3⟩ := hin
    simp only [Node.leafBodies, List.mem_append] at hrad
    have r0 : ∀ e ∈ c0.leafBodies, 0 ≤ e.r := fun e he => hrad e (Or.inl he)
    have r1 : ∀ e ∈ c1.leafBodies, 0 ≤ e.r := fun e he => hrad e (Or.inr (Or.inl he))
    have r2 : ∀ e ∈ c2.leafBodies, 0 ≤ e.r := fun e he => hrad e (Or.inr (Or.inr (Or.inl he)))
    have r3 : ∀ e ∈ c3.leafBodies, 0 ≤ e.r := fun e he => hrad e (Or.inr (Or.inr (Or.inr he)))
    by_cases hint : intersects r qx qy qr = true
    · simp only [queryRecursive, queryNoPruning, hint, not_true_eq_false, if_false]
      rw [ih0 h0 r0, ih1 h1 r1, ih2 h2 r2, ih3 h3 r3]
    · have hnone : ∀ e ∈ (Node.inner r bodies c0 c1 c2 c3).leafBodies,
          hitsQuery qx qy qr e = false := by
        intro e he
        by_contra hhit
        have hrade : 0 ≤ e.r := by
          simp only [Node.leafBodies, List.mem_append] at he
          exact hrad e he
        exact hint (intersects_of_hit r e qx qy qr hrade hq
          (hall e (Node.leafBodies_subset _ e he)) (by simpa using hhit))
      rw [queryNoPruning_no_hits qx qy qr _ hnone out]
      simp only [queryRecursive, hint, Bool.false_eq_true, not_false_eq_true, if_true]

/-- In exact arithmetic, for every tree produced by the constructor,
`clear()` and `insert` whose leaf entries have non-negative radius, and every
query with `qr > 0`, `query` returns the list of ids obtained by applying the
overlap test to every entry stored in a leaf, with no subtree pruned
(`queryNoPruning`). -/
theorem query_pruning_loses_no_leaf_entry (t : Quadtree F) (hreach : TreeReachable t)
    (hrad : ∀ e ∈ t.root.leafBodies, 0 ≤ e.r) (qx qy qr : F) (hq : 0 < qr) :
    t.query qx qy qr = queryNoPruning t.root qx qy qr [] :=
  queryRecursive_eq_queryNoPruning qx qy qr hq t.root hreach.subtreeInside hrad []

/-- Pruning in exact arithmetic on `straddlingTree`, for the query of radius
30 around (20, 20). -/
theorem query_pruning_loses_no_leaf_entry_witness :
    (TreeReachable straddlingTree ∧ (∀ e ∈ straddlingTree.root.leafBodies, 0 ≤ e.r) ∧
      (0 : ℚ) < 30) ∧
    straddlingTree.query 20 20 30 = queryNoPruning straddlingTree.root 20 20 30 [] := by
  have hrad : ∀ e ∈ straddlingTree.root.leafBodies, 0 ≤ e.r := by decide!
  exact ⟨⟨treeReachable_straddlingTree, hrad, by norm_num⟩,
    query_pruning_loses_no_leaf_entry straddlingTree treeReachable_straddlingTree hrad 20 20 30
      (by norm_num)⟩

end TreePruning



section GridProbing

open SpatialHash

variable {F : Type} [LinearOrderedField F]

/-- The probe loops of `findSlot` and `query`, started `d` steps after the
start slot `s0`, with `n - d` or more iterations allowed: they end by
themselves, whatever the bound, after reading at most `n - d` slots, all
below `n`. -/
theorem SpatialHash.probe_ends (h : SpatialHash F) (key : HashKey) (s0 : Nat)
    (hs0 : s0 < h.tableSize) :
    ∀ m d, d + m + 1 = h.tableSize →
      ∃ (res : Int) (trace : List Nat),
        (∀ f, h.tableSize ≤ f + d →
          findSlotLoop h key s0 f ((s0 + d) % h.tableSize) = some res ∧
          probeTrace h key s0 f ((s0 + d) % h.tableSize) = trace) ∧
        (∀ (qx qy qr : F) (out : List Int), ∃ out', ∀ f, h.tableSize ≤ f + d →
          queryLoop h key qx qy qr s0 f ((s0 + d) % h.tableSize) out = some out') ∧
        trace.length + d ≤ h.tableSize ∧ (∀ s ∈ trace, s < h.tableSize) ∧
        (res = -1 ∨ ∃ s ∈ trace, res = (s : Int) ∧
          ((h.cellAt s).occupied = false ∨ (h.cellAt s).key = key)) := by
  intro m
  induction m with
  | zero =>
    intro d hd
    have hn : 0 < h.tableSize := by omega
    have hlt : (s0 + d) % h.tableSize < h.tableSize := Nat.mod_lt _ hn
    have hwrap : ((s0 + d) % h.tableSize + 1) % h.tableSize = s0 := by
      rw [Nat.add_mod, Nat.mod_mod, ← Nat.add_mod]
      have : s0 + d + 1 = s0 + h.tableSize := by omega
      rw [this, Nat.add_mod_right, Nat.mod_eq_of_lt hs0]
    by_cases hocc : (h.cellAt ((s0 + d) % h.tableSize)).occupied = true
    · by_cases hk : (h.cellAt ((s0 + d) % h.tableSize)).key = key
      · refine ⟨(((s0 + d) % h.tableSize : Nat) : Int), [(s0 + d) % h.tableSize], ?_, ?_, ?_, ?_,
          ?_⟩
        · intro f hf
          obtain ⟨f', rfl⟩ : ∃ f', f = f' + 1 := ⟨f - 1, by omega⟩
          constructor
          · rw [findSlotLoop]; simp only [hocc, hk, if_true]
          · rw [probeTrace]; simp only [hocc, hk, if_true]
        · intro qx qy qr out
          refine ⟨(h.cellAt ((s0 + d) % h.tableSize)).bodies.foldl
            (fun out body => if Quadtree.hitsQuery qx qy qr body then out ++ [body.id] else out)
            out, ?_⟩
          intro f hf
          obtain ⟨f', rfl⟩ : ∃ f', f = f' + 1 := ⟨f - 1, by omega⟩
          rw [queryLoop]; simp only [hocc, hk, if_true]
        · simp only [List.length_singleton]; omega
        · intro s hs; rw [List.mem_singleton.mp hs]; exact hlt
        · exact Or.inr ⟨_, List.mem_singleton_self _, rfl, Or.inr hk⟩
      · refine ⟨-1, [(s0 + d) % h.tableSize], ?_, ?_, ?_, ?_, Or.inl rfl⟩
        · intro f hf
          obtain ⟨f', rfl⟩ : ∃ f', f = f' + 1 := ⟨f - 1, by omega⟩
          constructor
          · rw [findSlotLoop]; simp only [hocc, hk, if_true, if_false, hwrap]
          · rw [probeTrace]; simp only [hocc, hk, if_true, if_false, hwrap]
        · intro qx qy qr out
          refine ⟨out, ?_⟩
          intro f hf
          obtain ⟨f', rfl⟩ : ∃ f', f = f' + 1 := ⟨f - 1, by omega⟩
          rw [queryLoop]; simp only [hocc, hk, if_true, if_false, hwrap]
        · simp only [List.length_singleton]; omega
        · intro s hs; rw [List.mem_singleton.mp hs]; exact hlt
    · refine ⟨(((s0 + d) % h.tableSize : Nat) : Int), [(s0 + d) % h.tableSize], ?_, ?_, ?_, ?_,
        ?_⟩
      · intro f hf
        obtain ⟨f', rfl⟩ : ∃ f', f = f' + 1 := ⟨f - 1, by omega⟩
        constructor
        · rw [findSlotLoop]; simp only [hocc, Bool.false_eq_true, if_false]
        · rw [probeTrace]; simp only [hocc, Bool.false_eq_true, if_false]
      · intro qx qy qr out
        refine ⟨out, ?_⟩
        intro f hf
        obtain ⟨f', rfl⟩ : ∃ f', f = f' + 1 := ⟨f - 1, by omega⟩
        rw [queryLoop]; simp only [hocc, Bool.false_eq_true, if_false]
      · simp only [List.length_singleton]; omega
      · intro s hs; rw [List.mem_singleton.mp hs]; exact hlt
      · exact Or.inr ⟨_, List.mem_singleton_self _, rfl, Or.inl (by simpa using hocc)⟩
  | succ m ih =>
    intro d hd
    have hn : 0 < h.tableSize := by omega
    have hlt : (s0 + d) % h.tableSize < h.tableSize := Nat.mod_lt _ hn
    have hnext : ((s0 + d) % h.tableSize + 1) % h.tableSize = (s0 + (d + 1)) % h.tableSize := by
      rw [Nat.add_mod, Nat.mod_mod, ← Nat.add_mod, Nat.add_assoc]
    obtain ⟨res1, trace1, hloop1, hq1, hlen1, hall1, hres1⟩ := ih (d + 1) (by omega)
    by_cases hocc : (h.cellAt ((s0 + d) % h.tableSize)).occupied = true
    · by_cases hk : (h.cellAt ((s0 + d) % h.tableSize)).key = key
      · refine ⟨(((s0 + d) % h.tableSize : Nat) : Int), [(s0 + d) % h.tableSize], ?_, ?_, ?_, ?_,
          ?_⟩
        · intro f hf
          obtain ⟨f', rfl⟩ : ∃ f', f = f' + 1 := ⟨f - 1, by omega⟩
          constructor
          · rw [findSlotLoop]; simp only [hocc, hk, if_true]
          · rw [probeTrace]; simp only [hocc, hk, if_true]
        · intro qx qy qr out
          refine ⟨(h.cellAt ((s0 + d) % h.tableSize)).bodies.foldl
            (fun out body => if Quadtree.hitsQuery qx qy qr body then out ++ [body.id] else out)
            out, ?_⟩
          intro f hf
          obtain ⟨f', rfl⟩ : ∃ f', f = f' + 1 := ⟨f - 1, by omega⟩
          rw [queryLoop]; simp only [hocc, hk, if_true]
        · simp only [List.length_singleton]; omega
        · intro s hs; rw [List.mem_singleton.mp hs]; exact hlt
        · exact Or.inr ⟨_, List.mem_singleton_self _, rfl, Or.inr hk⟩
      · by_cases hw : (s0 + (d + 1)) % h.tableSize = s0
        · refine ⟨-1, [(s0 + d) % h.tableSize], ?_, ?_, ?_, ?_, Or.inl rfl⟩
          · intro f hf
            obtain ⟨f', rfl⟩ : ∃ f', f = f' + 1 := ⟨f - 1, by omega⟩
            constructor
            · rw [findSlotLoop]; simp only [hocc, hk, if_true, if_false, hnext, hw]
            · rw [probeTrace]; simp only [hocc, hk, if_true, if_false, hnext, hw]
          · intro qx qy qr out
            refine ⟨out, ?_⟩
            intro f hf
            obtain ⟨f', rfl⟩ : ∃ f', f = f' + 1 := ⟨f - 1, by omega⟩
            rw [queryLoop]; simp only [hocc, hk, if_true, if_false, hnext, hw]
          · simp only [List.length_singleton]; omega
          · intro s hs; rw [List.mem_singleton.mp hs]; exact hlt
        · refine ⟨res1, (s0 + d) % h.tableSize :: trace1, ?_, ?_, ?_, ?_, ?_⟩
          · intro f hf
            obtain ⟨f', rfl⟩ : ∃ f', f = f' + 1 := ⟨f - 1, by omega⟩
            obtain ⟨e1, e2⟩ := hloop1 f' (by omega)
            constructor
            · rw [findSlotLoop]; simp only [hocc, hk, if_true, if_false, hnext, hw]; exact e1
            · rw [probeTrace]; simp only [hocc, hk, if_true, if_false, hnext, hw]; rw [e2]
          · intro qx qy qr out
            obtain ⟨out', hout'⟩ := hq1 qx qy qr out
            refine ⟨out', ?_⟩
            intro f hf
            obtain ⟨f', rfl⟩ : ∃ f', f = f' + 1 := ⟨f - 1, by omega⟩
            rw [queryLoop]; simp only [hocc, hk, if_true, if_false, hnext, hw]
            exact hout' f' (by omega)
          · simp only [List.length_cons]; omega
          · intro s hs
            rcases List.mem_cons.mp hs with rfl | hs
            · exact hlt
            · exact hall1 s hs
          · rcases hres1 with h1 | ⟨s, hs, hr, hp⟩
            · exact Or.inl h1
            · exact Or.inr ⟨s, List.mem_cons_of_mem _ hs, hr, hp⟩
    · refine ⟨(((s0 + d) % h.tableSize : Nat) : Int), [(s0 + d) % h.tableSize], ?_, ?_, ?_, ?_,
        ?_⟩
      · intro f hf
        obtain ⟨f', rfl⟩ : ∃ f', f = f' + 1 := ⟨f - 1, by omega⟩
        constructor
        · rw [findSlotLoop]; simp only [hocc, Bool.false_eq_true, if_false]
        · rw [probeTrace]; simp only [hocc, Bool.false_eq_true, if_false]
      · intro qx qy qr out
        refine ⟨out, ?_⟩
        intro f hf
        obtain ⟨f', rfl⟩ : ∃ f', f = f' + 1 := ⟨f - 1, by omega⟩
        rw [queryLoop]; simp only [hocc, Bool.false_eq_true, if_false]
      · simp only [List.length_singleton]; omega
      · intro s hs; rw [List.mem_singleton.mp hs]; exact hlt
      · exact Or.inr ⟨_, List.mem_singleton_self _, rfl, Or.inl (by simpa using hocc)⟩

/-- C40.  For every table state with `tableSize > 0`, every hash and every
key: the probe loops of `findSlot` and of `query` end by themselves (their
result is the same for every iteration bound from `tableSize` on), they read
at most `tableSize` slots (`probeTrace`), every slot index read lies below
`tableSize`, and `findSlot` returns either `-1` or the index of a slot below
`tableSize` that is not occupied or stores the given key. -/
theorem probing_ends_within_table (h : SpatialHash F) (hpos : 0 < h.tableSize) (hash : Nat)
    (key : HashKey) :
    ∃ (res : Int) (trace : List Nat),
      findSlot h hash key = some res ∧
      (∀ f, h.tableSize ≤ f →
        findSlotLoop h key (hash % h.tableSize) f (hash % h.tableSize) = some res ∧
        probeTrace h key (hash % h.tableSize) f (hash % h.tableSize) = trace) ∧
      (∀ (qx qy qr : F) (out : List Int), ∃ out', ∀ f, h.tableSize ≤ f →
        queryLoop h key qx qy qr (hash % h.tableSize) f (hash % h.tableSize) out = some out') ∧
      trace.length ≤ h.tableSize ∧ (∀ s ∈ trace, s < h.tableSize) ∧
      (res = -1 ∨
        (0 ≤ res ∧ res < (h.tableSize : Int) ∧ res.toNat ∈ trace ∧
          ((h.cellAt res.toNat).occupied = false ∨ (h.cellAt res.toNat).key = key))) := by
  have hs0 : hash % h.tableSize < h.tableSize := Nat.mod_lt _ hpos
  obtain ⟨res, trace, hloop, hq, hlen, hall, hres⟩ :=
    probe_ends h key (hash % h.tableSize) hs0 (h.tableSize - 1) 0 (by omega)
  have h0 : (hash % h.tableSize + 0) % h.tableSize = hash % h.tableSize := by
    rw [Nat.add_zero, Nat.mod_mod]
  rw [h0] at hloop hq
  refine ⟨res, trace, ?_, fun f hf => hloop f (by omega), ?_, by omega, hall, ?_⟩
  · exact (hloop h.tableSize (by omega)).1
  · intro qx qy qr out
    obtain ⟨out', hout'⟩ := hq qx qy qr out
    exact ⟨out', fun f hf => hout' f (by omega)⟩
  · rcases hres with h1 | ⟨s, hs, hr, hp⟩
    · exact Or.inl h1
    · right
      subst hr
      refine ⟨Int.natCast_nonneg s, Int.ofNat_lt.mpr (hall s hs), ?_, ?_⟩
      · rw [Int.toNat_ofNat]; exact hs
      · rw [Int.toNat_ofNat]; exact hp

/-- C40 on the grid of the hash engine after three insertions, probing for
the cell (39, 10) of the entry at (394, 100). -/
theorem probing_ends_within_table_witness :
    0 < threeEntryGrid.tableSize ∧
    ∃ (res : Int) (trace : List Nat),
      findSlot threeEntryGrid (hashKey ⟨39, 10⟩) ⟨39, 10⟩ = some res ∧
      trace.length ≤ threeEntryGrid.tableSize ∧ (∀ s ∈ trace, s < threeEntryGrid.tableSize) ∧
      (res = -1 ∨
        (0 ≤ res ∧ res < (threeEntryGrid.tableSize : Int) ∧ res.toNat ∈ trace ∧
          ((threeEntryGrid.cellAt res.toNat).occupied = false ∨
            (threeEntryGrid.cellAt res.toNat).key = ⟨39, 10⟩))) := by
  have hpos : 0 < threeEntryGrid.tableSize := by decide!
  obtain ⟨res, trace, h1, _, _, h4, h5, h6⟩ :=
    probing_ends_within_table threeEntryGrid hpos (hashKey ⟨39, 10⟩) ⟨39, 10⟩
  exact ⟨hpos, res, trace, h1, h4, h5, h6⟩

end GridProbing



section GridRoom

open SpatialHash

variable {F : Type} [LinearOrderedField F] [FloorRing F]

/-- `insert` on a table with the invariant, at least 4 slots and a free slot:
it returns, the table does not shrink, and a free slot is left. -/
theorem SpatialHash.insertFuel_roomy (h : SpatialHash F) (hwf : WF h) (h4 : 4 ≤ h.tableSize)
    (b : BodyRef F) (fuel : Nat) (hfuel : 2 ≤ fuel) :
    ∃ h1, insertFuel fuel h b = some h1 ∧ WF h1 ∧ h.tableSize ≤ h1.tableSize ∧
      h1.itemCount < h1.tableSize := by
  obtain ⟨f, rfl⟩ : ∃ f, fuel = f + 2 := ⟨fuel - 2, by omega⟩
  cases hload : overLoad h with
  | false =>
    obtain ⟨h1, heq, hins⟩ := insertFuel_room h hwf b (f + 1) hload
    have hc := hins.count_le
    have ht := hins.tableSize_eq
    have := (overLoad_false_iff h).mp hload
    exact ⟨h1, heq, hins.wf, by omega, by omega⟩
  | true =>
    obtain ⟨h0, heq0, hwf0, hts0, hcs0, hcnt0, hmono0⟩ := resize_spec h hwf f
    have hlt : h0.itemCount < h0.tableSize := by omega
    obtain ⟨h1, heq1, hins⟩ := insertTail_spec h0 hwf0 b (resizeWith (insertFuel (f + 1))) hlt
    have hc := hins.count_le
    have ht := hins.tableSize_eq
    refine ⟨h1, ?_, hins.wf, by omega, by omega⟩
    rw [insertFuel]
    simp only [hload, if_true, heq0, Option.some_bind, heq1]

/-- Every `insert` that returns keeps the invariant, at least 4 slots and a
free slot, whatever the nesting bound. -/
theorem SpatialHash.insertFuel_keeps_room (h h1 : SpatialHash F) (hwf : WF h)
    (h4 : 4 ≤ h.tableSize) (b : BodyRef F) (fuel : Nat) (heq : insertFuel fuel h b = some h1) :
    WF h1 ∧ 4 ≤ h1.tableSize ∧ h1.itemCount < h1.tableSize := by
  obtain ⟨h2, heq2, hwf2, hts2, hc2⟩ := insertFuel_roomy h hwf h4 b (fuel + 2) (by omega)
  have := insertFuel_mono_add fuel 2 h b h1 heq
  rw [this] at heq2
  rw [Option.some.inj heq2]
  exact ⟨hwf2, by omega, hc2⟩

omit [LinearOrderedField F] [FloorRing F] in
/-- Two loops in `Option` whose bodies agree on the states of an invariant
that the first one keeps: the loops agree, and the result has the
invariant. -/
theorem foldlM_congr_inv {α β : Type} (f g : β → α → Option β) (P : β → Prop)
    (hfg : ∀ a x, P a → g a x = f a x) (hP : ∀ a x a', P a → f a x = some a' → P a')
    (l : List α) :
    ∀ a, P a → l.foldlM g a = l.foldlM f a ∧ ∀ r, l.foldlM f a = some r → P r := by
  induction l with
  | nil =>
    intro a ha
    refine ⟨rfl, ?_⟩
    intro r hr
    have : a = r := by simpa using hr
    exact this ▸ ha
  | cons x rest ih =>
    intro a ha
    simp only [List.foldlM_cons, hfg a x ha]
    cases hfx : f a x with
    | none => exact ⟨rfl, fun r hr => by simp at hr⟩
    | some a' =>
      simp only [Option.bind_eq_bind, Option.some_bind]
      exact ih a' (hP a x a' ha hfx)

/-- On a table with the invariant and a free slot, `insert` after the load
test never takes the forced resize-and-retry branch. -/
theorem SpatialHash.insertTailNoRetry_eq (h : SpatialHash F) (hwf : WF h) (b : BodyRef F)
    (resize : SpatialHash F → Option (SpatialHash F)) (hlt : h.itemCount < h.tableSize) :
    insertTailNoRetry h b = insertTail resize h b := by
  obtain ⟨e, he, hpre, hstop, heq⟩ := insertTail_room h hwf b resize hlt
  have hfind := findSlot_reach h (cellKey h.cellSize b.x b.y) e he hpre hstop
  rw [heq]
  unfold insertTailNoRetry
  simp only [hfind, Option.some_bind]
  have hnn : ¬ (((probeSlot h (cellKey h.cellSize b.x b.y) e : Nat) : Int) < 0) :=
    not_lt.mpr (Int.ofNat_nonneg _)
  simp only [hnn, if_false, Int.toNat_ofNat]

/-- On a table with the invariant, at least 4 slots and a free slot, `insert`
with the forced branch removed does what `insert` does, for every nesting
bound and also inside `resize`. -/
theorem SpatialHash.insertNoRetry_eq (fuel : Nat) :
    ∀ (h : SpatialHash F) (b : BodyRef F), WF h → 4 ≤ h.tableSize →
      h.itemCount < h.tableSize → insertNoRetry fuel h b = insertFuel fuel h b := by
  induction fuel with
  | zero => intro h b _ _ _; rfl
  | succ fuel ih =>
    intro h b hwf h4 hlt
    have hresize : resizeWith (insertNoRetry fuel) h = resizeWith (insertFuel fuel) h ∧
        ∀ r, resizeWith (insertFuel fuel) h = some r →
          WF r ∧ 4 ≤ r.tableSize ∧ r.itemCount < r.tableSize := by
      have hinner : ∀ (cell : Cell F) (a : SpatialHash F),
          (WF a ∧ 4 ≤ a.tableSize ∧ a.itemCount < a.tableSize) →
          cell.bodies.foldlM (insertNoRetry fuel) a = cell.bodies.foldlM (insertFuel fuel) a ∧
          ∀ r, cell.bodies.foldlM (insertFuel fuel) a = some r →
            (WF r ∧ 4 ≤ r.tableSize ∧ r.itemCount < r.tableSize) := fun cell a ha =>
        foldlM_congr_inv (insertFuel fuel) (insertNoRetry fuel)
          (fun a => WF a ∧ 4 ≤ a.tableSize ∧ a.itemCount < a.tableSize)
          (fun a x hax => ih a x hax.1 hax.2.1 hax.2.2)
          (fun a x a' hax hx => insertFuel_keeps_room a a' hax.1 hax.2.1 x fuel hx)
          cell.bodies a ha
      have hfresh : WF (⟨List.replicate (h.tableSize * 2) Cell.empty, h.cellSize,
          h.tableSize * 2, 0⟩ : SpatialHash F) ∧
          4 ≤ (⟨List.replicate (h.tableSize * 2) Cell.empty, h.cellSize,
            h.tableSize * 2, 0⟩ : SpatialHash F).tableSize ∧
          (⟨List.replicate (h.tableSize * 2) Cell.empty, h.cellSize,
            h.tableSize * 2, 0⟩ : SpatialHash F).itemCount <
          (⟨List.replicate (h.tableSize * 2) Cell.empty, h.cellSize,
            h.tableSize * 2, 0⟩ : SpatialHash F).tableSize := by
        refine ⟨WF_fresh (h.tableSize * 2) (by omega) _, ?_, ?_⟩
        · show 4 ≤ h.tableSize * 2
          omega
        · show 0 < h.tableSize * 2
          omega
      exact foldlM_congr_inv
        (fun acc (cell : Cell F) => if cell.occupied then cell.bodies.foldlM (insertFuel fuel) acc
          else some acc)
        (fun acc (cell : Cell F) => if cell.occupied then cell.bodies.foldlM (insertNoRetry fuel) acc
          else some acc)
        (fun a => WF a ∧ 4 ≤ a.tableSize ∧ a.itemCount < a.tableSize)
        (fun a cell ha => by
          by_cases hocc : cell.occupied = true
          · simp only [hocc, if_true]
            exact (hinner cell a ha).1
          · simp only [hocc, Bool.false_eq_true, if_false])
        (fun a cell a' ha hcell => by
          by_cases hocc : cell.occupied = true
          · simp only [hocc, if_true] at hcell
            exact (hinner cell a ha).2 a' hcell
          · simp only [hocc, Bool.false_eq_true, if_false, Option.some.injEq] at hcell
            exact hcell ▸ ha)
        h.table _ hfresh
    rw [insertNoRetry, insertFuel, hresize.1]
    cases hload : overLoad h with
    | false =>
      simp only [Bool.false_eq_true, if_false, Option.some_bind]
      exact insertTailNoRetry_eq h hwf b _ hlt
    | true =>
      simp only [if_true]
      cases hr : resizeWith (insertFuel fuel) h with
      | none => rfl
      | some r =>
        simp only [Option.some_bind]
        obtain ⟨hwfr, _, hltr⟩ := hresize.2 r hr
        exact insertTailNoRetry_eq r hwfr b _ hltr

/-- Every grid state produced by the constructor, `clear()` and `insert` has
at least 256 slots and a free one. -/
theorem SpatialHash.Reachable.room {h : SpatialHash F} (hr : Reachable h) :
    256 ≤ h.tableSize ∧ h.itemCount < h.tableSize := by
  induction hr with
  | init cs => exact ⟨le_refl 256, by show 0 < 256; norm_num⟩
  | @clear h0 _ ih => exact ⟨ih.1, by show 0 < h0.tableSize; omega⟩
  | @insert h0 h1 fuel b hr0 heq ih =>
    obtain ⟨h2, heq2, _, hts2, hc2⟩ :=
      insertFuel_roomy h0 hr0.wf_populated.1 (by omega) b (fuel + 2) (by omega)
    have := insertFuel_mono_add fuel 2 h0 b h1 heq
    rw [this] at heq2
    rw [Option.some.inj heq2]
    exact ⟨by omega, hc2⟩

/-- C39.  For every grid state produced by the constructor, `clear()` and
`insert`: the counter `itemCount_` equals the number of occupied slots and is
strictly less than the table size; the table has a free slot; `findSlot`
returns a slot index, never `-1`, for every key; and `insert` (with nesting
bound at least 2) returns the same grid as `insert` with the forced
resize-and-retry branch replaced by a failure, so that branch is never taken,
neither in the call itself nor in the insertions made by `resize`. -/
theorem grid_always_has_free_slot (h : SpatialHash F) (hreach : Reachable h) :
    h.itemCount = occupiedSlots h ∧ h.itemCount < h.tableSize ∧
    (∃ s, s < h.tableSize ∧ (h.cellAt s).occupied = false) ∧
    (∀ key : HashKey, ∃ slot : Nat, findSlot h (hashKey key) key = some (slot : Int) ∧
      slot < h.tableSize) ∧
    (∀ (fuel : Nat) (b : BodyRef F), 2 ≤ fuel →
      ∃ h1, insertFuel fuel h b = some h1 ∧ insertNoRetry fuel h b = some h1) := by
  have hwf := hreach.wf_populated.1
  obtain ⟨h256, hlt⟩ := hreach.room
  have hfree := exists_free h hwf hlt
  refine ⟨hwf.count_eq, hlt, hfree, ?_, ?_⟩
  · intro key
    obtain ⟨e, he, hpre, hstop⟩ := exists_stop h key hfree
    exact ⟨probeSlot h key e, findSlot_reach h key e he hpre hstop,
      probeSlot_lt h key e hwf.size_pos⟩
  · intro fuel b hfuel
    obtain ⟨h1, heq, _⟩ := insertFuel_roomy h hwf (by omega) b fuel hfuel
    exact ⟨h1, heq, by rw [insertNoRetry_eq fuel h b hwf (by omega) hlt]; exact heq⟩

/-- C39 on the grid of the hash engine after three insertions. -/
theorem grid_always_has_free_slot_witness :
    Reachable threeEntryGrid ∧ threeEntryGrid.itemCount = occupiedSlots threeEntryGrid ∧
    threeEntryGrid.itemCount < threeEntryGrid.tableSize ∧
    ∃ h1, insertFuel 2 threeEntryGrid ⟨3, 150, 50, 5⟩ = some h1 ∧
      insertNoRetry 2 threeEntryGrid ⟨3, 150, 50, 5⟩ = some h1 := by
  obtain ⟨g, hg, hlog⟩ := SpatialHash.ReachableLog.insertAll_log 2 (le_refl 2)
    [⟨0, 394, 100, 5⟩, ⟨1, 400, 100, 5⟩, ⟨2, 50, 50, 5⟩] (SpatialHash.new (10 : ℚ)) []
    (ReachableLog.init 10)
  have hg3 : threeEntryGrid = g := by
    unfold threeEntryGrid
    rw [hg]
    rfl
  have hr : Reachable threeEntryGrid := hg3 ▸ hlog.stored_iff.1
  have h := grid_always_has_free_slot threeEntryGrid hr
  exact ⟨hr, h.1, h.2.1, h.2.2.2.2 2 ⟨3, 150, 50, 5⟩ (le_refl 2)⟩

end GridRoom



section CheckedNarrow

open Engine SpatialHash

variable {F : Type} [LinearOrderedField F]

omit [LinearOrderedField F] in
/-- A checked read at an index below the size returns the element. -/
theorem Engine.readAt_of_lt {α : Type} (v : List α) (i : Nat) (d : α) (hi : i < v.length) :
    readAt v (i : Int) = some (v.getD i d) := by
  have h : 0 ≤ (i : Int) ∧ (i : Int) < (v.length : Int) :=
    ⟨Int.ofNat_nonneg _, Int.ofNat_lt.mpr hi⟩
  unfold readAt
  rw [if_pos h, Int.toNat_ofNat, List.getD_eq_getElem?_getD, List.getElem?_eq_getElem hi]
  rfl

omit [LinearOrderedField F] in
/-- A checked write at an index below the size is the write. -/
theorem Engine.writeAt_of_lt {α : Type} (v : List α) (i : Nat) (a : α) (hi : i < v.length) :
    writeAt v (i : Int) a = some (v.set i a) := by
  have h : 0 ≤ (i : Int) ∧ (i : Int) < (v.length : Int) :=
    ⟨Int.ofNat_nonneg _, Int.ofNat_lt.mpr hi⟩
  unfold writeAt
  rw [if_pos h, Int.toNat_ofNat]

omit [LinearOrderedField F] in
/-- A loop in `Option` whose body returns what a total body computes, on the
states of an invariant that the total body keeps: the loop returns what the
total loop computes. -/
theorem foldlM_eq_some_foldl {α β : Type} (f : β → α → β) (g : β → α → Option β)
    (P : β → Prop) (l : List α)
    (hstep : ∀ s x, x ∈ l → P s → g s x = some (f s x) ∧ P (f s x)) :
    ∀ s, P s → l.foldlM g s = some (l.foldl f s) ∧ P (l.foldl f s) := by
  induction l with
  | nil => intro s hs; exact ⟨rfl, hs⟩
  | cons x rest ih =>
    intro s hs
    obtain ⟨hg, hP⟩ := hstep s x (List.mem_cons_self _ _) hs
    simp only [List.foldlM_cons, hg, Option.bind_eq_bind, Option.some_bind, List.foldl_cons]
    exact ih (fun s y hy => hstep s y (List.mem_cons_of_mem _ hy)) _ hP

/-- With ids equal to indices, the loop that fills `idToIndex` stays in
bounds, and the table has one entry per body. -/
theorem Engine.buildIdToIndexChecked_eq (ps : List (Particle F)) (hids : IdsOk ps) :
    buildIdToIndexChecked ps = some (buildIdToIndex ps) ∧
      (buildIdToIndex ps).length = ps.length := by
  have h := foldlM_eq_some_foldl
    (fun (tbl : List Nat) (i : Nat) =>
      let id := (ps.getD i Particle.default).id
      if 0 ≤ id then tbl.set id.toNat i else tbl)
    (fun tbl (i : Nat) => (readAt ps (i : Int)).bind fun p => writeAt tbl p.id i)
    (fun tbl => tbl.length = ps.length) (List.range ps.length)
    (by
      intro tbl i hi hlen
      have hi' : i < ps.length := List.mem_range.mp hi
      have hid : (ps.getD i Particle.default).id = (i : Int) := hids i hi'
      show ((readAt ps (i : Int)).bind fun p => writeAt tbl p.id i)
          = some (if 0 ≤ (ps.getD i Particle.default).id
              then tbl.set (ps.getD i Particle.default).id.toNat i else tbl) ∧
        (if 0 ≤ (ps.getD i Particle.default).id
          then tbl.set (ps.getD i Particle.default).id.toNat i else tbl).length = ps.length
      rw [readAt_of_lt ps i Particle.default hi']
      simp only [Option.some_bind, hid, Int.ofNat_nonneg, if_true, Int.toNat_ofNat]
      exact ⟨writeAt_of_lt tbl i i (by omega), by simp [hlen]⟩)
    (List.replicate ps.length 0) (by simp)
  exact h

/-- One iteration of the candidate loop, in a state that has the invariant of
the narrow phase: every vector access is in bounds. -/
theorem Engine.processCandidateChecked_eq (sqrt : F → F) (ps0 : List (Particle F))
    (hids0 : IdsOk ps0) (n c0 : Nat) (f0 : Nat → Bool) (hn : ps0.length = n) (i : Nat)
    (hi : i < n) (st : NarrowState F) (hinv : NarrowInv n c0 f0 st) (j_id : Int) :
    processCandidateChecked sqrt (buildIdToIndex ps0) i st j_id
      = some (processCandidate sqrt (buildIdToIndex ps0) i st j_id) := by
  have hlen := hinv.len
  unfold processCandidateChecked processCandidate
  rw [readAt_of_lt st.particles i Particle.default (by omega)]
  simp only [Option.some_bind]
  by_cases h1 : j_id ≤ (st.particles.getD i Particle.default).id
  · simp only [h1, if_true]
  by_cases h2 : alreadyProcessed st.processedPairs (st.particles.getD i Particle.default).id j_id
      = true
  · simp only [h1, if_false, h2, if_true]
  by_cases h3 : j_id < 0 ∨ j_id ≥ (st.particles.length : Int)
  · simp only [h1, if_false, h2, Bool.false_eq_true, h3, if_true]
  have hj0 : 0 ≤ j_id := by
    by_contra hc
    exact h3 (Or.inl (not_le.mp hc))
  have hjn : j_id < (st.particles.length : Int) := by
    by_contra hc
    exact h3 (Or.inr (not_lt.mp hc))
  obtain ⟨j, rfl⟩ := Int.eq_ofNat_of_zero_le hj0
  have hjn' : j < n := by
    have : j < st.particles.length := Int.ofNat_lt.mp hjn
    omega
  have hget : (buildIdToIndex ps0).getD j 0 = j := buildIdToIndex_getD ps0 hids0 j (by omega)
  have htl : (buildIdToIndex ps0).length = ps0.length := (buildIdToIndexChecked_eq ps0 hids0).2
  simp only [h1, if_false, h2, Bool.false_eq_true, h3]
  rw [readAt_of_lt (buildIdToIndex ps0) j 0 (by omega)]
  simp only [Option.some_bind, Int.toNat_ofNat, hget]
  rw [readAt_of_lt st.particles j Particle.default (by omega)]
  simp only [Option.some_bind]
  by_cases h4 : physics.circle_overlap (st.particles.getD i Particle.default)
      (st.particles.getD j Particle.default) = true
  · simp only [h4, if_true]
    rw [writeAt_of_lt st.particles i _ (by omega)]
    simp only [Option.some_bind]
    rw [writeAt_of_lt _ j _ (by rw [List.length_set]; omega)]
    rfl
  · simp only [h4, Bool.false_eq_true, if_false]

/-- The candidate loop of one body, in a state that has the invariant of the
narrow phase: every vector access is in bounds. -/
theorem Engine.processBodyChecked_eq (sqrt : F → F) (ps0 : List (Particle F))
    (hids0 : IdsOk ps0) (n c0 : Nat) (f0 : Nat → Bool) (hn : ps0.length = n) (i : Nat)
    (hi : i < n) (candidates : List Int) (st : NarrowState F) (hinv : NarrowInv n c0 f0 st) :
    processBodyChecked sqrt (buildIdToIndex ps0) i candidates st
      = some (processBody sqrt (buildIdToIndex ps0) i candidates st) := by
  unfold processBodyChecked processBody
  exact (foldlM_eq_some_foldl (processCandidate sqrt (buildIdToIndex ps0) i)
    (processCandidateChecked sqrt (buildIdToIndex ps0) i) (NarrowInv n c0 f0) candidates
    (fun s x _ hs => ⟨processCandidateChecked_eq sqrt ps0 hids0 n c0 f0 hn i hi s hs x,
      (processCandidate_step sqrt ps0 hids0 n c0 f0 hn i hi s hs x).1⟩)
    { st with candidatePairsChecked := st.candidatePairsChecked + candidates.length }
    ⟨hinv.len, hinv.ids, hinv.lower, hinv.nodup, hinv.count, hinv.flags⟩).1

/-- With ids equal to indices, the loops of `narrowPhase` for the bodies
`0, ..., k - 1` make only in-bounds vector accesses, for every index query. -/
theorem Engine.narrowAtChecked_eq (sqrt : F → F) (cand : Particle F → List Int)
    (ps : List (Particle F)) (hids : IdsOk ps) (cpc cts : Nat) (k : Nat) (hk : k ≤ ps.length) :
    narrowAtChecked sqrt cand ps cpc cts k = some (narrowAt sqrt cand ps cpc cts k) := by
  unfold narrowAtChecked
  rw [(buildIdToIndexChecked_eq ps hids).1]
  simp only [Option.some_bind]
  induction k with
  | zero => rfl
  | succ k ih =>
    have hinv := narrowAt_inv sqrt cand ps hids cpc cts k (by omega)
    rw [List.range_succ, List.foldlM_append, ih (by omega)]
    simp only [Option.bind_eq_bind, Option.some_bind, List.foldlM_cons, List.foldlM_nil,
      Option.pure_def, Option.bind_some]
    rw [readAt_of_lt _ k Particle.default (by rw [hinv.len]; omega)]
    simp only [Option.some_bind]
    rw [processBodyChecked_eq sqrt ps hids ps.length cts _ rfl k (by omega) _ _ hinv,
      narrowAt_succ]
    rfl

/-- A candidate id outside `[0, particles.size())` is skipped: the iteration
changes nothing, whatever `idToIndex` holds. -/
theorem Engine.processCandidate_skips (sqrt : F → F) (idx : List Nat) (i : Nat)
    (st : NarrowState F) (j_id : Int)
    (hout : j_id < 0 ∨ j_id ≥ (st.particles.length : Int)) :
    processCandidate sqrt idx i st j_id = st := by
  unfold processCandidate
  simp only [hout, if_true, ite_self]

end CheckedNarrow

section CheckedNarrowClaim

open Engine SpatialHash

variable {F : Type} [LinearOrderedField F] [FloorRing F]

/-- C38.  For every body sequence whose ids equal their indices, `narrowPhase`
with every vector access checked returns, and returns what `narrowPhase`
computes: the loop that fills `idToIndex` (one entry per body) stays in
bounds; so do the loops over the bodies and their candidates, for every index
query and every prefix of the outer loop, hence in `EngineQuadtree` and in
`EngineHash` (on a grid with its invariant); and a candidate id outside
`[0, particles.size())` is skipped, whatever the table holds: the iteration
changes nothing and reads neither `idToIndex` nor `particles` at it. -/
theorem narrow_phase_accesses_in_bounds (sqrt : F → F) (ps : List (Particle F))
    (hids : IdsOk ps) :
    (buildIdToIndexChecked ps = some (buildIdToIndex ps) ∧
      (buildIdToIndex ps).length = ps.length) ∧
    (∀ (cand : Particle F → List Int) (cpc cts k : Nat), k ≤ ps.length →
      narrowAtChecked sqrt cand ps cpc cts k = some (narrowAt sqrt cand ps cpc cts k)) ∧
    (∀ e : EngineQuadtree F,
      narrowAtChecked sqrt (EngineQuadtree.candidates e) ps e.candidatePairsChecked
          e.collisionsThisStep ps.length
        = some (EngineQuadtree.narrowPhase sqrt e ps)) ∧
    (∀ e : EngineHash F, WF e.spatialHash →
      ∃ st, EngineHash.narrowPhase sqrt e ps = some st ∧
        narrowAtChecked sqrt (EngineHash.candidates e) ps e.candidatePairsChecked
          e.collisionsThisStep ps.length = some st) ∧
    (∀ (idx : List Nat) (i : Nat) (st : NarrowState F) (j_id : Int),
      (j_id < 0 ∨ j_id ≥ (st.particles.length : Int)) →
        processCandidate sqrt idx i st j_id = st ∧
        (i < st.particles.length → processCandidateChecked sqrt idx i st j_id = some st)) := by
  refine ⟨buildIdToIndexChecked_eq ps hids,
    fun cand cpc cts k hk => narrowAtChecked_eq sqrt cand ps hids cpc cts k hk, ?_, ?_, ?_⟩
  · intro e
    rw [EngineQuadtree.narrowPhase_eq_narrowAt]
    exact narrowAtChecked_eq sqrt _ ps hids _ _ ps.length (le_refl _)
  · intro e hwf
    exact ⟨_, EngineHash.narrowPhase_returns sqrt e hwf ps,
      narrowAtChecked_eq sqrt _ ps hids _ _ ps.length (le_refl _)⟩
  · intro idx i st j_id hout
    refine ⟨processCandidate_skips sqrt idx i st j_id hout, ?_⟩
    intro hi
    unfold processCandidateChecked
    rw [readAt_of_lt st.particles i Particle.default hi]
    simp only [Option.some_bind, hout, if_true, ite_self]

/-- C38 on `midlineBodies`, with the tree that `buildBroadPhase` builds from
them in the 800 x 600 box. -/
theorem narrow_phase_accesses_in_bounds_witness :
    IdsOk midlineBodies ∧
    buildIdToIndexChecked midlineBodies = some (buildIdToIndex midlineBodies) ∧
    narrowAtChecked qsqrt
        (EngineQuadtree.candidates ((EngineQuadtree.new (800 : ℚ) 600 5).buildBroadPhase
          midlineBodies)) midlineBodies 0 0 midlineBodies.length
      = some (EngineQuadtree.narrowPhase qsqrt
          ((EngineQuadtree.new (800 : ℚ) 600 5).buildBroadPhase midlineBodies) midlineBodies) :=
  have h := narrow_phase_accesses_in_bounds qsqrt midlineBodies idsOk_midlineBodies
  ⟨idsOk_midlineBodies, h.1.1,
    h.2.2.1 ((EngineQuadtree.new (800 : ℚ) 600 5).buildBroadPhase midlineBodies)⟩

end CheckedNarrowClaim



section Energy

open Engine SpatialHash physics

variable {F : Type} [LinearOrderedField F]

/-- `total_energy` is the sum of the kinetic terms of the bodies. -/
theorem physics.total_energy_eq_sum (l : List (Particle F)) :
    total_energy l = (l.map kinetic).sum := by
  have key : ∀ (l : List (Particle F)) (e : F),
      l.foldl (fun energy p => energy + kinetic p) e = e + (l.map kinetic).sum := by
    intro l
    induction l with
    | nil => intro e; simp
    | cons x rest ih =>
      intro e
      rw [List.foldl_cons, ih, List.map_cons, List.sum_cons]
      ring
  unfold total_energy
  rw [key, zero_add]

/-- The step of `integrate` for one body keeps its kinetic term. -/
theorem physics.integrate_kinetic (ps : List (Particle F)) (dt : F) :
    (integrate ps dt).map kinetic = ps.map kinetic := by
  unfold integrate
  rw [List.map_map]
  rfl

/-- A wall bounce flips the sign of a velocity component: the kinetic term of
the body is unchanged. -/
theorem physics.wallStep_kinetic (box_w box_h r : F) (p : Particle F) :
    kinetic (wallStep box_w box_h r p) = kinetic p := by
  unfold wallStep kinetic
  dsimp only
  split_ifs <;> ring

theorem physics.handle_walls_kinetic (ps : List (Particle F)) (box_w box_h r : F) :
    (handle_walls ps box_w box_h r).map kinetic = ps.map kinetic := by
  unfold handle_walls
  rw [List.map_map]
  apply List.map_congr_left
  intro p _
  exact wallStep_kinetic box_w box_h r p

theorem Engine.resetFlags_kinetic (ps : List (Particle F)) :
    (resetFlags ps).map kinetic = ps.map kinetic := by
  unfold resetFlags
  rw [List.map_map]
  rfl

theorem Engine.afterWalls_kinetic (box_w box_h r : F) (ps : List (Particle F)) (dt : F) :
    (afterWalls box_w box_h r ps dt).map kinetic = ps.map kinetic := by
  unfold afterWalls
  rw [handle_walls_kinetic, integrate_kinetic, resetFlags_kinetic]

/-- `positional_correction` moves positions only: both kinetic terms are
unchanged. -/
theorem physics.positional_correction_kinetic (sqrt : F → F) (a b : Particle F) (eps : F) :
    kinetic (positional_correction sqrt a b eps).1 = kinetic a ∧
    kinetic (positional_correction sqrt a b eps).2 = kinetic b := by
  unfold positional_correction
  dsimp only
  split_ifs <;> exact ⟨rfl, rfl⟩

/-- Over the reals `resolve_collision` keeps the sum of the two kinetic
terms. -/
theorem physics.resolve_collision_kinetic (a b : Particle ℝ) :
    kinetic (resolve_collision Real.sqrt a b).1 + kinetic (resolve_collision Real.sqrt a b).2
      = kinetic a + kinetic b := by
  have hn := collision_normal_unit a b
  simp only [resolve_collision, kinetic]
  generalize collision_normal Real.sqrt a b = n at hn
  obtain ⟨nx, ny⟩ := n
  simp only at hn ⊢
  linear_combination ((b.vx - a.vx) * nx + (b.vy - a.vy) * ny) ^ 2 * hn

omit [LinearOrderedField F] in
/-- The sum of `f` over a vector after one element is overwritten. -/
theorem sum_map_set {α : Type} (f : α → ℝ) (l : List α) (i : Nat) (a d : α)
    (hi : i < l.length) :
    ((l.set i a).map f).sum = (l.map f).sum - f (l.getD i d) + f a := by
  induction l generalizing i with
  | nil => exact absurd hi (Nat.not_lt_zero _)
  | cons x rest ih =>
    cases i with
    | zero =>
      simp only [List.set_cons_zero, List.map_cons, List.sum_cons, List.getD_cons_zero]
      ring
    | succ i =>
      have hi' : i < rest.length := Nat.lt_of_succ_lt_succ hi
      simp only [List.set_cons_succ, List.map_cons, List.sum_cons, List.getD_cons_succ, ih i hi']
      ring

/-- One iteration of the candidate loop over the reals, in a state that has
the invariant of the narrow phase, keeps `total_energy`. -/
theorem Engine.processCandidate_energy (ps0 : List (Particle ℝ)) (hids0 : IdsOk ps0)
    (n c0 : Nat) (f0 : Nat → Bool) (hn : ps0.length = n) (i : Nat) (hi : i < n)
    (st : NarrowState ℝ) (hinv : NarrowInv n c0 f0 st) (j_id : Int) :
    total_energy (processCandidate Real.sqrt (buildIdToIndex ps0) i st j_id).particles
      = total_energy st.particles := by
  have hlen := hinv.len
  have hpid : (st.particles.getD i Particle.default).id = (i : Int) :=
    hinv.ids i (by omega)
  unfold processCandidate
  dsimp only
  split_ifs with h1 h2 h3 h4
  · rfl
  · rfl
  · rfl
  · have hj0 : 0 ≤ j_id := by
      by_contra hc
      exact h3 (Or.inl (not_le.mp hc))
    have hjn : j_id < (st.particles.length : Int) := by
      by_contra hc
      exact h3 (Or.inr (not_lt.mp hc))
    obtain ⟨j, rfl⟩ := Int.eq_ofNat_of_zero_le hj0
    have hjl : j < st.particles.length := Int.ofNat_lt.mp hjn
    have hget : (buildIdToIndex ps0).getD j 0 = j := buildIdToIndex_getD ps0 hids0 j (by omega)
    have hne : i ≠ j := by
      intro hij
      apply h1
      rw [hpid, hij]
    simp only [Int.toNat_ofNat, hget]
    have hpc := positional_correction_kinetic Real.sqrt
      (resolve_collision Real.sqrt (st.particles.getD i Particle.default)
        (st.particles.getD j Particle.default)).1
      (resolve_collision Real.sqrt (st.particles.getD i Particle.default)
        (st.particles.getD j Particle.default)).2 defaultEpsilon
    have hres := resolve_collision_kinetic (st.particles.getD i Particle.default)
      (st.particles.getD j Particle.default)
    rw [total_energy_eq_sum, total_energy_eq_sum,
      sum_map_set kinetic _ j _ Particle.default (by rw [List.length_set]; exact hjl),
      sum_map_set kinetic _ i _ Particle.default (by omega),
      getD_set_ne _ i j hne]
    linarith [hpc.1, hpc.2]
  · rfl

theorem Engine.processBody_energy (ps0 : List (Particle ℝ)) (hids0 : IdsOk ps0)
    (n c0 : Nat) (f0 : Nat → Bool) (hn : ps0.length = n) (i : Nat) (hi : i < n)
    (candidates : List Int) (st : NarrowState ℝ) (hinv : NarrowInv n c0 f0 st) :
    total_energy (processBody Real.sqrt (buildIdToIndex ps0) i candidates st).particles
      = total_energy st.particles := by
  have key : ∀ (cs : List Int) (s : NarrowState ℝ), NarrowInv n c0 f0 s →
      total_energy (cs.foldl (processCandidate Real.sqrt (buildIdToIndex ps0) i) s).particles
        = total_energy s.particles := by
    intro cs
    induction cs with
    | nil => intro s _; rfl
    | cons c rest ih =>
      intro s hs
      rw [List.foldl_cons,
        ih _ (processCandidate_step Real.sqrt ps0 hids0 n c0 f0 hn i hi s hs c).1,
        processCandidate_energy ps0 hids0 n c0 f0 hn i hi s hs c]
  unfold processBody
  exact key candidates _ ⟨hinv.len, hinv.ids, hinv.lower, hinv.nodup, hinv.count, hinv.flags⟩

/-- With ids equal to indices, every prefix of the outer loop of `narrowPhase`
over the reals keeps `total_energy`, for every index query. -/
theorem Engine.narrowAt_energy (cand : Particle ℝ → List Int) (ps : List (Particle ℝ))
    (hids : IdsOk ps) (cpc cts : Nat) :
    ∀ k, k ≤ ps.length →
      total_energy (narrowAt Real.sqrt cand ps cpc cts k).particles = total_energy ps := by
  intro k
  induction k with
  | zero => intro _; rfl
  | succ k ih =>
    intro hk
    rw [narrowAt_succ,
      processBody_energy ps hids ps.length cts _ rfl k (by omega) _ _
        (narrowAt_inv Real.sqrt cand ps hids cpc cts k (by omega)),
      ih (by omega)]

end Energy

section EnergyClaim

open Engine SpatialHash physics

/-- C33.  Over the reals, with `std::sqrt` the exact square root, for every
body sequence whose ids equal their indices and every `dt`: `total_energy` of
the bodies after `EngineQuadtree::step` equals `total_energy` before it, for
every engine state; `EngineHash::step` (grid produced by the constructor,
`clear()` and `insert`, nesting bound at least 2) returns, and `total_energy`
after it equals `total_energy` before it.  Stage by stage: `integrate` and
`handle_walls` keep the kinetic term of every body, `resolve_collision` keeps
the sum of the two kinetic terms of the pair, and `positional_correction`
keeps both kinetic terms. -/
theorem step_conserves_total_energy (ps : List (Particle ℝ)) (hids : IdsOk ps) (dt : ℝ) :
    (∀ e : EngineQuadtree ℝ,
      total_energy (EngineQuadtree.step Real.sqrt e ps dt).2 = total_energy ps) ∧
    (∀ (e : EngineHash ℝ) (fuel : Nat), 2 ≤ fuel → Reachable e.spatialHash →
      ∃ res, EngineHash.step fuel Real.sqrt e ps dt = some res ∧
        total_energy res.2 = total_energy ps) ∧
    ((integrate ps dt).map kinetic = ps.map kinetic ∧
      (∀ box_w box_h r : ℝ, (handle_walls ps box_w box_h r).map kinetic = ps.map kinetic) ∧
      (∀ a b : Particle ℝ,
        kinetic (resolve_collision Real.sqrt a b).1 + kinetic (resolve_collision Real.sqrt a b).2
          = kinetic a + kinetic b) ∧
      (∀ (a b : Particle ℝ) (eps : ℝ),
        kinetic (positional_correction Real.sqrt a b eps).1 = kinetic a ∧
        kinetic (positional_correction Real.sqrt a b eps).2 = kinetic b)) := by
  have hwalls : ∀ box_w box_h r : ℝ,
      total_energy (afterWalls box_w box_h r ps dt) = total_energy ps := by
    intro box_w box_h r
    rw [total_energy_eq_sum, total_energy_eq_sum, afterWalls_kinetic]
  have hnarrow : ∀ (cand : Particle ℝ → List Int) (box_w box_h r : ℝ),
      total_energy (narrowAt Real.sqrt cand (afterWalls box_w box_h r ps dt) 0 0
        ps.length).particles = total_energy ps := by
    intro cand box_w box_h r
    rw [narrowAt_energy cand _ (hids.afterWalls box_w box_h r dt) 0 0 ps.length
      (by rw [length_afterWalls]), hwalls]
  refine ⟨?_, ?_, integrate_kinetic ps dt, fun box_w box_h r => handle_walls_kinetic ps box_w box_h r,
    resolve_collision_kinetic, fun a b eps => positional_correction_kinetic Real.sqrt a b eps⟩
  · intro e
    show total_energy (EngineQuadtree.stepState Real.sqrt e ps dt).2.particles = _
    rw [EngineQuadtree.stepState_eq_narrowAt]
    exact hnarrow _ _ _ _
  · intro e fuel hfuel hreach
    obtain ⟨e2, _, _, heq⟩ := EngineHash.stepState_returns fuel hfuel Real.sqrt e hreach ps dt
    refine ⟨_, by unfold EngineHash.step; rw [heq]; rfl, ?_⟩
    exact hnarrow _ _ _ _

/-- C33 on two bodies that meet head-on in the 800 x 600 box. -/
theorem step_conserves_total_energy_witness :
    IdsOk ([⟨100, 100, 50, 0, 5, 0, false⟩, ⟨108, 100, -50, 0, 5, 1, false⟩] :
      List (Particle ℝ)) ∧
    total_energy (EngineQuadtree.step Real.sqrt (EngineQuadtree.new (800 : ℝ) 600 5)
        [⟨100, 100, 50, 0, 5, 0, false⟩, ⟨108, 100, -50, 0, 5, 1, false⟩] (1 / 500)).2
      = total_energy ([⟨100, 100, 50, 0, 5, 0, false⟩, ⟨108, 100, -50, 0, 5, 1, false⟩] :
          List (Particle ℝ)) :=
  have hids : IdsOk ([⟨100, 100, 50, 0, 5, 0, false⟩, ⟨108, 100, -50, 0, 5, 1, false⟩] :
      List (Particle ℝ)) := by
    intro k hk
    have hk2 : k < 2 := hk
    interval_cases k <;> rfl
  ⟨hids, (step_conserves_total_energy _ hids (1 / 500)).1 (EngineQuadtree.new (800 : ℝ) 600 5)⟩

end EnergyClaim



section Binary32

/-- The integer returned by `roundHalfEven` is the floor or the floor plus one. -/
theorem roundHalfEven_bounds (q : ℚ) :
    ⌊q⌋ ≤ roundHalfEven q ∧ roundHalfEven q ≤ ⌊q⌋ + 1 := by
  unfold roundHalfEven
  dsimp only
  split_ifs <;> constructor <;> omega

theorem roundHalfEven_mono {p q : ℚ} (h : p ≤ q) : roundHalfEven p ≤ roundHalfEven q := by
  have hf : ⌊p⌋ ≤ ⌊q⌋ := Int.floor_mono h
  rcases lt_or_eq_of_le hf with hlt | heq
  · have h1 := (roundHalfEven_bounds p).2
    have h2 := (roundHalfEven_bounds q).1
    omega
  · unfold roundHalfEven
    dsimp only
    rw [heq]
    have hfr : p - (⌊q⌋ : ℚ) ≤ q - (⌊q⌋ : ℚ) := by linarith
    split_ifs with h1 h2 h3 h4 h5 h6 h7 h8 <;> first | omega | (exfalso; linarith)

theorem roundHalfEven_intCast (n : Int) : roundHalfEven (n : ℚ) = n := by
  unfold roundHalfEven
  simp

/-- The unit found by `unitLoop` is `u / 2 ^ k` for the first `k` at which the
test passes, or for `k = n` when it never does. -/
theorem unitLoop_spec (a : ℚ) (n : Nat) :
    ∀ u : ℚ, ∃ k, k ≤ n ∧ unitLoop n u a = u / 2 ^ k ∧
      (k < n → 8388608 * (u / 2 ^ k) ≤ a) ∧ ∀ j, j < k → ¬ 8388608 * (u / 2 ^ j) ≤ a := by
  induction n with
  | zero =>
    intro u
    exact ⟨0, le_refl _, by simp [unitLoop], fun h => absurd h (Nat.lt_irrefl _),
      fun j hj => absurd hj (Nat.not_lt_zero _)⟩
  | succ n ih =>
    intro u
    by_cases hc : 8388608 * u ≤ a
    · exact ⟨0, Nat.zero_le _, by simp [unitLoop, hc], fun _ => by simpa using hc,
        fun j hj => absurd hj (Nat.not_lt_zero _)⟩
    · obtain ⟨k, hk, heq, hpass, hfail⟩ := ih (u / 2)
      have hdiv : ∀ j : Nat, u / 2 / 2 ^ j = u / 2 ^ (j + 1) := by
        intro j
        rw [pow_succ, div_div, mul_comm]
      refine ⟨k + 1, Nat.succ_le_succ hk, ?_, ?_, ?_⟩
      · rw [unitLoop, if_neg hc, heq, hdiv]
      · intro hlt
        rw [← hdiv]
        exact hpass (Nat.lt_of_succ_lt_succ hlt)
      · intro j hj
        cases j with
        | zero => simpa using hc
        | succ j =>
          rw [← hdiv]
          exact hfail j (Nat.lt_of_succ_lt_succ hj)

/-- Rounding of a non-negative value to the binary32 grid. -/
theorem round32_of_nonneg {q : ℚ} (hq : 0 ≤ q) :
    round32 q = (roundHalfEven (q / unit32 q) : ℚ) * unit32 q := by
  unfold round32
  rw [if_neg (not_lt.mpr hq)]

theorem round32_of_neg {q : ℚ} (hq : q < 0) :
    round32 q = -((roundHalfEven (-q / unit32 (-q)) : ℚ) * unit32 (-q)) := by
  unfold round32
  rw [if_pos hq]

theorem unit32_pos (a : ℚ) : 0 < unit32 a := by
  obtain ⟨k, _, heq, _, _⟩ := unitLoop_spec a 253 (2 ^ 104)
  unfold unit32
  rw [heq]
  positivity

theorem roundHalfEven_nonneg {q : ℚ} (hq : 0 ≤ q) : 0 ≤ roundHalfEven q :=
  le_trans (Int.floor_nonneg.mpr hq) (roundHalfEven_bounds q).1

/-- On non-negative values `round32` is monotone. -/
theorem round32_mono_nonneg {p q : ℚ} (h : p ≤ q) :
    (roundHalfEven (p / unit32 p) : ℚ) * unit32 p
      ≤ (roundHalfEven (q / unit32 q) : ℚ) * unit32 q := by
  obtain ⟨k, hk, hkeq, hkpass, hkfail⟩ := unitLoop_spec p 253 (2 ^ 104)
  obtain ⟨m, hm, hmeq, hmpass, hmfail⟩ := unitLoop_spec q 253 (2 ^ 104)
  have hup : unit32 p = 2 ^ 104 / 2 ^ k := hkeq
  have huq : unit32 q = 2 ^ 104 / 2 ^ m := hmeq
  have hmk : m ≤ k := by
    by_contra hcon
    have hlt : k < m := Nat.lt_of_not_le hcon
    exact hmfail k hlt (le_trans (hkpass (by omega)) h)
  rcases Nat.lt_or_eq_of_le hmk with hlt | heq
  · -- the unit of `q` is larger: `p` lies below `2 ^ 23` units of `q`
    have hposp : (0 : ℚ) < 2 ^ 104 / 2 ^ k := by positivity
    have hposq : (0 : ℚ) < 2 ^ 104 / 2 ^ m := by positivity
    have hqge : 8388608 * (2 ^ 104 / 2 ^ m) ≤ q := hmpass (by omega)
    have hplt : p < 8388608 * (2 ^ 104 / 2 ^ m) := not_le.mp (hkfail m hlt)
    have hratio : (2 : ℚ) ^ 104 / 2 ^ m = 2 ^ (k - m) * (2 ^ 104 / 2 ^ k) := by
      have : (2 : ℚ) ^ k = 2 ^ (k - m) * 2 ^ m := by
        rw [← pow_add]
        congr 1
        omega
      rw [this]
      field_simp
      ring
    rw [hup, huq]
    have h1 : (roundHalfEven (p / (2 ^ 104 / 2 ^ k)) : ℚ) ≤ ((8388608 * 2 ^ (k - m) : Int) : ℚ) := by
      have hlt' : p / (2 ^ 104 / 2 ^ k) < ((8388608 * 2 ^ (k - m) : Int) : ℚ) := by
        rw [div_lt_iff₀ hposp]
        push_cast
        calc p < 8388608 * (2 ^ 104 / 2 ^ m) := hplt
          _ = 8388608 * 2 ^ (k - m) * (2 ^ 104 / 2 ^ k) := by rw [hratio]; ring
      have hfl : ⌊p / (2 ^ 104 / 2 ^ k)⌋ < (8388608 * 2 ^ (k - m) : Int) :=
        Int.floor_lt.mpr hlt'
      have := (roundHalfEven_bounds (p / (2 ^ 104 / 2 ^ k))).2
      exact_mod_cast (by omega : roundHalfEven (p / (2 ^ 104 / 2 ^ k)) ≤ 8388608 * 2 ^ (k - m))
    have h2 : ((8388608 : Int) : ℚ) ≤ (roundHalfEven (q / (2 ^ 104 / 2 ^ m)) : ℚ) := by
      have hle : ((8388608 : Int) : ℚ) ≤ q / (2 ^ 104 / 2 ^ m) := by
        rw [le_div_iff₀ hposq]
        push_cast
        exact hqge
      have := roundHalfEven_mono hle
      rw [roundHalfEven_intCast] at this
      exact_mod_cast this
    calc (roundHalfEven (p / (2 ^ 104 / 2 ^ k)) : ℚ) * (2 ^ 104 / 2 ^ k)
        ≤ ((8388608 * 2 ^ (k - m) : Int) : ℚ) * (2 ^ 104 / 2 ^ k) :=
          mul_le_mul_of_nonneg_right h1 hposp.le
      _ = ((8388608 : Int) : ℚ) * (2 ^ 104 / 2 ^ m) := by rw [hratio]; push_cast; ring
      _ ≤ (roundHalfEven (q / (2 ^ 104 / 2 ^ m)) : ℚ) * (2 ^ 104 / 2 ^ m) :=
          mul_le_mul_of_nonneg_right h2 hposq.le
  · -- the same unit: `roundHalfEven` is monotone
    have hu : unit32 p = unit32 q := by rw [hup, huq, heq]
    rw [hu]
    have hpos := unit32_pos q
    exact mul_le_mul_of_nonneg_right
      (by exact_mod_cast roundHalfEven_mono (div_le_div_of_nonneg_right h hpos.le)) hpos.le

/-- The value of `round32` at a non-negative argument is non-negative. -/
theorem round32_grid_nonneg {q : ℚ} (hq : 0 ≤ q) :
    (0 : ℚ) ≤ (roundHalfEven (q / unit32 q) : ℚ) * unit32 q := by
  have h1 : 0 ≤ roundHalfEven (q / unit32 q) :=
    roundHalfEven_nonneg (div_nonneg hq (unit32_pos q).le)
  have h2 : (0 : ℚ) ≤ (roundHalfEven (q / unit32 q) : ℚ) := by exact_mod_cast h1
  exact mul_nonneg h2 (unit32_pos q).le

/-- Rounding to nearest is monotone. -/
theorem round32_monotone : Monotone round32 := by
  intro p q h
  by_cases hp : p < 0
  · by_cases hq : q < 0
    · rw [round32_of_neg hp, round32_of_neg hq]
      exact neg_le_neg (round32_mono_nonneg (by linarith))
    · rw [round32_of_neg hp, round32_of_nonneg (not_lt.mp hq)]
      have h1 := round32_grid_nonneg (show (0 : ℚ) ≤ -p by linarith)
      have h2 := round32_grid_nonneg (not_lt.mp hq)
      linarith
  · have hp0 : 0 ≤ p := not_lt.mp hp
    rw [round32_of_nonneg hp0, round32_of_nonneg (le_trans hp0 h)]
    exact round32_mono_nonneg h

/-- The distance of `roundHalfEven q` from `q` is at most one half. -/
theorem roundHalfEven_error (q : ℚ) : |(roundHalfEven q : ℚ) - q| ≤ 1 / 2 := by
  have h1 : (⌊q⌋ : ℚ) ≤ q := Int.floor_le q
  have h2 : q < (⌊q⌋ : ℚ) + 1 := Int.lt_floor_add_one q
  unfold roundHalfEven
  dsimp only
  rw [abs_le]
  split_ifs with a b c <;> push_cast <;> constructor <;> linarith

/-- The distance of `round32 q` from `q` is at most half a unit in the last
place of `q`. -/
theorem round32_error (q : ℚ) : |round32 q - q| ≤ unit32 |q| / 2 := by
  have key : ∀ p : ℚ, 0 ≤ p →
      |(roundHalfEven (p / unit32 p) : ℚ) * unit32 p - p| ≤ unit32 p / 2 := by
    intro p _
    have hu := unit32_pos p
    have he := roundHalfEven_error (p / unit32 p)
    have hrw : (roundHalfEven (p / unit32 p) : ℚ) * unit32 p - p
        = ((roundHalfEven (p / unit32 p) : ℚ) - p / unit32 p) * unit32 p := by
      field_simp
    rw [hrw, abs_mul, abs_of_pos hu]
    calc |(roundHalfEven (p / unit32 p) : ℚ) - p / unit32 p| * unit32 p
        ≤ 1 / 2 * unit32 p := mul_le_mul_of_nonneg_right he hu.le
      _ = unit32 p / 2 := by ring
  by_cases hq : q < 0
  · rw [round32_of_neg hq, abs_of_neg hq]
    have := key (-q) (by linarith)
    rw [abs_sub_comm] at this
    have hrw : -((roundHalfEven (-q / unit32 (-q)) : ℚ) * unit32 (-q)) - q
        = -q - (roundHalfEven (-q / unit32 (-q)) : ℚ) * unit32 (-q) := by ring
    rw [hrw]
    exact this
  · have hq0 : 0 ≤ q := not_lt.mp hq
    rw [round32_of_nonneg hq0, abs_of_nonneg hq0]
    exact key q hq0

end Binary32

section RoundedTree

open Quadtree

variable {F : Type} [LinearOrderedField F]

/-- With `fl = id` the rounded tests are the exact ones. -/
theorem rounded_tests_id (a b : Particle F) (r : Rect F) (e : BodyRef F) (qx qy qr : F) :
    Rounded.circle_overlap id a b = physics.circle_overlap a b ∧
    Rounded.contains id r e = Quadtree.contains r e ∧
    Rounded.intersects id r qx qy qr = Quadtree.intersects r qx qy qr ∧
    Rounded.hitsQuery id qx qy qr e = Quadtree.hitsQuery qx qy qr e :=
  ⟨rfl, rfl, rfl, rfl⟩

theorem rounded_redistribute_id (r : Rect F) (bs : List (BodyRef F)) :
    Rounded.redistribute id r bs = Quadtree.redistribute r bs := rfl

/-- The rounded `insertRecursive` on a leaf succeeds exactly when the rounded
`contains` accepts the entry. -/
theorem rounded_insertLeaf_fst (fl : F → F) (cap : Int) (k : Nat) (r : Rect F)
    (bodies : List (BodyRef F)) (b : BodyRef F) :
    (Rounded.insertLeaf fl cap k r bodies b).1 = Rounded.contains fl r b := by
  cases k with
  | zero =>
    unfold Rounded.insertLeaf
    split_ifs with h <;> simp_all
  | succ k =>
    unfold Rounded.insertLeaf
    split_ifs with h h1 <;> simp_all [tryChildren_fst]

/-- The rounded `insertRecursive` succeeds exactly when the rounded `contains`
accepts the entry for the node's rectangle. -/
theorem rounded_insertRecursive_fst (fl : F → F) (cap maxDepth : Int) (node : Node F)
    (b : BodyRef F) (depth : Int) :
    (Rounded.insertRecursive fl cap maxDepth node b depth).1
      = Rounded.contains fl node.rect b := by
  cases node with
  | leaf r bodies => simp [Rounded.insertRecursive, rounded_insertLeaf_fst, Node.rect]
  | inner r bodies c0 c1 c2 c3 =>
    unfold Rounded.insertRecursive
    split_ifs with h <;> simp_all [tryChildren_fst, Node.rect]

/-- An entry that the rounded `contains` rejects leaves the node as it was. -/
theorem rounded_insertRecursive_rejects (fl : F → F) (cap maxDepth : Int) (node : Node F)
    (b : BodyRef F) (depth : Int) (h : Rounded.contains fl node.rect b = false) :
    Rounded.insertRecursive fl cap maxDepth node b depth = (false, node) := by
  cases node with
  | leaf r bodies =>
    simp only [Node.rect] at h
    cases k : (maxDepth - depth).toNat <;>
      simp [Rounded.insertRecursive, Rounded.insertLeaf, k, h]
  | inner r bodies c0 c1 c2 c3 =>
    simp only [Node.rect] at h
    simp [Rounded.insertRecursive, h]

/-- The redistribution loop hands an entry to a child only when the rounded
`contains` accepts it for that child, and leaves the others on the node. -/
theorem rounded_redistribute_inside (fl : F → F) (r : Rect F) (bs : List (BodyRef F))
    (hbs : bs.all (Rounded.contains fl r) = true) :
    (Rounded.redistribute fl r bs).overflow.all (Rounded.contains fl r) = true ∧
    (Rounded.redistribute fl r bs).q0.all (Rounded.contains fl (Rounded.childNW fl r)) = true ∧
    (Rounded.redistribute fl r bs).q1.all (Rounded.contains fl (Rounded.childNE fl r)) = true ∧
    (Rounded.redistribute fl r bs).q2.all (Rounded.contains fl (Rounded.childSW fl r)) = true ∧
    (Rounded.redistribute fl r bs).q3.all (Rounded.contains fl (Rounded.childSE fl r)) = true := by
  have key : ∀ (l : List (BodyRef F)) (s : Quads F),
      l.all (Rounded.contains fl r) = true →
      (s.overflow.all (Rounded.contains fl r) = true ∧
        s.q0.all (Rounded.contains fl (Rounded.childNW fl r)) = true ∧
        s.q1.all (Rounded.contains fl (Rounded.childNE fl r)) = true ∧
        s.q2.all (Rounded.contains fl (Rounded.childSW fl r)) = true ∧
        s.q3.all (Rounded.contains fl (Rounded.childSE fl r)) = true) →
      ((l.foldl (Rounded.redistributeStep fl r) s).overflow.all (Rounded.contains fl r) = true ∧
        (l.foldl (Rounded.redistributeStep fl r) s).q0.all
          (Rounded.contains fl (Rounded.childNW fl r)) = true ∧
        (l.foldl (Rounded.redistributeStep fl r) s).q1.all
          (Rounded.contains fl (Rounded.childNE fl r)) = true ∧
        (l.foldl (Rounded.redistributeStep fl r) s).q2.all
          (Rounded.contains fl (Rounded.childSW fl r)) = true ∧
        (l.foldl (Rounded.redistributeStep fl r) s).q3.all
          (Rounded.contains fl (Rounded.childSE fl r)) = true) := by
    intro l
    induction l with
    | nil => intro s _ hs; exact hs
    | cons e rest ih =>
      intro s hl hs
      simp only [List.all_cons, Bool.and_eq_true] at hl
      rw [List.foldl_cons]
      apply ih _ hl.2
      obtain ⟨s0, s1, s2, s3, s4⟩ := hs
      unfold Rounded.redistributeStep
      split_ifs with h0 h1 h2 h3
      · exact ⟨s0, by simp [List.all_append, s1, h0], s2, s3, s4⟩
      · exact ⟨s0, s1, by simp [List.all_append, s2, h1], s3, s4⟩
      · exact ⟨s0, s1, s2, by simp [List.all_append, s3, h2], s4⟩
      · exact ⟨s0, s1, s2, s3, by simp [List.all_append, s4, h3]⟩
      · exact ⟨by simp [List.all_append, s0, hl.1], s1, s2, s3, s4⟩
  exact key bs _ hbs ⟨rfl, rfl, rfl, rfl, rfl⟩

theorem rounded_tryChildren_ownInside (fl : F → F) (r : Rect F) (bodies : List (BodyRef F))
    (c1 c2 c3 : Node F) (r0 r1 r2 r3 : Bool × Node F) (b : BodyRef F)
    (hb : bodies.all (Rounded.contains fl r) = true) (hfit : Rounded.contains fl r b = true)
    (h1 : Rounded.ownInside fl c1 = true) (h2 : Rounded.ownInside fl c2 = true)
    (h3 : Rounded.ownInside fl c3 = true) (hr0 : Rounded.ownInside fl r0.2 = true)
    (hr1 : Rounded.ownInside fl r1.2 = true) (hr2 : Rounded.ownInside fl r2.2 = true)
    (hr3 : Rounded.ownInside fl r3.2 = true) :
    Rounded.ownInside fl (tryChildren r bodies c1 c2 c3 r0 r1 r2 r3 b).2 = true := by
  unfold tryChildren
  split_ifs <;> simp [Rounded.ownInside, List.all_append, *]

/-- The rounded `insertRecursive` on a leaf keeps every stored entry accepted
by the rounded `contains` of its node. -/
theorem rounded_insertLeaf_ownInside (fl : F → F) (cap : Int) (k : Nat) :
    ∀ (r : Rect F) (bs : List (BodyRef F)) (b : BodyRef F),
      bs.all (Rounded.contains fl r) = true →
      Rounded.ownInside fl (Rounded.insertLeaf fl cap k r bs b).2 = true := by
  have happ : ∀ (r : Rect F) (bs : List (BodyRef F)) (b : BodyRef F),
      bs.all (Rounded.contains fl r) = true → Rounded.contains fl r b = true →
      Rounded.ownInside fl (Node.leaf r (bs ++ [b])) = true := by
    intro r bs b hbs hfit
    simp [Rounded.ownInside, List.all_append, hbs, hfit]
  induction k with
  | zero =>
    intro r bs b hbs
    by_cases h : Rounded.contains fl r b = true
    · simp only [Rounded.insertLeaf, h, not_true_eq_false, if_false]
      exact happ r bs b hbs h
    · simp only [Rounded.insertLeaf, h, not_false_eq_true, if_true]
      exact hbs
  | succ k ih =>
    intro r bs b hbs
    by_cases h : Rounded.contains fl r b = true
    · by_cases hroom : (bs.length : Int) < cap % 2 ^ 64
      · rw [Rounded.insertLeaf]
        simp only [h, not_true_eq_false, if_false, hroom, if_true]
        exact happ r bs b hbs h
      · obtain ⟨i, i0, i1, i2, i3⟩ := rounded_redistribute_inside fl r bs hbs
        rw [Rounded.insertLeaf]
        simp only [h, not_true_eq_false, if_false, hroom]
        exact rounded_tryChildren_ownInside fl r _ _ _ _ _ _ _ _ b i h
          i1 i2 i3 (ih _ _ _ i0) (ih _ _ _ i1) (ih _ _ _ i2) (ih _ _ _ i3)
    · rw [Rounded.insertLeaf]
      simp only [h, not_false_eq_true, if_true]
      exact hbs

/-- The rounded `insertRecursive` keeps every stored entry accepted by the
rounded `contains` of its node. -/
theorem rounded_insertRecursive_ownInside (fl : F → F) (cap maxDepth : Int) (node : Node F)
    (b : BodyRef F) :
    ∀ depth : Int, Rounded.ownInside fl node = true →
      Rounded.ownInside fl (Rounded.insertRecursive fl cap maxDepth node b depth).2 = true := by
  induction node with
  | leaf r bs =>
    intro depth h
    exact rounded_insertLeaf_ownInside fl cap _ r bs b h
  | inner r bodies c0 c1 c2 c3 ih0 ih1 ih2 ih3 =>
    intro depth h
    simp only [Rounded.ownInside, Bool.and_eq_true] at h
    obtain ⟨⟨⟨⟨hb, h0⟩, h1⟩, h2⟩, h3⟩ := h
    by_cases hfit : Rounded.contains fl r b = true
    · rw [Rounded.insertRecursive]
      simp only [hfit, not_true_eq_false, if_false]
      exact rounded_tryChildren_ownInside fl r _ _ _ _ _ _ _ _ b hb hfit
        h1 h2 h3 (ih0 _ h0) (ih1 _ h1) (ih2 _ h2) (ih3 _ h3)
    · rw [Rounded.insertRecursive]
      simp only [hfit, not_false_eq_true, if_true]
      simp [Rounded.ownInside, hb, h0, h1, h2, h3]

/-- Every tree produced by the constructor, `clear()` and the rounded `insert`
has every stored entry accepted by the rounded `contains` of its node. -/
theorem rounded_treeReachable_ownInside (fl : F → F) {t : Quadtree F}
    (h : Rounded.TreeReachable fl t) : Rounded.ownInside fl t.root = true := by
  induction h with
  | init x y w h cap maxDepth => rfl
  | clear _ _ => rfl
  | insert b _ ih => exact rounded_insertRecursive_ownInside fl _ _ _ b 0 ih

/-- An entry that passes the rounded `contains` for a rectangle has its
circle inside the rectangle up to the rounding errors of the six sums and
differences of the test. -/
theorem rounded_contains_error_bound (fl : F → F) (r : Rect F) (e : BodyRef F)
    (hc : Rounded.contains fl r e = true) :
    e.x - e.r ≥ r.x - |fl (e.x - e.r) - (e.x - e.r)| ∧
    e.x + e.r ≤ r.x + r.w + |fl (r.x + r.w) - (r.x + r.w)| + |fl (e.x + e.r) - (e.x + e.r)| ∧
    e.y - e.r ≥ r.y - |fl (e.y - e.r) - (e.y - e.r)| ∧
    e.y + e.r ≤ r.y + r.h + |fl (r.y + r.h) - (r.y + r.h)| + |fl (e.y + e.r) - (e.y + e.r)| := by
  simp only [Rounded.contains, decide_eq_true_eq] at hc
  obtain ⟨h1, h2, h3, h4⟩ := hc
  have a1 := le_abs_self (fl (e.x - e.r) - (e.x - e.r))
  have a2 := neg_abs_le (fl (e.x + e.r) - (e.x + e.r))
  have a3 := le_abs_self (fl (r.x + r.w) - (r.x + r.w))
  have b1 := le_abs_self (fl (e.y - e.r) - (e.y - e.r))
  have b2 := neg_abs_le (fl (e.y + e.r) - (e.y + e.r))
  have b3 := le_abs_self (fl (r.y + r.h) - (r.y + r.h))
  refine ⟨?_, ?_, ?_, ?_⟩ <;> linarith

end RoundedTree

section RoundedClaims

open Quadtree

variable {F : Type} [LinearOrderedField F]

/-- C10 as stated fails on binary32 values.  The two bodies of `tangentPair`
have binary32 coordinates and radii and are exactly tangent, so the exact
test says that they do not overlap; evaluated with binary32 rounding,
`dx * dx` is rounded down and `r_sum * r_sum` is rounded up, and
`circle_overlap` returns true. -/
theorem circle_overlap_true_on_tangent_pair :
    (round32 (11635 / 2048) = 11635 / 2048 ∧ round32 (6981 / 1024) = 6981 / 1024 ∧
      round32 (9308 / 1024) = 9308 / 1024) ∧
    ((tangentPair.1.x - tangentPair.2.x) ^ 2 + (tangentPair.1.y - tangentPair.2.y) ^ 2
      = (tangentPair.1.r + tangentPair.2.r) ^ 2) ∧
    physics.circle_overlap tangentPair.1 tangentPair.2 = false ∧
    Rounded.circle_overlap round32 tangentPair.1 tangentPair.2 = true := by
  decide!

/-- C10, amended.  With every operation of the source rounded by `fl`,
`circle_overlap(a, b)` is true if and only if the rounded value of
`dx * dx + dy * dy` is strictly less than the rounded value of
`r_sum * r_sum`.  When none of the seven operations rounds, this is the exact
comparison of the squared centre distance with `(a.r + b.r)^2`, and two
bodies that are exactly tangent do not overlap. -/
theorem circle_overlap_compares_rounded_squares (fl : F → F) (a b : Particle F) :
    (Rounded.circle_overlap fl a b = true ↔
      fl (fl (fl (a.x - b.x) * fl (a.x - b.x)) + fl (fl (a.y - b.y) * fl (a.y - b.y)))
        < fl (fl (a.r + b.r) * fl (a.r + b.r))) ∧
    (fl (a.x - b.x) = a.x - b.x → fl (a.y - b.y) = a.y - b.y →
      fl ((a.x - b.x) * (a.x - b.x)) = (a.x - b.x) * (a.x - b.x) →
      fl ((a.y - b.y) * (a.y - b.y)) = (a.y - b.y) * (a.y - b.y) →
      fl ((a.x - b.x) * (a.x - b.x) + (a.y - b.y) * (a.y - b.y))
        = (a.x - b.x) * (a.x - b.x) + (a.y - b.y) * (a.y - b.y) →
      fl (a.r + b.r) = a.r + b.r →
      fl ((a.r + b.r) * (a.r + b.r)) = (a.r + b.r) * (a.r + b.r) →
      (Rounded.circle_overlap fl a b = true ↔
        (a.x - b.x) ^ 2 + (a.y - b.y) ^ 2 < (a.r + b.r) ^ 2) ∧
      ((a.x - b.x) ^ 2 + (a.y - b.y) ^ 2 = (a.r + b.r) ^ 2 →
        Rounded.circle_overlap fl a b = false)) := by
  have key : Rounded.circle_overlap fl a b = true ↔
      fl (fl (fl (a.x - b.x) * fl (a.x - b.x)) + fl (fl (a.y - b.y) * fl (a.y - b.y)))
        < fl (fl (a.r + b.r) * fl (a.r + b.r)) := by
    simp only [Rounded.circle_overlap, decide_eq_true_eq]
  refine ⟨key, ?_⟩
  intro e1 e2 e3 e4 e5 e6 e7
  rw [e1, e2, e3, e4, e5, e6, e7] at key
  rw [pow_two, pow_two, pow_two]
  refine ⟨key, fun h => ?_⟩
  cases hc : Rounded.circle_overlap fl a b
  · rfl
  · exact absurd (key.mp hc) (by rw [h]; exact lt_irrefl _)

/-- C10, amended, with binary32 rounding on two bodies of radius 5 at (0, 0)
and (6, 8): no operation rounds, the pair is exactly tangent, and
`circle_overlap` returns false. -/
theorem circle_overlap_compares_rounded_squares_witness :
    Rounded.circle_overlap round32 (⟨0, 0, 0, 0, 5, 0, false⟩ : Particle ℚ)
      ⟨6, 8, 0, 0, 5, 1, false⟩ = false :=
  ((circle_overlap_compares_rounded_squares round32 (⟨0, 0, 0, 0, 5, 0, false⟩ : Particle ℚ)
      ⟨6, 8, 0, 0, 5, 1, false⟩).2
    (by decide!) (by decide!) (by decide!) (by decide!) (by decide!) (by decide!)
    (by decide!)).2 (by norm_num)

/-- C18 as stated fails on binary32 values.  `edgeEntry` has binary32
coordinates and radius; its circle reaches `2 ^ -20` to the left of the root
rectangle `[400, 800] x [0, 300]`, but `x - r` rounds to 400, `contains`
accepts the entry, and `insert` returns true and stores it. -/
theorem insert_accepts_entry_reaching_outside_root :
    (round32 405 = 405 ∧ round32 100 = 100 ∧
      round32 (5 + 1 / 1048576) = 5 + 1 / 1048576) ∧
    ¬ (edgeEntry.x - edgeEntry.r ≥ 400 ∧ edgeEntry.x + edgeEntry.r ≤ 400 + 400 ∧
        edgeEntry.y - edgeEntry.r ≥ 0 ∧ edgeEntry.y + edgeEntry.r ≤ 0 + 300) ∧
    round32 (edgeEntry.x - edgeEntry.r) = 400 ∧
    (Rounded.insert round32 (Quadtree.new 400 0 400 300 8 12) edgeEntry).1 = true ∧
    (Rounded.insert round32 (Quadtree.new 400 0 400 300 8 12) edgeEntry).2.root
      = .leaf ⟨400, 0, 400, 300⟩ [edgeEntry] := by
  decide!

/-- C18, amended.  With every operation of `contains` rounded by `fl`,
`insert` returns false exactly when the rounded test
`fl(x-r) >= root.x`, `fl(x+r) <= fl(root.x+w)`, `fl(y-r) >= root.y`,
`fl(y+r) <= fl(root.y+h)` fails, and in that case the tree is left
unchanged; in every other case it returns true.  When rounding is monotone
and the root's `x` and `y` are values of the format, an entry whose full
circle lies within the root rectangle is accepted.  When none of the six
sums and differences rounds, `insert` returns false exactly when the full
circle does not lie within the root rectangle.  An entry for which `insert`
returns true has its circle within the root rectangle up to the rounding
errors of the six sums and differences. -/
theorem insert_false_iff_rounded_contains_fails (fl : F → F) (t : Quadtree F)
    (b : BodyRef F) :
    ((Rounded.insert fl t b).1 = false ↔
      ¬ (fl (b.x - b.r) ≥ t.root.rect.x ∧ fl (b.x + b.r) ≤ fl (t.root.rect.x + t.root.rect.w) ∧
         fl (b.y - b.r) ≥ t.root.rect.y ∧
         fl (b.y + b.r) ≤ fl (t.root.rect.y + t.root.rect.h))) ∧
    ((Rounded.insert fl t b).1 = false → (Rounded.insert fl t b).2 = t) ∧
    ((Rounded.insert fl t b).1 = true ↔
      (fl (b.x - b.r) ≥ t.root.rect.x ∧ fl (b.x + b.r) ≤ fl (t.root.rect.x + t.root.rect.w) ∧
       fl (b.y - b.r) ≥ t.root.rect.y ∧
       fl (b.y + b.r) ≤ fl (t.root.rect.y + t.root.rect.h))) ∧
    (Monotone fl → fl t.root.rect.x = t.root.rect.x → fl t.root.rect.y = t.root.rect.y →
      (b.x - b.r ≥ t.root.rect.x ∧ b.x + b.r ≤ t.root.rect.x + t.root.rect.w ∧
        b.y - b.r ≥ t.root.rect.y ∧ b.y + b.r ≤ t.root.rect.y + t.root.rect.h) →
      (Rounded.insert fl t b).1 = true) ∧
    (fl (b.x - b.r) = b.x - b.r → fl (b.x + b.r) = b.x + b.r →
      fl (b.y - b.r) = b.y - b.r → fl (b.y + b.r) = b.y + b.r →
      fl (t.root.rect.x + t.root.rect.w) = t.root.rect.x + t.root.rect.w →
      fl (t.root.rect.y + t.root.rect.h) = t.root.rect.y + t.root.rect.h →
      ((Rounded.insert fl t b).1 = false ↔
        ¬ (b.x - b.r ≥ t.root.rect.x ∧ b.x + b.r ≤ t.root.rect.x + t.root.rect.w ∧
           b.y - b.r ≥ t.root.rect.y ∧ b.y + b.r ≤ t.root.rect.y + t.root.rect.h))) ∧
    ((Rounded.insert fl t b).1 = true →
      b.x - b.r ≥ t.root.rect.x - |fl (b.x - b.r) - (b.x - b.r)| ∧
      b.x + b.r ≤ t.root.rect.x + t.root.rect.w
        + |fl (t.root.rect.x + t.root.rect.w) - (t.root.rect.x + t.root.rect.w)|
        + |fl (b.x + b.r) - (b.x + b.r)| ∧
      b.y - b.r ≥ t.root.rect.y - |fl (b.y - b.r) - (b.y - b.r)| ∧
      b.y + b.r ≤ t.root.rect.y + t.root.rect.h
        + |fl (t.root.rect.y + t.root.rect.h) - (t.root.rect.y + t.root.rect.h)|
        + |fl (b.y + b.r) - (b.y + b.r)|) := by
  have hfst : (Rounded.insert fl t b).1 = Rounded.contains fl t.root.rect b := by
    simp [Rounded.insert, rounded_insertRecursive_fst]
  have hc : Rounded.contains fl t.root.rect b = true ↔
      (fl (b.x - b.r) ≥ t.root.rect.x ∧ fl (b.x + b.r) ≤ fl (t.root.rect.x + t.root.rect.w) ∧
       fl (b.y - b.r) ≥ t.root.rect.y ∧
       fl (b.y + b.r) ≤ fl (t.root.rect.y + t.root.rect.h)) := by
    simp only [Rounded.contains, decide_eq_true_eq]
  have hfalse : (Rounded.insert fl t b).1 = false ↔
      ¬ (fl (b.x - b.r) ≥ t.root.rect.x ∧ fl (b.x + b.r) ≤ fl (t.root.rect.x + t.root.rect.w) ∧
         fl (b.y - b.r) ≥ t.root.rect.y ∧
         fl (b.y + b.r) ≤ fl (t.root.rect.y + t.root.rect.h)) := by
    rw [hfst, ← hc]; simp
  refine ⟨hfalse, ?_, ?_, ?_, ?_, ?_⟩
  · intro hf
    rw [hfst] at hf
    simp only [Rounded.insert, rounded_insertRecursive_rejects _ _ _ _ _ _ hf]
  · rw [hfst, hc]
  · intro hmono hx hy hin
    rw [hfst, hc]
    obtain ⟨h1, h2, h3, h4⟩ := hin
    refine ⟨?_, hmono h2, ?_, hmono h4⟩
    · have := hmono h1
      rw [hx] at this
      exact this
    · have := hmono h3
      rw [hy] at this
      exact this
  · intro e1 e2 e3 e4 e5 e6
    rw [e1, e2, e3, e4, e5, e6] at hfalse
    exact hfalse
  · intro htrue
    rw [hfst] at htrue
    exact rounded_contains_error_bound fl t.root.rect b htrue

/-- C18, amended, with binary32 rounding: on the empty tree over the
800 x 600 box an entry whose circle lies within the box is accepted; and
`edgeEntry`, accepted by the tree over `[400, 800] x [0, 300]`, reaches at
most half a unit in the last place of `x - r` to the left of `x = 400`. -/
theorem insert_false_iff_rounded_contains_fails_witness :
    Monotone round32 ∧
    (Rounded.insert round32 (Quadtree.new 0 0 800 600 8 12) ⟨0, 100, 100, 5⟩).1 = true ∧
    edgeEntry.x - edgeEntry.r ≥ 400 - unit32 |edgeEntry.x - edgeEntry.r| / 2 := by
  have h1 := (insert_false_iff_rounded_contains_fails round32 (Quadtree.new 0 0 800 600 8 12)
      ⟨0, 100, 100, 5⟩).2.2.2.1 round32_monotone (by decide!) (by decide!) (by decide!)
  have h2 := ((insert_false_iff_rounded_contains_fails round32
      (Quadtree.new 400 0 400 300 8 12) edgeEntry).2.2.2.2.2 (by decide!)).1
  have h3 := round32_error (edgeEntry.x - edgeEntry.r)
  have h4 : (Quadtree.new (400 : ℚ) 0 400 300 8 12).root.rect.x = 400 := rfl
  rw [h4] at h2
  exact ⟨round32_monotone, h1, by linarith⟩

/-- C32 as stated fails on binary32 values.  The second of `cornerEntries`
has binary32 coordinates and radius; after the two insertions it is stored in
the NE child of the root, whose rectangle is `[400, 800] x [0, 300]`, although
its circle reaches to the left of `x = 400`: `x - r` rounds to 400. -/
theorem stored_entry_reaches_outside_node :
    (round32 (13841203 / 4194304) = 13841203 / 4194304 ∧
      round32 (6607667 / 16384) = 6607667 / 16384) ∧
    cornerTree.root = .inner ⟨0, 0, 800, 600⟩ []
      (.leaf ⟨0, 0, 400, 300⟩ [cornerEntries.1]) (.leaf ⟨400, 0, 400, 300⟩ [cornerEntries.2])
      (.leaf ⟨0, 300, 400, 300⟩ []) (.leaf ⟨400, 300, 400, 300⟩ []) ∧
    cornerEntries.2.x - cornerEntries.2.r < 400 ∧
    Quadtree.contains ⟨400, 0, 400, 300⟩ cornerEntries.2 = false := by
  decide!

/-- C32, amended.  For every tree produced by the constructor, `clear()` and
`insert`, with every operation of `contains` rounded by `fl`: every entry
stored at a node, in a leaf's list or in the own list of a subdivided node,
passes the rounded test of `contains` for that node's rectangle
(`Rounded.ownInside`; spelled out for the root in the second part).  An
entry that passes the test for a rectangle has its full circle inside the
rectangle when none of the six sums and differences of the test rounds, and
in general up to the rounding errors of these six sums and differences. -/
theorem stored_entries_pass_rounded_contains (fl : F → F) (t : Quadtree F)
    (hreach : Rounded.TreeReachable fl t) :
    Rounded.ownInside fl t.root = true ∧
    (∀ e ∈ t.root.bodies,
      fl (e.x - e.r) ≥ t.root.rect.x ∧ fl (e.x + e.r) ≤ fl (t.root.rect.x + t.root.rect.w) ∧
      fl (e.y - e.r) ≥ t.root.rect.y ∧
      fl (e.y + e.r) ≤ fl (t.root.rect.y + t.root.rect.h)) ∧
    (∀ (r : Rect F) (e : BodyRef F), Rounded.contains fl r e = true →
      fl (e.x - e.r) = e.x - e.r → fl (e.x + e.r) = e.x + e.r →
      fl (e.y - e.r) = e.y - e.r → fl (e.y + e.r) = e.y + e.r →
      fl (r.x + r.w) = r.x + r.w → fl (r.y + r.h) = r.y + r.h →
      e.x - e.r ≥ r.x ∧ e.x + e.r ≤ r.x + r.w ∧ e.y - e.r ≥ r.y ∧ e.y + e.r ≤ r.y + r.h) ∧
    (∀ (r : Rect F) (e : BodyRef F), Rounded.contains fl r e = true →
      e.x - e.r ≥ r.x - |fl (e.x - e.r) - (e.x - e.r)| ∧
      e.x + e.r ≤ r.x + r.w + |fl (r.x + r.w) - (r.x + r.w)| + |fl (e.x + e.r) - (e.x + e.r)| ∧
      e.y - e.r ≥ r.y - |fl (e.y - e.r) - (e.y - e.r)| ∧
      e.y + e.r ≤ r.y + r.h + |fl (r.y + r.h) - (r.y + r.h)|
        + |fl (e.y + e.r) - (e.y + e.r)|) := by
  have hown := rounded_treeReachable_ownInside fl hreach
  refine ⟨hown, ?_, ?_, fun r e hc => rounded_contains_error_bound fl r e hc⟩
  · intro e he
    have hall : t.root.bodies.all (Rounded.contains fl t.root.rect) = true := by
      cases hroot : t.root with
      | leaf r bs =>
        rw [hroot] at hown
        exact hown
      | inner r bodies c0 c1 c2 c3 =>
        rw [hroot] at hown
        simp only [Rounded.ownInside, Bool.and_eq_true] at hown
        exact hown.1.1.1.1
    have := List.all_eq_true.mp hall e he
    simpa only [Rounded.contains, decide_eq_true_eq] using this
  · intro r e hc e1 e2 e3 e4 e5 e6
    simp only [Rounded.contains, decide_eq_true_eq] at hc
    rw [e1, e2, e3, e4, e5, e6] at hc
    exact hc

/-- C32, amended, on `cornerTree` with binary32 rounding: every stored entry
passes the rounded test, and the entry stored in the NE child reaches at most
half a unit in the last place of `x - r` to the left of `x = 400`. -/
theorem stored_entries_pass_rounded_contains_witness :
    Rounded.TreeReachable round32 cornerTree ∧
    Rounded.ownInside round32 cornerTree.root = true ∧
    cornerEntries.2.x - cornerEntries.2.r
      ≥ 400 - unit32 |cornerEntries.2.x - cornerEntries.2.r| / 2 := by
  have hreach : Rounded.TreeReachable round32 cornerTree :=
    Rounded.TreeReachable.insert _ (Rounded.TreeReachable.insert _
      (Rounded.TreeReachable.init 0 0 800 600 1 12))
  have h := stored_entries_pass_rounded_contains round32 cornerTree hreach
  have h2 := (h.2.2.2 ⟨400, 0, 400, 300⟩ cornerEntries.2 (by decide!)).1
  have h3 := round32_error (cornerEntries.2.x - cornerEntries.2.r)
  have h4 : (⟨400, 0, 400, 300⟩ : Rect ℚ).x = 400 := rfl
  rw [h4] at h2
  exact ⟨hreach, h.1, by linarith⟩

end RoundedClaims

section TreeSubdivisionExact

open Quadtree

variable {F : Type} [LinearOrderedField F]

end TreeSubdivisionExact

end ParticleBox
